import Mathlib

/-!
# HmmUFOtu: banded Plan7 profile HMM (BandedHMMP7.cpp)

A shallow embedding of the parts of `src/BandedHMMP7.cpp` that the verified
properties talk about.

Conventions of the embedding.

* Strings are `List Char`; `s.substr(pos, n)` is `(s.drop pos).take n`.
* Probabilities (C++ `double`) are exact rationals `ℚ`.
* Costs (C++ `double`, negative logarithms with `inf` for "impossible") live in an
  arbitrary linearly ordered additive monoid with a top element `⊤` that absorbs
  addition; `ℕ∞` is used for concrete evaluations.  Rounding is not modelled.
* `::exp(-c)` and `-log(p)` are parameters `expNeg` and `negLog` of the functions that
  call them.
* Eigen matrices are total functions of their indices.
-/

namespace HmmUFOtu

/-! ## Padding (`getPaddingSeq`) -/

/-- The four layouts of `BandedHMMP7::padding_mode`. -/
inductive padding_mode where
  | LEFT
  | RIGHT
  | MIDDLE
  | JUSTIFIED
  deriving DecidableEq, Repr

/-- C++ `std::string::substr(pos, n)` for `pos` within the string. -/
def substr (s : List Char) (pos n : Nat) : List Char :=
  (s.drop pos).take n

/-- Modelled from the spec: the two-argument overload `getPaddingSeq(L, padCh)` is declared in
`BandedHMMP7.h`, which is not part of the sources; it is a run of `L` pad characters. -/
def getPaddingSeqFill (L : Nat) (padCh : Char) : List Char :=
  List.replicate L padCh

/-- `BandedHMMP7::getPaddingSeq(L, insert, padCh, mode)` for `L ≥ 0`.
`floor(x / 2.0)` and `ceil(x / 2.0)` of a non-negative integer `x` are `x / 2` and
`(x + 1) / 2`. -/
def getPaddingSeq (L : Nat) (insert : List Char) (padCh : Char) (mode : padding_mode) :
    List Char :=
  if insert.isEmpty then getPaddingSeqFill L padCh
  else
    match mode with
    | .LEFT =>
      if insert.length ≥ L then substr insert 0 L
      else insert ++ List.replicate (L - insert.length) padCh
    | .RIGHT =>
      if insert.length ≥ L then substr insert (insert.length - L) L
      else List.replicate (L - insert.length) padCh ++ insert
    | .MIDDLE =>
      if insert.length ≥ L then substr insert ((insert.length - L) / 2) L
      else List.replicate ((L - insert.length) / 2) padCh ++ insert
        ++ List.replicate ((L - insert.length + 1) / 2) padCh
    | .JUSTIFIED =>
      if insert.length ≥ L then
        substr insert 0 (L / 2) ++ substr insert (insert.length - (L + 1) / 2) ((L + 1) / 2)
      else
        substr insert 0 (insert.length / 2) ++ List.replicate (L - insert.length) padCh
          ++ substr insert 0 ((insert.length + 1) / 2)

/-! ## Loops -/

/-- The C++ loop `for (k = lo; k <= hi; ++k) s = body(s, k)` as a left fold. -/
def forLoop {σ : Type} (lo hi : Nat) (body : σ → Nat → σ) (init : σ) : σ :=
  (List.range' lo (hi + 1 - lo)).foldl body init

/-- Assignment to one slot `v[k] = x` of a vector. -/
def setAt {β : Type} (v : Nat → β) (k : Nat) (x : β) : Nat → β :=
  fun k' => if k' = k then x else v k'

/-- Assignment to one cell `m(i, j) = x` of a matrix. -/
def setCell {β : Type} (m : Nat → Nat → β) (i j : Nat) (x : β) : Nat → Nat → β :=
  fun i' j' => if i' = i ∧ j' = j then x else m i' j'

/-! ## The parameter block -/

/-- Main states of a profile position, the row and column indices of `Tmat[k]`. -/
inductive p7_state where
  | M
  | I
  | D
  deriving DecidableEq, Repr

/-- Special states, the row and column indices of `T_SP`. -/
inductive sp_state where
  | N
  | B
  | E
  | C
  deriving DecidableEq, Repr

/-- Sequence alignment modes of `setSequenceMode`. -/
inductive align_mode where
  | GLOBAL
  | LOCAL
  | NGCL
  | CGNL
  deriving DecidableEq, Repr

/-- The fields of `BandedHMMP7` used below.  `bgTransPr` and `bgTermPr` are
`hmmBg.getBgTransPr()` and `hmmBg.getBgTermPr()`; `optTags` and `locOptTags` give the empty
string for a tag that is not set.  Fields that no property below mentions (`effN`, `E_SP`,
the background frequencies, the gap limits) are not part of the embedding. -/
structure BandedHMMP7 (α : Type) where
  name : String
  hmmVersion : String
  K : Nat
  L : Nat
  nSeq : Nat
  optTagNames : List String
  optTags : String → String
  locOptTags : String → Nat → String
  bgTransPr : ℚ
  Tmat : Nat → p7_state → p7_state → ℚ
  Tmat_cost : Nat → p7_state → p7_state → α
  E_M : Fin 4 → Nat → ℚ
  E_M_cost : Fin 4 → Nat → α
  E_I : Fin 4 → Nat → ℚ
  E_I_cost : Fin 4 → Nat → α
  T_SP : sp_state → sp_state → ℚ
  T_SP_cost : sp_state → sp_state → α
  entryPr : Nat → ℚ
  entryPr_cost : Nat → α
  exitPr : Nat → ℚ
  exitPr_cost : Nat → α
  cs2ProfileIdx : Nat → Nat
  profile2CSIdx : Nat → Nat
  bgTermPr : ℚ
  wingRetracted : Bool

/-- The sum of a row of a 3×3 transition matrix, `Tmat[k].row(s).sum()`. -/
def rowSum (T : p7_state → p7_state → ℚ) (s : p7_state) : ℚ :=
  T s .M + T s .I + T s .D

/-- The sum of a column of a 4×(K+1) emission matrix, `E.col(k).sum()`. -/
def colSum (E : Fin 4 → Nat → ℚ) (k : Nat) : ℚ :=
  E 0 k + E 1 k + E 2 k + E 3 k

/-- Modelled from the spec: `resetCostByProb` is defined in `BandedHMMP7.h`, which is not part
of the sources; it rebuilds the cost view of `T`, `E_M` and `E_I` as the negative logarithm of
the probability view. -/
def resetCostByProb {α : Type} (negLog : ℚ → α) (h : BandedHMMP7 α) : BandedHMMP7 α :=
  { h with
    Tmat_cost := fun k s t => negLog (h.Tmat k s t)
    E_M_cost := fun b k => negLog (h.E_M b k)
    E_I_cost := fun b k => negLog (h.E_I b k) }

/-- The five assignments that pin the boundary cells of `T[0]` and `T[K]`, in source order. -/
def pinBoundary (K : Nat) (T : Nat → p7_state → p7_state → ℚ) :
    Nat → p7_state → p7_state → ℚ :=
  let set := fun (T : Nat → p7_state → p7_state → ℚ) (k : Nat) (s t : p7_state) (x : ℚ) =>
    setAt T k (fun s' t' => if s' = s ∧ t' = t then x else T k s' t')
  let T1 := set T 0 .D .M 1
  let T2 := set T1 0 .D .D 0
  let T3 := set T2 K .M .D 0
  let T4 := set T3 K .D .M 1
  set T4 K .D .D 0

/-- The Eigen statement `Tk.row(s) /= Tk.row(s).sum()`. -/
def divRow (Tk : p7_state → p7_state → ℚ) (s : p7_state) : p7_state → p7_state → ℚ :=
  let d := rowSum Tk s
  fun s' t => if s' = s then Tk s' t / d else Tk s' t

/-- The Eigen statement `E.col(k) /= E.col(k).sum()`. -/
def divCol (E : Fin 4 → Nat → ℚ) (k : Nat) : Fin 4 → Nat → ℚ :=
  let d := colSum E k
  fun b k' => if k' = k then E b k' / d else E b k'

/-- The body of the loop of `normalize()` at position `k`, on `(Tmat, E_M, E_I)`. -/
def normalizeStep
    (st : (Nat → p7_state → p7_state → ℚ) × (Fin 4 → Nat → ℚ) × (Fin 4 → Nat → ℚ)) (k : Nat) :
    (Nat → p7_state → p7_state → ℚ) × (Fin 4 → Nat → ℚ) × (Fin 4 → Nat → ℚ) :=
  let T := st.1
  let Tk := divRow (divRow (divRow (T k) .M) .I) .D
  (setAt T k Tk, divCol st.2.1 k, divCol st.2.2 k)

/-- `BandedHMMP7::normalize()`. -/
def normalize {α : Type} (negLog : ℚ → α) (h : BandedHMMP7 α) : BandedHMMP7 α :=
  let st := forLoop 0 h.K normalizeStep (h.Tmat, h.E_M, h.E_I)
  resetCostByProb negLog
    { h with Tmat := pinBoundary h.K st.1, E_M := st.2.1, E_I := st.2.2 }

/-- The Dirichlet-mixture prior `BandedHMMP7Prior`: each mixture is its `meanPostP`, from
observed counts to the posterior mean, of arity 3 (`dmMT`), 2 (`dmIT`, `dmDT`) and 4
(`dmME`, `dmIE`). -/
structure BandedHMMP7Prior where
  dmMT : (p7_state → ℚ) → (p7_state → ℚ)
  dmIT : ℚ × ℚ → ℚ × ℚ
  dmDT : ℚ × ℚ → ℚ × ℚ
  dmME : (Fin 4 → ℚ) → (Fin 4 → ℚ)
  dmIE : (Fin 4 → ℚ) → (Fin 4 → ℚ)

/-- The body of the loop of `estimateParams(prior)` at position `k`. -/
def estimateStep (prior : BandedHMMP7Prior)
    (st : (Nat → p7_state → p7_state → ℚ) × (Fin 4 → Nat → ℚ) × (Fin 4 → Nat → ℚ)) (k : Nat) :
    (Nat → p7_state → p7_state → ℚ) × (Fin 4 → Nat → ℚ) × (Fin 4 → Nat → ℚ) :=
  let T := st.1
  let Tk0 := T k
  -- TM: the whole M row
  let rowM := prior.dmMT (Tk0 .M)
  let Tk1 : p7_state → p7_state → ℚ := fun s t => if s = .M then rowM t else Tk0 s t
  -- TI: the first two cells of the I row
  let segI := prior.dmIT (Tk1 .I .M, Tk1 .I .I)
  let Tk2 : p7_state → p7_state → ℚ := fun s t =>
    if s = .I ∧ t = .M then segI.1 else if s = .I ∧ t = .I then segI.2 else Tk1 s t
  -- TD: the cells (D, M) and (D, D)
  let dt := prior.dmDT (Tk2 .D .M, Tk2 .D .D)
  let Tk3 : p7_state → p7_state → ℚ := fun s t =>
    if s = .D ∧ t = .M then dt.1 else if s = .D ∧ t = .D then dt.2 else Tk2 s t
  let colM := prior.dmME (fun b => st.2.1 b k)
  let colI := prior.dmIE (fun b => st.2.2 b k)
  (setAt T k Tk3,
   fun b k' => if k' = k then colM b else st.2.1 b k',
   fun b k' => if k' = k then colI b else st.2.2 b k')

/-- `BandedHMMP7::estimateParams(prior)`. -/
def estimateParams {α : Type} (negLog : ℚ → α) (prior : BandedHMMP7Prior)
    (h : BandedHMMP7 α) : BandedHMMP7 α :=
  let st := forLoop 0 h.K (estimateStep prior) (h.Tmat, h.E_M, h.E_I)
  resetCostByProb negLog
    { h with Tmat := pinBoundary h.K st.1, E_M := st.2.1, E_I := st.2.2 }

/-- `BandedHMMP7::setSequenceMode(mode)`; `T_SP_cost = -T_SP.array().log()`. -/
def setSequenceMode {α : Type} (negLog : ℚ → α) (mode : align_mode) (h : BandedHMMP7 α) :
    BandedHMMP7 α :=
  let set := fun (T : sp_state → sp_state → ℚ) (s t : sp_state) (x : ℚ) =>
    fun s' t' => if s' = s ∧ t' = t then x else T s' t'
  let T1 : sp_state → sp_state → ℚ :=
    match mode with
    | .GLOBAL => set (set h.T_SP .C .C 0) .N .N 0
    | .LOCAL => set (set h.T_SP .C .C h.bgTermPr) .N .N h.bgTermPr
    | .NGCL => set (set h.T_SP .N .N 0) .C .C h.bgTermPr
    | .CGNL => set (set h.T_SP .N .N h.bgTermPr) .C .C 0
  let T2 := set T1 .N .B (1 - T1 .N .N)
  let T3 := set T2 .E .C 1
  { h with T_SP := T3, T_SP_cost := fun s t => negLog (T3 s t) }

/-! ## Wing retraction -/

/-- The cost of the chain `B→D1→…→D(j-1)→Mj` accumulated by the first loop of
`wingRetract()`. -/
def entryChainCost {α : Type} [LinearOrderedAddCommMonoidWithTop α] (h : BandedHMMP7 α) (j : Nat) : α :=
  let cost := (0 : α) + h.Tmat_cost 0 .M .D
  let cost := forLoop 1 (j - 2) (fun c i => c + h.Tmat_cost i .D .D) cost
  cost + h.Tmat_cost (j - 1) .D .M

/-- The cost of the chain `Mi→D(i+1)→…→DK→E` accumulated by the second loop of
`wingRetract()`. -/
def exitChainCost {α : Type} [LinearOrderedAddCommMonoidWithTop α] (h : BandedHMMP7 α) (i : Nat) : α :=
  let cost := (0 : α) + h.Tmat_cost i .M .D
  let cost := forLoop (i + 1) (h.K - 1) (fun c j => c + h.Tmat_cost j .D .D) cost
  cost + h.Tmat_cost h.K .D .M

/-- One iteration of a retraction loop: `assert(cost > 0)`, then `pr(j) += exp(-cost)` and
the clamp to 1.  `none` is a failed assertion. -/
def retractStep {α : Type} [LinearOrderedAddCommMonoidWithTop α]
    (expNeg : α → ℚ) (chain : Nat → α)
    (st : Option (Nat → ℚ)) (j : Nat) : Option (Nat → ℚ) :=
  st.bind fun pr =>
    if 0 < chain j then
      let v := pr j + expNeg (chain j)
      some (setAt pr j (if v > 1 then 1 else v))
    else none

/-- `BandedHMMP7::wingRetract()`.  `none` is a failed `assert(cost > 0)`. -/
def wingRetract {α : Type} [LinearOrderedAddCommMonoidWithTop α]
    (expNeg : α → ℚ) (negLog : ℚ → α) (h : BandedHMMP7 α) : Option (BandedHMMP7 α) :=
  if h.wingRetracted then some h
  else
    (forLoop 2 h.K (retractStep expNeg (entryChainCost h)) (some h.entryPr)).bind fun entry =>
    (forLoop 1 (h.K - 1) (retractStep expNeg (exitChainCost h)) (some h.exitPr)).bind fun exit =>
      some { h with
        entryPr := entry
        exitPr := exit
        entryPr_cost := fun j => negLog (entry j)
        exitPr_cost := fun j => negLog (exit j)
        wingRetracted := true }

/-! ## Viterbi scores -/

/-- A query `PrimarySeq`: its characters and the alphabet's `encode`;
`encodeAt(i) = encode(seq[i])`. -/
structure PrimarySeq where
  seq : List Char
  encode : Char → Fin 4

/-- `seq.length()`. -/
def PrimarySeq.length (s : PrimarySeq) : Nat := s.seq.length

/-- `seq.charAt(i)`, 0-based. -/
def PrimarySeq.charAt (s : PrimarySeq) (i : Nat) : Char := s.seq.getD i 'N'

/-- `seq.encodeAt(i)`, 0-based. -/
def PrimarySeq.encodeAt (s : PrimarySeq) (i : Nat) : Fin 4 := s.encode (s.charAt i)

/-- `ViterbiScores`: the DP layers `DP_M`, `DP_I`, `DP_D` of shape `(L+1)×(K+1)` and the
score layer `S` of shape `(L+1)×(K+2)`. -/
structure ViterbiScores (α : Type) where
  L : Nat
  DP_M : Nat → Nat → α
  DP_I : Nat → Nat → α
  DP_D : Nat → Nat → α
  S : Nat → Nat → α

/-- Freshly initialised buffers: every cell is `inf`. -/
def ViterbiScores.fresh {α : Type} [Top α] (L : Nat) : ViterbiScores α where
  L := L
  DP_M := fun _ _ => ⊤
  DP_I := fun _ _ => ⊤
  DP_D := fun _ _ => ⊤
  S := fun _ _ => ⊤

/-- Modelled from the spec: the three-argument `BandedHMMP7::min` is declared in
`BandedHMMP7.h`, which is not part of the sources; the minimum of its arguments. -/
def min3 {α : Type} [LinearOrder α] (a b c : α) : α := min a (min b c)

/-- Modelled from the spec: the four-argument `BandedHMMP7::min` is declared in
`BandedHMMP7.h`, which is not part of the sources; the minimum of its arguments. -/
def min4 {α : Type} [LinearOrder α] (a b c d : α) : α := min a (min b (min c d))

/-- The value `i == 1 ? 0 : T_SP_cost(N, N) * (i - 1)` put in `DP_M(i, 0)` by
`prepareViterbiScores`, before `N→B` is added: the `N→N` loops of an N-flank of `i - 1`
residues. -/
def nflank {α : Type} [LinearOrderedAddCommMonoidWithTop α] (hmm : BandedHMMP7 α) (i : Nat) :
    α :=
  if i = 1 then 0 else (i - 1) • hmm.T_SP_cost .N .N

/-- `BandedHMMP7::prepareViterbiScores(vs)`. -/
def prepareViterbiScores {α : Type} [LinearOrderedAddCommMonoidWithTop α]
    (hmm : BandedHMMP7 α) (vs : ViterbiScores α) : ViterbiScores α :=
  let vs : ViterbiScores α :=
    { vs with
      DP_M := setCell vs.DP_M 0 0 ⊤
      DP_I := setCell vs.DP_I 0 0 ⊤
      DP_D := setCell vs.DP_D 0 0 ⊤ }
  let vs := forLoop 1 vs.L (fun (vs : ViterbiScores α) i =>
    { vs with
      DP_M := setCell vs.DP_M i 0 (nflank hmm i) }) vs
  -- vs.DP_M.col(0).array() += T_SP_cost(N, B)
  let vs : ViterbiScores α :=
    { vs with
      DP_M := fun i j =>
        if j = 0 ∧ i ≤ vs.L then vs.DP_M i j + hmm.T_SP_cost .N .B else vs.DP_M i j }
  -- vs.DP_I.col(0) = vs.DP_M.col(0)
  { vs with DP_I := fun i j => if j = 0 ∧ i ≤ vs.L then vs.DP_M i 0 else vs.DP_I i j }

/-- The value assigned to `DP_M(i, j)`.  The full loop, the upstream band and the known-path
band take the entry from `B` into the minimum (`fromB = true`); the downstream band leaves it
out (`fromB = false`). -/
def cellM {α : Type} [LinearOrderedAddCommMonoidWithTop α]
    (hmm : BandedHMMP7 α) (seq : PrimarySeq) (fromB : Bool)
    (vs : ViterbiScores α) (i j : Nat) : α :=
  hmm.E_M_cost (seq.encodeAt (i - 1)) j +
    (if fromB then
      min4 (vs.DP_M i 0 + hmm.entryPr_cost j)
        (vs.DP_M (i - 1) (j - 1) + hmm.Tmat_cost (j - 1) .M .M)
        (vs.DP_I (i - 1) (j - 1) + hmm.Tmat_cost (j - 1) .I .M)
        (vs.DP_D (i - 1) (j - 1) + hmm.Tmat_cost (j - 1) .D .M)
    else
      min3 (vs.DP_M (i - 1) (j - 1) + hmm.Tmat_cost (j - 1) .M .M)
        (vs.DP_I (i - 1) (j - 1) + hmm.Tmat_cost (j - 1) .I .M)
        (vs.DP_D (i - 1) (j - 1) + hmm.Tmat_cost (j - 1) .D .M))

/-- The value assigned to `DP_I(i, j)`. -/
def cellI {α : Type} [LinearOrderedAddCommMonoidWithTop α]
    (hmm : BandedHMMP7 α) (seq : PrimarySeq) (vs : ViterbiScores α) (i j : Nat) : α :=
  hmm.E_I_cost (seq.encodeAt (i - 1)) j +
    min (vs.DP_M (i - 1) j + hmm.Tmat_cost j .M .I)
      (vs.DP_I (i - 1) j + hmm.Tmat_cost j .I .I)

/-- The value assigned to `DP_D(i, j)` when `1 < j < K`. -/
def cellD {α : Type} [LinearOrderedAddCommMonoidWithTop α]
    (hmm : BandedHMMP7 α) (vs : ViterbiScores α) (i j : Nat) : α :=
  min (vs.DP_M i (j - 1) + hmm.Tmat_cost (j - 1) .M .D)
    (vs.DP_D i (j - 1) + hmm.Tmat_cost (j - 1) .D .D)

/-- The body of the DP loops at cell `(i, j)`: the three assignments to `DP_M(i,j)`,
`DP_I(i,j)` and, for `1 < j < K`, `DP_D(i,j)`, in source order. -/
def dpCell {α : Type} [LinearOrderedAddCommMonoidWithTop α]
    (hmm : BandedHMMP7 α) (seq : PrimarySeq) (fromB : Bool)
    (vs : ViterbiScores α) (i j : Nat) : ViterbiScores α :=
  let vs : ViterbiScores α :=
    { vs with DP_M := setCell vs.DP_M i j (cellM hmm seq fromB vs i j) }
  let vs : ViterbiScores α :=
    { vs with DP_I := setCell vs.DP_I i j (cellI hmm seq vs i j) }
  if 1 < j ∧ j < hmm.K then
    { vs with DP_D := setCell vs.DP_D i j (cellD hmm vs i j) }
  else vs

/-- The closing block of both `calcViterbiScores`: the score layer `S` from `DP_M`, `DP_I`,
the exit costs, `E→C` and the `C→C` loops. -/
def scoreLayer {α : Type} [LinearOrderedAddCommMonoidWithTop α]
    (hmm : BandedHMMP7 α) (vs : ViterbiScores α) : ViterbiScores α :=
  let L := vs.L
  let K := hmm.K
  -- vs.S.leftCols(K + 1) = vs.DP_M
  let S1 : Nat → Nat → α := fun i j => if i ≤ L ∧ j ≤ K then vs.DP_M i j else vs.S i j
  -- vs.S.col(K + 1) = vs.DP_I.col(K)
  let S2 : Nat → Nat → α := fun i j => if i ≤ L ∧ j = K + 1 then vs.DP_I i K else S1 i j
  -- vs.S.leftCols(K + 1).rowwise() += exitPr_cost.transpose()
  let S3 : Nat → Nat → α := fun i j =>
    if i ≤ L ∧ j ≤ K then S2 i j + hmm.exitPr_cost j else S2 i j
  -- vs.S.col(K + 1).array() += Tmat_cost[K](I, M)
  let S4 : Nat → Nat → α := fun i j =>
    if i ≤ L ∧ j = K + 1 then S3 i j + hmm.Tmat_cost K .I .M else S3 i j
  -- vs.S.array() += T_SP_cost(E, C)
  let S5 : Nat → Nat → α := fun i j =>
    if i ≤ L ∧ j ≤ K + 1 then S4 i j + hmm.T_SP_cost .E .C else S4 i j
  -- for (i = 1; i < L; ++i) vs.S.row(i).array() += T_SP_cost(C, C) * (L - i)
  let S6 := forLoop 1 (L - 1) (fun (S : Nat → Nat → α) i => fun i' j =>
    if i' = i ∧ j ≤ K + 1 then S i' j + (L - i) • hmm.T_SP_cost .C .C else S i' j) S5
  { vs with S := S6 }

/-- The two nested DP loops of the full `calcViterbiScores`: `j = 1..K`, `i = 1..L`. -/
def fullLoops {α : Type} [LinearOrderedAddCommMonoidWithTop α]
    (hmm : BandedHMMP7 α) (seq : PrimarySeq) (L : Nat) (vs : ViterbiScores α) :
    ViterbiScores α :=
  forLoop 1 hmm.K (fun vs j => forLoop 1 L (fun vs i => dpCell hmm seq true vs i j) vs) vs

/-- `BandedHMMP7::calcViterbiScores(seq, vs)`, the full dynamic programme.  `none` is a failed
assertion (`seq.length() == vs.L`, `wingRetracted`). -/
def calcViterbiScores {α : Type} [LinearOrderedAddCommMonoidWithTop α]
    (hmm : BandedHMMP7 α) (seq : PrimarySeq) (vs : ViterbiScores α) :
    Option (ViterbiScores α) :=
  if seq.length = vs.L ∧ hmm.wingRetracted = true then
    let L := vs.L
    let vs := prepareViterbiScores hmm vs
    let vs := fullLoops hmm seq L vs
    some (scoreLayer hmm vs)
  else none

/-- A known path segment `ViterbiAlignPath`, in 1-based profile (`start`, `end`) and sequence
(`from`, `to`) coordinates; `end_`, `from_` and `to_` are the fields `end`, `from` and `to`. -/
structure VPath where
  start : Nat
  end_ : Nat
  from_ : Nat
  to_ : Nat
  nIns : Nat
  nDel : Nat

/-- Modelled from the spec: `diagnalDist` is declared in `BandedHMMP7.h`, which is not part of
the sources; the signed distance of cell `(i, j)` from the diagonal through
`(from, start)`, positive on the insertion side. -/
def diagnalDist (i j from_ start : Nat) : Int :=
  ((i : Int) - (from_ : Int)) - ((j : Int) - (start : Int))

/-- A rectangular band `for (j = jlo; j <= jhi; ++j) for (i = ilo; i <= ihi; ++i)` of cell
updates, `keep i j` being the filter of the known-path band.  The upper bounds are C++ `int`
values that may be smaller than the lower bounds. -/
def bandLoops {α : Type} [LinearOrderedAddCommMonoidWithTop α]
    (hmm : BandedHMMP7 α) (seq : PrimarySeq) (fromB : Bool) (keep : Nat → Nat → Bool)
    (jlo : Nat) (jhi : Int) (ilo : Nat) (ihi : Int) (vs : ViterbiScores α) :
    ViterbiScores α :=
  if (jlo : Int) ≤ jhi ∧ (ilo : Int) ≤ ihi then
    forLoop jlo jhi.toNat (fun vs j =>
      forLoop ilo ihi.toNat (fun vs i =>
        if keep i j then dpCell hmm seq fromB vs i j else vs) vs) vs
  else vs

/-- The conversion to `int` of `a + q * (1 + kMinGapFrac)` with `kMinGapFrac = 0.2`:
truncation towards zero of `a + 6q/5`. -/
def truncGap (a q : Int) : Int := Int.tdiv (5 * a + 6 * q) 5

/-- The body of the loop over the known paths: the upstream band of `vp`, then the band of
`vp` itself.  `prev` is the previous path, `none` for the first. -/
def pathStep {α : Type} [LinearOrderedAddCommMonoidWithTop α]
    (hmm : BandedHMMP7 α) (seq : PrimarySeq)
    (st : ViterbiScores α × Option VPath) (vp : VPath) : ViterbiScores α × Option VPath :=
  let vs := st.1
  let upQLen : Int :=
    match st.2 with
    | none => (vp.from_ : Int) - 1
    | some pv => (vp.from_ : Int) - pv.to_
  let upQLen : Int := if upQLen < 0 then 0 else upQLen
  let up_start : Int :=
    match st.2 with
    | none => truncGap vp.start (-upQLen)
    | some pv => pv.end_
  let up_start : Int := if up_start < 1 then 1 else up_start
  let up_from : Int :=
    match st.2 with
    | none => truncGap vp.from_ (-upQLen)
    | some pv => pv.to_
  let up_from : Int := if up_from < 1 then 1 else up_from
  let vs := bandLoops hmm seq true (fun _ _ => true)
    up_start.toNat vp.start up_from.toNat vp.from_ vs
  let vs := bandLoops hmm seq true
    (fun i j =>
      let dist := diagnalDist i j vp.from_ vp.start
      decide (dist ≤ (vp.nIns : Int) ∧ dist ≥ -(vp.nDel : Int)))
    vp.start vp.end_ vp.from_ vp.to_ vs
  (vs, some vp)

/-- `BandedHMMP7::calcViterbiScores(seq, vs, vpaths)`, the banded dynamic programme.  `none`
is a failed assertion (`seq.length() == vs.L`, `wingRetracted`). -/
def calcViterbiScoresBanded {α : Type} [LinearOrderedAddCommMonoidWithTop α]
    (hmm : BandedHMMP7 α) (seq : PrimarySeq) (vs : ViterbiScores α) (vpaths : List VPath) :
    Option (ViterbiScores α) :=
  if seq.length = vs.L ∧ hmm.wingRetracted = true then
    let L := vs.L
    match vpaths.getLast? with
    | none => some vs
    | some last =>
      let vs := prepareViterbiScores hmm vs
      let vs := (vpaths.foldl (pathStep hmm seq) (vs, none)).1
      let last_end := last.end_
      let last_to := last.to_
      let downQLen : Int := (L : Int) - (last_to : Int)
      let down_end : Int := truncGap (last_end : Int) downQLen
      let down_to : Int := truncGap (last_to : Int) downQLen
      let down_end : Int := if down_end > hmm.K then hmm.K else down_end
      let down_to : Int := if down_to > L then L else down_to
      let vs := bandLoops hmm seq false (fun _ _ => true) last_end down_end last_to down_to vs
      some (scoreLayer hmm vs)
  else none

/-! ## Admissible state paths -/

/-- A state path through the profile: the first match state `M_{j0}` emits residue `i0`
(after an N-flank of `i0 - 1` residues), then `moves` lists the states visited next. -/
structure StatePath where
  i0 : Nat
  j0 : Nat
  moves : List p7_state

/-- Whether the rest of a path is admissible from state `s` at residue `i`, position `j`:
`M` consumes a residue and a position, `I` a residue, `D` a position; no `I→D` or `D→I`;
`D` only at positions `1 < j < K`; the path leaves from a match state or from `I_K`. -/
def tailAdmissible (K L : Nat) : p7_state → Nat → Nat → List p7_state → Bool
  | s, _, j, [] => decide (s = .M ∨ (s = .I ∧ j = K))
  | _, i, j, .M :: rest =>
    decide (i + 1 ≤ L ∧ j + 1 ≤ K) && tailAdmissible K L .M (i + 1) (j + 1) rest
  | s, i, j, .I :: rest =>
    decide (s ≠ .D ∧ i + 1 ≤ L) && tailAdmissible K L .I (i + 1) j rest
  | s, i, j, .D :: rest =>
    decide (s ≠ .I ∧ 1 < j + 1 ∧ j + 1 < K) && tailAdmissible K L .D i (j + 1) rest

/-- Admissible paths of a profile of length `K` on a query of length `L`. -/
def StatePath.admissible (K L : Nat) (p : StatePath) : Bool :=
  decide (1 ≤ p.i0 ∧ p.i0 ≤ L ∧ 1 ≤ p.j0 ∧ p.j0 ≤ K) && tailAdmissible K L .M p.i0 p.j0 p.moves

/-- The cost of the rest of a path from state `s` at residue `i`, position `j`: transitions,
emissions, the exit (`exitPr_cost(j)` from `M_j`, `Tmat_cost[K](I,M)` from `I_K`), `E→C` and
one `C→C` loop for each of the `L - i` residues left. -/
def tailCost {α : Type} [LinearOrderedAddCommMonoidWithTop α] (hmm : BandedHMMP7 α)
    (seq : PrimarySeq) (L : Nat) : p7_state → Nat → Nat → List p7_state → α
  | s, i, j, [] =>
    (if s = .M then hmm.exitPr_cost j else hmm.Tmat_cost hmm.K .I .M)
      + hmm.T_SP_cost .E .C + (if i < L then (L - i) • hmm.T_SP_cost .C .C else 0)
  | s, i, j, .M :: rest =>
    hmm.Tmat_cost j s .M + hmm.E_M_cost (seq.encodeAt i) (j + 1)
      + tailCost hmm seq L .M (i + 1) (j + 1) rest
  | s, i, j, .I :: rest =>
    hmm.Tmat_cost j s .I + hmm.E_I_cost (seq.encodeAt i) j
      + tailCost hmm seq L .I (i + 1) j rest
  | s, i, j, .D :: rest =>
    hmm.Tmat_cost j s .D + tailCost hmm seq L .D i (j + 1) rest

/-- The total cost of a state path: `i0 - 1` residues in the N-flank (`i0 - 1` loops `N→N`),
`N→B`, the entry `B→M_{j0}`, the emission of residue `i0`, and the rest. -/
def StatePath.cost {α : Type} [LinearOrderedAddCommMonoidWithTop α] (hmm : BandedHMMP7 α)
    (seq : PrimarySeq) (L : Nat) (p : StatePath) : α :=
  (p.i0 - 1) • hmm.T_SP_cost .N .N + hmm.T_SP_cost .N .B + hmm.entryPr_cost p.j0
    + hmm.E_M_cost (seq.encodeAt (p.i0 - 1)) p.j0 + tailCost hmm seq L .M p.i0 p.j0 p.moves

/-! ## Traceback -/

/-- Eigen's `m.minCoeff(&row, &col)` on a `rows × cols` matrix: a column-major scan that
keeps the first smallest coefficient and its position. -/
def minCoeff {α : Type} [LinearOrder α] (S : Nat → Nat → α) (rows cols : Nat) :
    α × Nat × Nat :=
  forLoop 0 (cols - 1) (fun acc j =>
    forLoop 0 (rows - 1) (fun (acc : α × Nat × Nat) i =>
      if S i j < acc.1 then (S i j, i, j) else acc) acc) (S 0 0, 0, 0)

/-- Modelled from the spec: the two-candidate `whichMin(a, b, states)` is declared in
`BandedHMMP7.h`, which is not part of the sources; the label of the smaller candidate, the
first-listed on a tie. -/
def whichMin2 {α : Type} [LinearOrder α] (a b : α) (c1 c2 : Char) : Char :=
  if a ≤ b then c1 else c2

/-- Modelled from the spec: the four-candidate `whichMin(a, b, c, d)` is declared in
`BandedHMMP7.h`, which is not part of the sources; the label among `B`, `M`, `I`, `D` of the
smallest candidate, the first-listed on a tie. -/
def whichMin4 {α : Type} [LinearOrder α] (a b c d : α) : Char :=
  if a ≤ b ∧ a ≤ c ∧ a ≤ d then 'B'
  else if b ≤ c ∧ b ≤ d then 'M'
  else if c ≤ d then 'I'
  else 'D'

/-- `ViterbiAlignTrace`. -/
structure ViterbiAlignTrace (α : Type) where
  minScore : α
  alnStart : Nat
  alnEnd : Nat
  alnFrom : Nat
  alnTo : Nat
  alnTrace : List Char

/-- The `while (i >= 1 && j >= 0)` loop of `buildViterbiTrace`, on the state `(s, i, j)` and
the trace pushed so far; it returns `(i, j, alnTrace)` at loop exit.  `fuel` bounds the
number of iterations.  `none` is a read outside the tables (column `j - 1` at `j = 0`) or
exhausted fuel.  The dead store `vtrace.alnFrom--` of the `I` branch, overwritten after the
loop, is left out. -/
def traceLoop {α : Type} [LinearOrderedAddCommMonoidWithTop α]
    (hmm : BandedHMMP7 α) (vs : ViterbiScores α) :
    Nat → Char → Nat → Nat → List Char → Option (Nat × Nat × List Char)
  | 0, _, _, _, _ => none
  | fuel + 1, s, i, j, trace =>
    if i ≥ 1 then
      let trace := trace ++ [s]
      if s = 'M' then
        if j = 0 then none
        else
          let s' :=
            if j > 1 then
              whichMin4 (vs.DP_M i 0 + hmm.entryPr_cost j)
                (vs.DP_M (i - 1) (j - 1) + hmm.Tmat_cost (j - 1) .M .M)
                (vs.DP_I (i - 1) (j - 1) + hmm.Tmat_cost (j - 1) .I .M)
                (vs.DP_D (i - 1) (j - 1) + hmm.Tmat_cost (j - 1) .D .M)
            else
              whichMin2 (vs.DP_M i 0 + hmm.entryPr_cost j)
                (vs.DP_I (i - 1) (j - 1) + hmm.Tmat_cost (j - 1) .I .M) 'B' 'I'
          traceLoop hmm vs fuel s' (i - 1) (j - 1) trace
      else if s = 'I' then
        let s' :=
          if j > 0 then
            whichMin2 (vs.DP_M (i - 1) j + hmm.Tmat_cost j .M .I)
              (vs.DP_I (i - 1) j + hmm.Tmat_cost j .I .I) 'M' 'I'
          else
            whichMin2 (vs.DP_M i 0 + hmm.Tmat_cost 0 .M .I)
              (vs.DP_I (i - 1) j + hmm.Tmat_cost j .I .I) 'B' 'I'
        traceLoop hmm vs fuel s' (i - 1) j trace
      else if s = 'D' then
        if j = 0 then none
        else
          let s' := whichMin2 (vs.DP_M i (j - 1) + hmm.Tmat_cost (j - 1) .M .D)
            (vs.DP_D i (j - 1) + hmm.Tmat_cost (j - 1) .D .D) 'M' 'D'
          traceLoop hmm vs fuel s' i (j - 1) trace
      else some (i, j, trace)
    else some (i, j, trace)

/-- `BandedHMMP7::buildViterbiTrace(vs, vtrace)`.  `none` is a read outside the tables.  The
loop lowers `i + j` in every iteration that does not leave it, so `i + j + 1` iterations
are enough. -/
def buildViterbiTrace {α : Type} [LinearOrderedAddCommMonoidWithTop α]
    (hmm : BandedHMMP7 α) (vs : ViterbiScores α) (vtrace : ViterbiAlignTrace α) :
    Option (ViterbiAlignTrace α) :=
  let K := hmm.K
  let mc := minCoeff vs.S (vs.L + 1) (K + 2)
  let minRow := mc.2.1
  let minCol := mc.2.2
  let vtrace := { vtrace with minScore := mc.1 }
  if vtrace.minScore = ⊤ then some vtrace
  else
    let s : Char := if minCol ≤ K then 'M' else 'I'
    let i := minRow
    let j := if minCol ≤ K then minCol else K
    let vtrace := { vtrace with alnEnd := if minCol ≤ K then minCol else K, alnTo := minRow }
    let trace := vtrace.alnTrace ++ ['E']
    (traceLoop hmm vs (i + j + 1) s i j trace).bind fun r =>
      let i := r.1
      let j := r.2.1
      let trace := r.2.2
      -- assert(vtrace.alnStart > 0 && vtrace.alnFrom > 0) holds: both are successors
      let trace := if trace.getLast? ≠ some 'B' then trace ++ ['B'] else trace
      some { vtrace with alnStart := j + 1, alnFrom := i + 1, alnTrace := trace.reverse }

/-! ## Alignment reconstruction -/

/-- Modelled from the spec: `PAD_SYM` is declared in `BandedHMMP7.h`, which is not part of the
sources; the pad symbol, typically `.`. -/
def PAD_SYM : Char := '.'

/-- Modelled from the spec: `GAP_SYM` is declared in `BandedHMMP7.h`, which is not part of the
sources; the gap symbol, typically `-`. -/
def GAP_SYM : Char := '-'

/-- `BandedHMMP7::HmmAlignment`. -/
structure HmmAlignment (α : Type) where
  K : Nat
  L : Nat
  seqStart : Nat
  seqEnd : Nat
  hmmStart : Nat
  hmmEnd : Nat
  csStart : Nat
  csEnd : Nat
  cost : α
  align : List Char

/-- The cursors of the loop of `buildGlobalAlign`: the string built so far, the positions
`i` (CS), `j` (sequence) and `k` (profile) and the insert buffer. -/
structure AlignCursor where
  align : List Char
  i : Nat
  j : Nat
  k : Nat
  insert : List Char

/-- The loop of `buildGlobalAlign` over the states of the trace; `idx` is
`state - vtrace.alnTrace.begin()`.  The inner loop `while (*state == 'I')` of the `I` case is
unrolled over the recursion: `inRun` says that the previous state was an `I` of the same
run, so the buffer is cleared by the first `I` of a run only.  `none` is a failed assertion,
a padding of negative length or a read of `seq.charAt(-1)`. -/
def alignLoop {α : Type} (hmm : BandedHMMP7 α) (seq : PrimarySeq) (vtrace : ViterbiAlignTrace α)
    (seqN seqC : List Char) (csStart csEnd : Nat) :
    List Char → Nat → Bool → AlignCursor → Option AlignCursor
  | [], _, _, c => some c
  | state :: rest, idx, inRun, c =>
    if state = 'B' then
      if csStart = 0 then none
      else
        alignLoop hmm seq vtrace seqN seqC csStart csEnd rest (idx + 1) false
          { c with
            align := c.align ++ getPaddingSeq (csStart - 1) seqN PAD_SYM .RIGHT
            i := csStart
            j := vtrace.alnFrom
            k := vtrace.alnStart }
    else if state = 'M' then
      let fill :=
        if c.k > 1 ∧ idx > 1 ∧ hmm.profile2CSIdx c.k - hmm.profile2CSIdx (c.k - 1) > 1 then
          getPaddingSeq (hmm.profile2CSIdx c.k - hmm.profile2CSIdx (c.k - 1) - 1)
            c.insert GAP_SYM .JUSTIFIED
        else []
      if c.j = 0 then none
      else
        alignLoop hmm seq vtrace seqN seqC csStart csEnd rest (idx + 1) false
          { c with
            align := c.align ++ fill ++ [seq.charAt (c.j - 1)]
            j := c.j + 1
            k := c.k + 1
            insert := [] }
    else if state = 'I' then
      if c.j = 0 then none
      else
        alignLoop hmm seq vtrace seqN seqC csStart csEnd rest (idx + 1) true
          { c with
            insert := (if inRun then c.insert else []) ++ [(seq.charAt (c.j - 1)).toLower]
            j := c.j + 1 }
    else if state = 'D' then
      if c.insert ≠ [] then none
      else
        let fill :=
          if c.k > 1 ∧ hmm.profile2CSIdx c.k - hmm.profile2CSIdx (c.k - 1) > 1 then
            List.replicate (hmm.profile2CSIdx c.k - hmm.profile2CSIdx (c.k - 1) - 1) GAP_SYM
          else []
        alignLoop hmm seq vtrace seqN seqC csStart csEnd rest (idx + 1) false
          { c with align := c.align ++ fill ++ [GAP_SYM], k := c.k + 1 }
    else if state = 'E' then
      if c.j ≠ vtrace.alnTo + 1 ∨ hmm.L < csEnd then none
      else
        alignLoop hmm seq vtrace seqN seqC csStart csEnd rest (idx + 1) false
          { c with align := c.align ++ getPaddingSeq (hmm.L - csEnd) seqC PAD_SYM .LEFT }
    else
      alignLoop hmm seq vtrace seqN seqC csStart csEnd rest (idx + 1) false c

/-- `BandedHMMP7::buildGlobalAlign(seq, vs, vtrace)`.  `none` is a failed assertion, a
`substr` past the end of the query or a padding of negative length; the closing
`assert(aln.align.length() == L)` is part of it. -/
def buildGlobalAlign {α : Type} (hmm : BandedHMMP7 α) (seq : PrimarySeq)
    (vs : ViterbiScores α) (vtrace : ViterbiAlignTrace α) : Option (HmmAlignment α) :=
  if seq.length ≠ vs.L ∨ seq.length < vtrace.alnTo then none
  else
    -- the counts `vtrace.alnFrom - 1` and `L - vtrace.alnTo` are converted to unsigned sizes
    let seqN := if vtrace.alnFrom = 0 then seq.seq else substr seq.seq 0 (vtrace.alnFrom - 1)
    let seqC :=
      if vtrace.alnTo ≤ hmm.L then substr seq.seq vtrace.alnTo (hmm.L - vtrace.alnTo)
      else seq.seq.drop vtrace.alnTo
    let csStart := hmm.profile2CSIdx vtrace.alnStart
    let csEnd := hmm.profile2CSIdx vtrace.alnEnd
    (alignLoop hmm seq vtrace seqN seqC csStart csEnd vtrace.alnTrace 0 false
        { align := [], i := 0, j := 0, k := 0, insert := [] }).bind fun c =>
      if c.align.length ≠ hmm.L then none
      else
        some
          { K := hmm.K
            L := hmm.L
            seqStart := vtrace.alnFrom
            seqEnd := vtrace.alnTo
            hmmStart := vtrace.alnStart
            hmmEnd := vtrace.alnEnd
            csStart := csStart
            csEnd := csEnd
            cost := vtrace.minScore
            align := c.align }

/-! ## Properties of the DP tables -/

/-- The three recurrences of the dynamic programme hold at cell `(i, j)` of `vs`. -/
def RecAt {α : Type} [LinearOrderedAddCommMonoidWithTop α]
    (hmm : BandedHMMP7 α) (seq : PrimarySeq) (vs : ViterbiScores α) (i j : Nat) : Prop :=
  vs.DP_M i j = cellM hmm seq true vs i j
    ∧ vs.DP_I i j = cellI hmm seq vs i j
    ∧ (1 < j ∧ j < hmm.K → vs.DP_D i j = cellD hmm vs i j)

/-- The cells already computed when the full loops enter iteration `(j0, n)`: those of
columns `1..j0-1`, and rows `1..n-1` of column `j0`. -/
def DoneBefore (L j0 n a b : Nat) : Prop :=
  1 ≤ a ∧ a ≤ L ∧ 1 ≤ b ∧ (b < j0 ∨ (b = j0 ∧ a < n))

/-- The invariant of the full loops on entry to iteration `(j0, n)`, `vs0` being the tables
before the loops: cells not yet computed are as in `vs0`, computed cells satisfy the
recurrences. -/
def LoopInv {α : Type} [LinearOrderedAddCommMonoidWithTop α]
    (hmm : BandedHMMP7 α) (seq : PrimarySeq) (L : Nat) (vs0 : ViterbiScores α)
    (j0 n : Nat) (s : ViterbiScores α) : Prop :=
  s.L = vs0.L ∧ s.S = vs0.S
    ∧ (∀ a b, ¬ DoneBefore L j0 n a b →
        s.DP_M a b = vs0.DP_M a b ∧ s.DP_I a b = vs0.DP_I a b)
    ∧ (∀ a b, ¬ (DoneBefore L j0 n a b ∧ 1 < b ∧ b < hmm.K) → s.DP_D a b = vs0.DP_D a b)
    ∧ (∀ a b, DoneBefore L j0 n a b → RecAt hmm seq s a b)

/-! ## Properties of traces -/

/-- The number of `M` and `D` states in a list of states. -/
def countMD (Y : List Char) : Nat := (Y.filter fun c => c = 'M' ∨ c = 'D').length

/-- The number of `M` and `I` states in a list of states. -/
def countMI (Y : List Char) : Nat := (Y.filter fun c => c = 'M' ∨ c = 'I').length

/-- No `D` comes right after an `I`. -/
def NoID : List Char → Prop
  | [] => True
  | [_] => True
  | a :: b :: rest => ¬ (a = 'I' ∧ b = 'D') ∧ NoID (b :: rest)

/-- The shape of the states between `B` and `E`: a run of `I` states, then an `M`; the run is
empty unless the profile position `j` left of the first state is `0`. -/
def StartsAtM (Y : List Char) (j : Nat) : Prop :=
  ∃ a rest, Y = List.replicate a 'I' ++ 'M' :: rest ∧ (0 < a → j = 0)

/-- What the traceback loop knows on entry to an iteration: `s` is the state at cell
`(i, j)` about to be pushed, `Y` the states pushed so far in path order, `alnEnd` and
`alnTo` the exit cell. -/
def TraceInv {α : Type} [LinearOrderedAddCommMonoidWithTop α]
    (hmm : BandedHMMP7 α) (vs : ViterbiScores α) (alnEnd alnTo : Nat)
    (s : Char) (i j : Nat) (Y : List Char) : Prop :=
  (∀ c ∈ Y, c = 'M' ∨ c = 'I' ∨ c = 'D')
    ∧ NoID Y
    ∧ (Y.head? = some 'D' → s ≠ 'I')
    ∧ countMD Y + j = alnEnd
    ∧ countMI Y + i = alnTo
    ∧ (s = 'M' ∨ s = 'I' ∨ s = 'D' ∨ s = 'B')
    ∧ ((i = 0 ∨ s = 'B' ∨ (s = 'I' ∧ j = 0)) → StartsAtM Y j)
    ∧ (1 ≤ i →
        (s = 'M' → 1 ≤ j ∧ vs.DP_M i j < ⊤)
          ∧ (s = 'I' → 1 ≤ j → vs.DP_I i j < ⊤)
          ∧ (s = 'D' → vs.DP_D i j < ⊤))
    ∧ j ≤ hmm.K ∧ i ≤ vs.L

/-- The facts about the filled tables that the traceback relies on: row `0` is `inf`,
`DP_D` is `inf` outside `1 < j < K`, and a finite cell inside the grid has a finite
candidate among the predecessors that the traceback compares. -/
def TablesOK {α : Type} [LinearOrderedAddCommMonoidWithTop α]
    (hmm : BandedHMMP7 α) (vs : ViterbiScores α) : Prop :=
  (∀ j, vs.DP_M 0 j = ⊤ ∧ vs.DP_I 0 j = ⊤)
    ∧ (∀ i j, ¬ (1 < j ∧ j < hmm.K) → vs.DP_D i j = ⊤)
    ∧ (∀ i j, 1 ≤ i → i ≤ vs.L → 1 ≤ j → j ≤ hmm.K →
        (vs.DP_M i j < ⊤ →
          min4 (vs.DP_M i 0 + hmm.entryPr_cost j)
            (vs.DP_M (i - 1) (j - 1) + hmm.Tmat_cost (j - 1) .M .M)
            (vs.DP_I (i - 1) (j - 1) + hmm.Tmat_cost (j - 1) .I .M)
            (vs.DP_D (i - 1) (j - 1) + hmm.Tmat_cost (j - 1) .D .M) < ⊤)
        ∧ (vs.DP_I i j < ⊤ →
          min (vs.DP_M (i - 1) j + hmm.Tmat_cost j .M .I)
            (vs.DP_I (i - 1) j + hmm.Tmat_cost j .I .I) < ⊤)
        ∧ (vs.DP_D i j < ⊤ →
          min (vs.DP_M i (j - 1) + hmm.Tmat_cost (j - 1) .M .D)
            (vs.DP_D i (j - 1) + hmm.Tmat_cost (j - 1) .D .D) < ⊤))

/-! ## HMMER-3/f text: `operator>>` and `operator<<`

A text is the list of its lines.  `parseCost` and `printCost` stand for reading a `double`
from a token and for printing one; `atoi` is C's `atoi` on unsigned decimal numbers. -/

/-- C's `atoi` on a token without sign: the value of its leading decimal digits. -/
def atoi (s : String) : Nat :=
  (s.data.takeWhile Char.isDigit).foldl (fun n c => 10 * n + (c.toNat - 48)) 0

/-- Modelled from the spec: `BandedHMMP7::isInteger` is declared in `BandedHMMP7.h`, which is
not part of the sources; whether the token is a non-empty run of decimal digits. -/
def isInteger (s : String) : Bool :=
  s.data ≠ [] && s.data.all Char.isDigit

/-- The extraction `iss >> token` on the rest of a line: skip white space, take the
characters up to the next white space; the token is empty when the line has none left. -/
def popTokStr (l : List Char) : String × List Char :=
  let l1 := l.dropWhile Char.isWhitespace
  (String.mk (l1.takeWhile fun c => !c.isWhitespace), l1.dropWhile fun c => !c.isWhitespace)

/-- The extraction `in >> token` on the stream: the next token of the remaining lines; the
line it was found in keeps its remainder. -/
def popTok : List String → Option (String × List String)
  | [] => none
  | l :: ls =>
    if (popTokStr l.data).1 = "" then popTok ls
    else some ((popTokStr l.data).1, String.mk (popTokStr l.data).2 :: ls)

/-- `n` extractions `in >> token`; `none` when the stream ends before. -/
def popToks : Nat → List String → Option (List String × List String)
  | 0, ls => some ([], ls)
  | n + 1, ls =>
    (popTok ls).bind fun r =>
      (popToks n r.2).bind fun r' => some (r.1 :: r'.1, r'.2)

/-- `BandedHMMP7::trim(str)`: the string without its leading and trailing white space. -/
def trim (s : List Char) : String :=
  String.mk ((s.dropWhile Char.isWhitespace).reverse.dropWhile Char.isWhitespace).reverse

/-- Modelled from the spec: `getOptTag` is declared in `BandedHMMP7.h`, which is not part of
the sources; the value of an optional tag, empty when the tag is not set. -/
def getOptTag {α : Type} (h : BandedHMMP7 α) (tag : String) : String := h.optTags tag

/-- Modelled from the spec: `setOptTag` is declared in `BandedHMMP7.h`, which is not part of
the sources; it records the value of an optional tag, a new tag name going to the end of
`optTagNames`. -/
def setOptTag {α : Type} (h : BandedHMMP7 α) (tag val : String) : BandedHMMP7 α :=
  { h with
    optTagNames := if tag ∈ h.optTagNames then h.optTagNames else h.optTagNames ++ [tag]
    optTags := fun t => if t = tag then val else h.optTags t }

/-- Modelled from the spec: `setLocOptTag` is declared in `BandedHMMP7.h`, which is not part
of the sources; it records the value of a per-position tag at position `k`. -/
def setLocOptTag {α : Type} (h : BandedHMMP7 α) (tag val : String) (k : Nat) :
    BandedHMMP7 α :=
  { h with locOptTags := fun t k' => if t = tag ∧ k' = k then val else h.locOptTags t k' }

/-- Modelled from the spec: `hmmValueOf` is declared in `BandedHMMP7.h`, which is not part of
the sources; the token `*` is `inf`, any other token is read as a cost. -/
def hmmValueOf {α : Type} [Top α] (parseCost : String → α) (s : String) : α :=
  if s = "*" then ⊤ else parseCost s

/-- Modelled from the spec: `hmmPrintValue` is declared in `BandedHMMP7.h`, which is not part
of the sources; `inf` is printed as `*`, any other cost as a number. -/
def hmmPrintValue {α : Type} [LinearOrderedAddCommMonoidWithTop α] (printCost : α → String)
    (c : α) : String :=
  if c = ⊤ then "*" else printCost c

/-- The default constructor `BandedHMMP7()`, with the index arrays zero-initialised. -/
def BandedHMMP7.empty {α : Type} [Top α] : BandedHMMP7 α where
  name := "unnamed"
  hmmVersion := ""
  K := 0
  L := 0
  nSeq := 0
  optTagNames := []
  optTags := fun _ => ""
  locOptTags := fun _ _ => ""
  bgTransPr := 0
  Tmat := fun _ _ _ => 0
  Tmat_cost := fun _ _ _ => ⊤
  E_M := fun _ _ => 0
  E_M_cost := fun _ _ => ⊤
  E_I := fun _ _ => 0
  E_I_cost := fun _ _ => ⊤
  T_SP := fun _ _ => 0
  T_SP_cost := fun _ _ => ⊤
  entryPr := fun _ => 0
  entryPr_cost := fun _ => ⊤
  exitPr := fun _ => 0
  exitPr_cost := fun _ => ⊤
  cs2ProfileIdx := fun _ => 0
  profile2CSIdx := fun _ => 0
  bgTermPr := 1
  wingRetracted := false

/-- `BandedHMMP7::setProfileSize(size)`: `init_transition_params`, `init_emission_params` and
`init_special_params` put zero in every probability and `inf` in every cost.  Modelled from
the spec: `hmmBg.setSize(size)` is defined in a header that is not part of the sources; it
sets `bgTransPr = size/(size+1)` and `bgTermPr = 1/(size+1)`. -/
def setProfileSize {α : Type} [Top α] (h : BandedHMMP7 α) (size : Nat) : BandedHMMP7 α :=
  { h with
    K := size
    bgTransPr := (size : ℚ) / (size + 1)
    bgTermPr := 1 / ((size : ℚ) + 1)
    Tmat := fun _ _ _ => 0
    Tmat_cost := fun _ _ _ => ⊤
    E_M := fun _ _ => 0
    E_M_cost := fun _ _ => ⊤
    E_I := fun _ _ => 0
    E_I_cost := fun _ _ => ⊤
    T_SP := fun _ _ => 0
    T_SP_cost := fun _ _ => ⊤
    entryPr := fun _ => 0
    entryPr_cost := fun _ => ⊤
    exitPr := fun _ => 0
    exitPr_cost := fun _ => ⊤ }

/-- `BandedHMMP7::enableProfileLocalMode()`. -/
def enableProfileLocalMode {α : Type} (negLog : ℚ → α) (h : BandedHMMP7 α) : BandedHMMP7 α :=
  let entry : Nat → ℚ := fun j =>
    if j = 0 then 0 else if j ≤ h.K then 1 - h.bgTransPr else h.entryPr j
  let exit : Nat → ℚ := fun j =>
    if j = 0 then 0 else if j ≤ h.K then 1 - h.bgTransPr else h.exitPr j
  { h with
    entryPr := entry
    exitPr := exit
    entryPr_cost := fun j => negLog (entry j)
    exitPr_cost := fun j => negLog (exit j) }

/-- `BandedHMMP7::adjustProfileLocalMode()`. -/
def adjustProfileLocalMode {α : Type} (negLog : ℚ → α) (h : BandedHMMP7 α) : BandedHMMP7 α :=
  let entry : Nat → ℚ := fun j =>
    if j = 0 then 0 else if j ≤ h.K then h.Tmat 0 .M .M else h.entryPr j
  let exit : Nat → ℚ := fun j =>
    if j = 0 then 0 else if j ≤ h.K then h.Tmat h.K .M .M else h.exitPr j
  { h with
    entryPr := entry
    exitPr := exit
    entryPr_cost := fun j => negLog (entry j)
    exitPr_cost := fun j => negLog (exit j) }

/-- `BandedHMMP7::extend_index()`; `kMaxProfile` is the compile-time bound on the index
arrays, declared in `BandedHMMP7.h`. -/
def extend_index {α : Type} (kMaxProfile : Nat) (h : BandedHMMP7 α) : BandedHMMP7 α :=
  { h with
    cs2ProfileIdx := forLoop (h.profile2CSIdx h.K + 1) (min h.L (kMaxProfile - 1))
      (fun cs i => setAt cs i h.K) h.cs2ProfileIdx }

/-- Modelled from the spec: `resetProbByCost` is defined in `BandedHMMP7.h`, which is not part
of the sources; it rebuilds the probability view of `T`, `E_M` and `E_I` as `exp(-cost)`. -/
def resetProbByCost {α : Type} (expNeg : α → ℚ) (h : BandedHMMP7 α) : BandedHMMP7 α :=
  { h with
    Tmat := fun k s t => expNeg (h.Tmat_cost k s t)
    E_M := fun b k => expNeg (h.E_M_cost b k)
    E_I := fun b k => expNeg (h.E_I_cost b k) }

/-- The state in which `operator>>` leaves the stream, or how it was left otherwise. -/
inductive io_state where
  | good
  | badbit
  | failbit
  | thrown
  | aborted
  deriving DecidableEq, Repr

/-- The seven assignments `in >> tmp; Tmat_cost[k](s, t) = hmmValueOf(tmp)` of a transition
line, in the order MM, MI, MD, IM, II, DM, DD. -/
def setTransitions {α : Type} [Top α] (parseCost : String → α) (h : BandedHMMP7 α) (k : Nat)
    (toks : List String) : BandedHMMP7 α :=
  let v := fun i => hmmValueOf parseCost (toks.getD i "")
  { h with
    Tmat_cost := fun k' s t =>
      if k' = k then
        match s, t with
        | .M, .M => v 0
        | .M, .I => v 1
        | .M, .D => v 2
        | .I, .M => v 3
        | .I, .I => v 4
        | .D, .M => v 5
        | .D, .D => v 6
        | _, _ => h.Tmat_cost k' s t
      else h.Tmat_cost k' s t }

/-- The four assignments of an emission column `E(i, k)` from four tokens read as
`double`. -/
def setEmission {α : Type} (parseCost : String → α) (E : Fin 4 → Nat → α) (k : Nat)
    (toks : List String) : Fin 4 → Nat → α :=
  fun b k' => if k' = k then parseCost (toks.getD b.val "") else E b k'

/-- The per-position annotations of a match line, read in the order MAP, CONS, RF, MM, CS,
each of the last four only when its header tag is present. -/
def readLocTags {α : Type} (h : BandedHMMP7 α) (k : Nat) (rest : List Char) : BandedHMMP7 α :=
  let m := popTokStr rest
  let h : BandedHMMP7 α :=
    { h with
      cs2ProfileIdx := setAt h.cs2ProfileIdx (atoi m.1) k
      profile2CSIdx := setAt h.profile2CSIdx k (atoi m.1) }
  let h := setLocOptTag h "MAP" m.1 k
  let step := fun (st : BandedHMMP7 α × String × List Char) (tag : String) =>
    if getOptTag st.1 tag ≠ "" then
      let r := popTokStr st.2.2
      let tmp := if r.1 = "" then st.2.1 else r.1
      (setLocOptTag st.1 tag tmp k, tmp, r.2)
    else st
  (["CONS", "RF", "MM", "CS"].foldl step (h, m.1, m.2)).1

/-- The loop `while (getline(in, line))` of `operator>>(istream&, BandedHMMP7&)` on the
remaining lines, `k` being the profile position; it returns the HMM as it was left and the
state of the stream.  `fuel` bounds the number of lines read; `kMaxProfile` is the bound on
the index arrays. -/
def parseLoop {α : Type} [LinearOrderedAddCommMonoidWithTop α]
    (kMaxProfile : Nat) (expNeg : α → ℚ) (negLog : ℚ → α) (parseCost : String → α) :
    Nat → List String → BandedHMMP7 α → Nat → BandedHMMP7 α × io_state
  | 0, _, hmm, _ => (hmm, .failbit)
  | _ + 1, [], hmm, _ => (hmm, .failbit)
  | fuel + 1, line :: rest, hmm, k =>
    if line = "//" then
      let hmm := extend_index kMaxProfile hmm
      let hmm := resetProbByCost expNeg hmm
      let hmm := adjustProfileLocalMode negLog hmm
      match wingRetract expNeg negLog hmm with
      | some hmm => (hmm, .good)
      | none => (hmm, .aborted)
    else
      let t := popTokStr line.data
      let tag := t.1
      if ¬ (line.data.head?.map Char.isWhitespace = some true) then
        -- header section
        if tag.take 6 = "HMMER3" then
          if tag.length < 8 ∨ (tag.data.getD 7 'a') < 'f' then (hmm, .badbit)
          else parseLoop kMaxProfile expNeg negLog parseCost fuel rest hmm k
        else if tag = "NAME" then
          let n := (popTokStr t.2).1
          parseLoop kMaxProfile expNeg negLog parseCost fuel rest
            { hmm with name := if n = "" then hmm.name else n } k
        else if tag = "LENG" then
          let hmm := setProfileSize hmm (atoi (popTokStr t.2).1)
          let hmm := enableProfileLocalMode negLog hmm
          parseLoop kMaxProfile expNeg negLog parseCost fuel rest hmm k
        else if tag = "ALPH" then
          if (popTokStr t.2).1 ≠ "DNA" then (hmm, .thrown)
          else parseLoop kMaxProfile expNeg negLog parseCost fuel rest hmm k
        else if tag = "MAXL" then
          parseLoop kMaxProfile expNeg negLog parseCost fuel rest
            { hmm with L := atoi (popTokStr t.2).1 } k
        else if tag = "STATS" then
          let mode := popTokStr t.2
          let distrib := popTokStr mode.2
          let tag := tag ++ " " ++ mode.1 ++ " " ++ distrib.1
          parseLoop kMaxProfile expNeg negLog parseCost fuel rest (setOptTag hmm tag (trim distrib.2)) k
        else if tag = "HMM" then
          parseLoop kMaxProfile expNeg negLog parseCost fuel rest.tail hmm k
        else
          let val := trim t.2
          let hmm := if tag ≠ "" then setOptTag hmm tag val else hmm
          let hmm := if tag = "NSEQ" then { hmm with nSeq := atoi val } else hmm
          parseLoop kMaxProfile expNeg negLog parseCost fuel rest hmm k
      else
        -- main body
        if tag = "COMPO" ∨ isInteger tag = true then
          if ¬ ((tag = "COMPO" ∧ k = 0) ∨ atoi tag = k) then (hmm, .aborted)
          else
            let e0 := popTokStr t.2
            let e1 := popTokStr e0.2
            let e2 := popTokStr e1.2
            let e3 := popTokStr e2.2
            let emit := [e0.1, e1.1, e2.1, e3.1]
            let hmm : BandedHMMP7 α :=
              { hmm with E_M_cost := setEmission parseCost hmm.E_M_cost k emit }
            if tag ≠ "COMPO" ∧ getOptTag hmm "MAP" ≠ "yes" then (hmm, .badbit)
            else
              let hmm := if tag = "COMPO" then hmm else readLocTags hmm k e3.2
              match popToks 11 rest with
              | none => (hmm, .failbit)
              | some (toks, rest) =>
                let hmm : BandedHMMP7 α :=
                  { hmm with E_I_cost := setEmission parseCost hmm.E_I_cost k (toks.take 4) }
                let hmm := setTransitions parseCost hmm k (toks.drop 4)
                parseLoop kMaxProfile expNeg negLog parseCost fuel rest hmm (k + 1)
        else
          if k ≠ 0 then (hmm, .aborted)
          else
            match popToks 11 rest with
            | none => (hmm, .failbit)
            | some (toks, rest) =>
              let hmm : BandedHMMP7 α :=
                { hmm with E_I_cost := setEmission parseCost hmm.E_I_cost k (toks.take 4) }
              let hmm := setTransitions parseCost hmm k (toks.drop 4)
              parseLoop kMaxProfile expNeg negLog parseCost fuel rest hmm (k + 1)

/-- `operator>>(istream& in, BandedHMMP7& hmm)` on the lines of the text. -/
def parseHMM {α : Type} [LinearOrderedAddCommMonoidWithTop α]
    (kMaxProfile : Nat) (expNeg : α → ℚ) (negLog : ℚ → α) (parseCost : String → α)
    (lines : List String) (hmm : BandedHMMP7 α) : BandedHMMP7 α × io_state :=
  parseLoop kMaxProfile expNeg negLog parseCost (lines.length + 1) lines hmm 0

/-- The three lines that `operator<<` writes for position `k`. -/
def writePosition {α : Type} [LinearOrderedAddCommMonoidWithTop α] (printCost : α → String)
    (hmm : BandedHMMP7 α) (k : Nat) : List String :=
  let emitM := "\t".intercalate ((List.finRange 4).map fun b => printCost (hmm.E_M_cost b k))
  let loc := ["MAP", "CONS", "RF", "MM", "CS"].foldl (fun (s : String) tag =>
    if getOptTag hmm tag ≠ "" then s ++ "\t" ++ hmm.locOptTags tag k else s) ""
  let first :=
    if k = 0 then "\tCOMPO\t" ++ emitM
    else "\t" ++ toString k ++ "\t" ++ emitM ++ loc
  let ins := (List.finRange 4).foldl (fun (s : String) b =>
    s ++ "\t" ++ hmmPrintValue printCost (hmm.E_I_cost b k)) "\t"
  let T := fun s t => hmmPrintValue printCost (hmm.Tmat_cost k s t)
  let tr := "\t\t" ++ T .M .M ++ "\t" ++ T .M .I ++ "\t" ++ T .M .D ++ "\t" ++ T .I .M
    ++ "\t" ++ T .I .I ++ "\t" ++ T .D .M ++ "\t" ++ T .D .D
  [first, ins, tr]

/-- `operator<<(ostream& out, const BandedHMMP7& hmm)`: the lines written. -/
def writeHMM {α : Type} [LinearOrderedAddCommMonoidWithTop α] (printCost : α → String)
    (hmm : BandedHMMP7 α) : List String :=
  ["HMMER3/f\t" ++ hmm.hmmVersion, "NAME\t" ++ hmm.name, "LENG\t" ++ toString hmm.K,
    "ALPH\tDNA"]
    ++ hmm.optTagNames.map (fun t => t ++ "  " ++ getOptTag hmm t)
    ++ ["HMM\t\tA\tC\tG\tT", "\t\tm->m\tm->i\tm->d\ti->m\ti->i\td->m\td->d"]
    ++ (List.range (hmm.K + 1)).flatMap (writePosition printCost hmm)
    ++ ["//"]


/-! ## Merging alignments -/

/-- C++ `s[i]` of a `std::string`: the character at `i` inside the string, the terminating
`'\0'` at `i = s.length()`; `none` is a read past it. -/
def strAt (s : List Char) (i : Nat) : Option Char :=
  if i < s.length then s[i]?
  else if i = s.length then some (Char.ofNat 0)
  else none

/-- One iteration of the overlay loop of `merge`:
`if (align[i] == PAD_SYM && other.align[i] != PAD_SYM) align[i] = other.align[i]`, the
second operand being read only if the first holds. -/
def mergeStep (other : List Char) (acc : Option (List Char)) (i : Nat) : Option (List Char) :=
  acc.bind fun al =>
    match strAt al i with
    | none => none
    | some x =>
      if x = PAD_SYM then
        match strAt other i with
        | none => none
        | some y => if y ≠ PAD_SYM then some (al.set i y) else some al
      else some al

/-- The loop `for (i = 0; i < L; ++i)` of `merge` over the two aligned strings. -/
def mergeAlign (L : Nat) (align other : List Char) : Option (List Char) :=
  (List.range L).foldl (mergeStep other) (some align)

/-- `HmmAlignment::merge(other)`; the result is the updated `*this`.  `isCompatitable` is
declared in `BandedHMMP7.h`, which is not part of the sources, and is a parameter.  `none`
is a read outside one of the aligned strings. -/
def HmmAlignment.merge {α : Type} [Add α]
    (isCompatitable : HmmAlignment α → HmmAlignment α → Bool)
    (a other : HmmAlignment α) : Option (HmmAlignment α) :=
  if isCompatitable a other then
    (mergeAlign a.L a.align other.align).map fun al =>
      { a with
        seqStart := if other.seqStart < a.seqStart then other.seqStart else a.seqStart
        seqEnd := if other.seqEnd > a.seqEnd then other.seqEnd else a.seqEnd
        hmmStart := if other.hmmStart < a.hmmStart then other.hmmStart else a.hmmStart
        hmmEnd := if other.hmmEnd > a.hmmEnd then other.hmmEnd else a.hmmEnd
        csStart := if other.csStart < a.csStart then other.csStart else a.csStart
        csEnd := if other.csEnd > a.csEnd then other.csEnd else a.csEnd
        cost := a.cost + other.cost
        align := al }
  else some a

/-! ## Building from an alignment: the index maps -/

/-- Modelled from the spec: class `MSA` is declared in a header that is not part of the
sources.  Of a multiple alignment the first phase of `build` reads the name, the size
`getMSALen()`, the CS length `getCSLen()` and the weighted symbol fraction `symWFrac(j)` of
the 0-based column `j`. -/
structure MSA where
  name : String
  msaLen : Nat
  csLen : Nat
  symWFrac : Nat → ℚ

/-- `BandedHMMP7::reset_index()`. -/
def reset_index {α : Type} (kMaxProfile kMaxCS : Nat) (h : BandedHMMP7 α) : BandedHMMP7 α :=
  { h with
    cs2ProfileIdx := fun i => if i < kMaxProfile then 0 else h.cs2ProfileIdx i
    profile2CSIdx := fun i => if 1 ≤ i ∧ i < kMaxCS then 0 else h.profile2CSIdx i }

/-- The variables of the column loop of `build`: the counter `k` and the two index
arrays. -/
structure IndexState where
  k : Nat
  profile2CSIdx : Nat → Nat
  cs2ProfileIdx : Nat → Nat

/-- The body of the column loop of `build`, for the 0-based column `j`:
`if (msa.symWFrac(j) >= symfrac) profile2CSIdx[++k] = j + 1; cs2ProfileIdx[j+1] = k;`. -/
def buildIndexStep (msa : MSA) (symfrac : ℚ) (s : IndexState) (j : Nat) : IndexState :=
  if msa.symWFrac j ≥ symfrac then
    { k := s.k + 1
      profile2CSIdx := setAt s.profile2CSIdx (s.k + 1) (j + 1)
      cs2ProfileIdx := setAt s.cs2ProfileIdx (j + 1) (s.k + 1) }
  else
    { s with cs2ProfileIdx := setAt s.cs2ProfileIdx (j + 1) s.k }

/-- The first phase of `BandedHMMP7::build(msa, symfrac, prior, name)`, up to
`setProfileSize(k)`: the argument checks, the name, `reset_index`, `L` and the column loop.
`none` is the `invalid_argument` exception.  The rest of `build` writes neither `K`, `L`
nor the two index arrays. -/
def buildIndex {α : Type} [Top α] (kMaxProfile kMaxCS : Nat) (msa : MSA) (symfrac : ℚ)
    (name : String) (h : BandedHMMP7 α) : Option (BandedHMMP7 α) :=
  if msa.msaLen = 0 then none
  else if ¬ (symfrac > 0 ∧ symfrac < 1) then none
  else
    let h := { h with name := if name ≠ "" then name else msa.name }
    let h := reset_index kMaxProfile kMaxCS h
    let h := { h with L := msa.csLen }
    let s := (List.range h.L).foldl (buildIndexStep msa symfrac)
      { k := 0, profile2CSIdx := h.profile2CSIdx, cs2ProfileIdx := h.cs2ProfileIdx }
    some (setProfileSize
      { h with profile2CSIdx := s.profile2CSIdx, cs2ProfileIdx := s.cs2ProfileIdx } s.k)

/-- The number of CS columns among `1..n` whose weighted symbol fraction is at least
`symfrac`. -/
def matchCount (msa : MSA) (symfrac : ℚ) (n : Nat) : Nat :=
  ((List.range n).filter fun j => decide (msa.symWFrac j ≥ symfrac)).length

/-! ## The bands of the banded dynamic programme -/

/-- Whether cell `(i, j)` lies in the rectangle of the loops `j = jlo..jhi`, `i = ilo..ihi`. -/
def inRect (jlo : Nat) (jhi : Int) (ilo : Nat) (ihi : Int) (i j : Nat) : Bool :=
  decide (jlo ≤ j ∧ (j : Int) ≤ jhi ∧ ilo ≤ i ∧ (i : Int) ≤ ihi)

/-- The query length upstream of path `vp`, `prev` being the previous path: `upQLen`,
clamped at `0`. -/
def upQLen (prev : Option VPath) (vp : VPath) : Int :=
  let q : Int :=
    match prev with
    | none => (vp.from_ : Int) - 1
    | some pv => (vp.from_ : Int) - pv.to_
  if q < 0 then 0 else q

/-- The first profile position `up_start` of the upstream band of `vp`, clamped at `1`. -/
def upStart (prev : Option VPath) (vp : VPath) : Int :=
  let s : Int :=
    match prev with
    | none => truncGap vp.start (-(upQLen prev vp))
    | some pv => pv.end_
  if s < 1 then 1 else s

/-- The first query position `up_from` of the upstream band of `vp`, clamped at `1`. -/
def upFrom (prev : Option VPath) (vp : VPath) : Int :=
  let s : Int :=
    match prev with
    | none => truncGap vp.from_ (-(upQLen prev vp))
    | some pv => pv.to_
  if s < 1 then 1 else s

/-- Whether cell `(i, j)` lies in the upstream band of `vp`: profile range
`[up_start, vp.start]`, query range `[up_from, vp.from]`. -/
def inUpstream (prev : Option VPath) (vp : VPath) (i j : Nat) : Bool :=
  inRect (upStart prev vp).toNat vp.start (upFrom prev vp).toNat vp.from_ i j

/-- Whether cell `(i, j)` lies in the band of the known path `vp` itself: inside the
rectangle of the segment, with diagonal distance from `(vp.from, vp.start)` in
`[-nDel, +nIns]`. -/
def inSegment (vp : VPath) (i j : Nat) : Bool :=
  inRect vp.start vp.end_ vp.from_ vp.to_ i j
    && decide (diagnalDist i j vp.from_ vp.start ≤ (vp.nIns : Int)
        ∧ diagnalDist i j vp.from_ vp.start ≥ -(vp.nDel : Int))

/-- Whether cell `(i, j)` lies in the upstream band or in the own band of one of the known
paths, `prev` being the path before the first of the list. -/
def inPathBands : Option VPath → List VPath → Nat → Nat → Bool
  | _, [], _, _ => false
  | prev, vp :: rest, i, j =>
    inUpstream prev vp i j || inSegment vp i j || inPathBands (some vp) rest i j

/-- Whether cell `(i, j)` lies in the downstream band after the last known path, for a profile
of length `K` and a query of length `L`. -/
def inDownstream (K L : Nat) (last : VPath) (i j : Nat) : Bool :=
  let downQLen : Int := (L : Int) - (last.to_ : Int)
  let down_end : Int := truncGap (last.end_ : Int) downQLen
  let down_to : Int := truncGap (last.to_ : Int) downQLen
  let down_end : Int := if down_end > K then K else down_end
  let down_to : Int := if down_to > L then L else down_to
  inRect last.end_ down_end last.to_ down_to i j

/-- The first phase of `build` with the object made explicit: the HMM object as the phase
leaves it and whether `invalid_argument` was thrown.  Both `throw` statements come before
every write to the object. -/
def buildIndexState {α : Type} [Top α] (kMaxProfile kMaxCS : Nat) (msa : MSA) (symfrac : ℚ)
    (name : String) (h : BandedHMMP7 α) : BandedHMMP7 α × Bool :=
  if msa.msaLen = 0 then (h, true)
  else if ¬ (symfrac > 0 ∧ symfrac < 1) then (h, true)
  else
    match buildIndex kMaxProfile kMaxCS msa symfrac name h with
    | some r => (r, false)
    | none => (h, true)

/-! ## Properties of the parser -/

/-- What the lines of the text do to the HMM and to the profile position `k` when the parser
goes on reading: a header line leaves `k` and writes the name, the size (`LENG`), `L`
(`MAXL`), an optional tag or `nSeq`; a body line with the two lines it pulls in writes the
emissions and transitions of position `k`, a match line also its annotations, and moves to
`k + 1`. -/
inductive LineUpd {α : Type} [LinearOrderedAddCommMonoidWithTop α]
    (negLog : ℚ → α) (parseCost : String → α) :
    BandedHMMP7 α → Nat → BandedHMMP7 α → Nat → Prop where
  | same (h : BandedHMMP7 α) (k : Nat) : LineUpd negLog parseCost h k h k
  | name (h : BandedHMMP7 α) (k : Nat) (n : String) :
    LineUpd negLog parseCost h k { h with name := n } k
  | leng (h : BandedHMMP7 α) (k : Nat) (size : Nat) :
    LineUpd negLog parseCost h k (enableProfileLocalMode negLog (setProfileSize h size)) k
  | maxl (h : BandedHMMP7 α) (k : Nat) (l : Nat) :
    LineUpd negLog parseCost h k { h with L := l } k
  | opt (h : BandedHMMP7 α) (k : Nat) (tag val : String) :
    LineUpd negLog parseCost h k (setOptTag h tag val) k
  | nseq (h : BandedHMMP7 α) (k : Nat) (n : Nat) :
    LineUpd negLog parseCost h k { h with nSeq := n } k
  | compo (h : BandedHMMP7 α) (k : Nat) (emit toksI toksT : List String) :
    LineUpd negLog parseCost h k
      (setTransitions parseCost
        { h with
          E_M_cost := setEmission parseCost h.E_M_cost k emit
          E_I_cost := setEmission parseCost h.E_I_cost k toksI } k toksT) (k + 1)
  | matchLine (h : BandedHMMP7 α) (k : Nat) (emit : List String) (loc : List Char)
      (toksI toksT : List String) :
    LineUpd negLog parseCost h k
      (setTransitions parseCost
        { readLocTags { h with E_M_cost := setEmission parseCost h.E_M_cost k emit } k loc with
          E_I_cost := setEmission parseCost
            (readLocTags { h with E_M_cost := setEmission parseCost h.E_M_cost k emit }
              k loc).E_I_cost k toksI } k toksT) (k + 1)
  | beginLine (h : BandedHMMP7 α) (k : Nat) (toksI toksT : List String) :
    LineUpd negLog parseCost h k
      (setTransitions parseCost
        { h with E_I_cost := setEmission parseCost h.E_I_cost k toksI } k toksT) (k + 1)

/-- The HMM states and positions that the parser can reach from `(h, k)` by reading
lines. -/
inductive Reach {α : Type} [LinearOrderedAddCommMonoidWithTop α]
    (negLog : ℚ → α) (parseCost : String → α) :
    BandedHMMP7 α → Nat → BandedHMMP7 α → Nat → Prop where
  | refl (h : BandedHMMP7 α) (k : Nat) : Reach negLog parseCost h k h k
  | step {h h1 h2 : BandedHMMP7 α} {k k1 k2 : Nat} :
    LineUpd negLog parseCost h k h1 k1 → Reach negLog parseCost h1 k1 h2 k2 →
    Reach negLog parseCost h k h2 k2

/-- Two neighbouring states of a trace that are not an insert next to a delete. -/
def okAdjacent (x y : Char) : Prop := ¬ (x = 'I' ∧ y = 'D') ∧ ¬ (x = 'D' ∧ y = 'I')

/-- The last profile position `down_end` of the downstream band, clamped at `K`. -/
def downEnd (K L : Nat) (last : VPath) : Int :=
  let d : Int := truncGap (last.end_ : Int) ((L : Int) - (last.to_ : Int))
  if d > K then K else d

/-- The last query position `down_to` of the downstream band, clamped at `L`. -/
def downTo (L : Nat) (last : VPath) : Int :=
  let d : Int := truncGap (last.to_ : Int) ((L : Int) - (last.to_ : Int))
  if d > L then L else d

/-! ## FASTA output (`SeqIO::writeFastaSeq`) -/

/-- The loop `for (i = 0, r = seq.length(); i < seq.length(); i += kMaxFastaLine,
r -= kMaxFastaLine)` of `SeqIO::writeFastaSeq`, on the `size_t` counters `i` and `r`
(arithmetic modulo `2^64`) and the lines written so far: each iteration writes
`r >= kMaxFastaLine ? kMaxFastaLine : r` characters from position `i` and a newline.  `none`
is a write past the end of the sequence, or `fuel` iterations without leaving the loop.
`kMaxFastaLine` is declared in `SeqIO.h`, which is not part of the sources. -/
def writeFastaLoop (kMaxFastaLine : Nat) (seq : List Char) :
    Nat → Nat → Nat → List (List Char) → Option (List (List Char))
  | 0, _, _, _ => none
  | fuel + 1, i, r, out =>
    if i < seq.length then
      let n := if r ≥ kMaxFastaLine then kMaxFastaLine else r
      if i + n > seq.length then none
      else
        writeFastaLoop kMaxFastaLine seq fuel ((i + kMaxFastaLine) % 2 ^ 64)
          ((r + 2 ^ 64 - kMaxFastaLine) % 2 ^ 64) (out ++ [(seq.drop i).take n])
    else some out

/-- `SeqIO::writeFastaSeq(seq)`: the lines written after the header line. -/
def writeFastaSeq (kMaxFastaLine : Nat) (seq : PrimarySeq) : Option (List (List Char)) :=
  writeFastaLoop kMaxFastaLine seq.seq (seq.length + 1) 0 seq.length []

/-! ## OTU tables (`OTUTable::subsetUniform`)

The matrix `otuMetric` of a table with non-negative integer counts is the list of its sample
columns, each the list of the counts of the OTUs. -/

/-- Modelled from the spec: `numSampleReads(j)` is declared in `OTUTable.h`, which is not part
of the sources; the total read count of sample `j`, the sum of its column. -/
def numSampleReads (col : List Nat) : Nat := col.sum

/-- The body of the loop of `OTUTable::subsetUniform(min)` for one sample: `col` is the column
of the sample and `shuffle` the outcome of `boost::random_shuffle` on the sampling index.  A
sample with at most `min` reads is skipped; otherwise the index of `sampleTotal` flags, the
first `min` of them set, is shuffled, and the count of OTU `i` becomes the number of set
flags among its `N` positions, which start at `k`. -/
def subsetSample (min : Nat) (shuffle : List Bool → List Bool) (col : List Nat) : List Nat :=
  let sampleTotal := numSampleReads col
  if sampleTotal ≤ min then col
  else
    let otuIdx := shuffle (List.replicate min true ++ List.replicate (sampleTotal - min) false)
    (col.foldl (fun (st : List Nat × Nat) N =>
      (st.1 ++ [((otuIdx.drop st.2).take N).count true], st.2 + N)) ([], 0)).1

/-- `OTUTable::subsetUniform(min)`: the loop over the samples `j`; `shuffle j` is the outcome
of the random shuffle in iteration `j`. -/
def subsetUniform (min : Nat) (shuffle : Nat → List Bool → List Bool)
    (otuMetric : List (List Nat)) : List (List Nat) :=
  (List.range otuMetric.length).map fun j => subsetSample min (shuffle j) (otuMetric.getD j [])

/-! ## Building from an alignment: the counting pass

The state `P` (a residue that is ignored) of `determineMatchingState` is `none`; the states
`M`, `I`, `D` are `some` of a `p7_state`. -/

/-- Modelled from the spec: what the counting pass of `build` reads of an alignment besides
the fields of `MSA`: the number of sequences `getNumSeq()`, the encoded residue
`encodeAt(i, j)` of sequence `i` at the 0-based column `j`, and the weight
`getSeqWeight(i)`. -/
structure WeightedMSA extends MSA where
  numSeq : Nat
  encodeAt : Nat → Nat → Int
  seqWeight : Nat → ℚ

/-- The update `E(b, k) += w` of an emission count; a code `b` outside `0..3` names no row. -/
def addCount (E : Fin 4 → Nat → ℚ) (b : Int) (k : Nat) (w : ℚ) : Fin 4 → Nat → ℚ :=
  fun b' k' => if (b'.val : Int) = b ∧ k' = k then E b' k' + w else E b' k'

/-- The update `Tmat[k](s, t) += w` of a transition count. -/
def addTrans (T : Nat → p7_state → p7_state → ℚ) (k : Nat) (s t : p7_state) (w : ℚ) :
    Nat → p7_state → p7_state → ℚ :=
  fun k' s' t' => if k' = k ∧ s' = s ∧ t' = t then T k' s' t' + w else T k' s' t'

/-- `reset_transition_params()` and `reset_emission_params()`: counts `0`, costs `inf`. -/
def reset_params {α : Type} [Top α] (h : BandedHMMP7 α) : BandedHMMP7 α :=
  { h with
    Tmat := fun _ _ _ => 0
    Tmat_cost := fun _ _ _ => ⊤
    E_M := fun _ _ => 0
    E_M_cost := fun _ _ => ⊤
    E_I := fun _ _ => 0
    E_I_cost := fun _ _ => ⊤ }

/-- The value of `jN` after the scan `for (jN = j + 1; jN <= L; ++jN)` of the counting pass,
which leaves at the first column whose state is not `P`: that column, or `L + 1`. -/
def nextNonP (dms : (Nat → Nat) → Nat → Int → Option p7_state) (msa : WeightedMSA)
    (c2p : Nat → Nat) (L i j : Nat) : Nat :=
  ((List.range' (j + 1) (L - j)).find? fun jN =>
    (dms c2p jN (msa.encodeAt (i - 1) (jN - 1))).isSome).getD (L + 1)

/-- The body of the counting pass of `build` for CS column `j` and sequence `i` (both
1-based).  `dms` is `determineMatchingState`, declared in `BandedHMMP7.h`, which is not part
of the sources.  The scan for the next column declares its own `smN` inside the loop, so the
`smN` of the outer scope, which the two tests and the update after the scan read, is never
assigned: `smN` is the value that this uninitialised variable happens to hold. -/
def trainCell {α : Type} (dms : (Nat → Nat) → Nat → Int → Option p7_state)
    (smN : Option p7_state) (msa : WeightedMSA) (h : BandedHMMP7 α) (j i : Nat) :
    BandedHMMP7 α :=
  let k := h.cs2ProfileIdx j
  let b := msa.encodeAt (i - 1) (j - 1)
  let w := msa.seqWeight (i - 1)
  match dms h.cs2ProfileIdx j b with
  | none => h
  | some sm =>
    let h1 : BandedHMMP7 α :=
      match sm with
      | .M => { h with E_M := addCount (addCount h.E_M b 0 w) b k w }
      | .I => { h with E_I := addCount h.E_I b k w }
      | .D => h
    let jN := nextNonP dms msa h.cs2ProfileIdx h.L i j
    if ¬ (jN ≤ h.L ∧ smN ≠ none) then h1
    else
      match smN with
      | none => h1
      | some t =>
        if (sm = .I ∧ t = .D) ∨ (sm = .D ∧ t = .I) then h1
        else { h1 with Tmat := addTrans h1.Tmat k sm t w }

/-- The counting pass of `build`: `for (j = 1; j <= L; ++j) for (i = 1; i <= N; ++i)`;
`smN j i` is the value of the uninitialised `smN` in iteration `(j, i)`. -/
def trainCounts {α : Type} (dms : (Nat → Nat) → Nat → Int → Option p7_state)
    (smN : Nat → Nat → Option p7_state) (msa : WeightedMSA) (h : BandedHMMP7 α) :
    BandedHMMP7 α :=
  forLoop 1 h.L (fun h j =>
    forLoop 1 msa.numSeq (fun h i => trainCell dms (smN j i) msa h j i) h) h

/-- The contribution of column `j` and sequence `i` to the count `E_M(b, k)`, `k ≥ 1`: the
weight of the sequence when its residue is `b` in state `M` at profile position `k`. -/
def hitM (dms : (Nat → Nat) → Nat → Int → Option p7_state) (msa : WeightedMSA)
    (c2p : Nat → Nat) (b : Fin 4) (k j i : Nat) : ℚ :=
  if dms c2p j (msa.encodeAt (i - 1) (j - 1)) = some .M
      ∧ msa.encodeAt (i - 1) (j - 1) = (b.val : Int) ∧ c2p j = k
    then msa.seqWeight (i - 1) else 0

/-- The contribution of column `j` and sequence `i` to the count `E_I(b, k)`. -/
def hitI (dms : (Nat → Nat) → Nat → Int → Option p7_state) (msa : WeightedMSA)
    (c2p : Nat → Nat) (b : Fin 4) (k j i : Nat) : ℚ :=
  if dms c2p j (msa.encodeAt (i - 1) (j - 1)) = some .I
      ∧ msa.encodeAt (i - 1) (j - 1) = (b.val : Int) ∧ c2p j = k
    then msa.seqWeight (i - 1) else 0

/-- What column `j` and sequence `i` add to `E_M(b, k)` in the counting pass: the weight of
the sequence, once for the compositional column `k = 0` and once for the profile position of
the column, when its residue is `b` in state `M`. -/
def countM (dms : (Nat → Nat) → Nat → Int → Option p7_state) (msa : WeightedMSA)
    (c2p : Nat → Nat) (b : Fin 4) (k j i : Nat) : ℚ :=
  if dms c2p j (msa.encodeAt (i - 1) (j - 1)) = some .M
      ∧ msa.encodeAt (i - 1) (j - 1) = (b.val : Int)
    then (if k = 0 then msa.seqWeight (i - 1) else 0)
      + (if c2p j = k then msa.seqWeight (i - 1) else 0)
    else 0

/-! ## Tables filled on fresh buffers -/

/-- What the traceback loop knows on entry to an iteration when only the cells that stay
`inf` are known: as `TraceInv`, without the finiteness of the match cell. -/
def SafeInv {α : Type} [LinearOrderedAddCommMonoidWithTop α]
    (hmm : BandedHMMP7 α) (vs : ViterbiScores α) (alnEnd alnTo : Nat)
    (s : Char) (i j : Nat) (Y : List Char) : Prop :=
  (∀ c ∈ Y, c = 'M' ∨ c = 'I' ∨ c = 'D')
    ∧ NoID Y
    ∧ (Y.head? = some 'D' → s ≠ 'I')
    ∧ countMD Y + j = alnEnd
    ∧ countMI Y + i = alnTo
    ∧ (s = 'M' ∨ s = 'I' ∨ s = 'D' ∨ s = 'B')
    ∧ ((i = 0 ∨ s = 'B' ∨ (s = 'I' ∧ j = 0)) → StartsAtM Y j)
    ∧ (1 ≤ i →
        (s = 'M' → 1 ≤ j)
          ∧ (s = 'I' → 1 ≤ j → vs.DP_I i j < ⊤)
          ∧ (s = 'D' → vs.DP_D i j < ⊤))
    ∧ j ≤ hmm.K ∧ i ≤ vs.L

/-- The cells that are `inf` in tables filled on fresh buffers: row `0` of `DP_M` and of
`DP_I`, row `1` of `DP_I` from column `1` on, and `DP_D` outside the columns `1 < j < K`. -/
def TopCells {α : Type} [LinearOrderedAddCommMonoidWithTop α]
    (hmm : BandedHMMP7 α) (vs : ViterbiScores α) : Prop :=
  (∀ j, vs.DP_M 0 j = ⊤ ∧ vs.DP_I 0 j = ⊤)
    ∧ (∀ j, 1 ≤ j → vs.DP_I 1 j = ⊤)
    ∧ (∀ i j, ¬ (1 < j ∧ j < hmm.K) → vs.DP_D i j = ⊤)

/-- The facts about the tables that the shape of the trace rests on: the cells of `TopCells`
are `inf`, a finite score in the columns `0..K` lies in a row and a column from `1` on, and a
finite score in column `K + 1` comes with a finite `DP_I` cell in column `K`. -/
def TablesSafe {α : Type} [LinearOrderedAddCommMonoidWithTop α]
    (hmm : BandedHMMP7 α) (vs : ViterbiScores α) : Prop :=
  TopCells hmm vs
    ∧ (∀ i j, i ≤ vs.L → j ≤ hmm.K → vs.S i j < ⊤ → 1 ≤ i ∧ 1 ≤ j)
    ∧ (∀ i, i ≤ vs.L → vs.S i (hmm.K + 1) < ⊤ → vs.DP_I i hmm.K < ⊤)

/-- A known path inside the grid of a profile of length `K` and a query of length `L`:
`1 ≤ start ≤ end ≤ K` and `1 ≤ from ≤ to ≤ L`. -/
def VPath.inGrid (K L : Nat) (vp : VPath) : Prop :=
  1 ≤ vp.start ∧ vp.start ≤ vp.end_ ∧ vp.end_ ≤ K
    ∧ 1 ≤ vp.from_ ∧ vp.from_ ≤ vp.to_ ∧ vp.to_ ≤ L

/-- The tables `vs` were filled for the query `seq` on fresh buffers, by the full
`calcViterbiScores` or by the banded one over known paths inside the grid. -/
def FilledFresh {α : Type} [LinearOrderedAddCommMonoidWithTop α]
    (hmm : BandedHMMP7 α) (seq : PrimarySeq) (vs : ViterbiScores α) : Prop :=
  calcViterbiScores hmm seq (ViterbiScores.fresh seq.length) = some vs
    ∨ ∃ vpaths : List VPath, (∀ vp ∈ vpaths, vp.inGrid hmm.K seq.length)
        ∧ calcViterbiScoresBanded hmm seq (ViterbiScores.fresh seq.length) vpaths = some vs

/-! ## Concrete inputs -/

/-- A parameter block over `ℕ∞` costs with every table constant; the examples below override
single fields. -/
def hmmConst (K L : Nat) (p : ℚ) (c : ℕ∞) : BandedHMMP7 ℕ∞ where
  name := "unnamed"
  hmmVersion := ""
  K := K
  L := L
  nSeq := 0
  optTagNames := []
  optTags := fun _ => ""
  locOptTags := fun _ _ => ""
  bgTransPr := 1 - p
  Tmat := fun _ _ _ => p
  Tmat_cost := fun _ _ _ => c
  E_M := fun _ _ => p
  E_M_cost := fun _ _ => c
  E_I := fun _ _ => p
  E_I_cost := fun _ _ => c
  T_SP := fun _ _ => p
  T_SP_cost := fun _ _ => c
  entryPr := fun _ => p
  entryPr_cost := fun _ => c
  exitPr := fun _ => p
  exitPr_cost := fun _ => c
  cs2ProfileIdx := fun j => j
  profile2CSIdx := fun k => k
  bgTermPr := p
  wingRetracted := false

/-- A cost view of probabilities used in evaluations: `0` for probability `1`, `⊤` for
probability `0`, `1` otherwise. -/
def negLogEx (p : ℚ) : ℕ∞ :=
  if p = 0 then ⊤ else if p = 1 then 0 else 1

/-- A probability view of costs used in evaluations: `2^(-n)` for a finite cost `n`, `0` for
`⊤`. -/
def expNegEx (c : ℕ∞) : ℚ :=
  match c with
  | none => 0
  | some n => (1 / 2) ^ n

/-- A not-yet-retracted block with `K = 3`, every probability `1/4` and every cost `1`. -/
def hmmRetractEx : BandedHMMP7 ℕ∞ := hmmConst 3 3 (1 / 4) 1

/-- A wing-retracted profile of length `K = 1`: entry `B→M1` at cost `1 = Tmat_cost[0](M,M)`
(as `adjustProfileLocalMode` sets it), free emissions and exit, `N→N`, `N→B` and `C→C` at
cost `1`, `E→C` free, every other transition impossible. -/
def hmmOneMatch : BandedHMMP7 ℕ∞ :=
  { hmmConst 1 1 0 ⊤ with
    Tmat_cost := fun k s t => if k = 0 ∧ s = .M ∧ t = .M then 1 else ⊤
    E_M_cost := fun _ _ => 0
    E_I_cost := fun _ _ => 0
    T_SP_cost := fun s t =>
      if s = .E ∧ t = .C then 0
      else if (s = .N ∧ t = .N) ∨ (s = .N ∧ t = .B) ∨ (s = .C ∧ t = .C) then 1 else ⊤
    entryPr_cost := fun j => if j = 0 then ⊤ else 1
    exitPr_cost := fun j => if j = 0 then ⊤ else 0
    wingRetracted := true }

/-- The query `A`. -/
def seqA : PrimarySeq := { seq := ['A'], encode := fun _ => 0 }

/-- The query `AA`. -/
def seqAA : PrimarySeq := { seq := ['A', 'A'], encode := fun _ => 0 }

/-- The tables of the full programme for `hmmOneMatch` and the query `A`. -/
def vsOneMatchA : ViterbiScores ℕ∞ :=
  scoreLayer hmmOneMatch
    (fullLoops hmmOneMatch seqA 1 (prepareViterbiScores hmmOneMatch (ViterbiScores.fresh 1)))

/-- A fresh `ViterbiAlignTrace`. -/
def vtraceFresh : ViterbiAlignTrace ℕ∞ :=
  { minScore := ⊤, alnStart := 0, alnEnd := 0, alnFrom := 0, alnTo := 0, alnTrace := [] }

/-- Printing of a cost over `ℕ∞`: the decimal digits of a finite cost. -/
def printCostEx (c : ℕ∞) : String :=
  match c with
  | none => "inf"
  | some n => toString n

/-- Reading of a cost over `ℕ∞`: the value of the decimal digits. -/
def parseCostEx (s : String) : ℕ∞ := (atoi s : Nat)

/-- An HMMER-3/f text of a profile of length `K = 1` whose only match position owns CS
column `1` of `MAXL = 2` columns; every cost is finite. -/
def textMaxl : List String :=
  ["HMMER3/f [3.1b2]", "NAME  toy", "LENG  1", "ALPH  DNA", "MAXL  2", "MAP   yes",
   "HMM          A        C        G        T",
   "            m->m     m->i     m->d     i->m     i->i     d->m     d->d",
   "  COMPO   1  1  1  1",
   "          1  1  1  1",
   "          1  2  3  1  1  0  9",
   "      1   0  2  2  2  1",
   "          1  1  1  1",
   "          1  2  9  1  1  0  9",
   "//"]

/-- The HMM parsed from `textMaxl`. -/
def hmmMaxl : BandedHMMP7 ℕ∞ :=
  (parseHMM 100 expNegEx negLogEx parseCostEx textMaxl BandedHMMP7.empty).1

/-- An alignment of a query to columns `1..2` of a CS of length `4`. -/
def alnLeft : HmmAlignment ℕ∞ :=
  { K := 4, L := 4, seqStart := 1, seqEnd := 2, hmmStart := 1, hmmEnd := 2, csStart := 1,
    csEnd := 2, cost := 3, align := ['A', 'C', '.', '.'] }

/-- An alignment of a query to columns `2..4` of a CS of length `4`. -/
def alnRight : HmmAlignment ℕ∞ :=
  { K := 4, L := 4, seqStart := 5, seqEnd := 7, hmmStart := 2, hmmEnd := 4, csStart := 2,
    csEnd := 4, cost := 5, align := ['.', 'G', 'G', 'T'] }

/-- An alignment with two CS columns: column `1` is fully occupied, column `2` is empty. -/
def msaTwoCols : MSA :=
  { name := "two", msaLen := 2, csLen := 2, symWFrac := fun j => if j = 0 then 1 else 0 }

/-- A known path on cell `(1, 1)` alone. -/
def vpathOne : VPath := ⟨1, 1, 1, 1, 1, 1⟩

/-- An HMMER-3/f text of a profile of length `K = 2` whose match positions own CS columns `1`
and `3` of `MAXL = 3` columns; CS column `2` is insert-only. -/
def textGap : List String :=
  ["HMMER3/f [3.1b2]", "NAME  gap", "LENG  2", "ALPH  DNA", "MAXL  3", "MAP   yes",
   "HMM          A        C        G        T",
   "            m->m     m->i     m->d     i->m     i->i     d->m     d->d",
   "  COMPO   1  1  1  1",
   "          1  1  1  1",
   "          1  2  3  1  1  0  9",
   "      1   0  2  2  2  1",
   "          1  1  1  1",
   "          1  2  3  1  1  1  2",
   "      2   2  0  2  2  3",
   "          1  1  1  1",
   "          1  2  9  1  1  0  9",
   "//"]

/-- The text `textGap` with the two MAP values exchanged: position `1` owns CS column `3`,
position `2` owns CS column `1`. -/
def textSwap : List String :=
  ["HMMER3/f [3.1b2]", "NAME  swap", "LENG  2", "ALPH  DNA", "MAXL  3", "MAP   yes",
   "HMM          A        C        G        T",
   "            m->m     m->i     m->d     i->m     i->i     d->m     d->d",
   "  COMPO   1  1  1  1",
   "          1  1  1  1",
   "          1  2  3  1  1  0  9",
   "      1   0  2  2  2  3",
   "          1  1  1  1",
   "          1  2  3  1  1  1  2",
   "      2   2  0  2  2  1",
   "          1  1  1  1",
   "          1  2  9  1  1  0  9",
   "//"]

/-- A text whose header says `LENG  2` and whose body ends after position `1`. -/
def textShort : List String :=
  ["HMMER3/f [3.1b2]", "NAME  short", "LENG  2", "ALPH  DNA", "MAXL  3", "MAP   yes",
   "HMM          A        C        G        T",
   "            m->m     m->i     m->d     i->m     i->i     d->m     d->d",
   "  COMPO   1  1  1  1",
   "          1  1  1  1",
   "          1  2  3  1  1  0  9",
   "      1   0  2  2  2  1",
   "          1  1  1  1",
   "          1  2  9  1  1  0  9",
   "//"]

/-- A text whose alphabet is `RNA`. -/
def textRNA : List String :=
  ["HMMER3/f [3.1b2]", "NAME  rna", "LENG  1", "ALPH  RNA", "MAXL  2", "MAP   yes", "//"]

/-- A text of one header line, without the terminator. -/
def textNoEnd : List String := ["NAME  x"]

/-- The text `textMaxl` without its `MAP` header line. -/
def textNoMap : List String :=
  ["HMMER3/f [3.1b2]", "NAME  toy", "LENG  1", "ALPH  DNA", "MAXL  2",
   "HMM          A        C        G        T",
   "            m->m     m->i     m->d     i->m     i->i     d->m     d->d",
   "  COMPO   1  1  1  1",
   "          1  1  1  1",
   "          1  2  3  1  1  0  9",
   "      1   0  2  2  2  1",
   "          1  1  1  1",
   "          1  2  9  1  1  0  9",
   "//"]

/-- A text that starts with the version line of an obsolete format. -/
def textOld : List String :=
  ["HMMER3/b [3.0]", "NAME  old", "LENG  1", "ALPH  DNA", "//"]

/-- A target of the parser that was used before: `profile2CSIdx[2] = 2` is left from the
earlier use. -/
def hmmStale : BandedHMMP7 ℕ∞ :=
  { (BandedHMMP7.empty : BandedHMMP7 ℕ∞) with profile2CSIdx := fun k => if k = 2 then 2 else 0 }

/-- The HMM parsed from `textGap`. -/
def hmmGap : BandedHMMP7 ℕ∞ :=
  (parseHMM 100 expNegEx negLogEx parseCostEx textGap BandedHMMP7.empty).1

/-- The tables of the full programme for `hmmOneMatch` and the query `AA`. -/
def vsOneMatchAA : ViterbiScores ℕ∞ :=
  scoreLayer hmmOneMatch
    (fullLoops hmmOneMatch seqAA 2 (prepareViterbiScores hmmOneMatch (ViterbiScores.fresh 2)))

/-- A table of two OTUs and two samples, with `5` and `1` reads. -/
def otuTwoSamples : List (List Nat) := [[3, 2], [1, 0]]

/-- An alignment of one sequence of weight `1` with two columns, both holding base `0`. -/
def msaOneSeq : WeightedMSA :=
  { name := "one", msaLen := 2, csLen := 2, symWFrac := fun _ => 1,
    numSeq := 1, encodeAt := fun _ _ => 0, seqWeight := fun _ => 1 }

/-- A `determineMatchingState` for alignments whose columns are all match columns: a base is
in state `M`, a gap (negative code) in state `D`. -/
def dmsAllMatch (_ : Nat → Nat) (_ : Nat) (b : Int) : Option p7_state :=
  if 0 ≤ b then some .M else some .D

/-- The HMM of two positions on two CS columns after the first phase of `build` and the reset
of the counts. -/
def hmmTwoReset : BandedHMMP7 ℕ∞ :=
  reset_params { (hmmConst 2 2 0 ⊤) with cs2ProfileIdx := fun j => j, profile2CSIdx := fun k => k }

/-- A wing-retracted profile of length `K = 2` on a CS of `L = 3` columns: match position `1`
owns CS column `1`, match position `2` owns CS column `3`.  Entries `B→M1`, `B→M2` cost `1`,
exits, emissions, `N→N`, `N→B` and `E→C` are free, `C→C` costs `1`; at position `1` the
transitions `M→M`, `I→M`, `I→I` and `I→D` are free; every other transition is impossible. -/
def hmmGapped : BandedHMMP7 ℕ∞ :=
  { hmmConst 2 3 0 ⊤ with
    Tmat_cost := fun k s t => if k = 1 ∧ (s = .I ∨ (s = .M ∧ t = .M)) then 0 else ⊤
    E_M_cost := fun _ _ => 0
    E_I_cost := fun _ _ => 0
    T_SP_cost := fun s t =>
      if s = .C ∧ t = .C then 1
      else if (s = .N ∧ t = .N) ∨ (s = .N ∧ t = .B) ∨ (s = .E ∧ t = .C) then 0 else ⊤
    entryPr_cost := fun j => if j = 0 then ⊤ else 1
    exitPr_cost := fun j => if j = 0 then ⊤ else 0
    profile2CSIdx := fun k => if k = 2 then 3 else k
    cs2ProfileIdx := fun j => if j = 0 then 0 else if j = 3 then 2 else 1
    wingRetracted := true }

/-- Score tables for a query of length `2` written by hand, not by `calcViterbiScores`: the
only finite cells are `DP_I(1,1) = 0` and `S(2,2) = 0`. -/
def vsByHand : ViterbiScores ℕ∞ :=
  { L := 2
    DP_M := fun _ _ => ⊤
    DP_I := fun i j => if i = 1 ∧ j = 1 then 0 else ⊤
    DP_D := fun _ _ => ⊤
    S := fun i j => if i = 2 ∧ j = 2 then 0 else ⊤ }

/-- Buffers for a query of length `2` that were used before: `DP_I(0,1) = 0` is left from the
earlier use. -/
def vsUsed : ViterbiScores ℕ∞ :=
  { (ViterbiScores.fresh 2 : ViterbiScores ℕ∞) with
    DP_I := fun i j => if i = 0 ∧ j = 1 then 0 else ⊤ }

/-- The tables of the full programme for `hmmGapped` and the query `AA` on the used buffers
`vsUsed`. -/
def vsGappedUsed : ViterbiScores ℕ∞ :=
  scoreLayer hmmGapped
    (fullLoops hmmGapped seqAA 2 (prepareViterbiScores hmmGapped vsUsed))

/-- A known path along the diagonal from cell `(1, 1)` to cell `(2, 2)`. -/
def vpathDiag : VPath := ⟨1, 2, 1, 2, 0, 0⟩

/-- The tables of the banded programme for `hmmGapped`, the query `AA` and the known path
`vpathDiag` on fresh buffers. -/
def vsGappedBand : ViterbiScores ℕ∞ :=
  scoreLayer hmmGapped
    (bandLoops hmmGapped seqAA false (fun _ _ => true) 2 2 2 2
      (pathStep hmmGapped seqAA
        (prepareViterbiScores hmmGapped (ViterbiScores.fresh 2), none) vpathDiag).1)

/-- A wing-retracted profile of length `K = 3` on a CS of `L = 3` columns, match position `k`
owning CS column `k`, that the query must cross as `M1`, `D2`, `M3`: entry at `M1` and exit
from `M3` are free, the other entries and exits cost `5`; the transitions `M1→D2` and
`D2→M3` are free, every other transition is impossible; emissions, `N→N`, `N→B` and `E→C`
are free, `C→C` costs `1`. -/
def hmmSkip : BandedHMMP7 ℕ∞ :=
  { hmmConst 3 3 0 ⊤ with
    Tmat_cost := fun k s t =>
      if (k = 1 ∧ s = .M ∧ t = .D) ∨ (k = 2 ∧ s = .D ∧ t = .M) then 0 else ⊤
    E_M_cost := fun _ _ => 0
    E_I_cost := fun _ _ => 0
    T_SP_cost := fun s t =>
      if s = .C ∧ t = .C then 1
      else if (s = .N ∧ t = .N) ∨ (s = .N ∧ t = .B) ∨ (s = .E ∧ t = .C) then 0 else ⊤
    entryPr_cost := fun j => if j = 0 then ⊤ else if j = 1 then 0 else 5
    exitPr_cost := fun j => if j = 0 then ⊤ else if j = 3 then 0 else 5
    wingRetracted := true }

/-- The query `AC`. -/
def seqAC : PrimarySeq := { seq := ['A', 'C'], encode := fun _ => 0 }

/-- The tables of the full programme for `hmmSkip` and the query `AC`. -/
def vsSkipAC : ViterbiScores ℕ∞ :=
  scoreLayer hmmSkip
    (fullLoops hmmSkip seqAC 2 (prepareViterbiScores hmmSkip (ViterbiScores.fresh 2)))

/-- A text whose obsolete version line comes second, after a `NAME` line. -/
def textLateOld : List String := ["NAME  x", "HMMER3/b [3.0]", "//"]

/-! ## Theorems -/

/-! ### Loops -/

theorem forLoop_empty {σ : Type} (lo hi : Nat) (body : σ → Nat → σ) (init : σ)
    (h : hi + 1 ≤ lo) : forLoop lo hi body init = init := by
  unfold forLoop
  have : hi + 1 - lo = 0 := by omega
  rw [this]
  rfl

theorem forLoop_succ {σ : Type} (lo hi : Nat) (body : σ → Nat → σ) (init : σ)
    (h : lo ≤ hi + 1) :
    forLoop lo (hi + 1) body init = body (forLoop lo hi body init) (hi + 1) := by
  unfold forLoop
  have e : hi + 1 + 1 - lo = (hi + 1 - lo) + 1 := by omega
  rw [e, List.range'_concat, List.foldl_append]
  simp only [List.foldl_cons, List.foldl_nil]
  congr 1
  omega

theorem forLoop_first {σ : Type} (lo hi : Nat) (body : σ → Nat → σ) (init : σ)
    (h : lo ≤ hi) :
    forLoop lo hi body init = forLoop (lo + 1) hi body (body init lo) := by
  unfold forLoop
  have e : hi + 1 - lo = (hi + 1 - (lo + 1)) + 1 := by omega
  rw [e, List.range'_succ]
  rfl

theorem setAt_same {β : Type} (v : Nat → β) (k : Nat) (x : β) : setAt v k x k = x := by
  simp [setAt]

theorem setAt_ne {β : Type} (v : Nat → β) (k k' : Nat) (x : β) (h : k' ≠ k) :
    setAt v k x k' = v k' := by
  simp [setAt, h]

theorem setCell_same {β : Type} (m : Nat → Nat → β) (i j : Nat) (x : β) :
    setCell m i j x i j = x := by
  simp [setCell]

theorem setCell_ne {β : Type} (m : Nat → Nat → β) (i j i' j' : Nat) (x : β)
    (h : ¬ (i' = i ∧ j' = j)) : setCell m i j x i' j' = m i' j' := by
  simp only [setCell, h, if_false]

/-- Invariant rule for `forLoop`: `P k s` says that `s` is the state on entry to iteration
`k`. -/
theorem forLoop_induct {σ : Type} (lo hi : Nat) (body : σ → Nat → σ) (init : σ)
    (P : Nat → σ → Prop) (hle : lo ≤ hi + 1) (h0 : P lo init)
    (hstep : ∀ k s, lo ≤ k → k ≤ hi → P k s → P (k + 1) (body s k)) :
    P (hi + 1) (forLoop lo hi body init) := by
  induction hi with
  | zero =>
    by_cases hl : lo = 0
    · subst hl
      rw [forLoop_first 0 0 body init (le_refl _), forLoop_empty _ _ _ _ (le_refl _)]
      exact hstep 0 init (le_refl _) (le_refl _) h0
    · have : lo = 1 := by omega
      subst this
      rw [forLoop_empty _ _ _ _ (le_refl _)]
      exact h0
  | succ n ih =>
    by_cases hl : lo = n + 1 + 1
    · subst hl
      rw [forLoop_empty _ _ _ _ (le_refl _)]
      exact h0
    · have hle' : lo ≤ n + 1 := by omega
      rw [forLoop_succ lo n body init hle']
      apply hstep (n + 1) _ hle' (le_refl _)
      apply ih hle'
      intro k s h1 h2 h3
      exact hstep k s h1 (by omega) h3

theorem substr_length (s : List Char) (pos n : Nat) (h : pos + n ≤ s.length) :
    (substr s pos n).length = n := by
  unfold substr
  rw [List.length_take, List.length_drop]
  omega

theorem getPaddingSeq_length_nonempty (L : Nat) (insert : List Char) (padCh : Char)
    (mode : padding_mode) (he : insert.isEmpty = false) :
    (getPaddingSeq L insert padCh mode).length = L := by
  unfold getPaddingSeq
  simp only [he, Bool.false_eq_true, if_false]
  cases mode
  · by_cases h : insert.length ≥ L
    · simp only [h, if_true]
      exact substr_length _ _ _ (by omega)
    · simp only [h, if_false, List.length_append, List.length_replicate]
      omega
  · by_cases h : insert.length ≥ L
    · simp only [h, if_true]
      exact substr_length _ _ _ (by omega)
    · simp only [h, if_false, List.length_append, List.length_replicate]
      omega
  · by_cases h : insert.length ≥ L
    · simp only [h, if_true]
      exact substr_length _ _ _ (by omega)
    · simp only [h, if_false, List.length_append, List.length_replicate]
      omega
  · by_cases h : insert.length ≥ L
    · simp only [h, if_true, List.length_append]
      rw [substr_length _ _ _ (by omega), substr_length _ _ _ (by omega)]
      omega
    · simp only [h, if_false, List.length_append, List.length_replicate]
      rw [substr_length _ _ _ (by omega), substr_length _ _ _ (by omega)]
      omega

/-- The length of `getPaddingSeq L insert padCh mode`, the empty insert included. -/
theorem getPaddingSeq_length_any (L : Nat) (insert : List Char) (padCh : Char)
    (mode : padding_mode) : (getPaddingSeq L insert padCh mode).length = L := by
  cases he : insert.isEmpty
  · exact getPaddingSeq_length_nonempty L insert padCh mode he
  · simp [getPaddingSeq, he, getPaddingSeqFill]

/-- C10: `getPaddingSeq(L, insert, padCh, mode)` returns exactly `L` characters for every
`L ≥ 0`, every non-empty insert (shorter than, as long as, or longer than `L`) and each of
the four modes, so the closing `assert(pad.length() == L)` holds. -/
theorem getPaddingSeq_length (L : Nat) (insert : List Char) (padCh : Char)
    (mode : padding_mode) (hne : insert ≠ []) :
    (getPaddingSeq L insert padCh mode).length = L := by
  apply getPaddingSeq_length_nonempty
  cases insert with
  | nil => exact absurd rfl hne
  | cons c cs => rfl

theorem getPaddingSeq_length_witness :
    ['a', 'c', 'g'] ≠ [] ∧
      (getPaddingSeq 2 ['a', 'c', 'g'] '-' padding_mode.JUSTIFIED).length = 2 :=
  ⟨by decide, getPaddingSeq_length 2 ['a', 'c', 'g'] '-' padding_mode.JUSTIFIED (by decide)⟩

/-! ### Sequence mode -/

/-- C9: `setSequenceMode(m)` sets `(T_SP(N,N), T_SP(C,C))` to `(0,0)` for GLOBAL,
`(bgTermPr, bgTermPr)` for LOCAL, `(0, bgTermPr)` for NGCL and `(bgTermPr, 0)` for CGNL, and
in every mode `T_SP(N,B) = 1 - T_SP(N,N)` and `T_SP(E,C) = 1`, hence
`T_SP(N,N) + T_SP(N,B) = 1`. -/
theorem setSequenceMode_spec {α : Type} (negLog : ℚ → α) (m : align_mode)
    (h : BandedHMMP7 α) :
    ((setSequenceMode negLog m h).T_SP .N .N, (setSequenceMode negLog m h).T_SP .C .C)
        = (match m with
          | .GLOBAL => ((0 : ℚ), (0 : ℚ))
          | .LOCAL => (h.bgTermPr, h.bgTermPr)
          | .NGCL => (0, h.bgTermPr)
          | .CGNL => (h.bgTermPr, 0))
      ∧ (setSequenceMode negLog m h).T_SP .N .B = 1 - (setSequenceMode negLog m h).T_SP .N .N
      ∧ (setSequenceMode negLog m h).T_SP .E .C = 1
      ∧ (setSequenceMode negLog m h).T_SP .N .N + (setSequenceMode negLog m h).T_SP .N .B = 1 := by
  cases m <;> simp [setSequenceMode]

/-! ### Normalisation and boundary pins -/

theorem pinBoundary_apply (K : Nat) (T : Nat → p7_state → p7_state → ℚ) (k : Nat)
    (s t : p7_state) :
    pinBoundary K T k s t =
      if k = K ∧ s = .D ∧ t = .D then 0
      else if k = K ∧ s = .D ∧ t = .M then 1
      else if k = K ∧ s = .M ∧ t = .D then 0
      else if k = 0 ∧ s = .D ∧ t = .D then 0
      else if k = 0 ∧ s = .D ∧ t = .M then 1
      else T k s t := by
  simp only [pinBoundary, setAt]
  by_cases hK : k = K <;> by_cases h0 : k = 0 <;> cases s <;> cases t <;> simp [hK, h0] <;>
    (try subst hK) <;> (try subst h0) <;> simp_all

/-- C8: after `normalize()` and after `estimateParams(prior)`, for every `K ≥ 0` and every
prior, `T[0](D,M) = 1`, `T[0](D,D) = 0`, `T[K](M,D) = 0`, `T[K](D,M) = 1` and
`T[K](D,D) = 0`. -/
theorem boundary_pins {α : Type} (negLog : ℚ → α) (prior : BandedHMMP7Prior)
    (h : BandedHMMP7 α) :
    ((normalize negLog h).Tmat 0 .D .M = 1 ∧ (normalize negLog h).Tmat 0 .D .D = 0
      ∧ (normalize negLog h).Tmat h.K .M .D = 0 ∧ (normalize negLog h).Tmat h.K .D .M = 1
      ∧ (normalize negLog h).Tmat h.K .D .D = 0)
    ∧ ((estimateParams negLog prior h).Tmat 0 .D .M = 1
      ∧ (estimateParams negLog prior h).Tmat 0 .D .D = 0
      ∧ (estimateParams negLog prior h).Tmat h.K .M .D = 0
      ∧ (estimateParams negLog prior h).Tmat h.K .D .M = 1
      ∧ (estimateParams negLog prior h).Tmat h.K .D .D = 0) := by
  simp only [normalize, estimateParams, resetCostByProb, pinBoundary_apply]
  simp

theorem normalize_loop_T (K : Nat)
    (st : (Nat → p7_state → p7_state → ℚ) × (Fin 4 → Nat → ℚ) × (Fin 4 → Nat → ℚ)) (k : Nat) :
    (forLoop 0 K normalizeStep st).1 k =
      if k ≤ K then divRow (divRow (divRow (st.1 k) .M) .I) .D else st.1 k := by
  have key := forLoop_induct 0 K normalizeStep st
    (fun n s => ∀ k, s.1 k =
      if k < n then divRow (divRow (divRow (st.1 k) .M) .I) .D else st.1 k)
    (Nat.zero_le _) (by intro k; simp)
    (by
      intro n s _ _ ih k
      simp only [normalizeStep, setAt]
      by_cases hk : k = n
      · subst hk
        simp [ih k]
      · simp only [hk, if_false, ih k]
        by_cases h1 : k < n
        · simp [h1, Nat.lt_succ_of_lt h1]
        · have : ¬ k < n + 1 := by omega
          simp [h1, this])
  rw [key k]
  simp [Nat.lt_succ_iff]

theorem rowSum_divRows (Tk : p7_state → p7_state → ℚ)
    (h : ∀ s, rowSum Tk s ≠ 0) (s : p7_state) :
    rowSum (divRow (divRow (divRow Tk .M) .I) .D) s = 1 := by
  have hM := h .M
  have hI := h .I
  have hD := h .D
  simp only [rowSum] at hM hI hD
  cases s
  · simp only [rowSum, divRow]
    simp
    field_simp
  · simp only [rowSum, divRow]
    simp
    field_simp
  · simp only [rowSum, divRow]
    simp
    field_simp

theorem divRows_apply_zero (Tk : p7_state → p7_state → ℚ) (s t : p7_state)
    (h : Tk s t = 0) : divRow (divRow (divRow Tk .M) .I) .D s t = 0 := by
  cases s <;> simp [divRow, h]

/-- C7 fails as stated: on the block with `K = 1` whose transition counts are all `1`,
every row has a non-zero sum, yet after `normalize()` row `M` of `T[K]` sums to `2/3`,
because the cell `T[K](M,D)` is set to `0` after the row was divided by its sum. -/
theorem normalize_rows_counterexample :
    (∀ k, k ≤ (hmmConst 1 1 1 0).K → ∀ s, rowSum ((hmmConst 1 1 1 0).Tmat k) s ≠ 0)
      ∧ rowSum ((normalize negLogEx (hmmConst 1 1 1 0)).Tmat (hmmConst 1 1 1 0).K) .M ≠ 1 := by
  constructor
  · intro k _ s
    simp only [hmmConst, rowSum]
    norm_num
  · simp only [normalize, resetCostByProb, rowSum, pinBoundary_apply, normalize_loop_T]
    simp [hmmConst, divRow, rowSum]
    norm_num

/-- C7, amended: after `normalize()` on an HMM whose transition rows all have a non-zero sum
and whose cells `T[K](M,D)`, `T[0](D,I)` and `T[K](D,I)` are zero, for every `k` in `0..K`
each of the three rows of `T[k]` sums to `1`, the re-pinned rows `M` of `T[K]` and `D` of
`T[0]` and `T[K]` included. -/
theorem normalize_rows_sum {α : Type} (negLog : ℚ → α) (h : BandedHMMP7 α)
    (hsum : ∀ k, k ≤ h.K → ∀ s, rowSum (h.Tmat k) s ≠ 0)
    (hKMD : h.Tmat h.K .M .D = 0) (h0DI : h.Tmat 0 .D .I = 0) (hKDI : h.Tmat h.K .D .I = 0)
    (k : Nat) (hk : k ≤ h.K) (s : p7_state) :
    rowSum ((normalize negLog h).Tmat k) s = 1 := by
  have hrow := rowSum_divRows (h.Tmat k) (hsum k hk) s
  have e : ∀ t, (normalize negLog h).Tmat k s t =
      pinBoundary h.K (fun k => if k ≤ h.K then divRow (divRow (divRow (h.Tmat k) .M) .I) .D
        else h.Tmat k) k s t := by
    intro t
    simp only [normalize, resetCostByProb]
    rw [pinBoundary_apply, pinBoundary_apply, normalize_loop_T]
  have zKMD := divRows_apply_zero (h.Tmat h.K) .M .D hKMD
  have z0DI := divRows_apply_zero (h.Tmat 0) .D .I h0DI
  have zKDI := divRows_apply_zero (h.Tmat h.K) .D .I hKDI
  simp only [rowSum, e, pinBoundary_apply, hk, if_true]
  simp only [rowSum] at hrow
  by_cases hK : k = h.K
  · subst hK
    cases s
    · simp
      rw [zKMD] at hrow
      linarith
    · simpa using hrow
    · simp
      exact zKDI
  · by_cases h0 : k = 0
    · subst h0
      cases s
      · simpa [hK] using hrow
      · simpa [hK] using hrow
      · simp [hK]
        exact z0DI
    · cases s <;> simpa [hK, h0] using hrow

theorem normalize_rows_sum_witness :
    rowSum ((normalize negLogEx
      { hmmConst 1 1 1 0 with
        Tmat := fun k s t =>
          if (k = 1 ∧ s = .M ∧ t = .D) ∨ (s = .D ∧ t = .I) then 0 else 1 }).Tmat 1) .M = 1 :=
  normalize_rows_sum negLogEx
    { hmmConst 1 1 1 0 with
      Tmat := fun k s t =>
        if (k = 1 ∧ s = .M ∧ t = .D) ∨ (s = .D ∧ t = .I) then 0 else 1 }
    (by
      intro k _ s
      cases s <;> simp only [rowSum] <;> by_cases hk : k = 1 <;> simp [hk] <;> norm_num)
    (by simp [hmmConst]) (by simp) (by simp) 1 (by simp [hmmConst]) .M

/-! ### Wing retraction -/

/-- C5: calling `wingRetract` twice leaves the HMM (`entryPr`, `exitPr`, their costs, the
`wingRetracted` flag and everything else) exactly as a single call leaves it; a call stopped
by its assertion stays stopped. -/
theorem wingRetract_idempotent {α : Type} [LinearOrderedAddCommMonoidWithTop α]
    (expNeg : α → ℚ) (negLog : ℚ → α) (h : BandedHMMP7 α) :
    (wingRetract expNeg negLog h).bind (wingRetract expNeg negLog)
      = wingRetract expNeg negLog h := by
  unfold wingRetract
  by_cases hw : h.wingRetracted = true
  · simp [hw]
  · simp only [hw, Bool.false_eq_true, if_false]
    cases forLoop 2 h.K (retractStep expNeg (entryChainCost h)) (some h.entryPr) with
    | none => rfl
    | some entry =>
      cases forLoop 1 (h.K - 1) (retractStep expNeg (exitChainCost h)) (some h.exitPr) with
      | none => rfl
      | some exit => simp

theorem retract_loop {α : Type} [LinearOrderedAddCommMonoidWithTop α]
    (expNeg : α → ℚ) (chain : Nat → α) (lo hi : Nat) (pr : Nat → ℚ) (hle : lo ≤ hi + 1)
    (hpos : ∀ j, lo ≤ j → j ≤ hi → 0 < chain j) :
    forLoop lo hi (retractStep expNeg chain) (some pr) =
      some (fun j => if lo ≤ j ∧ j ≤ hi then min 1 (pr j + expNeg (chain j)) else pr j) := by
  have key := forLoop_induct lo hi (retractStep expNeg chain) (some pr)
    (fun n s => s = some (fun j => if lo ≤ j ∧ j < n then min 1 (pr j + expNeg (chain j))
      else pr j))
    hle (by simp; funext j; have : ¬ (lo ≤ j ∧ j < lo) := by omega
            simp [this])
    (by
      intro n s h1 h2 ih
      subst ih
      simp only [retractStep, Option.some_bind, hpos n h1 h2, if_true, setAt]
      congr 1
      funext j
      by_cases hj : j = n
      · subst hj
        have a : lo ≤ j ∧ j < j + 1 := ⟨h1, Nat.lt_succ_self _⟩
        have b : ¬ (lo ≤ j ∧ j < j) := by omega
        rw [setAt_same, if_pos a, if_neg b]
        by_cases hv : pr j + expNeg (chain j) > 1
        · rw [if_pos hv]
          exact (min_eq_left (le_of_lt hv)).symm
        · rw [if_neg hv]
          exact (min_eq_right (not_lt.mp hv)).symm
      · rw [setAt_ne _ _ _ _ hj]
        by_cases hc : lo ≤ j ∧ j < n
        · have : lo ≤ j ∧ j < n + 1 := by omega
          rw [if_pos hc, if_pos this]
        · have : ¬ (lo ≤ j ∧ j < n + 1) := by omega
          rw [if_neg hc, if_neg this])
  rw [key]
  congr 1
  funext j
  simp only [Nat.lt_succ_iff]

theorem expNeg_sum_loop {α : Type} [LinearOrderedAddCommMonoidWithTop α]
    (expNeg : α → ℚ) (hmul : ∀ a b, expNeg (a + b) = expNeg a * expNeg b)
    (f : Nat → α) (lo hi : Nat) (c0 : α) (hle : lo ≤ hi + 1) :
    expNeg (forLoop lo hi (fun c i => c + f i) c0)
      = expNeg c0 * ∏ i in Finset.Ico lo (hi + 1), expNeg (f i) := by
  exact forLoop_induct lo hi (fun c i => c + f i) c0
    (fun n c => expNeg c = expNeg c0 * ∏ i in Finset.Ico lo n, expNeg (f i))
    hle (by simp)
    (by
      intro n c h1 _ ih
      rw [hmul, ih, Finset.prod_Ico_succ_top h1, mul_assoc])

/-- C6: on a not-yet-retracted HMM whose chain costs pass the assertions `cost > 0`,
`wingRetract` returns and sets, for every `j` in `2..K`, `entryPr[j]` to
`min(1, old entryPr[j] + p(B→D1) · ∏_{i=1..j-2} p(Di→Di+1) · p(D(j-1)→Mj))` and, for every
`i` in `1..K-1`, `exitPr[i]` to
`min(1, old exitPr[i] + p(Mi→D(i+1)) · ∏_{j=i+1..K-1} p(Dj→Dj+1) · p(DK→E))`, where
`p = exp(-cost)` of the `Tmat_cost` entry; `entryPr[1]` and `exitPr[K]` are unchanged.
`exp(-·)` enters through its laws `exp(-(a+b)) = exp(-a)·exp(-b)` and `exp(-0) = 1`. -/
theorem wingRetract_foldIn {α : Type} [LinearOrderedAddCommMonoidWithTop α]
    (expNeg : α → ℚ) (negLog : ℚ → α) (h : BandedHMMP7 α)
    (hmul : ∀ a b, expNeg (a + b) = expNeg a * expNeg b) (hzero : expNeg 0 = 1)
    (hflag : h.wingRetracted = false)
    (hentry : ∀ j, 2 ≤ j → j ≤ h.K → 0 < entryChainCost h j)
    (hexit : ∀ i, 1 ≤ i → i ≤ h.K - 1 → 0 < exitChainCost h i) :
    ∃ h', wingRetract expNeg negLog h = some h'
      ∧ (∀ j, 2 ≤ j → j ≤ h.K →
          h'.entryPr j = min 1 (h.entryPr j
            + expNeg (h.Tmat_cost 0 .M .D)
              * (∏ i in Finset.Ico 1 (j - 1), expNeg (h.Tmat_cost i .D .D))
              * expNeg (h.Tmat_cost (j - 1) .D .M)))
      ∧ (∀ i, 1 ≤ i → i ≤ h.K - 1 →
          h'.exitPr i = min 1 (h.exitPr i
            + expNeg (h.Tmat_cost i .M .D)
              * (∏ j in Finset.Ico (i + 1) h.K, expNeg (h.Tmat_cost j .D .D))
              * expNeg (h.Tmat_cost h.K .D .M)))
      ∧ h'.entryPr 1 = h.entryPr 1 ∧ h'.exitPr h.K = h.exitPr h.K := by
  have hK2 : (2 : Nat) ≤ h.K + 1 ∨ h.K = 0 := by omega
  have e1 : forLoop 2 h.K (retractStep expNeg (entryChainCost h)) (some h.entryPr) =
      some (fun j => if 2 ≤ j ∧ j ≤ h.K then
        min 1 (h.entryPr j + expNeg (entryChainCost h j)) else h.entryPr j) := by
    rcases hK2 with hK | hK
    · exact retract_loop expNeg _ 2 h.K h.entryPr hK hentry
    · rw [forLoop_empty _ _ _ _ (by omega)]
      congr 1
      funext j
      have : ¬ (2 ≤ j ∧ j ≤ h.K) := by omega
      simp [this]
  have e2 : forLoop 1 (h.K - 1) (retractStep expNeg (exitChainCost h)) (some h.exitPr) =
      some (fun i => if 1 ≤ i ∧ i ≤ h.K - 1 then
        min 1 (h.exitPr i + expNeg (exitChainCost h i)) else h.exitPr i) :=
    retract_loop expNeg _ 1 (h.K - 1) h.exitPr (by omega) hexit
  refine ⟨{ h with
      entryPr := fun j => if 2 ≤ j ∧ j ≤ h.K then
        min 1 (h.entryPr j + expNeg (entryChainCost h j)) else h.entryPr j
      exitPr := fun i => if 1 ≤ i ∧ i ≤ h.K - 1 then
        min 1 (h.exitPr i + expNeg (exitChainCost h i)) else h.exitPr i
      entryPr_cost := fun j => negLog (if 2 ≤ j ∧ j ≤ h.K then
        min 1 (h.entryPr j + expNeg (entryChainCost h j)) else h.entryPr j)
      exitPr_cost := fun i => negLog (if 1 ≤ i ∧ i ≤ h.K - 1 then
        min 1 (h.exitPr i + expNeg (exitChainCost h i)) else h.exitPr i)
      wingRetracted := true }, ?_, ?_, ?_, ?_, ?_⟩
  · unfold wingRetract
    simp only [hflag, Bool.false_eq_true, if_false, e1, e2, Option.some_bind]
  · intro j h2 hj
    have hc : expNeg (entryChainCost h j) =
        expNeg (h.Tmat_cost 0 .M .D)
          * (∏ i in Finset.Ico 1 (j - 1), expNeg (h.Tmat_cost i .D .D))
          * expNeg (h.Tmat_cost (j - 1) .D .M) := by
      unfold entryChainCost
      simp only
      rw [hmul, expNeg_sum_loop expNeg hmul _ 1 (j - 2) _ (by omega), hmul, hzero, one_mul]
      have : j - 2 + 1 = j - 1 := by omega
      rw [this]
    simp only [h2, hj, and_self, if_true, hc]
  · intro i h1 hi
    have hc : expNeg (exitChainCost h i) =
        expNeg (h.Tmat_cost i .M .D)
          * (∏ j in Finset.Ico (i + 1) h.K, expNeg (h.Tmat_cost j .D .D))
          * expNeg (h.Tmat_cost h.K .D .M) := by
      unfold exitChainCost
      simp only
      rw [hmul, expNeg_sum_loop expNeg hmul _ (i + 1) (h.K - 1) _ (by omega), hmul, hzero,
        one_mul]
      have : h.K - 1 + 1 = h.K := by omega
      rw [this]
    simp only [h1, hi, and_self, if_true, hc]
  · have : ¬ (2 ≤ 1 ∧ 1 ≤ h.K) := by omega
    simp only [this, if_false]
  · have : ¬ (1 ≤ h.K ∧ h.K ≤ h.K - 1) := by omega
    simp only [this, if_false]

theorem expNegEx_add (a b : ℕ∞) : expNegEx (a + b) = expNegEx a * expNegEx b := by
  cases a with
  | top => simp [expNegEx]
  | coe a =>
    cases b with
    | top => simp [expNegEx]
    | coe b =>
      show (1 / 2 : ℚ) ^ (a + b) = (1 / 2) ^ a * (1 / 2) ^ b
      exact pow_add _ _ _

theorem wingRetract_foldIn_witness :
    hmmRetractEx.wingRetracted = false ∧
    ∃ h', wingRetract expNegEx negLogEx hmmRetractEx = some h'
      ∧ (∀ j, 2 ≤ j → j ≤ hmmRetractEx.K →
          h'.entryPr j = min 1 (hmmRetractEx.entryPr j
            + expNegEx (hmmRetractEx.Tmat_cost 0 .M .D)
              * (∏ i in Finset.Ico 1 (j - 1), expNegEx (hmmRetractEx.Tmat_cost i .D .D))
              * expNegEx (hmmRetractEx.Tmat_cost (j - 1) .D .M)))
      ∧ (∀ i, 1 ≤ i → i ≤ hmmRetractEx.K - 1 →
          h'.exitPr i = min 1 (hmmRetractEx.exitPr i
            + expNegEx (hmmRetractEx.Tmat_cost i .M .D)
              * (∏ j in Finset.Ico (i + 1) hmmRetractEx.K,
                  expNegEx (hmmRetractEx.Tmat_cost j .D .D))
              * expNegEx (hmmRetractEx.Tmat_cost hmmRetractEx.K .D .M)))
      ∧ h'.entryPr 1 = hmmRetractEx.entryPr 1
      ∧ h'.exitPr hmmRetractEx.K = hmmRetractEx.exitPr hmmRetractEx.K :=
  ⟨rfl, wingRetract_foldIn expNegEx negLogEx hmmRetractEx expNegEx_add
    (by simp [expNegEx]) rfl
    (by
      intro j h2 hj
      have hj3 : j ≤ 3 := hj
      interval_cases j <;> decide)
    (by
      intro i h1 hi
      have hi2 : i ≤ 2 := hi
      interval_cases i <;> decide)⟩

/-! ### The dynamic programme -/

section
variable {α : Type} [LinearOrderedAddCommMonoidWithTop α]

theorem forLoop_congr {σ : Type} (lo hi : Nat) (body body' : σ → Nat → σ) (init : σ)
    (h : ∀ k s, lo ≤ k → k ≤ hi → body s k = body' s k) :
    forLoop lo hi body init = forLoop lo hi body' init := by
  unfold forLoop
  have key : ∀ (l : List Nat) (init : σ), (∀ k ∈ l, ∀ s, body s k = body' s k) →
      l.foldl body init = l.foldl body' init := by
    intro l
    induction l with
    | nil => intros; rfl
    | cons a l ih =>
      intro init hl
      simp only [List.foldl_cons]
      rw [hl a (List.mem_cons_self _ _)]
      exact ih _ (fun k hk => hl k (List.mem_cons_of_mem _ hk))
  apply key
  intro k hk s
  rw [List.mem_range'_1] at hk
  exact h k s hk.1 (by omega)

theorem dpCell_L (hmm : BandedHMMP7 α) (seq : PrimarySeq) (b : Bool) (vs : ViterbiScores α)
    (i j : Nat) : (dpCell hmm seq b vs i j).L = vs.L := by
  unfold dpCell
  simp only
  split <;> rfl

theorem dpCell_S (hmm : BandedHMMP7 α) (seq : PrimarySeq) (b : Bool) (vs : ViterbiScores α)
    (i j : Nat) : (dpCell hmm seq b vs i j).S = vs.S := by
  unfold dpCell
  simp only
  split <;> rfl

theorem dpCell_DP_M (hmm : BandedHMMP7 α) (seq : PrimarySeq) (b : Bool) (vs : ViterbiScores α)
    (i j : Nat) :
    (dpCell hmm seq b vs i j).DP_M = setCell vs.DP_M i j (cellM hmm seq b vs i j) := by
  unfold dpCell
  simp only
  split <;> rfl

theorem dpCell_DP_I (hmm : BandedHMMP7 α) (seq : PrimarySeq) (b : Bool) (vs : ViterbiScores α)
    (i j : Nat) (hi : 1 ≤ i) :
    (dpCell hmm seq b vs i j).DP_I = setCell vs.DP_I i j (cellI hmm seq vs i j) := by
  have e : cellI hmm seq
      { vs with DP_M := setCell vs.DP_M i j (cellM hmm seq b vs i j) } i j
      = cellI hmm seq vs i j := by
    simp only [cellI]
    rw [setCell_ne _ _ _ _ _ _ (by omega)]
  unfold dpCell
  simp only
  split <;> simp only [e]

theorem dpCell_DP_D (hmm : BandedHMMP7 α) (seq : PrimarySeq) (b : Bool) (vs : ViterbiScores α)
    (i j : Nat) :
    (dpCell hmm seq b vs i j).DP_D =
      if 1 < j ∧ j < hmm.K then setCell vs.DP_D i j (cellD hmm vs i j) else vs.DP_D := by
  unfold dpCell
  simp only
  split
  · simp only [cellD]
    rw [setCell_ne _ _ _ _ _ _ (by omega)]
  · rfl

/-- A cell update leaves every other cell of the three layers as it was. -/
theorem dpCell_other (hmm : BandedHMMP7 α) (seq : PrimarySeq) (b : Bool)
    (vs : ViterbiScores α) (i j a c : Nat) (hi : 1 ≤ i) (h : ¬ (a = i ∧ c = j)) :
    (dpCell hmm seq b vs i j).DP_M a c = vs.DP_M a c
      ∧ (dpCell hmm seq b vs i j).DP_I a c = vs.DP_I a c
      ∧ (dpCell hmm seq b vs i j).DP_D a c = vs.DP_D a c := by
  rw [dpCell_DP_M, dpCell_DP_I _ _ _ _ _ _ hi, dpCell_DP_D]
  refine ⟨setCell_ne _ _ _ _ _ _ h, setCell_ne _ _ _ _ _ _ h, ?_⟩
  split
  · exact setCell_ne _ _ _ _ _ _ h
  · rfl

/-- The values read by the three recurrences at `(a, c)` are not touched by an update of a
cell `(i, j)` that is none of the cells read. -/
theorem cells_dpCell_other (hmm : BandedHMMP7 α) (seq : PrimarySeq) (b b' : Bool)
    (vs : ViterbiScores α) (i j a c : Nat) (hi : 1 ≤ i)
    (h0 : ¬ (a = i ∧ 0 = j)) (h1 : ¬ (a - 1 = i ∧ c - 1 = j))
    (h2 : ¬ (a - 1 = i ∧ c = j)) (h3 : ¬ (a = i ∧ c - 1 = j)) :
    cellM hmm seq b' (dpCell hmm seq b vs i j) a c = cellM hmm seq b' vs a c
      ∧ cellI hmm seq (dpCell hmm seq b vs i j) a c = cellI hmm seq vs a c
      ∧ cellD hmm (dpCell hmm seq b vs i j) a c = cellD hmm vs a c := by
  have r0 := dpCell_other hmm seq b vs i j a 0 hi h0
  have r1 := dpCell_other hmm seq b vs i j (a - 1) (c - 1) hi h1
  have r2 := dpCell_other hmm seq b vs i j (a - 1) c hi h2
  have r3 := dpCell_other hmm seq b vs i j a (c - 1) hi h3
  refine ⟨?_, ?_, ?_⟩
  · simp only [cellM, r0.1, r1.1, r1.2.1, r1.2.2]
  · simp only [cellI, r2.1, r2.2.1]
  · simp only [cellD, r3.1, r3.2.2]

end

section
variable {α : Type} [LinearOrderedAddCommMonoidWithTop α]

theorem LoopInv_step (hmm : BandedHMMP7 α) (seq : PrimarySeq) (L : Nat)
    (vs0 s : ViterbiScores α) (j0 n : Nat) (hj : 1 ≤ j0) (hn : 1 ≤ n) (hnL : n ≤ L)
    (inv : LoopInv hmm seq L vs0 j0 n s) :
    LoopInv hmm seq L vs0 j0 (n + 1) (dpCell hmm seq true s n j0) := by
  obtain ⟨hL, hS, hMI, hD, hR⟩ := inv
  refine ⟨?_, ?_, ?_, ?_, ?_⟩
  · rw [dpCell_L, hL]
  · rw [dpCell_S, hS]
  · intro a b hnd
    have hne : ¬ (a = n ∧ b = j0) := by
      rintro ⟨rfl, rfl⟩
      exact hnd ⟨hn, hnL, hj, Or.inr ⟨rfl, Nat.lt_succ_self _⟩⟩
    have hnd' : ¬ DoneBefore L j0 n a b := by
      rintro ⟨h1, h2, h3, h4⟩
      exact hnd ⟨h1, h2, h3, by omega⟩
    have o := dpCell_other hmm seq true s n j0 a b hn hne
    rw [o.1, o.2.1]
    exact hMI a b hnd'
  · intro a b hnd
    by_cases hne : a = n ∧ b = j0
    · obtain ⟨rfl, rfl⟩ := hne
      have hK : ¬ (1 < b ∧ b < hmm.K) := by
        intro h
        exact hnd ⟨⟨hn, hnL, hj, Or.inr ⟨rfl, Nat.lt_succ_self _⟩⟩, h⟩
      rw [dpCell_DP_D, if_neg hK]
      apply hD
      rintro ⟨_, h⟩
      exact hK h
    · have o := dpCell_other hmm seq true s n j0 a b hn hne
      rw [o.2.2]
      apply hD
      rintro ⟨⟨h1, h2, h3, h4⟩, h5⟩
      exact hnd ⟨⟨h1, h2, h3, by omega⟩, h5⟩
  · intro a b hd
    obtain ⟨h1, h2, h3, h4⟩ := hd
    have c := cells_dpCell_other hmm seq true true s n j0 a b hn (by omega) (by omega)
      (by omega) (by omega)
    by_cases hne : a = n ∧ b = j0
    · obtain ⟨rfl, rfl⟩ := hne
      refine ⟨?_, ?_, ?_⟩
      · rw [c.1, dpCell_DP_M, setCell_same]
      · rw [c.2.1, dpCell_DP_I _ _ _ _ _ _ hn, setCell_same]
      · intro hK
        rw [c.2.2, dpCell_DP_D, if_pos hK, setCell_same]
    · have o := dpCell_other hmm seq true s n j0 a b hn hne
      have r := hR a b ⟨h1, h2, h3, by omega⟩
      refine ⟨?_, ?_, ?_⟩
      · rw [c.1, o.1]; exact r.1
      · rw [c.2.1, o.2.1]; exact r.2.1
      · intro hK
        rw [c.2.2, o.2.2]; exact r.2.2 hK

theorem LoopInv_column (hmm : BandedHMMP7 α) (seq : PrimarySeq) (L : Nat)
    (vs0 s : ViterbiScores α) (j0 : Nat) (hj : 1 ≤ j0)
    (inv : LoopInv hmm seq L vs0 j0 1 s) :
    LoopInv hmm seq L vs0 (j0 + 1) 1
      (forLoop 1 L (fun vs i => dpCell hmm seq true vs i j0) s) := by
  have key := forLoop_induct 1 L (fun vs i => dpCell hmm seq true vs i j0) s
    (fun n s => LoopInv hmm seq L vs0 j0 n s) (by omega) inv
    (fun n s h1 h2 ih => LoopInv_step hmm seq L vs0 s j0 n hj h1 h2 ih)
  have e : ∀ a b, DoneBefore L (j0 + 1) 1 a b ↔ DoneBefore L j0 (L + 1) a b := by
    intro a b
    unfold DoneBefore
    constructor
    · rintro ⟨h1, h2, h3, h4⟩
      exact ⟨h1, h2, h3, by omega⟩
    · rintro ⟨h1, h2, h3, h4⟩
      exact ⟨h1, h2, h3, by omega⟩
  obtain ⟨hL, hS, hMI, hD, hR⟩ := key
  refine ⟨hL, hS, ?_, ?_, ?_⟩
  · intro a b h
    exact hMI a b (fun h' => h ((e a b).mpr h'))
  · intro a b h
    exact hD a b (fun h' => h ⟨(e a b).mpr h'.1, h'.2⟩)
  · intro a b h
    exact hR a b ((e a b).mp h)

theorem LoopInv_init (hmm : BandedHMMP7 α) (seq : PrimarySeq) (L : Nat)
    (vs0 : ViterbiScores α) : LoopInv hmm seq L vs0 1 1 vs0 := by
  refine ⟨rfl, rfl, fun _ _ _ => ⟨rfl, rfl⟩, fun _ _ _ => rfl, ?_⟩
  rintro a b ⟨h1, h2, h3, h4⟩
  omega

theorem LoopInv_fullLoops (hmm : BandedHMMP7 α) (seq : PrimarySeq) (L : Nat)
    (vs0 : ViterbiScores α) :
    LoopInv hmm seq L vs0 (hmm.K + 1) 1 (fullLoops hmm seq L vs0) := by
  unfold fullLoops
  exact forLoop_induct 1 hmm.K
    (fun vs j => forLoop 1 L (fun vs i => dpCell hmm seq true vs i j) vs) vs0
    (fun j0 s => LoopInv hmm seq L vs0 j0 1 s) (by omega) (LoopInv_init hmm seq L vs0)
    (fun j0 s h1 _ ih => LoopInv_column hmm seq L vs0 s j0 h1 ih)

/-- The tables after the full loops: the recurrences hold at every cell `1 ≤ i ≤ L`,
`1 ≤ j ≤ K`; every other cell, the cells of `DP_D` outside `1 < j < K`, `S` and `L` are as
before the loops. -/
theorem fullLoops_spec (hmm : BandedHMMP7 α) (seq : PrimarySeq) (L : Nat)
    (vs0 : ViterbiScores α) :
    (fullLoops hmm seq L vs0).L = vs0.L ∧ (fullLoops hmm seq L vs0).S = vs0.S
      ∧ (∀ a b, ¬ (1 ≤ a ∧ a ≤ L ∧ 1 ≤ b ∧ b ≤ hmm.K) →
          (fullLoops hmm seq L vs0).DP_M a b = vs0.DP_M a b
            ∧ (fullLoops hmm seq L vs0).DP_I a b = vs0.DP_I a b)
      ∧ (∀ a b, ¬ (1 ≤ a ∧ a ≤ L ∧ 1 < b ∧ b < hmm.K) →
          (fullLoops hmm seq L vs0).DP_D a b = vs0.DP_D a b)
      ∧ (∀ a b, 1 ≤ a → a ≤ L → 1 ≤ b → b ≤ hmm.K →
          RecAt hmm seq (fullLoops hmm seq L vs0) a b) := by
  obtain ⟨hL, hS, hMI, hD, hR⟩ := LoopInv_fullLoops hmm seq L vs0
  refine ⟨hL, hS, ?_, ?_, ?_⟩
  · intro a b h
    apply hMI
    rintro ⟨h1, h2, h3, h4⟩
    exact h ⟨h1, h2, h3, by omega⟩
  · intro a b h
    apply hD
    rintro ⟨⟨h1, h2, h3, h4⟩, h5, h6⟩
    exact h ⟨h1, h2, h5, h6⟩
  · intro a b h1 h2 h3 h4
    exact hR a b ⟨h1, h2, h3, by omega⟩

end

theorem setCol_loop {α : Type} (f : Nat → α) (vs : ViterbiScores α) (L : Nat) :
    forLoop 1 L (fun (vs : ViterbiScores α) i =>
      { vs with DP_M := setCell vs.DP_M i 0 (f i) }) vs
    = { vs with
        DP_M := fun i j => if j = 0 ∧ 1 ≤ i ∧ i ≤ L then f i else vs.DP_M i j } := by
  have key := forLoop_induct 1 L (fun (vs : ViterbiScores α) i =>
      { vs with DP_M := setCell vs.DP_M i 0 (f i) }) vs
    (fun n s => s = { vs with
        DP_M := fun i j => if j = 0 ∧ 1 ≤ i ∧ i < n then f i else vs.DP_M i j })
    (by omega)
    (by
      have : ∀ i j : Nat, ¬ (j = 0 ∧ 1 ≤ i ∧ i < 1) := by omega
      simp only [this, if_false])
    (by
      intro n s h1 _ ih
      subst ih
      simp only
      congr 1
      funext i j
      by_cases h : i = n ∧ j = 0
      · obtain ⟨rfl, rfl⟩ := h
        rw [setCell_same, if_pos ⟨rfl, h1, Nat.lt_succ_self _⟩]
      · rw [setCell_ne _ _ _ _ _ _ h]
        by_cases c : j = 0 ∧ 1 ≤ i ∧ i < n
        · rw [if_pos c, if_pos ⟨c.1, c.2.1, by omega⟩]
        · rw [if_neg c, if_neg (by omega)])
  rw [key]
  congr 1
  funext i j
  simp only [Nat.lt_succ_iff]

section
variable {α : Type} [LinearOrderedAddCommMonoidWithTop α]

theorem prepare_eq (hmm : BandedHMMP7 α) (vs : ViterbiScores α) :
    prepareViterbiScores hmm vs =
      { vs with
        DP_M := fun i j =>
          if j = 0 ∧ i ≤ vs.L then
            (if j = 0 ∧ 1 ≤ i ∧ i ≤ vs.L then nflank hmm i else setCell vs.DP_M 0 0 ⊤ i j)
              + hmm.T_SP_cost .N .B
          else (if j = 0 ∧ 1 ≤ i ∧ i ≤ vs.L then nflank hmm i else setCell vs.DP_M 0 0 ⊤ i j)
        DP_I := fun i j =>
          if j = 0 ∧ i ≤ vs.L then
            (if (0 : Nat) = 0 ∧ 1 ≤ i ∧ i ≤ vs.L then nflank hmm i
              else setCell vs.DP_M 0 0 ⊤ i 0) + hmm.T_SP_cost .N .B
          else setCell vs.DP_I 0 0 ⊤ i j
        DP_D := setCell vs.DP_D 0 0 ⊤ } := by
  unfold prepareViterbiScores
  simp only
  rw [setCol_loop (nflank hmm)]
  simp only [true_and, and_self, if_true]
  congr 1
  funext i j
  by_cases h : j = 0 ∧ i ≤ vs.L
  · simp only [h, and_self, if_true, true_and]
  · simp only [h, if_false]

theorem prepare_L (hmm : BandedHMMP7 α) (vs : ViterbiScores α) :
    (prepareViterbiScores hmm vs).L = vs.L := by
  rw [prepare_eq]

theorem prepare_S (hmm : BandedHMMP7 α) (vs : ViterbiScores α) :
    (prepareViterbiScores hmm vs).S = vs.S := by
  rw [prepare_eq]

/-- Column 0 after `prepareViterbiScores`: `DP_M(0,0) = inf` and
`DP_M(i,0) = (i-1)·T_SP_cost(N,N) + T_SP_cost(N,B)` with a zero first term for `i = 1`. -/
theorem prepare_DP_M (hmm : BandedHMMP7 α) (vs : ViterbiScores α) (i j : Nat) :
    (prepareViterbiScores hmm vs).DP_M i j =
      if j = 0 ∧ i ≤ vs.L then
        (if i = 0 then ⊤ else nflank hmm i + hmm.T_SP_cost .N .B)
      else vs.DP_M i j := by
  rw [prepare_eq]
  simp only
  by_cases h : j = 0 ∧ i ≤ vs.L
  · obtain ⟨rfl, hi⟩ := h
    by_cases h0 : i = 0
    · subst h0
      simp [setCell]
    · have h1 : 1 ≤ i := by omega
      simp [h0, h1, hi]
  · have h' : ¬ (j = 0 ∧ 1 ≤ i ∧ i ≤ vs.L) := by omega
    have h'' : ¬ (i = 0 ∧ j = 0) := by omega
    simp only [h, h', h'', if_false, setCell]

theorem prepare_DP_I (hmm : BandedHMMP7 α) (vs : ViterbiScores α) (i j : Nat) :
    (prepareViterbiScores hmm vs).DP_I i j =
      if j = 0 ∧ i ≤ vs.L then
        (if i = 0 then ⊤ else nflank hmm i + hmm.T_SP_cost .N .B)
      else vs.DP_I i j := by
  rw [prepare_eq]
  simp only
  by_cases h : j = 0 ∧ i ≤ vs.L
  · obtain ⟨rfl, hi⟩ := h
    by_cases h0 : i = 0
    · subst h0
      simp [setCell]
    · have h1 : 1 ≤ i := by omega
      simp [h0, h1, hi]
  · have h'' : ¬ (i = 0 ∧ j = 0) := by omega
    simp only [h, h'', if_false, setCell]

theorem prepare_DP_D (hmm : BandedHMMP7 α) (vs : ViterbiScores α) (i j : Nat) :
    (prepareViterbiScores hmm vs).DP_D i j =
      if i = 0 ∧ j = 0 then ⊤ else vs.DP_D i j := by
  rw [prepare_eq]
  simp only [setCell]

/-- The C-flank prior added to row `i` of `S`: `f i` for `1 ≤ i ≤ hi`, nothing for the
other rows. -/
theorem cflank_loop (f : Nat → α) (K hi : Nat) (S : Nat → Nat → α) :
    forLoop 1 hi (fun (S : Nat → Nat → α) i => fun i' j =>
      if i' = i ∧ j ≤ K + 1 then S i' j + f i else S i' j) S
    = fun i' j => if (1 ≤ i' ∧ i' ≤ hi) ∧ j ≤ K + 1 then S i' j + f i'
        else S i' j := by
  have key := forLoop_induct 1 hi (fun (S : Nat → Nat → α) i => fun i' j =>
      if i' = i ∧ j ≤ K + 1 then S i' j + f i else S i' j) S
    (fun n s => s = fun i' j => if (1 ≤ i' ∧ i' < n) ∧ j ≤ K + 1 then S i' j + f i'
        else S i' j)
    (by omega)
    (by
      funext i' j
      have : ¬ ((1 ≤ i' ∧ i' < 1) ∧ j ≤ K + 1) := by omega
      rw [if_neg this])
    (by
      intro n s h1 _ ih
      subst ih
      funext i' j
      beta_reduce
      by_cases h : i' = n
      · subst h
        split_ifs <;> first | rfl | (exfalso; omega)
      · split_ifs <;> first | rfl | (exfalso; omega))
  rw [key]
  funext i' j
  simp only [Nat.lt_succ_iff]

/-- The C-flank prior of row `i` of `S`: `(L-i)·T_SP_cost(C,C)` for `1 ≤ i ≤ L-1`, nothing
for rows `0` and `L`. -/
theorem scoreLayer_S (hmm : BandedHMMP7 α) (vs : ViterbiScores α) (i j : Nat) :
    (scoreLayer hmm vs).S i j =
      if i ≤ vs.L ∧ j ≤ hmm.K then
        vs.DP_M i j + hmm.exitPr_cost j + hmm.T_SP_cost .E .C
          + (if 1 ≤ i ∧ i ≤ vs.L - 1 then (vs.L - i) • hmm.T_SP_cost .C .C else 0)
      else if i ≤ vs.L ∧ j = hmm.K + 1 then
        vs.DP_I i hmm.K + hmm.Tmat_cost hmm.K .I .M + hmm.T_SP_cost .E .C
          + (if 1 ≤ i ∧ i ≤ vs.L - 1 then (vs.L - i) • hmm.T_SP_cost .C .C else 0)
      else vs.S i j := by
  unfold scoreLayer
  simp only [cflank_loop (fun i => (vs.L - i) • hmm.T_SP_cost .C .C)]
  split_ifs <;> first | rfl | (exfalso; omega) | rw [add_zero]

theorem scoreLayer_tables (hmm : BandedHMMP7 α) (vs : ViterbiScores α) :
    (scoreLayer hmm vs).L = vs.L ∧ (scoreLayer hmm vs).DP_M = vs.DP_M
      ∧ (scoreLayer hmm vs).DP_I = vs.DP_I ∧ (scoreLayer hmm vs).DP_D = vs.DP_D :=
  ⟨rfl, rfl, rfl, rfl⟩

end

section
variable {α : Type} [LinearOrderedAddCommMonoidWithTop α]

theorem forLoop_single {σ : Type} (k : Nat) (body : σ → Nat → σ) (init : σ) :
    forLoop k k body init = body init k := by
  rw [forLoop_first k k body init (le_refl _), forLoop_empty _ _ _ _ (le_refl _)]

theorem bandLoops_single (hmm : BandedHMMP7 α) (seq : PrimarySeq) (b : Bool)
    (i j : Nat) (vs : ViterbiScores α) :
    bandLoops hmm seq b (fun _ _ => true) j (j : Int) i (i : Int) vs = dpCell hmm seq b vs i j := by
  unfold bandLoops
  simp only [le_refl, and_self, if_true, Int.toNat_ofNat, forLoop_single]

theorem bandLoops_whole (hmm : BandedHMMP7 α) (seq : PrimarySeq)
    (keep : Nat → Nat → Bool) (L : Nat) (vs : ViterbiScores α)
    (hK : 1 ≤ hmm.K) (hL : 1 ≤ L)
    (hkeep : ∀ i j, 1 ≤ i → i ≤ L → 1 ≤ j → j ≤ hmm.K → keep i j = true) :
    bandLoops hmm seq true keep 1 (hmm.K : Int) 1 (L : Int) vs = fullLoops hmm seq L vs := by
  unfold bandLoops fullLoops
  have c : ((1 : Nat) : Int) ≤ (hmm.K : Int) ∧ ((1 : Nat) : Int) ≤ (L : Int) := by
    constructor <;> exact_mod_cast (by assumption)
  rw [if_pos c]
  simp only [Int.toNat_ofNat]
  apply forLoop_congr
  intro j s hj1 hj2
  apply forLoop_congr
  intro i s' hi1 hi2
  rw [hkeep i j hi1 hi2 hj1 hj2]
  rfl

/-- Updating cell `(1, 1)` twice is the same as updating it once. -/
theorem dpCell_idem (hmm : BandedHMMP7 α) (seq : PrimarySeq) (vs : ViterbiScores α) :
    dpCell hmm seq true (dpCell hmm seq true vs 1 1) 1 1 = dpCell hmm seq true vs 1 1 := by
  have c := cells_dpCell_other hmm seq true true vs 1 1 1 1 (le_refl _) (by omega) (by omega)
    (by omega) (by omega)
  have hM : (dpCell hmm seq true (dpCell hmm seq true vs 1 1) 1 1).DP_M
      = (dpCell hmm seq true vs 1 1).DP_M := by
    rw [dpCell_DP_M, c.1, dpCell_DP_M]
    funext a b
    simp only [setCell]
    split <;> rfl
  have hI : (dpCell hmm seq true (dpCell hmm seq true vs 1 1) 1 1).DP_I
      = (dpCell hmm seq true vs 1 1).DP_I := by
    rw [dpCell_DP_I _ _ _ _ _ _ (le_refl _), c.2.1, dpCell_DP_I _ _ _ _ _ _ (le_refl _)]
    funext a b
    simp only [setCell]
    split <;> rfl
  have hD : (dpCell hmm seq true (dpCell hmm seq true vs 1 1) 1 1).DP_D
      = (dpCell hmm seq true vs 1 1).DP_D := by
    rw [dpCell_DP_D, if_neg (by omega)]
  have hL := dpCell_L hmm seq true (dpCell hmm seq true vs 1 1) 1 1
  have hS := dpCell_S hmm seq true (dpCell hmm seq true vs 1 1) 1 1
  cases h1 : dpCell hmm seq true (dpCell hmm seq true vs 1 1) 1 1
  cases h2 : dpCell hmm seq true vs 1 1
  rw [h1, h2] at hM hI hD hL hS
  simp only at hM hI hD hL hS
  subst hM hI hD hL hS
  rfl

/-- The upstream band of a path that starts at `(1, 1)` is cell `(1, 1)`, which the full
loops compute first: running it beforehand changes nothing. -/
theorem fullLoops_absorb (hmm : BandedHMMP7 α) (seq : PrimarySeq) (L : Nat)
    (vs : ViterbiScores α) (hK : 1 ≤ hmm.K) (hL : 1 ≤ L) :
    fullLoops hmm seq L (dpCell hmm seq true vs 1 1) = fullLoops hmm seq L vs := by
  unfold fullLoops
  rw [forLoop_first 1 hmm.K _ _ hK, forLoop_first 1 hmm.K _ vs hK]
  congr 1
  rw [forLoop_first 1 L _ _ hL, forLoop_first 1 L _ vs hL]
  congr 1
  exact dpCell_idem hmm seq vs

theorem truncGap_zero (a : Int) : truncGap a 0 = a := by
  unfold truncGap
  simp

end

section
variable {α : Type} [LinearOrderedAddCommMonoidWithTop α]

/-- The banded programme on a single known path that covers the whole grid: the full loops
followed by the downstream band, which is the one cell `(L, K)` recomputed without the entry
from `B`. -/
theorem banded_whole_eq (hmm : BandedHMMP7 α) (seq : PrimarySeq) (vs : ViterbiScores α)
    (nIns nDel : Nat)
    (hlen : seq.length = vs.L) (hw : hmm.wingRetracted = true)
    (hK : 1 ≤ hmm.K) (hL : 1 ≤ vs.L) (hIns : vs.L ≤ nIns) (hDel : hmm.K ≤ nDel) :
    calcViterbiScoresBanded hmm seq vs [⟨1, hmm.K, 1, vs.L, nIns, nDel⟩] =
      some (scoreLayer hmm (dpCell hmm seq false
        (fullLoops hmm seq vs.L (prepareViterbiScores hmm vs)) vs.L hmm.K)) := by
  unfold calcViterbiScoresBanded
  rw [if_pos ⟨hlen, hw⟩]
  simp only [List.getLast?_singleton, List.foldl_cons, List.foldl_nil, pathStep]
  have e1 : ((1 : Nat) : Int) - 1 = 0 := by simp
  simp only [e1, lt_irrefl, if_false, neg_zero, truncGap_zero, sub_self]
  have e2 : ¬ (((1 : Nat) : Int) < 1) := by simp
  have e3 : ¬ ((hmm.K : Int) > (hmm.K : Int)) := by simp
  have e4 : ¬ ((vs.L : Int) > (vs.L : Int)) := by simp
  simp only [e2, e3, e4, if_false, Int.toNat_ofNat]
  rw [bandLoops_single, bandLoops_single]
  rw [← prepare_L hmm vs]
  rw [bandLoops_whole hmm seq _ _ _ hK (by rw [prepare_L]; exact hL)]
  · rw [fullLoops_absorb hmm seq _ _ hK (by rw [prepare_L]; exact hL)]
  · intro i j hi1 hi2 hj1 hj2
    rw [prepare_L] at hi2
    simp only [diagnalDist, decide_eq_true_eq]
    constructor <;> push_cast <;> omega

end

/-! ### Viterbi optimality and band correctness -/

/-- C1 fails on the code: for the one-position profile `hmmOneMatch` and the query `AA`, the
smallest entry of `S` after the full `calcViterbiScores` on fresh buffers is `2`, while every
admissible state path costs at least `3`.  `DP_M(2,1)` takes its minimum from
`DP_M(1,0) + Tmat_cost[0](M,M)`, the `B` state one row up, so residue `1` is emitted by no
state and one `N→N` loop is not paid. -/
theorem viterbi_min_below_every_path :
    ((calcViterbiScores hmmOneMatch seqAA (ViterbiScores.fresh 2)).map
        fun vs => (minCoeff vs.S (2 + 1) (1 + 2)).1) = some 2
      ∧ ∀ p : StatePath, p.admissible 1 2 = true → 3 ≤ p.cost hmmOneMatch seqAA 2 := by
  constructor
  · decide
  · intro p hp
    obtain ⟨i0, j0, moves⟩ := p
    simp only [StatePath.admissible, Bool.and_eq_true, decide_eq_true_eq] at hp
    obtain ⟨⟨h1, h2, h3, h4⟩, ht⟩ := hp
    have hj : j0 = 1 := by omega
    subst hj
    cases moves with
    | nil =>
      have hi : i0 = 1 ∨ i0 = 2 := by omega
      rcases hi with rfl | rfl <;> decide
    | cons m rest =>
      cases m with
      | M => simp [tailAdmissible] at ht
      | D => simp [tailAdmissible] at ht
      | I => simp [StatePath.cost, tailCost, hmmOneMatch]

/-- C3 fails as stated: for the one-position profile `hmmOneMatch` and the query `A`, the full
programme leaves `DP_M(1,1) = 2` (entry from `B`), the banded programme with the single known
path `(start, end, from, to, nIns, nDel) = (1, 1, 1, 1, 1, 1)` leaves `DP_M(1,1) = inf`. -/
theorem banded_whole_grid_counterexample :
    ((calcViterbiScores hmmOneMatch seqA (ViterbiScores.fresh 1)).map
        fun vs => vs.DP_M 1 1) = some 2
      ∧ ((calcViterbiScoresBanded hmmOneMatch seqA (ViterbiScores.fresh 1)
          [⟨1, 1, 1, 1, 1, 1⟩]).map fun vs => vs.DP_M 1 1) = some ⊤ := by
  constructor <;> decide

section
variable {α : Type} [LinearOrderedAddCommMonoidWithTop α]

/-- C3, amended: for every HMM with `K ≥ 1` and every query of length `L ≥ 1`, the banded
`calcViterbiScores` with a single known path covering the whole grid (`start = 1`,
`end = K`, `from = 1`, `to = L`, `nIns ≥ L`, `nDel ≥ K`) fills `DP_I` and `DP_D` with exactly
the values of the full `calcViterbiScores`, and `DP_M` and `S` with the same value in every
cell other than `(L, K)`; there the downstream band recomputes `DP_M(L,K)` without the entry
from `B`, as `E_M_cost(x_L, K)` plus the minimum over the three predecessors at
`(L-1, K-1)`, and `S(L,K) = DP_M(L,K) + exitPr_cost(K) + T_SP_cost(E,C)`. -/
theorem banded_whole_grid (hmm : BandedHMMP7 α) (seq : PrimarySeq) (vs : ViterbiScores α)
    (vp : VPath) (hlen : seq.length = vs.L) (hw : hmm.wingRetracted = true)
    (hK : 1 ≤ hmm.K) (hL : 1 ≤ vs.L)
    (hs : vp.start = 1) (he : vp.end_ = hmm.K) (hf : vp.from_ = 1) (ht : vp.to_ = vs.L)
    (hIns : vs.L ≤ vp.nIns) (hDel : hmm.K ≤ vp.nDel) :
    ∃ full banded, calcViterbiScores hmm seq vs = some full
      ∧ calcViterbiScoresBanded hmm seq vs [vp] = some banded
      ∧ banded.DP_I = full.DP_I ∧ banded.DP_D = full.DP_D
      ∧ (∀ i j, ¬ (i = vs.L ∧ j = hmm.K) →
          banded.DP_M i j = full.DP_M i j ∧ banded.S i j = full.S i j)
      ∧ banded.DP_M vs.L hmm.K = cellM hmm seq false full vs.L hmm.K
      ∧ banded.S vs.L hmm.K =
          banded.DP_M vs.L hmm.K + hmm.exitPr_cost hmm.K + hmm.T_SP_cost .E .C := by
  obtain ⟨start, end_, from_, to_, nIns, nDel⟩ := vp
  simp only at hs he hf ht hIns hDel
  subst hs he hf ht
  have hF := fullLoops_spec hmm seq vs.L (prepareViterbiScores hmm vs)
  obtain ⟨hFL, -, -, -, hFR⟩ := hF
  rw [prepare_L] at hFL
  have hR := hFR vs.L hmm.K hL (le_refl _) hK (le_refl _)
  have hI : (dpCell hmm seq false
      (fullLoops hmm seq vs.L (prepareViterbiScores hmm vs)) vs.L hmm.K).DP_I
      = (fullLoops hmm seq vs.L (prepareViterbiScores hmm vs)).DP_I := by
    rw [dpCell_DP_I _ _ _ _ _ _ hL]
    funext a b
    by_cases h : a = vs.L ∧ b = hmm.K
    · obtain ⟨rfl, rfl⟩ := h
      rw [setCell_same]
      exact hR.2.1.symm
    · exact setCell_ne _ _ _ _ _ _ h
  have hD : (dpCell hmm seq false
      (fullLoops hmm seq vs.L (prepareViterbiScores hmm vs)) vs.L hmm.K).DP_D
      = (fullLoops hmm seq vs.L (prepareViterbiScores hmm vs)).DP_D := by
    rw [dpCell_DP_D, if_neg (by omega)]
  refine ⟨scoreLayer hmm (fullLoops hmm seq vs.L (prepareViterbiScores hmm vs)),
    scoreLayer hmm (dpCell hmm seq false
      (fullLoops hmm seq vs.L (prepareViterbiScores hmm vs)) vs.L hmm.K), ?_, ?_, ?_, ?_, ?_, ?_, ?_⟩
  · unfold calcViterbiScores
    rw [if_pos ⟨hlen, hw⟩]
  · exact banded_whole_eq hmm seq vs nIns nDel hlen hw hK hL hIns hDel
  · exact hI
  · exact hD
  · intro i j hne
    have hM : (dpCell hmm seq false
        (fullLoops hmm seq vs.L (prepareViterbiScores hmm vs)) vs.L hmm.K).DP_M i j
        = (fullLoops hmm seq vs.L (prepareViterbiScores hmm vs)).DP_M i j := by
      rw [dpCell_DP_M]
      exact setCell_ne _ _ _ _ _ _ hne
    refine ⟨hM, ?_⟩
    rw [scoreLayer_S, scoreLayer_S, dpCell_L, hM, hI, dpCell_S]
  · show (dpCell hmm seq false _ vs.L hmm.K).DP_M vs.L hmm.K = _
    rw [dpCell_DP_M, setCell_same]
    rfl
  · rw [scoreLayer_S, dpCell_L, hFL, if_pos ⟨le_refl _, le_refl _⟩, if_neg (by omega), add_zero]
    rfl

end

theorem banded_whole_grid_witness :
    ∃ full banded, calcViterbiScores hmmOneMatch seqA (ViterbiScores.fresh 1) = some full
      ∧ calcViterbiScoresBanded hmmOneMatch seqA (ViterbiScores.fresh 1)
          [⟨1, 1, 1, 1, 1, 1⟩] = some banded
      ∧ banded.DP_I = full.DP_I ∧ banded.DP_D = full.DP_D
      ∧ (∀ i j, ¬ (i = (ViterbiScores.fresh 1 : ViterbiScores ℕ∞).L ∧ j = hmmOneMatch.K) →
          banded.DP_M i j = full.DP_M i j ∧ banded.S i j = full.S i j)
      ∧ banded.DP_M (ViterbiScores.fresh 1 : ViterbiScores ℕ∞).L hmmOneMatch.K
          = cellM hmmOneMatch seqA false full (ViterbiScores.fresh 1 : ViterbiScores ℕ∞).L
              hmmOneMatch.K
      ∧ banded.S (ViterbiScores.fresh 1 : ViterbiScores ℕ∞).L hmmOneMatch.K =
          banded.DP_M (ViterbiScores.fresh 1 : ViterbiScores ℕ∞).L hmmOneMatch.K
            + hmmOneMatch.exitPr_cost hmmOneMatch.K + hmmOneMatch.T_SP_cost .E .C :=
  banded_whole_grid hmmOneMatch seqA (ViterbiScores.fresh 1) ⟨1, 1, 1, 1, 1, 1⟩
    rfl rfl (by decide) (by decide) rfl rfl rfl rfl (by decide) (by decide)

section
variable {α : Type} [LinearOrderedAddCommMonoidWithTop α]

/-- `minCoeff` returns a position inside the matrix and the coefficient at that position. -/
theorem minCoeff_pos {β : Type} [LinearOrder β] (S : Nat → Nat → β) (rows cols : Nat) :
    (minCoeff S rows cols).1 = S (minCoeff S rows cols).2.1 (minCoeff S rows cols).2.2
      ∧ (minCoeff S rows cols).2.1 ≤ rows - 1 ∧ (minCoeff S rows cols).2.2 ≤ cols - 1 := by
  unfold minCoeff
  have inner : ∀ (j : Nat) (acc : β × Nat × Nat), j ≤ cols - 1 →
      (acc.1 = S acc.2.1 acc.2.2 ∧ acc.2.1 ≤ rows - 1 ∧ acc.2.2 ≤ cols - 1) →
      ((forLoop 0 (rows - 1) (fun (acc : β × Nat × Nat) i =>
          if S i j < acc.1 then (S i j, i, j) else acc) acc).1
        = S (forLoop 0 (rows - 1) (fun (acc : β × Nat × Nat) i =>
          if S i j < acc.1 then (S i j, i, j) else acc) acc).2.1
            (forLoop 0 (rows - 1) (fun (acc : β × Nat × Nat) i =>
          if S i j < acc.1 then (S i j, i, j) else acc) acc).2.2
        ∧ (forLoop 0 (rows - 1) (fun (acc : β × Nat × Nat) i =>
          if S i j < acc.1 then (S i j, i, j) else acc) acc).2.1 ≤ rows - 1
        ∧ (forLoop 0 (rows - 1) (fun (acc : β × Nat × Nat) i =>
          if S i j < acc.1 then (S i j, i, j) else acc) acc).2.2 ≤ cols - 1) := by
    intro j acc hj hacc
    exact forLoop_induct 0 (rows - 1) _ acc
      (fun _ a => a.1 = S a.2.1 a.2.2 ∧ a.2.1 ≤ rows - 1 ∧ a.2.2 ≤ cols - 1)
      (Nat.zero_le _) hacc
      (by
        intro k a _ hk ih
        split
        · exact ⟨rfl, hk, hj⟩
        · exact ih)
  exact forLoop_induct 0 (cols - 1) _ (S 0 0, 0, 0)
    (fun _ a => a.1 = S a.2.1 a.2.2 ∧ a.2.1 ≤ rows - 1 ∧ a.2.2 ≤ cols - 1)
    (Nat.zero_le _) ⟨rfl, Nat.zero_le _, Nat.zero_le _⟩
    (fun j a _ hj ih => inner j a hj ih)

theorem calc_eq (hmm : BandedHMMP7 α) (seq : PrimarySeq) (vs0 vs : ViterbiScores α)
    (h : calcViterbiScores hmm seq vs0 = some vs) :
    vs = scoreLayer hmm (fullLoops hmm seq vs0.L (prepareViterbiScores hmm vs0))
      ∧ seq.length = vs0.L ∧ hmm.wingRetracted = true := by
  unfold calcViterbiScores at h
  split at h
  · rename_i hc
    simp only [Option.some.injEq] at h
    exact ⟨h.symm, hc.1, hc.2⟩
  · exact absurd h (by simp)

/-- The tables returned by the full `calcViterbiScores` on fresh buffers. -/
theorem calc_fresh_spec (hmm : BandedHMMP7 α) (seq : PrimarySeq) (vs : ViterbiScores α)
    (h : calcViterbiScores hmm seq (ViterbiScores.fresh seq.length) = some vs) :
    vs.L = seq.length
      ∧ (∀ j, vs.DP_M 0 j = ⊤ ∧ vs.DP_I 0 j = ⊤)
      ∧ (∀ i j, ¬ (1 < j ∧ j < hmm.K) → vs.DP_D i j = ⊤)
      ∧ (∀ i j, 1 ≤ i → i ≤ seq.length → 1 ≤ j → j ≤ hmm.K → RecAt hmm seq vs i j)
      ∧ (∀ i j, vs.S i j =
          if i ≤ seq.length ∧ j ≤ hmm.K then
            vs.DP_M i j + hmm.exitPr_cost j + hmm.T_SP_cost .E .C
              + (if 1 ≤ i ∧ i ≤ seq.length - 1 then
                  (seq.length - i) • hmm.T_SP_cost .C .C else 0)
          else if i ≤ seq.length ∧ j = hmm.K + 1 then
            vs.DP_I i hmm.K + hmm.Tmat_cost hmm.K .I .M + hmm.T_SP_cost .E .C
              + (if 1 ≤ i ∧ i ≤ seq.length - 1 then
                  (seq.length - i) • hmm.T_SP_cost .C .C else 0)
          else ⊤) := by
  obtain ⟨rfl, -, -⟩ := calc_eq hmm seq _ _ h
  have e : (ViterbiScores.fresh seq.length : ViterbiScores α).L = seq.length := rfl
  rw [e]
  have hF := fullLoops_spec hmm seq seq.length
    (prepareViterbiScores hmm (ViterbiScores.fresh seq.length))
  obtain ⟨hFL, hFS, hFMI, hFD, hFR⟩ := hF
  rw [prepare_L, e] at hFL
  rw [prepare_S] at hFS
  generalize fullLoops hmm seq seq.length
    (prepareViterbiScores hmm (ViterbiScores.fresh seq.length)) = F at *
  refine ⟨hFL, ?_, ?_, ?_, ?_⟩
  · intro j
    have := hFMI 0 j (by omega)
    show F.DP_M 0 j = ⊤ ∧ F.DP_I 0 j = ⊤
    rw [this.1, this.2, prepare_DP_M, prepare_DP_I]
    constructor <;> (split <;> rfl)
  · intro i j hj
    show F.DP_D i j = ⊤
    rw [hFD i j (by omega), prepare_DP_D]
    split <;> rfl
  · intro i j h1 h2 h3 h4
    exact hFR i j h1 h2 h3 h4
  · intro i j
    rw [scoreLayer_S, hFL, hFS]
    rfl

end

section
variable {α : Type} [LinearOrderedAddCommMonoidWithTop α]

theorem lt_top_of_add_lt_top_left {a b : α} (h : a + b < ⊤) : a < ⊤ := by
  rcases eq_or_ne a ⊤ with rfl | h'
  · rw [top_add] at h
    exact absurd h (lt_irrefl _)
  · exact lt_top_iff_ne_top.mpr h'

theorem lt_top_of_add_lt_top_right {a b : α} (h : a + b < ⊤) : b < ⊤ := by
  rcases eq_or_ne b ⊤ with rfl | h'
  · rw [add_top] at h
    exact absurd h (lt_irrefl _)
  · exact lt_top_iff_ne_top.mpr h'

/-- The label returned by the four-way `whichMin` names a candidate that attains the
minimum. -/
theorem whichMin4_spec (a b c d : α) :
    (whichMin4 a b c d = 'B' ∧ min4 a b c d = a)
      ∨ (whichMin4 a b c d = 'M' ∧ min4 a b c d = b)
      ∨ (whichMin4 a b c d = 'I' ∧ min4 a b c d = c)
      ∨ (whichMin4 a b c d = 'D' ∧ min4 a b c d = d) := by
  unfold whichMin4 min4
  by_cases h1 : a ≤ b ∧ a ≤ c ∧ a ≤ d
  · left
    rw [if_pos h1]
    refine ⟨rfl, ?_⟩
    rw [min_eq_left]
    exact le_min h1.1 (le_min h1.2.1 h1.2.2)
  · rw [if_neg h1]
    by_cases h2 : b ≤ c ∧ b ≤ d
    · right; left
      rw [if_pos h2]
      refine ⟨rfl, ?_⟩
      have hba : b ≤ a := by
        by_contra hn
        push_neg at hn
        exact h1 ⟨le_of_lt hn, le_trans (le_of_lt hn) h2.1, le_trans (le_of_lt hn) h2.2⟩
      rw [min_eq_right (le_trans (min_le_left _ _) hba)]
      exact min_eq_left (le_min h2.1 h2.2)
    · rw [if_neg h2]
      by_cases h3 : c ≤ d
      · right; right; left
        rw [if_pos h3]
        refine ⟨rfl, ?_⟩
        have hcb : c ≤ b := by
          by_contra hn
          push_neg at hn
          exact h2 ⟨le_of_lt hn, le_trans (le_of_lt hn) h3⟩
        have hca : c ≤ a := by
          by_contra hn
          push_neg at hn
          exact h1 ⟨le_trans (le_of_lt hn) hcb, le_of_lt hn, le_trans (le_of_lt hn) h3⟩
        rw [min_eq_left h3, min_eq_right hcb, min_eq_right hca]
      · right; right; right
        rw [if_neg h3]
        refine ⟨rfl, ?_⟩
        push_neg at h3
        have hdb : d ≤ b := by
          by_contra hn
          push_neg at hn
          exact h2 ⟨le_trans (le_of_lt hn) (le_of_lt h3), le_of_lt hn⟩
        have hda : d ≤ a := by
          by_contra hn
          push_neg at hn
          exact h1 ⟨le_trans (le_of_lt hn) hdb, le_trans (le_of_lt hn) (le_of_lt h3),
            le_of_lt hn⟩
        rw [min_eq_right (le_of_lt h3), min_eq_right hdb, min_eq_right hda]

theorem whichMin2_spec (a b : α) (c1 c2 : Char) :
    (whichMin2 a b c1 c2 = c1 ∧ min a b = a) ∨ (whichMin2 a b c1 c2 = c2 ∧ min a b = b ∧ b < a) := by
  unfold whichMin2
  by_cases h : a ≤ b
  · left
    rw [if_pos h]
    exact ⟨rfl, min_eq_left h⟩
  · right
    rw [if_neg h]
    push_neg at h
    exact ⟨rfl, min_eq_right (le_of_lt h), h⟩

end

theorem NoID_cons (a : Char) (Y : List Char) :
    NoID (a :: Y) ↔ ((Y.head? = some 'D' → a ≠ 'I') ∧ NoID Y) := by
  cases Y with
  | nil => simp [NoID]
  | cons b rest =>
    simp only [NoID, List.head?_cons, Option.some.injEq]
    constructor
    · rintro ⟨h1, h2⟩
      exact ⟨fun hb ha => h1 ⟨ha, hb⟩, h2⟩
    · rintro ⟨h1, h2⟩
      exact ⟨fun ⟨ha, hb⟩ => h1 hb ha, h2⟩

theorem countMD_cons (c : Char) (Y : List Char) :
    countMD (c :: Y) = countMD Y + (if c = 'M' ∨ c = 'D' then 1 else 0) := by
  unfold countMD
  by_cases h : c = 'M' ∨ c = 'D'
  · rw [List.filter_cons_of_pos (by simpa using h), if_pos h]
    rfl
  · rw [List.filter_cons_of_neg (by simpa using h), if_neg h]
    rfl

theorem countMI_cons (c : Char) (Y : List Char) :
    countMI (c :: Y) = countMI Y + (if c = 'M' ∨ c = 'I' then 1 else 0) := by
  unfold countMI
  by_cases h : c = 'M' ∨ c = 'I'
  · rw [List.filter_cons_of_pos (by simpa using h), if_pos h]
    rfl
  · rw [List.filter_cons_of_neg (by simpa using h), if_neg h]
    rfl

theorem StartsAtM_cons_M (Y : List Char) (j : Nat) : StartsAtM ('M' :: Y) j :=
  ⟨0, Y, rfl, fun h => absurd h (lt_irrefl _)⟩

theorem StartsAtM_cons_I (Y : List Char) (j : Nat) (h : StartsAtM Y j) :
    StartsAtM ('I' :: Y) 0 := by
  obtain ⟨a, rest, rfl, _⟩ := h
  exact ⟨a + 1, rest, rfl, fun _ => rfl⟩

section
variable {α : Type} [LinearOrderedAddCommMonoidWithTop α]

/-- One more state pushed: the invariant on entry to the next iteration, given what is known
about the next state `s'` at `(i', j')`. -/
theorem TraceInv_push (hmm : BandedHMMP7 α) (vs : ViterbiScores α) (alnEnd alnTo : Nat)
    (s s' : Char) (i j i' j' : Nat) (Y : List Char)
    (inv : TraceInv hmm vs alnEnd alnTo s i j Y)
    (hs : s = 'M' ∨ s = 'I' ∨ s = 'D')
    (hj : j' + (if s = 'M' ∨ s = 'D' then 1 else 0) = j)
    (hi : i' + (if s = 'M' ∨ s = 'I' then 1 else 0) = i)
    (hD : s = 'D' → s' ≠ 'I')
    (hs' : s' = 'M' ∨ s' = 'I' ∨ s' = 'D' ∨ s' = 'B')
    (hC : (i' = 0 ∨ s' = 'B' ∨ (s' = 'I' ∧ j' = 0)) → StartsAtM (s :: Y) j')
    (hF : 1 ≤ i' →
        (s' = 'M' → 1 ≤ j' ∧ vs.DP_M i' j' < ⊤)
          ∧ (s' = 'I' → 1 ≤ j' → vs.DP_I i' j' < ⊤)
          ∧ (s' = 'D' → vs.DP_D i' j' < ⊤)) :
    TraceInv hmm vs alnEnd alnTo s' i' j' (s :: Y) := by
  obtain ⟨h1, h2, h3, h4, h5, h6, h7, h8, h9, h10⟩ := inv
  refine ⟨?_, ?_, ?_, ?_, ?_, hs', hC, hF, by omega, by omega⟩
  · intro c hc
    rcases List.mem_cons.mp hc with rfl | hc
    · exact hs
    · exact h1 c hc
  · rw [NoID_cons]
    exact ⟨h3, h2⟩
  · intro hh
    simp only [List.head?_cons, Option.some.injEq] at hh
    exact hD hh
  · rw [countMD_cons]
    omega
  · rw [countMI_cons]
    omega

end

section
variable {α : Type} [LinearOrderedAddCommMonoidWithTop α]

/-- The traceback loop returns, and the states it pushed have the shape that the
reconstruction relies on. -/
theorem traceLoop_spec (hmm : BandedHMMP7 α) (vs : ViterbiScores α)
    (alnEnd alnTo : Nat) (hT : TablesOK hmm vs) :
    ∀ (fuel : Nat) (s : Char) (i j : Nat) (Y : List Char),
      TraceInv hmm vs alnEnd alnTo s i j Y → i + j + 1 ≤ fuel →
      ∃ i' j' Y', ∃ b : Bool,
        traceLoop hmm vs fuel s i j ('E' :: Y.reverse)
          = some (i', j', 'E' :: (Y'.reverse ++ (if b then ['B'] else [])))
        ∧ (∀ c ∈ Y', c = 'M' ∨ c = 'I' ∨ c = 'D') ∧ NoID Y'
        ∧ countMD Y' + j' = alnEnd ∧ countMI Y' + i' = alnTo
        ∧ StartsAtM Y' j' ∧ j' ≤ hmm.K ∧ i' ≤ vs.L := by
  intro fuel
  induction fuel with
  | zero => intro s i j Y _ h; omega
  | succ n ih =>
    intro s i j Y inv hfuel
    have inv' := inv
    obtain ⟨h1, h2, h3, h4, h5, h6, h7, h8, h9, h10⟩ := inv'
    have eTrace : ∀ t : Char, ('E' :: Y.reverse) ++ [t] = 'E' :: (t :: Y).reverse := by
      intro t; simp
    by_cases hi : i ≥ 1
    · rcases h6 with rfl | rfl | rfl | rfl
      · -- s = 'M'
        obtain ⟨hj1, hfin⟩ := (h8 hi).1 rfl
        have hmin := (hT.2.2 i j hi h10 hj1 h9).1 hfin
        simp only [traceLoop, hi, if_true]
        rw [if_neg (by omega), eTrace]
        apply ih _ (i - 1) (j - 1) ('M' :: Y) _ (by omega)
        apply TraceInv_push hmm vs alnEnd alnTo 'M' _ i j (i - 1) (j - 1) Y inv (Or.inl rfl)
        · simp; omega
        · simp; omega
        · intro h; exact absurd h (by decide)
        · by_cases hj2 : j > 1
          · rw [if_pos hj2]
            rcases whichMin4_spec (vs.DP_M i 0 + hmm.entryPr_cost j)
              (vs.DP_M (i - 1) (j - 1) + hmm.Tmat_cost (j - 1) .M .M)
              (vs.DP_I (i - 1) (j - 1) + hmm.Tmat_cost (j - 1) .I .M)
              (vs.DP_D (i - 1) (j - 1) + hmm.Tmat_cost (j - 1) .D .M) with h | h | h | h <;>
              simp [h.1]
          · rw [if_neg hj2]
            rcases whichMin2_spec (vs.DP_M i 0 + hmm.entryPr_cost j)
              (vs.DP_I (i - 1) (j - 1) + hmm.Tmat_cost (j - 1) .I .M) 'B' 'I' with h | h <;>
              simp [h.1]
        · intro _; exact StartsAtM_cons_M _ _
        · intro hi'
          by_cases hj2 : j > 1
          · rw [if_pos hj2]
            rcases whichMin4_spec (vs.DP_M i 0 + hmm.entryPr_cost j)
              (vs.DP_M (i - 1) (j - 1) + hmm.Tmat_cost (j - 1) .M .M)
              (vs.DP_I (i - 1) (j - 1) + hmm.Tmat_cost (j - 1) .I .M)
              (vs.DP_D (i - 1) (j - 1) + hmm.Tmat_cost (j - 1) .D .M) with h | h | h | h
            · rw [h.1]
              exact ⟨fun e => absurd e (by decide), fun e => absurd e (by decide),
                fun e => absurd e (by decide)⟩
            · rw [h.1]
              rw [h.2] at hmin
              exact ⟨fun _ => ⟨by omega, lt_top_of_add_lt_top_left hmin⟩,
                fun e => absurd e (by decide), fun e => absurd e (by decide)⟩
            · rw [h.1]
              rw [h.2] at hmin
              exact ⟨fun e => absurd e (by decide),
                fun _ _ => lt_top_of_add_lt_top_left hmin, fun e => absurd e (by decide)⟩
            · rw [h.1]
              rw [h.2] at hmin
              exact ⟨fun e => absurd e (by decide), fun e => absurd e (by decide),
                fun _ => lt_top_of_add_lt_top_left hmin⟩
          · rw [if_neg hj2]
            have hj0 : ¬ (1 ≤ j - 1) := by omega
            rcases whichMin2_spec (vs.DP_M i 0 + hmm.entryPr_cost j)
              (vs.DP_I (i - 1) (j - 1) + hmm.Tmat_cost (j - 1) .I .M) 'B' 'I' with h | h
            · rw [h.1]
              exact ⟨fun e => absurd e (by decide), fun e => absurd e (by decide),
                fun e => absurd e (by decide)⟩
            · rw [h.1]
              exact ⟨fun e => absurd e (by decide), fun _ hh => absurd hh hj0,
                fun e => absurd e (by decide)⟩
      · -- s = 'I'
        have hY : Y.head? = some 'D' → False := fun hh => h3 hh rfl
        simp only [traceLoop, hi, if_true, Char.reduceEq, if_false]
        rw [eTrace]
        by_cases hj0 : j > 0
        · have hfin := (h8 hi).2.1 rfl hj0
          have hmin := (hT.2.2 i j hi h10 hj0 h9).2.1 hfin
          have hi2 : 2 ≤ i := by
            by_contra hn
            have hi1 : i = 1 := by omega
            subst hi1
            simp only [Nat.sub_self, (hT.1 j).1, (hT.1 j).2, top_add, min_self] at hmin
            exact absurd hmin (lt_irrefl _)
          rw [if_pos hj0]
          apply ih _ (i - 1) j ('I' :: Y) _ (by omega)
          apply TraceInv_push hmm vs alnEnd alnTo 'I' _ i j (i - 1) j Y inv (Or.inr (Or.inl rfl))
          · simp
          · simp; omega
          · intro h; exact absurd h (by decide)
          · rcases whichMin2_spec (vs.DP_M (i - 1) j + hmm.Tmat_cost j .M .I)
              (vs.DP_I (i - 1) j + hmm.Tmat_cost j .I .I) 'M' 'I' with h | h <;> simp [h.1]
          · intro hc
            exfalso
            rcases whichMin2_spec (vs.DP_M (i - 1) j + hmm.Tmat_cost j .M .I)
              (vs.DP_I (i - 1) j + hmm.Tmat_cost j .I .I) 'M' 'I' with h | h
            · rw [h.1] at hc
              rcases hc with hc | hc | hc
              · omega
              · exact absurd hc (by decide)
              · exact absurd hc.1 (by decide)
            · rw [h.1] at hc
              rcases hc with hc | hc | hc
              · omega
              · exact absurd hc (by decide)
              · omega
          · intro _
            rcases whichMin2_spec (vs.DP_M (i - 1) j + hmm.Tmat_cost j .M .I)
              (vs.DP_I (i - 1) j + hmm.Tmat_cost j .I .I) 'M' 'I' with h | h
            · rw [h.1]
              rw [h.2] at hmin
              exact ⟨fun _ => ⟨hj0, lt_top_of_add_lt_top_left hmin⟩,
                fun e => absurd e (by decide), fun e => absurd e (by decide)⟩
            · rw [h.1]
              rw [h.2.1] at hmin
              exact ⟨fun e => absurd e (by decide),
                fun _ _ => lt_top_of_add_lt_top_left hmin, fun e => absurd e (by decide)⟩
        · rw [if_neg hj0]
          have hj : j = 0 := by omega
          subst hj
          apply ih _ (i - 1) 0 ('I' :: Y) _ (by omega)
          apply TraceInv_push hmm vs alnEnd alnTo 'I' _ i 0 (i - 1) 0 Y inv (Or.inr (Or.inl rfl))
          · simp
          · simp; omega
          · intro h; exact absurd h (by decide)
          · rcases whichMin2_spec (vs.DP_M i 0 + hmm.Tmat_cost 0 .M .I)
              (vs.DP_I (i - 1) 0 + hmm.Tmat_cost 0 .I .I) 'B' 'I' with h | h <;> simp [h.1]
          · intro _
            exact StartsAtM_cons_I Y 0 (h7 (Or.inr (Or.inr ⟨rfl, rfl⟩)))
          · intro _
            rcases whichMin2_spec (vs.DP_M i 0 + hmm.Tmat_cost 0 .M .I)
              (vs.DP_I (i - 1) 0 + hmm.Tmat_cost 0 .I .I) 'B' 'I' with h | h
            · rw [h.1]
              exact ⟨fun e => absurd e (by decide), fun e => absurd e (by decide),
                fun e => absurd e (by decide)⟩
            · rw [h.1]
              exact ⟨fun e => absurd e (by decide), fun _ hh => absurd hh (by omega),
                fun e => absurd e (by decide)⟩
      · -- s = 'D'
        have hfin := (h8 hi).2.2 rfl
        have hjK : 1 < j ∧ j < hmm.K := by
          by_contra hn
          rw [hT.2.1 i j hn] at hfin
          exact absurd hfin (lt_irrefl _)
        have hfin := (hT.2.2 i j hi h10 (by omega) h9).2.2 hfin
        simp only [traceLoop, hi, if_true, Char.reduceEq, if_false]
        rw [if_neg (by omega), eTrace]
        apply ih _ i (j - 1) ('D' :: Y) _ (by omega)
        apply TraceInv_push hmm vs alnEnd alnTo 'D' _ i j i (j - 1) Y inv (Or.inr (Or.inr rfl))
        · simp; omega
        · simp
        · intro _
          rcases whichMin2_spec (vs.DP_M i (j - 1) + hmm.Tmat_cost (j - 1) .M .D)
            (vs.DP_D i (j - 1) + hmm.Tmat_cost (j - 1) .D .D) 'M' 'D' with h | h <;>
            (rw [h.1]; decide)
        · rcases whichMin2_spec (vs.DP_M i (j - 1) + hmm.Tmat_cost (j - 1) .M .D)
            (vs.DP_D i (j - 1) + hmm.Tmat_cost (j - 1) .D .D) 'M' 'D' with h | h <;> simp [h.1]
        · intro hc
          exfalso
          rcases whichMin2_spec (vs.DP_M i (j - 1) + hmm.Tmat_cost (j - 1) .M .D)
            (vs.DP_D i (j - 1) + hmm.Tmat_cost (j - 1) .D .D) 'M' 'D' with h | h
          · rw [h.1] at hc
            rcases hc with hc | hc | hc
            · omega
            · exact absurd hc (by decide)
            · exact absurd hc.1 (by decide)
          · rw [h.1] at hc
            rcases hc with hc | hc | hc
            · omega
            · exact absurd hc (by decide)
            · exact absurd hc.1 (by decide)
        · intro _
          rcases whichMin2_spec (vs.DP_M i (j - 1) + hmm.Tmat_cost (j - 1) .M .D)
            (vs.DP_D i (j - 1) + hmm.Tmat_cost (j - 1) .D .D) 'M' 'D' with h | h
          · rw [h.1]
            rw [h.2] at hfin
            exact ⟨fun _ => ⟨by omega, lt_top_of_add_lt_top_left hfin⟩,
              fun e => absurd e (by decide), fun e => absurd e (by decide)⟩
          · rw [h.1]
            rw [h.2.1] at hfin
            exact ⟨fun e => absurd e (by decide), fun e => absurd e (by decide),
              fun _ => lt_top_of_add_lt_top_left hfin⟩
      · -- s = 'B'
        simp only [traceLoop, hi, if_true, Char.reduceEq, if_false]
        refine ⟨i, j, Y, true, ?_, h1, h2, h4, h5, h7 (Or.inr (Or.inl rfl)), h9, h10⟩
        simp
    · simp only [traceLoop, hi, if_false]
      refine ⟨i, j, Y, false, ?_, h1, h2, h4, h5, h7 (Or.inl (by omega)), h9, h10⟩
      simp

end

section
variable {α : Type} [LinearOrderedAddCommMonoidWithTop α]

/-- `buildViterbiTrace` on the tables of the full `calcViterbiScores` with a finite minimum:
it returns, and the trace is `B`, then the states `Y`, then `E`, with the shape and the
counts that `buildGlobalAlign` relies on. -/
theorem buildViterbiTrace_spec (hmm : BandedHMMP7 α) (seq : PrimarySeq)
    (vs : ViterbiScores α) (vt0 : ViterbiAlignTrace α)
    (hvs : calcViterbiScores hmm seq (ViterbiScores.fresh seq.length) = some vs)
    (hfin : (minCoeff vs.S (vs.L + 1) (hmm.K + 2)).1 ≠ ⊤)
    (hK : 1 ≤ hmm.K) (hexit : hmm.exitPr_cost 0 = ⊤) (hempty : vt0.alnTrace = []) :
    ∃ vt Y, buildViterbiTrace hmm vs vt0 = some vt
      ∧ vt.alnTrace = 'B' :: (Y ++ ['E'])
      ∧ (∀ c ∈ Y, c = 'M' ∨ c = 'I' ∨ c = 'D') ∧ NoID Y
      ∧ countMD Y + vt.alnStart = vt.alnEnd + 1
      ∧ countMI Y + vt.alnFrom = vt.alnTo + 1
      ∧ StartsAtM Y (vt.alnStart - 1)
      ∧ 1 ≤ vt.alnStart ∧ 1 ≤ vt.alnFrom ∧ vt.alnEnd ≤ hmm.K ∧ vt.alnTo ≤ vs.L
      ∧ vt.minScore = (minCoeff vs.S (vs.L + 1) (hmm.K + 2)).1 := by
  obtain ⟨hL, hrow0, hD, hR, hS⟩ := calc_fresh_spec hmm seq vs hvs
  have hT : TablesOK hmm vs := by
    refine ⟨hrow0, hD, ?_⟩
    intro i j h1 h2 h3 h4
    obtain ⟨rM, rI, rD⟩ := hR i j h1 (hL ▸ h2) h3 h4
    refine ⟨?_, ?_, ?_⟩
    · intro hf
      rw [rM] at hf
      simp only [cellM, if_true] at hf
      exact lt_top_of_add_lt_top_right hf
    · intro hf
      rw [rI] at hf
      simp only [cellI] at hf
      exact lt_top_of_add_lt_top_right hf
    · intro hf
      have hjK : 1 < j ∧ j < hmm.K := by
        by_contra hn
        rw [hD i j hn] at hf
        exact absurd hf (lt_irrefl _)
      rw [rD hjK] at hf
      exact hf
  obtain ⟨hval, hr, hc⟩ := minCoeff_pos vs.S (vs.L + 1) (hmm.K + 2)
  generalize hmc : minCoeff vs.S (vs.L + 1) (hmm.K + 2) = mc at *
  obtain ⟨v, r, c⟩ := mc
  simp only at hval hr hc hfin
  simp only [Nat.add_sub_cancel] at hr
  have hc' : c ≤ hmm.K + 1 := by omega
  subst hval
  -- finiteness of the exit cell
  have hstart : TraceInv hmm vs (if c ≤ hmm.K then c else hmm.K) r
      (if c ≤ hmm.K then 'M' else 'I') r (if c ≤ hmm.K then c else hmm.K) [] := by
    rw [hS] at hfin
    by_cases hcK : c ≤ hmm.K
    · rw [if_pos ⟨hL ▸ hr, hcK⟩] at hfin
      have h1 := lt_top_of_add_lt_top_left (lt_top_iff_ne_top.mpr hfin)
      have h2 := lt_top_of_add_lt_top_left h1
      have h3 := lt_top_of_add_lt_top_left h2
      have h4 := lt_top_of_add_lt_top_right h2
      have hr1 : 1 ≤ r := by
        by_contra hn
        have : r = 0 := by omega
        subst this
        rw [(hrow0 c).1] at h3
        exact absurd h3 (lt_irrefl _)
      have hc1 : 1 ≤ c := by
        by_contra hn
        have : c = 0 := by omega
        subst this
        rw [hexit] at h4
        exact absurd h4 (lt_irrefl _)
      simp only [hcK, if_true]
      refine ⟨by simp, trivial, by simp, by simp [countMD], by simp [countMI], Or.inl rfl,
        ?_, ?_, hcK, hr⟩
      · rintro (h | h | h)
        · omega
        · exact absurd h (by decide)
        · exact absurd h.1 (by decide)
      · intro _
        exact ⟨fun _ => ⟨hc1, h3⟩, fun e => absurd e (by decide), fun e => absurd e (by decide)⟩
    · have hcK1 : c = hmm.K + 1 := by omega
      rw [if_neg (by omega), if_pos ⟨hL ▸ hr, hcK1⟩] at hfin
      have h1 := lt_top_of_add_lt_top_left (lt_top_iff_ne_top.mpr hfin)
      have h2 := lt_top_of_add_lt_top_left h1
      have h3 := lt_top_of_add_lt_top_left h2
      have hr1 : 1 ≤ r := by
        by_contra hn
        have : r = 0 := by omega
        subst this
        rw [(hrow0 hmm.K).2] at h3
        exact absurd h3 (lt_irrefl _)
      simp only [hcK, if_false]
      refine ⟨by simp, trivial, by simp, by simp [countMD], by simp [countMI],
        Or.inr (Or.inl rfl), ?_, ?_, le_refl _, hr⟩
      · rintro (h | h | h)
        · omega
        · exact absurd h (by decide)
        · omega
      · intro _
        exact ⟨fun e => absurd e (by decide), fun _ _ => h3, fun e => absurd e (by decide)⟩
  obtain ⟨i', j', Y', b, hres, hY1, hY2, hY3, hY4, hY5, hY6, hY7⟩ :=
    traceLoop_spec hmm vs _ _ hT
      (r + (if c ≤ hmm.K then c else hmm.K) + 1) _ _ _ [] hstart (le_refl _)
  have hlast : (if ('E' :: (Y'.reverse ++ (if b then ['B'] else []))).getLast? ≠ some 'B'
      then 'E' :: (Y'.reverse ++ (if b then ['B'] else [])) ++ ['B']
      else 'E' :: (Y'.reverse ++ (if b then ['B'] else []))).reverse = 'B' :: (Y' ++ ['E']) := by
    cases b with
    | true =>
      have : ('E' :: (Y'.reverse ++ (if true = true then ['B'] else []))).getLast? = some 'B' := by
        rw [if_pos rfl]
        exact List.getLast?_concat ('E' :: Y'.reverse)
      rw [if_neg (by rw [this]; simp)]
      simp
    | false =>
      have : ('E' :: (Y'.reverse ++ (if false = true then ['B'] else []))).getLast? ≠ some 'B' := by
        intro hh
        have hm := List.mem_of_getLast?_eq_some hh
        simp only [Bool.false_eq_true, if_false, List.append_nil, List.mem_cons,
          List.mem_reverse] at hm
        rcases hm with hm | hm
        · exact absurd hm (by decide)
        · rcases hY1 _ hm with h | h | h <;> exact absurd h (by decide)
      rw [if_pos this]
      simp
  refine ⟨{ minScore := vs.S r c, alnStart := j' + 1,
            alnEnd := if c ≤ hmm.K then c else hmm.K, alnFrom := i' + 1, alnTo := r,
            alnTrace := 'B' :: (Y' ++ ['E']) }, Y', ?_, rfl, hY1, hY2, ?_, ?_, ?_, ?_, ?_, ?_,
    hr, rfl⟩
  · unfold buildViterbiTrace
    simp only [hmc, hfin, if_false, hempty, List.nil_append]
    have hres' : traceLoop hmm vs ((r + if c ≤ hmm.K then c else hmm.K) + 1)
        (if c ≤ hmm.K then 'M' else 'I') r (if c ≤ hmm.K then c else hmm.K) ['E']
        = some (i', j', 'E' :: (Y'.reverse ++ if b = true then ['B'] else [])) := hres
    rw [hres']
    simp only [Option.some_bind, hlast]
  · simp only; omega
  · simp only; omega
  · simpa using hY5
  · simp only; omega
  · simp only; omega
  · simp only
    split <;> omega

end

theorem countMD_replicate_I (a : Nat) (Y : List Char) :
    countMD (List.replicate a 'I' ++ Y) = countMD Y := by
  induction a with
  | zero => simp
  | succ n ih =>
    rw [List.replicate_succ, List.cons_append, countMD_cons, ih]
    simp

theorem countMI_replicate_I (a : Nat) (Y : List Char) :
    countMI (List.replicate a 'I' ++ Y) = countMI Y + a := by
  induction a with
  | zero => simp
  | succ n ih =>
    rw [List.replicate_succ, List.cons_append, countMI_cons, ih]
    simp
    omega

theorem NoID_replicate_I (a : Nat) (Y : List Char) (h : NoID (List.replicate a 'I' ++ Y)) :
    NoID Y := by
  induction a with
  | zero => simpa using h
  | succ n ih =>
    rw [List.replicate_succ, List.cons_append, NoID_cons] at h
    exact ih h.2

/-- A strictly increasing index map is non-decreasing between any two match positions. -/
theorem p2c_mono (p : Nat → Nat) (K : Nat)
    (hmono : ∀ k, 1 ≤ k → k < K → p k < p (k + 1)) :
    ∀ a b, 1 ≤ a → a ≤ b → b ≤ K → p a ≤ p b := by
  intro a b ha hab
  induction b with
  | zero => intro _; omega
  | succ n ih =>
    intro hb
    by_cases h : a = n + 1
    · subst h; exact le_refl _
    · have := ih (by omega) (by omega)
      have := hmono n (by omega) (by omega)
      omega

section
variable {α : Type}

/-- The reconstruction loop after the first match state: from a cursor whose string ends at
the CS column of profile position `k - 1`, over the states `X` and the closing `E`, the
string reaches length `L`. -/
theorem alignLoop_rest (hmm : BandedHMMP7 α) (seq : PrimarySeq) (vt : ViterbiAlignTrace α)
    (seqN seqC : List Char) (csStart : Nat)
    (hmono : ∀ k, 1 ≤ k → k < hmm.K → hmm.profile2CSIdx k < hmm.profile2CSIdx (k + 1))
    (hEndK : vt.alnEnd ≤ hmm.K) (hEndL : hmm.profile2CSIdx vt.alnEnd ≤ hmm.L) :
    ∀ (X : List Char) (idx : Nat) (inRun : Bool) (c : AlignCursor),
      (∀ x ∈ X, x = 'M' ∨ x = 'I' ∨ x = 'D') → NoID X →
      (c.insert = [] ∨ X.head? ≠ some 'D') →
      c.align.length = hmm.profile2CSIdx (c.k - 1) → 2 ≤ c.k → 2 ≤ idx → 1 ≤ c.j →
      c.k + countMD X = vt.alnEnd + 1 → c.j + countMI X = vt.alnTo + 1 →
      ∃ c', alignLoop hmm seq vt seqN seqC csStart (hmm.profile2CSIdx vt.alnEnd)
          (X ++ ['E']) idx inRun c = some c' ∧ c'.align.length = hmm.L := by
  intro X
  induction X with
  | nil =>
    intro idx inRun c _ _ _ hlen hk _ hj hcMD hcMI
    simp only [countMD, countMI, List.filter_nil, List.length_nil, Nat.add_zero] at hcMD hcMI
    have hjne : ¬ (c.j ≠ vt.alnTo + 1 ∨ hmm.L < hmm.profile2CSIdx vt.alnEnd) := by
      push_neg
      exact ⟨hcMI, hEndL⟩
    simp only [List.nil_append, alignLoop, Char.reduceEq, if_false, if_true, hjne]
    refine ⟨_, rfl, ?_⟩
    simp only [List.length_append, getPaddingSeq_length_any, hlen]
    have : c.k - 1 = vt.alnEnd := by omega
    rw [this]
    omega
  | cons x X ih =>
    intro idx inRun c hch hno hins hlen hk hidx hj hcMD hcMI
    rw [NoID_cons] at hno
    rw [countMD_cons] at hcMD
    rw [countMI_cons] at hcMI
    have hch' : ∀ x ∈ X, x = 'M' ∨ x = 'I' ∨ x = 'D' :=
      fun y hy => hch y (List.mem_cons_of_mem _ hy)
    have hj0 : ¬ c.j = 0 := by omega
    rcases hch x (List.mem_cons_self _ _) with rfl | rfl | rfl
    · -- M
      simp only [if_true, true_or] at hcMD hcMI
      have hkK : c.k ≤ hmm.K := by omega
      have hlt := hmono (c.k - 1) (by omega) (by omega)
      have hk1 : c.k - 1 + 1 = c.k := by omega
      rw [hk1] at hlt
      simp only [List.cons_append, alignLoop, Char.reduceEq, if_false, if_true, hj0]
      apply ih
      · exact hch'
      · exact hno.2
      · exact Or.inl rfl
      · simp only [List.length_append, List.length_singleton, Nat.add_sub_cancel]
        split
        · rw [getPaddingSeq_length_any]; omega
        · rename_i hn
          simp only [List.length_nil]
          have : ¬ (hmm.profile2CSIdx c.k - hmm.profile2CSIdx (c.k - 1) > 1) := by
            intro h
            exact hn ⟨by omega, by omega, h⟩
          omega
      · simp only; omega
      · omega
      · simp only; omega
      · simp only; omega
      · simp only; omega
    · -- I
      simp only [Char.reduceEq, false_or, or_false, if_false, if_true, or_true] at hcMD hcMI
      simp only [List.cons_append, alignLoop, Char.reduceEq, if_false, if_true, hj0]
      apply ih
      · exact hch'
      · exact hno.2
      · right
        intro h
        exact hno.1 h rfl
      · simp only; exact hlen
      · simp only; exact hk
      · omega
      · simp only; omega
      · simp only; exact hcMD
      · simp only; omega
    · -- D
      simp only [Char.reduceEq, false_or, or_false, if_false, if_true, or_true] at hcMD hcMI
      have hkK : c.k ≤ hmm.K := by omega
      have hlt := hmono (c.k - 1) (by omega) (by omega)
      have hk1 : c.k - 1 + 1 = c.k := by omega
      rw [hk1] at hlt
      have hins' : c.insert = [] := by
        rcases hins with h | h
        · exact h
        · exact absurd rfl h
      simp only [List.cons_append, alignLoop, Char.reduceEq, if_false, if_true, hins',
        ne_eq, not_true_eq_false]
      apply ih
      · exact hch'
      · exact hno.2
      · left
        rfl
      · simp only [List.length_append, List.length_singleton, Nat.add_sub_cancel]
        split
        · rw [List.length_replicate]; omega
        · rename_i hn
          simp only [List.length_nil]
          have : ¬ (hmm.profile2CSIdx c.k - hmm.profile2CSIdx (c.k - 1) > 1) := by
            intro h
            exact hn ⟨by omega, h⟩
          omega
      · simp only; omega
      · omega
      · simp only; exact hj
      · simp only; omega
      · simp only; exact hcMI

end

section
variable {α : Type}

/-- A run of `a` insert states moves the sequence cursor by `a` and leaves the string and
the profile cursor as they are. -/
theorem alignLoop_Irun (hmm : BandedHMMP7 α) (seq : PrimarySeq) (vt : ViterbiAlignTrace α)
    (seqN seqC : List Char) (csStart csEnd : Nat) (Z : List Char) :
    ∀ (a idx : Nat) (inRun : Bool) (c : AlignCursor), 1 ≤ c.j →
      ∃ c', ∃ inRun' : Bool,
        alignLoop hmm seq vt seqN seqC csStart csEnd (List.replicate a 'I' ++ Z) idx inRun c
          = alignLoop hmm seq vt seqN seqC csStart csEnd Z (idx + a) inRun' c'
        ∧ c'.align = c.align ∧ c'.k = c.k ∧ c'.j = c.j + a := by
  intro a
  induction a with
  | zero =>
    intro idx inRun c _
    exact ⟨c, inRun, by simp, rfl, rfl, rfl⟩
  | succ n ih =>
    intro idx inRun c hj
    have hj0 : ¬ c.j = 0 := by omega
    obtain ⟨c', inRun', h1, h2, h3, h4⟩ := ih (idx + 1) true
      { c with
        insert := (if inRun then c.insert else []) ++ [(seq.charAt (c.j - 1)).toLower]
        j := c.j + 1 } (by simp only; omega)
    refine ⟨c', inRun', ?_, h2, h3, ?_⟩
    · rw [List.replicate_succ, List.cons_append]
      simp only [alignLoop, Char.reduceEq, if_false, if_true, hj0]
      rw [h1]
      congr 1
      omega
    · rw [h4]
      simp only
      omega

/-- The reconstruction loop over a whole trace `B`, `Y`, `E`: it passes every assertion and
builds a string of length `L`. -/
theorem alignLoop_full (hmm : BandedHMMP7 α) (seq : PrimarySeq) (vt : ViterbiAlignTrace α)
    (seqN seqC : List Char) (Y : List Char)
    (hmono : ∀ k, 1 ≤ k → k < hmm.K → hmm.profile2CSIdx k < hmm.profile2CSIdx (k + 1))
    (hp1 : 1 ≤ hmm.profile2CSIdx 1) (hpK : hmm.profile2CSIdx hmm.K ≤ hmm.L)
    (hch : ∀ c ∈ Y, c = 'M' ∨ c = 'I' ∨ c = 'D') (hno : NoID Y)
    (hMD : countMD Y + vt.alnStart = vt.alnEnd + 1)
    (hMI : countMI Y + vt.alnFrom = vt.alnTo + 1)
    (hstart : StartsAtM Y (vt.alnStart - 1))
    (hS1 : 1 ≤ vt.alnStart) (hF1 : 1 ≤ vt.alnFrom) (hEndK : vt.alnEnd ≤ hmm.K) :
    ∃ c', alignLoop hmm seq vt seqN seqC (hmm.profile2CSIdx vt.alnStart)
        (hmm.profile2CSIdx vt.alnEnd) ('B' :: (Y ++ ['E'])) 0 false
        { align := [], i := 0, j := 0, k := 0, insert := [] } = some c'
      ∧ c'.align.length = hmm.L := by
  obtain ⟨a, rest, rfl, ha⟩ := hstart
  rw [countMD_replicate_I, countMD_cons] at hMD
  rw [countMI_replicate_I, countMI_cons] at hMI
  simp only [true_or, if_true] at hMD hMI
  have hno' := NoID_replicate_I a _ hno
  rw [NoID_cons] at hno'
  have hch' : ∀ c ∈ rest, c = 'M' ∨ c = 'I' ∨ c = 'D' := by
    intro c hc
    apply hch
    simp [hc]
  have hSK : vt.alnStart ≤ hmm.K := by omega
  have hcs1 : 1 ≤ hmm.profile2CSIdx vt.alnStart :=
    le_trans hp1 (p2c_mono _ _ hmono 1 vt.alnStart (le_refl _) hS1 hSK)
  have hEndL : hmm.profile2CSIdx vt.alnEnd ≤ hmm.L :=
    le_trans (p2c_mono _ _ hmono vt.alnEnd hmm.K (by omega) hEndK (le_refl _)) hpK
  have hcs0 : ¬ hmm.profile2CSIdx vt.alnStart = 0 := by omega
  -- the `B` state
  simp only [alignLoop, if_true, hcs0, if_false, List.nil_append, Nat.zero_add]
  rw [List.append_assoc]
  -- the run of inserts before the first match state
  obtain ⟨c1, inRun1, e1, hal, hk, hj⟩ := alignLoop_Irun hmm seq vt seqN seqC
    (hmm.profile2CSIdx vt.alnStart) (hmm.profile2CSIdx vt.alnEnd) ('M' :: rest ++ ['E'])
    a 1 false
    { align := getPaddingSeq (hmm.profile2CSIdx vt.alnStart - 1) seqN PAD_SYM .RIGHT,
      i := hmm.profile2CSIdx vt.alnStart, j := vt.alnFrom, k := vt.alnStart, insert := [] }
    hF1
  rw [e1]
  simp only at hal hk hj
  -- the first match state
  have hj0 : ¬ c1.j = 0 := by omega
  have hnofill : ¬ (c1.k > 1 ∧ 1 + a > 1 ∧
      hmm.profile2CSIdx c1.k - hmm.profile2CSIdx (c1.k - 1) > 1) := by
    rintro ⟨h1, h2, _⟩
    have := ha (by omega)
    omega
  simp only [List.cons_append, alignLoop, Char.reduceEq, if_false, if_true, hj0, hnofill,
    List.append_nil]
  apply alignLoop_rest hmm seq vt seqN seqC _ hmono hEndK hEndL rest _ _ _ hch' hno'.2
  · exact Or.inl rfl
  · simp only [List.length_append, List.length_singleton, hal, getPaddingSeq_length_any,
      Nat.add_sub_cancel, hk]
    omega
  · simp only; omega
  · omega
  · simp only; omega
  · simp only; omega
  · simp only; omega

end

/-! ### Parse/write round trip -/

set_option maxRecDepth 100000 in
/-- C4 fails on the code: `hmmMaxl` is parsed from `textMaxl`, whose header has `MAXL  2`;
the parser stores `MAXL` in `L` only, so `operator<<` writes no `MAXL` line, and parsing the
written text succeeds with `L = 0`: `extend_index` maps no column past the last match
column, and `cs2ProfileIdx[2]` is `0` instead of `1`. -/
theorem parse_write_loses_MAXL :
    (parseHMM 100 expNegEx negLogEx parseCostEx textMaxl BandedHMMP7.empty).2 = .good
      ∧ (parseHMM 100 expNegEx negLogEx parseCostEx (writeHMM printCostEx hmmMaxl)
          BandedHMMP7.empty).2 = .good
      ∧ hmmMaxl.L = 2 ∧ hmmMaxl.cs2ProfileIdx 2 = 1
      ∧ (parseHMM 100 expNegEx negLogEx parseCostEx (writeHMM printCostEx hmmMaxl)
          BandedHMMP7.empty).1.L = 0
      ∧ (parseHMM 100 expNegEx negLogEx parseCostEx (writeHMM printCostEx hmmMaxl)
          BandedHMMP7.empty).1.cs2ProfileIdx 2 = 0 := by
  refine ⟨?_, ?_, ?_, ?_, ?_, ?_⟩ <;> decide

/-! ### Justified padding -/

/-- C11 fails on the code: for the insert `ab` (`n = 2`) and `L = 4`, the `JUSTIFIED` branch
returns `a--a`: its last part is `insert.substr(0, ceil(n/2))`, the first `ceil(n/2)`
characters, and not the last `ceil(n/2)` characters `insert.substr(floor(n/2), ceil(n/2))`,
so the result is not `a--b` and removing the padding run gives `aa`, not `ab`. -/
theorem justified_repeats_first_half :
    getPaddingSeq 4 ['a', 'b'] '-' .JUSTIFIED = ['a', '-', '-', 'a']
      ∧ getPaddingSeq 4 ['a', 'b'] '-' .JUSTIFIED
          ≠ substr ['a', 'b'] 0 (2 / 2) ++ List.replicate (4 - 2) '-'
              ++ substr ['a', 'b'] (2 / 2) ((2 + 1) / 2)
      ∧ (getPaddingSeq 4 ['a', 'b'] '-' .JUSTIFIED).filter (fun c => c ≠ '-') = ['a', 'a'] := by
  decide

/-! ### Impossible alignment -/

/-- C12: when the minimum of `vs.S` is `inf`, `buildViterbiTrace` returns the trace it was
given with `minScore` set to `inf`: `alnTrace`, `alnStart`, `alnEnd`, `alnFrom` and `alnTo`
are unchanged and no traceback is done. -/
theorem buildViterbiTrace_impossible {α : Type} [LinearOrderedAddCommMonoidWithTop α]
    (hmm : BandedHMMP7 α) (vs : ViterbiScores α) (vtrace : ViterbiAlignTrace α)
    (hinf : (minCoeff vs.S (vs.L + 1) (hmm.K + 2)).1 = ⊤) :
    buildViterbiTrace hmm vs vtrace = some { vtrace with minScore := ⊤ } := by
  unfold buildViterbiTrace
  simp only [hinf, if_true]

theorem buildViterbiTrace_impossible_witness :
    buildViterbiTrace hmmOneMatch (ViterbiScores.fresh 1) vtraceFresh
      = some { vtraceFresh with minScore := ⊤ } :=
  buildViterbiTrace_impossible hmmOneMatch (ViterbiScores.fresh 1) vtraceFresh (by decide)

/-! ### Trace shape and coordinates -/

section
variable {α : Type} [LinearOrderedAddCommMonoidWithTop α]

theorem whichMin4_label (a b c d : α) :
    whichMin4 a b c d = 'M' ∨ whichMin4 a b c d = 'I' ∨ whichMin4 a b c d = 'D'
      ∨ whichMin4 a b c d = 'B' := by
  rcases whichMin4_spec a b c d with h | h | h | h <;> simp [h.1]

theorem whichMin2_label (a b : α) (c1 c2 : Char) :
    whichMin2 a b c1 c2 = c1 ∨ whichMin2 a b c1 c2 = c2 := by
  unfold whichMin2
  split
  · exact Or.inl rfl
  · exact Or.inr rfl

/-- Whatever the tables hold, the traceback loop pushes states `M`, `I`, `D` and at most
one `B`, which is then the last one. -/
theorem traceLoop_shape (hmm : BandedHMMP7 α) (vs : ViterbiScores α) :
    ∀ (fuel : Nat) (s : Char) (i j : Nat) (tr : List Char) (r : Nat × Nat × List Char),
      (s = 'M' ∨ s = 'I' ∨ s = 'D' ∨ s = 'B') →
      traceLoop hmm vs fuel s i j tr = some r →
      ∃ Z, ∃ b : Bool, r.2.2 = tr ++ Z ++ (if b then ['B'] else [])
        ∧ ∀ c ∈ Z, c = 'M' ∨ c = 'I' ∨ c = 'D' := by
  intro fuel
  induction fuel with
  | zero =>
    intro s i j tr r _ h
    simp [traceLoop] at h
  | succ n ih =>
    intro s i j tr r hs h
    have hnil : ∃ Z, ∃ b : Bool, tr = tr ++ Z ++ (if b then ['B'] else [])
        ∧ ∀ c ∈ Z, c = 'M' ∨ c = 'I' ∨ c = 'D' := ⟨[], false, by simp, by simp⟩
    have hcons : ∀ (t : Char) (s' : Char) (i' j' : Nat),
        (t = 'M' ∨ t = 'I' ∨ t = 'D') → (s' = 'M' ∨ s' = 'I' ∨ s' = 'D' ∨ s' = 'B') →
        traceLoop hmm vs n s' i' j' (tr ++ [t]) = some r →
        ∃ Z, ∃ b : Bool, r.2.2 = tr ++ Z ++ (if b then ['B'] else [])
          ∧ ∀ c ∈ Z, c = 'M' ∨ c = 'I' ∨ c = 'D' := by
      intro t s' i' j' ht hs' hr
      obtain ⟨Z, b, e, hZ⟩ := ih s' i' j' (tr ++ [t]) r hs' hr
      refine ⟨t :: Z, b, by rw [e]; simp, ?_⟩
      intro c hc
      rcases List.mem_cons.mp hc with rfl | hc
      · exact ht
      · exact hZ c hc
    by_cases hi : i ≥ 1
    · rcases hs with rfl | rfl | rfl | rfl
      · simp only [traceLoop, hi, if_true] at h
        by_cases hj : j = 0
        · rw [if_pos hj] at h
          exact absurd h (by simp)
        · rw [if_neg hj] at h
          refine hcons 'M' _ _ _ (Or.inl rfl) ?_ h
          split
          · exact whichMin4_label _ _ _ _
          · rcases whichMin2_label (vs.DP_M i 0 + hmm.entryPr_cost j)
              (vs.DP_I (i - 1) (j - 1) + hmm.Tmat_cost (j - 1) .I .M) 'B' 'I' with e | e <;>
              simp [e]
      · simp only [traceLoop, hi, if_true] at h
        rw [if_neg (show ¬ ('I' : Char) = 'M' by decide)] at h
        refine hcons 'I' _ _ _ (Or.inr (Or.inl rfl)) ?_ h
        split
        · rcases whichMin2_label (vs.DP_M (i - 1) j + hmm.Tmat_cost j .M .I)
            (vs.DP_I (i - 1) j + hmm.Tmat_cost j .I .I) 'M' 'I' with e | e <;> simp [e]
        · rcases whichMin2_label (vs.DP_M i 0 + hmm.Tmat_cost 0 .M .I)
            (vs.DP_I (i - 1) j + hmm.Tmat_cost j .I .I) 'B' 'I' with e | e <;> simp [e]
      · simp only [traceLoop, hi, if_true] at h
        rw [if_neg (show ¬ ('D' : Char) = 'M' by decide),
          if_neg (show ¬ ('D' : Char) = 'I' by decide)] at h
        by_cases hj : j = 0
        · rw [if_pos hj] at h
          exact absurd h (by simp)
        · rw [if_neg hj] at h
          refine hcons 'D' _ _ _ (Or.inr (Or.inr rfl)) ?_ h
          rcases whichMin2_label (vs.DP_M i (j - 1) + hmm.Tmat_cost (j - 1) .M .D)
            (vs.DP_D i (j - 1) + hmm.Tmat_cost (j - 1) .D .D) 'M' 'D' with e | e <;> simp [e]
      · simp only [traceLoop, hi, if_true] at h
        rw [if_neg (show ¬ ('B' : Char) = 'M' by decide),
          if_neg (show ¬ ('B' : Char) = 'I' by decide),
          if_neg (show ¬ ('B' : Char) = 'D' by decide)] at h
        cases h
        exact ⟨[], true, by simp, by simp⟩
    · simp only [traceLoop, hi, if_false] at h
      cases h
      exact hnil

/-- The positions at which the traceback loop stops do not depend on the states already in
the trace, which is only appended to. -/
theorem traceLoop_append (hmm : BandedHMMP7 α) (vs : ViterbiScores α) :
    ∀ (fuel : Nat) (s : Char) (i j : Nat) (tr : List Char),
      traceLoop hmm vs fuel s i j tr
        = (traceLoop hmm vs fuel s i j []).map fun r => (r.1, r.2.1, tr ++ r.2.2) := by
  intro fuel
  induction fuel with
  | zero => intro s i j tr; simp [traceLoop]
  | succ n ih =>
    intro s i j tr
    have hrec : ∀ (s' : Char) (i' j' : Nat),
        traceLoop hmm vs n s' i' j' (tr ++ [s])
          = (traceLoop hmm vs n s' i' j' ([] ++ [s])).map
              fun r => (r.1, r.2.1, tr ++ r.2.2) := by
      intro s' i' j'
      rw [ih s' i' j' (tr ++ [s]), ih s' i' j' ([] ++ [s]), Option.map_map]
      congr 1
      funext r
      simp
    simp only [traceLoop]
    split_ifs <;> first | rfl | exact hrec _ _ _ | simp

end
section
variable {α : Type} [LinearOrderedAddCommMonoidWithTop α]

/-- The closing steps of `buildViterbiTrace`: `B` is pushed unless it is the last state, and
the trace is reversed. -/
theorem closeTrace (Z : List Char) (b : Bool)
    (hZ : ∀ c ∈ Z, c = 'M' ∨ c = 'I' ∨ c = 'D') :
    (if (['E'] ++ Z ++ (if b then ['B'] else [])).getLast? ≠ some 'B'
      then ['E'] ++ Z ++ (if b then ['B'] else []) ++ ['B']
      else ['E'] ++ Z ++ (if b then ['B'] else [])).reverse = 'B' :: (Z.reverse ++ ['E']) := by
  cases b with
  | true =>
    have : (['E'] ++ Z ++ (if true = true then ['B'] else [])).getLast? = some 'B' := by
      rw [if_pos rfl]
      exact List.getLast?_concat (['E'] ++ Z)
    rw [if_neg (by rw [this]; simp)]
    simp
  | false =>
    have : (['E'] ++ Z ++ (if false = true then ['B'] else [])).getLast? ≠ some 'B' := by
      intro hh
      have hm := List.mem_of_getLast?_eq_some hh
      simp only [Bool.false_eq_true, if_false, List.append_nil, List.mem_append,
        List.mem_singleton] at hm
      rcases hm with hm | hm
      · exact absurd hm (by decide)
      · rcases hZ _ hm with h | h | h <;> exact absurd h (by decide)
    rw [if_pos this]
    simp

theorem countMD_pos_of_StartsAtM (Y : List Char) (j : Nat) (h : StartsAtM Y j) :
    1 ≤ countMD Y ∧ 1 ≤ countMI Y := by
  obtain ⟨a, rest, e, -⟩ := h
  subst e
  rw [countMD_replicate_I, countMI_replicate_I, countMD_cons, countMI_cons]
  simp
  omega

/-- The coordinates and the score written by `buildViterbiTrace` do not depend on the states
already in the trace it is given. -/
theorem buildViterbiTrace_coords (hmm : BandedHMMP7 α) (vs : ViterbiScores α)
    (vt0 vt : ViterbiAlignTrace α)
    (h : buildViterbiTrace hmm vs { vt0 with alnTrace := [] } = some vt)
    (hfin : (minCoeff vs.S (vs.L + 1) (hmm.K + 2)).1 ≠ ⊤) :
    ∃ vt1, buildViterbiTrace hmm vs vt0 = some vt1
      ∧ vt1.alnStart = vt.alnStart ∧ vt1.alnEnd = vt.alnEnd
      ∧ vt1.alnFrom = vt.alnFrom ∧ vt1.alnTo = vt.alnTo ∧ vt1.minScore = vt.minScore := by
  unfold buildViterbiTrace at h ⊢
  simp only [hfin, if_false] at h ⊢
  rw [traceLoop_append] at h ⊢
  cases htl : traceLoop hmm vs
      ((minCoeff vs.S (vs.L + 1) (hmm.K + 2)).2.1
        + (if (minCoeff vs.S (vs.L + 1) (hmm.K + 2)).2.2 ≤ hmm.K
            then (minCoeff vs.S (vs.L + 1) (hmm.K + 2)).2.2 else hmm.K) + 1)
      (if (minCoeff vs.S (vs.L + 1) (hmm.K + 2)).2.2 ≤ hmm.K then 'M' else 'I')
      (minCoeff vs.S (vs.L + 1) (hmm.K + 2)).2.1
      (if (minCoeff vs.S (vs.L + 1) (hmm.K + 2)).2.2 ≤ hmm.K
        then (minCoeff vs.S (vs.L + 1) (hmm.K + 2)).2.2 else hmm.K) [] with
  | none =>
    rw [htl] at h
    simp at h
  | some r =>
    rw [htl] at h
    simp only [Option.map_some', Option.some_bind, Option.some.injEq] at h ⊢
    subst h
    exact ⟨_, rfl, rfl, rfl, rfl, rfl, rfl⟩

/-- C13: whatever the score tables hold, as long as their minimum is finite, a trace
returned by `buildViterbiTrace` on an empty trace is `B`, then states `M`, `I`, `D` only,
then `E`, so it has exactly one `B`, at the front, and one `E`, at the end; and for the
tables filled by `calcViterbiScores` on fresh buffers (`K ≥ 1`, `B→E` impossible)
`buildViterbiTrace` does return a trace. -/
theorem buildViterbiTrace_shape (hmm : BandedHMMP7 α) (vs : ViterbiScores α)
    (vt0 : ViterbiAlignTrace α)
    (hfin : (minCoeff vs.S (vs.L + 1) (hmm.K + 2)).1 ≠ ⊤) (hempty : vt0.alnTrace = []) :
    (∀ vt, buildViterbiTrace hmm vs vt0 = some vt →
      ∃ Y, vt.alnTrace = 'B' :: (Y ++ ['E']) ∧ (∀ c ∈ Y, c = 'M' ∨ c = 'I' ∨ c = 'D')
        ∧ vt.alnTrace.count 'B' = 1 ∧ vt.alnTrace.count 'E' = 1)
      ∧ (∀ seq : PrimarySeq,
          calcViterbiScores hmm seq (ViterbiScores.fresh seq.length) = some vs →
          1 ≤ hmm.K → hmm.exitPr_cost 0 = ⊤ →
          ∃ vt, buildViterbiTrace hmm vs vt0 = some vt) := by
  constructor
  · intro vt h
    unfold buildViterbiTrace at h
    simp only [hfin, if_false, hempty, List.nil_append] at h
    obtain ⟨r, hr, hvt⟩ := Option.bind_eq_some.mp h
    obtain ⟨Z, b, e, hZ⟩ := traceLoop_shape hmm vs _ _ _ _ _ r
      (by split
          · exact Or.inl rfl
          · exact Or.inr (Or.inl rfl)) hr
    simp only [Option.some.injEq] at hvt
    subst hvt
    have hY : ∀ c ∈ Z.reverse, c = 'M' ∨ c = 'I' ∨ c = 'D' := by
      intro c hc
      exact hZ c (List.mem_reverse.mp hc)
    have hB : Z.reverse.count 'B' = 0 := by
      rw [List.count_eq_zero]
      intro hm
      rcases hY _ hm with h | h | h <;> exact absurd h (by decide)
    have hE : Z.reverse.count 'E' = 0 := by
      rw [List.count_eq_zero]
      intro hm
      rcases hY _ hm with h | h | h <;> exact absurd h (by decide)
    refine ⟨Z.reverse, ?_, hY, ?_, ?_⟩
    · simp only [e]
      exact closeTrace Z b hZ
    · simp only [e]
      rw [closeTrace Z b hZ]
      simp [List.count_cons, hB]
    · simp only [e]
      rw [closeTrace Z b hZ]
      simp [List.count_cons, hE]
  · intro seq hvs hK hexit
    obtain ⟨vt, Y, hvt, -⟩ := buildViterbiTrace_spec hmm seq vs vt0 hvs hfin hK hexit hempty
    exact ⟨vt, hvt⟩

/-- C14: for the tables `vs` filled by `calcViterbiScores` on fresh buffers with a finite
minimum score (`K ≥ 1`, `B→E` impossible), `buildViterbiTrace` returns a trace with
`1 ≤ alnFrom ≤ alnTo ≤ L`, `L` the length of the query, and
`1 ≤ alnStart ≤ alnEnd ≤ K`. -/
theorem buildViterbiTrace_coordinates (hmm : BandedHMMP7 α) (seq : PrimarySeq)
    (vs : ViterbiScores α) (vt0 : ViterbiAlignTrace α)
    (hvs : calcViterbiScores hmm seq (ViterbiScores.fresh seq.length) = some vs)
    (hfin : (minCoeff vs.S (vs.L + 1) (hmm.K + 2)).1 ≠ ⊤)
    (hK : 1 ≤ hmm.K) (hexit : hmm.exitPr_cost 0 = ⊤) :
    ∃ vt, buildViterbiTrace hmm vs vt0 = some vt
      ∧ 1 ≤ vt.alnFrom ∧ vt.alnFrom ≤ vt.alnTo ∧ vt.alnTo ≤ seq.length
      ∧ 1 ≤ vt.alnStart ∧ vt.alnStart ≤ vt.alnEnd ∧ vt.alnEnd ≤ hmm.K := by
  obtain ⟨vt, Y, hvt, -, -, -, hMD, hMI, hst, hS1, hF1, hEK, hTL, -⟩ :=
    buildViterbiTrace_spec hmm seq vs { vt0 with alnTrace := [] } hvs hfin hK hexit rfl
  obtain ⟨vt1, h1, e1, e2, e3, e4, -⟩ := buildViterbiTrace_coords hmm vs vt0 vt hvt hfin
  have hL := (calc_fresh_spec hmm seq vs hvs).1
  obtain ⟨c1, c2⟩ := countMD_pos_of_StartsAtM Y _ hst
  refine ⟨vt1, h1, ?_, ?_, ?_, ?_, ?_, ?_⟩ <;> omega

end

theorem buildViterbiTrace_shape_witness :
    ∃ vt Y, buildViterbiTrace hmmOneMatch vsOneMatchA vtraceFresh = some vt
      ∧ vt.alnTrace = 'B' :: (Y ++ ['E']) ∧ (∀ c ∈ Y, c = 'M' ∨ c = 'I' ∨ c = 'D')
      ∧ vt.alnTrace.count 'B' = 1 ∧ vt.alnTrace.count 'E' = 1 := by
  have h := buildViterbiTrace_shape hmmOneMatch vsOneMatchA vtraceFresh (by decide) rfl
  obtain ⟨vt, hvt⟩ := h.2 seqA rfl (by decide) rfl
  obtain ⟨Y, hY⟩ := h.1 vt hvt
  exact ⟨vt, Y, hvt, hY⟩

theorem buildViterbiTrace_coordinates_witness :
    ∃ vt, buildViterbiTrace hmmOneMatch vsOneMatchA vtraceFresh = some vt
      ∧ 1 ≤ vt.alnFrom ∧ vt.alnFrom ≤ vt.alnTo ∧ vt.alnTo ≤ seqA.length
      ∧ 1 ≤ vt.alnStart ∧ vt.alnStart ≤ vt.alnEnd ∧ vt.alnEnd ≤ hmmOneMatch.K :=
  buildViterbiTrace_coordinates hmmOneMatch seqA vsOneMatchA vtraceFresh rfl (by decide)
    (by decide) rfl

/-! ### Column anchoring -/

section
variable {α : Type}

/-- The reconstruction loop only appends to the string. -/
theorem alignLoop_extends (hmm : BandedHMMP7 α) (seq : PrimarySeq) (vt : ViterbiAlignTrace α)
    (seqN seqC : List Char) (csStart csEnd : Nat) :
    ∀ (X : List Char) (idx : Nat) (inRun : Bool) (c c' : AlignCursor),
      alignLoop hmm seq vt seqN seqC csStart csEnd X idx inRun c = some c' →
      c.align <+: c'.align := by
  intro X
  induction X with
  | nil =>
    intro idx inRun c c' h
    simp only [alignLoop, Option.some.injEq] at h
    subst h
    exact ⟨[], List.append_nil _⟩
  | cons x X ih =>
    intro idx inRun c c' h
    simp only [alignLoop] at h
    split_ifs at h <;>
      exact List.IsPrefix.trans (by simp [List.append_assoc]) (ih _ _ _ _ h)

/-- A character of a string is kept by every string that it is a prefix of. -/
theorem getElem?_of_extends {l l' : List Char} (h : l <+: l') (n : Nat) (x : Char)
    (hx : l[n]? = some x) : l'[n]? = some x := by
  obtain ⟨suf, e⟩ := h
  have hn : n < l.length := by
    by_contra hc
    rw [List.getElem?_eq_none (by omega)] at hx
    cases hx
  rw [← e, List.getElem?_append_left hn]
  exact hx

end

/-- Every list of states is a run of `I` followed by a list that does not start with `I`. -/
theorem leading_Irun (Y : List Char) :
    ∃ a rest, Y = List.replicate a 'I' ++ rest ∧ rest.head? ≠ some 'I' := by
  induction Y with
  | nil => exact ⟨0, [], rfl, by simp⟩
  | cons y Y ih =>
    by_cases hy : y = 'I'
    · obtain ⟨a, rest, e, h⟩ := ih
      refine ⟨a + 1, rest, ?_, h⟩
      rw [hy, e, List.replicate_succ]
      rfl
    · exact ⟨0, y :: Y, rfl, by simpa using hy⟩

/-- A state `s` other than `I` in a trace that starts with a run of `I` and a state `x` is
that `x` or comes after it. -/
theorem split_Irun_at (x : Char) (rest Y2 : List Char) (s : Char) (hs : s ≠ 'I') :
    ∀ (a : Nat) (Y1 : List Char), List.replicate a 'I' ++ x :: rest = Y1 ++ s :: Y2 →
      (Y1 = List.replicate a 'I' ∧ s = x ∧ Y2 = rest)
        ∨ ∃ Y1', Y1 = List.replicate a 'I' ++ x :: Y1' ∧ rest = Y1' ++ s :: Y2 := by
  intro a
  induction a with
  | zero =>
    intro Y1 h
    cases Y1 with
    | nil =>
      simp only [List.replicate_zero, List.nil_append, List.cons.injEq] at h
      exact Or.inl ⟨rfl, h.1.symm, h.2.symm⟩
    | cons y Y1' =>
      simp only [List.replicate_zero, List.nil_append, List.cons_append, List.cons.injEq] at h
      exact Or.inr ⟨Y1', by rw [h.1]; rfl, h.2⟩
  | succ n ih =>
    intro Y1 h
    cases Y1 with
    | nil =>
      simp only [List.replicate_succ, List.cons_append, List.nil_append, List.cons.injEq] at h
      exact absurd h.1.symm hs
    | cons y Y1' =>
      simp only [List.replicate_succ, List.cons_append, List.cons.injEq] at h
      rcases ih Y1' h.2 with ⟨e1, e2, e3⟩ | ⟨Y1'', e1, e2⟩
      · exact Or.inl ⟨by rw [← h.1, e1, List.replicate_succ], e2, e3⟩
      · exact Or.inr ⟨Y1'', by rw [← h.1, e1, List.replicate_succ]; rfl, e2⟩

section
variable {α : Type}

/-- The length of the string that the reconstruction loop returns after the first match or
delete state: when the string is at least `d` characters longer than the CS column of
profile position `k - 1`, the returned string is at least `d` characters longer than `L`.
Nothing is assumed of `profile2CSIdx`: a state whose CS column is not to the right of the
column of the state before still adds a character. -/
theorem alignLoop_rest_lower (hmm : BandedHMMP7 α) (seq : PrimarySeq)
    (vt : ViterbiAlignTrace α) (seqN seqC : List Char) (csStart : Nat) (d : Nat) :
    ∀ (X : List Char) (idx : Nat) (inRun : Bool) (c c' : AlignCursor),
      (∀ x ∈ X, x = 'M' ∨ x = 'I' ∨ x = 'D') →
      hmm.profile2CSIdx (c.k - 1) + d ≤ c.align.length → 2 ≤ c.k → 2 ≤ idx →
      c.k + countMD X = vt.alnEnd + 1 →
      alignLoop hmm seq vt seqN seqC csStart (hmm.profile2CSIdx vt.alnEnd)
          (X ++ ['E']) idx inRun c = some c' →
      hmm.L + d ≤ c'.align.length := by
  intro X
  induction X with
  | nil =>
    intro idx inRun c c' _ hlen hk _ hcMD hc'
    simp only [countMD, List.filter_nil, List.length_nil, Nat.add_zero] at hcMD
    simp only [List.nil_append, alignLoop, Char.reduceEq, if_false, if_true] at hc'
    by_cases hE : c.j ≠ vt.alnTo + 1 ∨ hmm.L < hmm.profile2CSIdx vt.alnEnd
    · rw [if_pos hE] at hc'
      exact absurd hc' (by simp)
    · rw [if_neg hE, Option.some.injEq] at hc'
      subst hc'
      push_neg at hE
      simp only [List.length_append, getPaddingSeq_length_any]
      have : c.k - 1 = vt.alnEnd := by omega
      rw [this] at hlen
      omega
  | cons x X ih =>
    intro idx inRun c c' hch hlen hk hidx hcMD hc'
    rw [countMD_cons] at hcMD
    have hch' : ∀ x ∈ X, x = 'M' ∨ x = 'I' ∨ x = 'D' :=
      fun y hy => hch y (List.mem_cons_of_mem _ hy)
    rcases hch x (List.mem_cons_self _ _) with rfl | rfl | rfl
    · -- M
      simp only [if_true, true_or] at hcMD
      simp only [List.cons_append, alignLoop, Char.reduceEq, if_false, if_true] at hc'
      by_cases hj0 : c.j = 0
      · rw [if_pos hj0] at hc'
        exact absurd hc' (by simp)
      · rw [if_neg hj0] at hc'
        refine ih (idx + 1) false _ c' hch' ?_ (by simp only; omega) (by omega)
          (by simp only; omega) hc'
        simp only [List.length_append, List.length_singleton, Nat.add_sub_cancel]
        split
        · rw [getPaddingSeq_length_any]; omega
        · rename_i hn
          simp only [List.length_nil]
          have : ¬ (hmm.profile2CSIdx c.k - hmm.profile2CSIdx (c.k - 1) > 1) := by
            intro h
            exact hn ⟨by omega, by omega, h⟩
          omega
    · -- I
      simp only [Char.reduceEq, false_or, or_false, if_false, if_true, or_true] at hcMD
      simp only [List.cons_append, alignLoop, Char.reduceEq, if_false, if_true] at hc'
      by_cases hj0 : c.j = 0
      · rw [if_pos hj0] at hc'
        exact absurd hc' (by simp)
      · rw [if_neg hj0] at hc'
        exact ih (idx + 1) true _ c' hch' (by simp only; exact hlen) (by simp only; exact hk)
          (by omega) (by simp only; exact hcMD) hc'
    · -- D
      simp only [Char.reduceEq, false_or, or_false, if_false, if_true, or_true] at hcMD
      simp only [List.cons_append, alignLoop, Char.reduceEq, if_false, if_true] at hc'
      by_cases hins : c.insert ≠ []
      · rw [if_pos hins] at hc'
        exact absurd hc' (by simp)
      · rw [if_neg hins] at hc'
        refine ih (idx + 1) false _ c' hch' ?_ (by simp only; omega) (by omega)
          (by simp only; omega) hc'
        simp only [List.length_append, List.length_singleton, Nat.add_sub_cancel]
        split
        · rw [List.length_replicate]; omega
        · rename_i hn
          simp only [List.length_nil]
          have : ¬ (hmm.profile2CSIdx c.k - hmm.profile2CSIdx (c.k - 1) > 1) := by
            intro h
            exact hn ⟨by omega, h⟩
          omega

/-- Anchoring in the reconstruction loop after the first match or delete state, when the
loop returns a string of length `L`: an `M` (a `D`) state preceded, among the states `X`, by
the states `Y1` puts the query residue it consumes (the gap symbol) at the CS column of its
profile position.  That the CS columns of the positions passed increase follows from the
length of the string. -/
theorem alignLoop_rest_anchor (hmm : BandedHMMP7 α) (seq : PrimarySeq)
    (vt : ViterbiAlignTrace α) (seqN seqC : List Char) (csStart : Nat) :
    ∀ (X : List Char) (idx : Nat) (inRun : Bool) (c c' : AlignCursor),
      (∀ x ∈ X, x = 'M' ∨ x = 'I' ∨ x = 'D') →
      c.align.length = hmm.profile2CSIdx (c.k - 1) → 2 ≤ c.k → 2 ≤ idx →
      c.k + countMD X = vt.alnEnd + 1 →
      alignLoop hmm seq vt seqN seqC csStart (hmm.profile2CSIdx vt.alnEnd)
          (X ++ ['E']) idx inRun c = some c' →
      c'.align.length = hmm.L →
      ∀ Y1 Y2,
        (X = Y1 ++ 'M' :: Y2 →
          c'.align[hmm.profile2CSIdx (c.k + countMD Y1) - 1]?
            = some (seq.charAt (c.j + countMI Y1 - 1)))
        ∧ (X = Y1 ++ 'D' :: Y2 →
          c'.align[hmm.profile2CSIdx (c.k + countMD Y1) - 1]? = some GAP_SYM) := by
  intro X
  induction X with
  | nil =>
    intro idx inRun c c' _ _ _ _ _ _ _ Y1 Y2
    constructor <;> intro h <;> simp at h
  | cons x X ih =>
    intro idx inRun c c' hch hlen hk hidx hcMD hc' hL Y1 Y2
    rw [countMD_cons] at hcMD
    have hch' : ∀ x ∈ X, x = 'M' ∨ x = 'I' ∨ x = 'D' :=
      fun y hy => hch y (List.mem_cons_of_mem _ hy)
    rcases hch x (List.mem_cons_self _ _) with rfl | rfl | rfl
    · -- M
      simp only [if_true, true_or] at hcMD
      simp only [List.cons_append, alignLoop, Char.reduceEq, if_false, if_true] at hc'
      by_cases hj0 : c.j = 0
      · rw [if_pos hj0] at hc'
        exact absurd hc' (by simp)
      rw [if_neg hj0] at hc'
      have hlt : hmm.profile2CSIdx (c.k - 1) < hmm.profile2CSIdx c.k := by
        by_contra hn
        have hlow := alignLoop_rest_lower hmm seq vt seqN seqC csStart 1 X _ _ _ c' hch'
          (by simp only [List.length_append, List.length_singleton, Nat.add_sub_cancel]
              split
              · rw [getPaddingSeq_length_any]; omega
              · simp only [List.length_nil]; omega)
          (by simp only; omega) (by omega) (by simp only; omega) hc'
        omega
      have hfill : (c.align ++
          (if c.k > 1 ∧ idx > 1 ∧ hmm.profile2CSIdx c.k - hmm.profile2CSIdx (c.k - 1) > 1 then
            getPaddingSeq (hmm.profile2CSIdx c.k - hmm.profile2CSIdx (c.k - 1) - 1)
              c.insert GAP_SYM .JUSTIFIED
          else [])).length = hmm.profile2CSIdx c.k - 1 := by
        rw [List.length_append]
        split
        · rw [getPaddingSeq_length_any]; omega
        · rename_i hn
          simp only [List.length_nil]
          have : ¬ (hmm.profile2CSIdx c.k - hmm.profile2CSIdx (c.k - 1) > 1) := by
            intro h
            exact hn ⟨by omega, by omega, h⟩
          omega
      have hpre := alignLoop_extends hmm seq vt seqN seqC csStart _ _ _ _ _ _ hc'
      have hrec := ih (idx + 1) false _ c' hch'
        (by simp only [List.length_append, List.length_singleton, Nat.add_sub_cancel]
            rw [List.length_append] at hfill
            omega)
        (by simp only; omega) (by omega) (by simp only; omega) hc' hL
      simp only at hrec hpre
      constructor
      · intro h
        cases Y1 with
        | nil =>
          simp only [countMD, countMI, List.filter_nil, List.length_nil, Nat.add_zero]
          apply getElem?_of_extends hpre
          rw [← hfill]
          exact List.getElem?_concat_length _ _
        | cons y Y1' =>
          simp only [List.cons_append, List.cons.injEq] at h
          obtain ⟨rfl, hX⟩ := h
          have := (hrec Y1' Y2).1 hX
          rw [countMD_cons, countMI_cons]
          simp only [true_or, if_true]
          rw [show c.k + (countMD Y1' + 1) = c.k + 1 + countMD Y1' by omega,
            show c.j + (countMI Y1' + 1) = c.j + 1 + countMI Y1' by omega]
          exact this
      · intro h
        cases Y1 with
        | nil =>
          simp only [List.nil_append, List.cons.injEq] at h
          exact absurd h.1 (by decide)
        | cons y Y1' =>
          simp only [List.cons_append, List.cons.injEq] at h
          obtain ⟨rfl, hX⟩ := h
          have := (hrec Y1' Y2).2 hX
          rw [countMD_cons]
          simp only [true_or, if_true]
          rw [show c.k + (countMD Y1' + 1) = c.k + 1 + countMD Y1' by omega]
          exact this
    · -- I
      simp only [Char.reduceEq, false_or, or_false, if_false, if_true, or_true] at hcMD
      simp only [List.cons_append, alignLoop, Char.reduceEq, if_false, if_true] at hc'
      by_cases hj0 : c.j = 0
      · rw [if_pos hj0] at hc'
        exact absurd hc' (by simp)
      rw [if_neg hj0] at hc'
      have hrec := ih (idx + 1) true _ c' hch' (by simp only; exact hlen)
        (by simp only; exact hk) (by omega) (by simp only; exact hcMD) hc' hL
      simp only at hrec
      constructor
      · intro h
        cases Y1 with
        | nil =>
          simp only [List.nil_append, List.cons.injEq] at h
          exact absurd h.1 (by decide)
        | cons y Y1' =>
          simp only [List.cons_append, List.cons.injEq] at h
          obtain ⟨rfl, hX⟩ := h
          have := (hrec Y1' Y2).1 hX
          rw [countMD_cons, countMI_cons]
          simp only [Char.reduceEq, false_or, or_false, if_false, if_true, or_true,
            Nat.add_zero]
          rw [show c.j + (countMI Y1' + 1) = c.j + 1 + countMI Y1' by omega]
          exact this
      · intro h
        cases Y1 with
        | nil =>
          simp only [List.nil_append, List.cons.injEq] at h
          exact absurd h.1 (by decide)
        | cons y Y1' =>
          simp only [List.cons_append, List.cons.injEq] at h
          obtain ⟨rfl, hX⟩ := h
          have := (hrec Y1' Y2).2 hX
          rw [countMD_cons]
          simp only [Char.reduceEq, false_or, or_false, if_false, if_true, or_true,
            Nat.add_zero]
          exact this
    · -- D
      simp only [Char.reduceEq, false_or, or_false, if_false, if_true, or_true] at hcMD
      simp only [List.cons_append, alignLoop, Char.reduceEq, if_false, if_true] at hc'
      by_cases hins : c.insert ≠ []
      · rw [if_pos hins] at hc'
        exact absurd hc' (by simp)
      rw [if_neg hins] at hc'
      have hlt : hmm.profile2CSIdx (c.k - 1) < hmm.profile2CSIdx c.k := by
        by_contra hn
        have hlow := alignLoop_rest_lower hmm seq vt seqN seqC csStart 1 X _ _ _ c' hch'
          (by simp only [List.length_append, List.length_singleton, Nat.add_sub_cancel]
              split
              · rw [List.length_replicate]; omega
              · simp only [List.length_nil]; omega)
          (by simp only; omega) (by omega) (by simp only; omega) hc'
        omega
      have hfill : (c.align ++
          (if c.k > 1 ∧ hmm.profile2CSIdx c.k - hmm.profile2CSIdx (c.k - 1) > 1 then
            List.replicate (hmm.profile2CSIdx c.k - hmm.profile2CSIdx (c.k - 1) - 1) GAP_SYM
          else [])).length = hmm.profile2CSIdx c.k - 1 := by
        rw [List.length_append]
        split
        · rw [List.length_replicate]; omega
        · rename_i hn
          simp only [List.length_nil]
          have : ¬ (hmm.profile2CSIdx c.k - hmm.profile2CSIdx (c.k - 1) > 1) := by
            intro h
            exact hn ⟨by omega, h⟩
          omega
      have hpre := alignLoop_extends hmm seq vt seqN seqC csStart _ _ _ _ _ _ hc'
      have hrec := ih (idx + 1) false _ c' hch'
        (by simp only [List.length_append, List.length_singleton, Nat.add_sub_cancel]
            rw [List.length_append] at hfill
            omega)
        (by simp only; omega) (by omega) (by simp only; omega) hc' hL
      simp only at hrec hpre
      constructor
      · intro h
        cases Y1 with
        | nil =>
          simp only [List.nil_append, List.cons.injEq] at h
          exact absurd h.1 (by decide)
        | cons y Y1' =>
          simp only [List.cons_append, List.cons.injEq] at h
          obtain ⟨rfl, hX⟩ := h
          have := (hrec Y1' Y2).1 hX
          rw [countMD_cons, countMI_cons]
          simp only [Char.reduceEq, false_or, or_false, if_false, if_true, or_true,
            Nat.add_zero]
          rw [show c.k + (countMD Y1' + 1) = c.k + 1 + countMD Y1' by omega]
          exact this
      · intro h
        cases Y1 with
        | nil =>
          simp only [countMD, List.filter_nil, List.length_nil, Nat.add_zero]
          apply getElem?_of_extends hpre
          rw [← hfill]
          exact List.getElem?_concat_length _ _
        | cons y Y1' =>
          simp only [List.cons_append, List.cons.injEq] at h
          obtain ⟨rfl, hX⟩ := h
          have := (hrec Y1' Y2).2 hX
          rw [countMD_cons]
          simp only [Char.reduceEq, false_or, or_false, if_false, if_true, or_true]
          rw [show c.k + (countMD Y1' + 1) = c.k + 1 + countMD Y1' by omega]
          exact this

/-- Anchoring over a whole trace `B`, `Y`, `E` for which the reconstruction loop returns a
string of length `L`: an `M` (a `D`) state preceded in `Y` by the states `Y1` is at profile
position `alnStart + countMD Y1` and consumes query residue `alnFrom + countMI Y1`; the
string holds that residue (the gap symbol) at the CS column of that profile position. -/
theorem alignLoop_trace_anchor (hmm : BandedHMMP7 α) (seq : PrimarySeq)
    (vt : ViterbiAlignTrace α) (seqN seqC : List Char) (Y : List Char)
    (hch : ∀ c ∈ Y, c = 'M' ∨ c = 'I' ∨ c = 'D')
    (hMD : countMD Y + vt.alnStart = vt.alnEnd + 1)
    (hS1 : 1 ≤ vt.alnStart) (hF1 : 1 ≤ vt.alnFrom)
    (c' : AlignCursor)
    (hc' : alignLoop hmm seq vt seqN seqC (hmm.profile2CSIdx vt.alnStart)
        (hmm.profile2CSIdx vt.alnEnd) ('B' :: (Y ++ ['E'])) 0 false
        { align := [], i := 0, j := 0, k := 0, insert := [] } = some c')
    (hlen : c'.align.length = hmm.L) :
    ∀ Y1 Y2,
      (Y = Y1 ++ 'M' :: Y2 →
        c'.align[hmm.profile2CSIdx (vt.alnStart + countMD Y1) - 1]?
          = some (seq.charAt (vt.alnFrom + countMI Y1 - 1)))
      ∧ (Y = Y1 ++ 'D' :: Y2 →
        c'.align[hmm.profile2CSIdx (vt.alnStart + countMD Y1) - 1]? = some GAP_SYM) := by
  obtain ⟨a, rest0, rfl, hhead⟩ := leading_Irun Y
  cases rest0 with
  | nil =>
    intro Y1 Y2
    constructor
    · intro h
      have hm : 'M' ∈ List.replicate a 'I' ++ [] := by rw [h]; simp
      rw [List.append_nil] at hm
      exact absurd (List.eq_of_mem_replicate hm) (by decide)
    · intro h
      have hm : 'D' ∈ List.replicate a 'I' ++ [] := by rw [h]; simp
      rw [List.append_nil] at hm
      exact absurd (List.eq_of_mem_replicate hm) (by decide)
  | cons x rest =>
    have hxI : x ≠ 'I' := by simpa using hhead
    have hx : x = 'M' ∨ x = 'D' := by
      rcases hch x (by simp) with h | h | h
      · exact Or.inl h
      · exact absurd h hxI
      · exact Or.inr h
    rw [countMD_replicate_I, countMD_cons, if_pos hx] at hMD
    have hch' : ∀ c ∈ rest, c = 'M' ∨ c = 'I' ∨ c = 'D' := by
      intro c hc
      apply hch
      simp [hc]
    -- the `B` state
    rw [alignLoop, if_pos rfl] at hc'
    by_cases hcs0 : hmm.profile2CSIdx vt.alnStart = 0
    · rw [if_pos hcs0] at hc'
      exact absurd hc' (by simp)
    rw [if_neg hcs0] at hc'
    simp only [List.nil_append, Nat.zero_add] at hc'
    rw [List.append_assoc] at hc'
    -- the run of inserts before the first match or delete state
    obtain ⟨c1, inRun1, e1, hal, hk, hj⟩ := alignLoop_Irun hmm seq vt seqN seqC
      (hmm.profile2CSIdx vt.alnStart) (hmm.profile2CSIdx vt.alnEnd) (x :: rest ++ ['E'])
      a 1 false
      { align := getPaddingSeq (hmm.profile2CSIdx vt.alnStart - 1) seqN PAD_SYM .RIGHT,
        i := hmm.profile2CSIdx vt.alnStart, j := vt.alnFrom, k := vt.alnStart, insert := [] }
      hF1
    rw [e1] at hc'
    simp only at hal hk hj
    have hlen1 : c1.align.length = hmm.profile2CSIdx vt.alnStart - 1 := by
      rw [hal, getPaddingSeq_length_any]
    have hcMD : ∀ Z, countMD (List.replicate a 'I' ++ x :: Z) = countMD Z + 1 := by
      intro Z
      rw [countMD_replicate_I, countMD_cons, if_pos hx]
    have hcMD0 : countMD (List.replicate a 'I') = 0 := by
      simp [countMD]
    have hcMI0 : countMI (List.replicate a 'I') = a := by
      simp [countMI]
    rcases hx with rfl | rfl
    · -- the first state is a match state
      have hj0 : ¬ c1.j = 0 := by omega
      simp only [List.cons_append, alignLoop, Char.reduceEq, if_false, if_true, hj0] at hc'
      -- a fill before the first match state would make the string longer than `L`
      have hshift := alignLoop_rest_lower hmm seq vt seqN seqC _
        ((if c1.k > 1 ∧ 1 + a > 1 ∧
            hmm.profile2CSIdx c1.k - hmm.profile2CSIdx (c1.k - 1) > 1 then
          getPaddingSeq (hmm.profile2CSIdx c1.k - hmm.profile2CSIdx (c1.k - 1) - 1)
            c1.insert GAP_SYM .JUSTIFIED
        else []).length) rest _ _ _ c' hch'
        (by simp only [List.length_append, List.length_singleton, hlen1, Nat.add_sub_cancel,
              hk]
            omega)
        (by simp only; omega) (by omega) (by simp only; omega) hc'
      have hfill : (if c1.k > 1 ∧ 1 + a > 1 ∧
            hmm.profile2CSIdx c1.k - hmm.profile2CSIdx (c1.k - 1) > 1 then
          getPaddingSeq (hmm.profile2CSIdx c1.k - hmm.profile2CSIdx (c1.k - 1) - 1)
            c1.insert GAP_SYM .JUSTIFIED
        else []) = [] := by
        apply List.eq_nil_of_length_eq_zero
        omega
      rw [hfill, List.append_nil] at hc'
      have hpre := alignLoop_extends hmm seq vt seqN seqC _ _ _ _ _ _ _ hc'
      have hrec := alignLoop_rest_anchor hmm seq vt seqN seqC _ rest _ _ _ c' hch'
        (by simp only [List.length_append, List.length_singleton, hlen1, Nat.add_sub_cancel, hk]
            omega)
        (by simp only; omega) (by omega) (by simp only; omega) hc' hlen
      simp only at hpre hrec
      have hfirst : c'.align[hmm.profile2CSIdx vt.alnStart - 1]?
          = some (seq.charAt (vt.alnFrom + a - 1)) := by
        apply getElem?_of_extends hpre
        rw [← hlen1, ← hj]
        exact List.getElem?_concat_length _ _
      have hcMI : ∀ Z, countMI (List.replicate a 'I' ++ 'M' :: Z) = countMI Z + 1 + a := by
        intro Z
        rw [countMI_replicate_I, countMI_cons]
        simp
      intro Y1 Y2
      constructor
      · intro h
        rcases split_Irun_at 'M' rest Y2 'M' (by decide) a Y1 h with ⟨e, -, -⟩ | ⟨Y1', e, e2⟩
        · rw [e, hcMD0, hcMI0]
          exact hfirst
        · have := (hrec Y1' Y2).1 e2
          rw [e, hcMD, hcMI]
          rw [hk, hj] at this
          rw [show vt.alnStart + (countMD Y1' + 1) = vt.alnStart + 1 + countMD Y1' by omega,
            show vt.alnFrom + (countMI Y1' + 1 + a) = vt.alnFrom + a + 1 + countMI Y1' by omega]
          exact this
      · intro h
        rcases split_Irun_at 'M' rest Y2 'D' (by decide) a Y1 h with ⟨-, e, -⟩ | ⟨Y1', e, e2⟩
        · exact absurd e (by decide)
        · have := (hrec Y1' Y2).2 e2
          rw [e, hcMD]
          rw [hk] at this
          rw [show vt.alnStart + (countMD Y1' + 1) = vt.alnStart + 1 + countMD Y1' by omega]
          exact this
    · -- the first state is a delete state
      simp only [List.cons_append, alignLoop, Char.reduceEq, if_false, if_true] at hc'
      by_cases hins : c1.insert ≠ []
      · rw [if_pos hins] at hc'
        exact absurd hc' (by simp)
      rw [if_neg hins] at hc'
      simp only [List.append_eq] at hc'
      have hshift := alignLoop_rest_lower hmm seq vt seqN seqC _
        ((if c1.k > 1 ∧ hmm.profile2CSIdx c1.k - hmm.profile2CSIdx (c1.k - 1) > 1 then
          List.replicate (hmm.profile2CSIdx c1.k - hmm.profile2CSIdx (c1.k - 1) - 1) GAP_SYM
        else []).length) rest _ _ _ c' hch'
        (by simp only [List.length_append, List.length_singleton, hlen1, Nat.add_sub_cancel,
              hk]
            rw [Nat.add_right_comm, Nat.sub_add_cancel (by omega)])
        (by simp only; omega) (by omega) (by simp only; omega) hc'
      have hfill : (if c1.k > 1 ∧
            hmm.profile2CSIdx c1.k - hmm.profile2CSIdx (c1.k - 1) > 1 then
          List.replicate (hmm.profile2CSIdx c1.k - hmm.profile2CSIdx (c1.k - 1) - 1) GAP_SYM
        else []) = [] := by
        apply List.eq_nil_of_length_eq_zero
        omega
      rw [hfill, List.append_nil] at hc'
      have hpre := alignLoop_extends hmm seq vt seqN seqC _ _ _ _ _ _ _ hc'
      have hrec := alignLoop_rest_anchor hmm seq vt seqN seqC _ rest _ _ _ c' hch'
        (by simp only [List.length_append, List.length_singleton, hlen1, Nat.add_sub_cancel, hk]
            omega)
        (by simp only; omega) (by omega) (by simp only; omega) hc' hlen
      simp only at hpre hrec
      have hfirst : c'.align[hmm.profile2CSIdx vt.alnStart - 1]? = some GAP_SYM := by
        apply getElem?_of_extends hpre
        rw [← hlen1]
        exact List.getElem?_concat_length _ _
      have hcMI : ∀ Z, countMI (List.replicate a 'I' ++ 'D' :: Z) = countMI Z + a := by
        intro Z
        rw [countMI_replicate_I, countMI_cons]
        simp
      intro Y1 Y2
      constructor
      · intro h
        rcases split_Irun_at 'D' rest Y2 'M' (by decide) a Y1 h with ⟨-, e, -⟩ | ⟨Y1', e, e2⟩
        · exact absurd e (by decide)
        · have := (hrec Y1' Y2).1 e2
          rw [e, hcMD, hcMI]
          rw [hk, hj] at this
          rw [show vt.alnStart + (countMD Y1' + 1) = vt.alnStart + 1 + countMD Y1' by omega,
            show vt.alnFrom + (countMI Y1' + a) = vt.alnFrom + a + countMI Y1' by omega]
          exact this
      · intro h
        rcases split_Irun_at 'D' rest Y2 'D' (by decide) a Y1 h with ⟨e, -, -⟩ | ⟨Y1', e, e2⟩
        · rw [e, hcMD0]
          exact hfirst
        · have := (hrec Y1' Y2).2 e2
          rw [e, hcMD]
          rw [hk] at this
          rw [show vt.alnStart + (countMD Y1' + 1) = vt.alnStart + 1 + countMD Y1' by omega]
          exact this

end

/-! ### Merging alignments -/

theorem strAt_lt (s : List Char) (i : Nat) (h : i < s.length) : strAt s i = s[i]? := by
  simp [strAt, h]

/-- The overlay loop inside both strings: it returns a string of the same length that
holds, at every position below `n`, the other string's character where this string had
`PAD_SYM` and the other had not, and this string's character elsewhere. -/
theorem mergeAlign_spec (align other : List Char) :
    ∀ n, n ≤ align.length → n ≤ other.length →
      ∃ al, mergeAlign n align other = some al ∧ al.length = align.length
        ∧ ∀ i, al[i]? =
            if i < n ∧ align[i]? = some PAD_SYM ∧ other[i]? ≠ some PAD_SYM then other[i]?
            else align[i]? := by
  intro n
  induction n with
  | zero =>
    intro _ _
    exact ⟨align, rfl, rfl, by intro i; simp⟩
  | succ n ih =>
    intro h1 h2
    obtain ⟨al, e, hl, hal⟩ := ih (by omega) (by omega)
    unfold mergeAlign at e ⊢
    rw [List.range_succ, List.foldl_append, e]
    simp only [List.foldl_cons, List.foldl_nil, mergeStep, Option.some_bind]
    have hn : al[n]? = align[n]? := by
      rw [hal n]
      simp
    obtain ⟨x, hx⟩ : ∃ x, align[n]? = some x := ⟨align[n], List.getElem?_eq_getElem (by omega)⟩
    obtain ⟨y, hy⟩ : ∃ y, other[n]? = some y := ⟨other[n], List.getElem?_eq_getElem (by omega)⟩
    rw [strAt_lt al n (by omega), hn, hx]
    simp only
    by_cases hxp : x = PAD_SYM
    · rw [if_pos hxp, strAt_lt other n (by omega), hy]
      simp only
      by_cases hyp : y = PAD_SYM
      · rw [if_neg (by simpa using hyp)]
        refine ⟨al, rfl, hl, ?_⟩
        intro i
        rw [hal i]
        by_cases hin : i = n
        · subst hin
          simp [hx, hy, hxp, hyp]
        · have : i < n + 1 ↔ i < n := by omega
          simp only [this]
      · rw [if_pos hyp]
        refine ⟨al.set n y, rfl, by rw [List.length_set, hl], ?_⟩
        intro i
        by_cases hin : i = n
        · subst hin
          rw [List.getElem?_set_self (by omega)]
          simp [hx, hy, hxp, hyp]
        · rw [List.getElem?_set_ne (fun h => hin h.symm), hal i]
          have : i < n + 1 ↔ i < n := by omega
          simp only [this]
    · rw [if_neg hxp]
      refine ⟨al, rfl, hl, ?_⟩
      intro i
      rw [hal i]
      by_cases hin : i = n
      · subst hin
        simp [hx, hxp]
      · have : i < n + 1 ↔ i < n := by omega
        simp only [this]
section
variable {α : Type} [Add α]

/-- C16: when `other` is compatible, a returned `a.merge(other)` has `seqStart`, `hmmStart`
and `csStart` equal to the minimum of the two alignments' values, `seqEnd`, `hmmEnd` and
`csEnd` equal to the maximum, `cost` equal to the sum of the two costs and `K`, `L`
unchanged; and `merge` does return when both aligned strings have at least `L`
characters. -/
theorem merge_coordinates (isCompatitable : HmmAlignment α → HmmAlignment α → Bool)
    (a other : HmmAlignment α) (hc : isCompatitable a other = true) :
    (∀ m, HmmAlignment.merge isCompatitable a other = some m →
      m.seqStart = min a.seqStart other.seqStart
        ∧ m.hmmStart = min a.hmmStart other.hmmStart
        ∧ m.csStart = min a.csStart other.csStart
        ∧ m.seqEnd = max a.seqEnd other.seqEnd
        ∧ m.hmmEnd = max a.hmmEnd other.hmmEnd
        ∧ m.csEnd = max a.csEnd other.csEnd
        ∧ m.cost = a.cost + other.cost ∧ m.K = a.K ∧ m.L = a.L)
      ∧ (a.L ≤ a.align.length → a.L ≤ other.align.length →
          ∃ m, HmmAlignment.merge isCompatitable a other = some m) := by
  constructor
  · intro m h
    unfold HmmAlignment.merge at h
    rw [if_pos hc] at h
    obtain ⟨al, -, e⟩ := Option.map_eq_some'.mp h
    subst e
    refine ⟨?_, ?_, ?_, ?_, ?_, ?_, rfl, rfl, rfl⟩ <;> simp only <;> split <;> omega
  · intro h1 h2
    obtain ⟨al, e, -⟩ := mergeAlign_spec a.align other.align a.L h1 h2
    unfold HmmAlignment.merge
    rw [if_pos hc, e]
    exact ⟨_, rfl⟩

/-- C17: when `other` is compatible and both aligned strings have length `L`,
`a.merge(other)` returns an alignment whose string has length `L` and holds at every
position `i < L` the character of `a` if that was not `PAD_SYM` and the character of
`other` otherwise; the position is `PAD_SYM` exactly when it was `PAD_SYM` in both. -/
theorem merge_overlay (isCompatitable : HmmAlignment α → HmmAlignment α → Bool)
    (a other : HmmAlignment α) (hc : isCompatitable a other = true)
    (hla : a.align.length = a.L) (hlo : other.align.length = a.L) :
    ∃ m, HmmAlignment.merge isCompatitable a other = some m
      ∧ m.align.length = a.L
      ∧ ∀ i, i < a.L →
        (m.align[i]? = if a.align[i]? ≠ some PAD_SYM then a.align[i]? else other.align[i]?)
          ∧ (m.align[i]? = some PAD_SYM ↔
              (a.align[i]? = some PAD_SYM ∧ other.align[i]? = some PAD_SYM)) := by
  obtain ⟨al, e, hl, hal⟩ := mergeAlign_spec a.align other.align a.L (by omega) (by omega)
  have hov : ∀ i, i < a.L →
      al[i]? = if a.align[i]? ≠ some PAD_SYM then a.align[i]? else other.align[i]? := by
    intro i hi
    rw [hal i]
    by_cases hp : a.align[i]? = some PAD_SYM
    · by_cases hq : other.align[i]? = some PAD_SYM
      · simp [hp, hq]
      · simp [hp, hq, hi]
    · simp [hp]
  refine ⟨{ a with
      seqStart := if other.seqStart < a.seqStart then other.seqStart else a.seqStart
      seqEnd := if other.seqEnd > a.seqEnd then other.seqEnd else a.seqEnd
      hmmStart := if other.hmmStart < a.hmmStart then other.hmmStart else a.hmmStart
      hmmEnd := if other.hmmEnd > a.hmmEnd then other.hmmEnd else a.hmmEnd
      csStart := if other.csStart < a.csStart then other.csStart else a.csStart
      csEnd := if other.csEnd > a.csEnd then other.csEnd else a.csEnd
      cost := a.cost + other.cost
      align := al }, ?_, ?_, ?_⟩
  · unfold HmmAlignment.merge
    rw [if_pos hc, e]
    rfl
  · simp only
    omega
  · intro i hi
    simp only
    refine ⟨hov i hi, ?_⟩
    rw [hov i hi]
    by_cases hp : a.align[i]? = some PAD_SYM
    · simp [hp]
    · simp [hp]

/-- C18: when `other` is not compatible, `a.merge(other)` returns `a` with every field
unchanged. -/
theorem merge_incompatible (isCompatitable : HmmAlignment α → HmmAlignment α → Bool)
    (a other : HmmAlignment α) (hc : isCompatitable a other = false) :
    HmmAlignment.merge isCompatitable a other = some a := by
  unfold HmmAlignment.merge
  rw [if_neg (by simp [hc])]

end

theorem merge_coordinates_witness :
    ∃ m, HmmAlignment.merge (fun _ _ => true) alnLeft alnRight = some m
      ∧ m.seqStart = min alnLeft.seqStart alnRight.seqStart
      ∧ m.hmmStart = min alnLeft.hmmStart alnRight.hmmStart
      ∧ m.csStart = min alnLeft.csStart alnRight.csStart
      ∧ m.seqEnd = max alnLeft.seqEnd alnRight.seqEnd
      ∧ m.hmmEnd = max alnLeft.hmmEnd alnRight.hmmEnd
      ∧ m.csEnd = max alnLeft.csEnd alnRight.csEnd
      ∧ m.cost = alnLeft.cost + alnRight.cost ∧ m.K = alnLeft.K ∧ m.L = alnLeft.L := by
  have h := merge_coordinates (fun _ _ => true) alnLeft alnRight rfl
  obtain ⟨m, hm⟩ := h.2 (by decide) (by decide)
  exact ⟨m, hm, h.1 m hm⟩

theorem merge_overlay_witness :
    ∃ m, HmmAlignment.merge (fun _ _ => true) alnLeft alnRight = some m
      ∧ m.align.length = alnLeft.L
      ∧ ∀ i, i < alnLeft.L →
        (m.align[i]? = if alnLeft.align[i]? ≠ some PAD_SYM then alnLeft.align[i]?
            else alnRight.align[i]?)
          ∧ (m.align[i]? = some PAD_SYM ↔
              (alnLeft.align[i]? = some PAD_SYM ∧ alnRight.align[i]? = some PAD_SYM)) :=
  merge_overlay (fun _ _ => true) alnLeft alnRight rfl rfl rfl

theorem merge_incompatible_witness :
    HmmAlignment.merge (fun _ _ => false) alnLeft alnRight = some alnLeft :=
  merge_incompatible (fun _ _ => false) alnLeft alnRight rfl

/-! ### Building the index maps -/

theorem matchCount_succ (msa : MSA) (symfrac : ℚ) (n : Nat) :
    matchCount msa symfrac (n + 1)
      = matchCount msa symfrac n + (if msa.symWFrac n ≥ symfrac then 1 else 0) := by
  unfold matchCount
  rw [List.range_succ, List.filter_append, List.length_append]
  by_cases h : msa.symWFrac n ≥ symfrac
  · simp [h]
  · simp [h]

theorem matchCount_mono (msa : MSA) (symfrac : ℚ) (a b : Nat) (h : a ≤ b) :
    matchCount msa symfrac a ≤ matchCount msa symfrac b := by
  induction b with
  | zero =>
    have : a = 0 := by omega
    subst this
    exact le_refl _
  | succ n ih =>
    by_cases e : a = n + 1
    · subst e; exact le_refl _
    · have := ih (by omega)
      rw [matchCount_succ]
      omega

theorem matchCount_lt (msa : MSA) (symfrac : ℚ) (a b : Nat) (h : a < b)
    (hb : msa.symWFrac (b - 1) ≥ symfrac) :
    matchCount msa symfrac a < matchCount msa symfrac b := by
  have h1 := matchCount_mono msa symfrac a (b - 1) (by omega)
  have h2 := matchCount_succ msa symfrac (b - 1)
  rw [if_pos hb, show b - 1 + 1 = b by omega] at h2
  omega

/-- The invariant of the column loop of `build` after `n` columns. -/
theorem buildIndex_loop (msa : MSA) (symfrac : ℚ) (p c : Nat → Nat) :
    ∀ n,
      ((List.range n).foldl (buildIndexStep msa symfrac)
          { k := 0, profile2CSIdx := p, cs2ProfileIdx := c }).k = matchCount msa symfrac n
      ∧ (∀ i, 1 ≤ i → i ≤ matchCount msa symfrac n →
          1 ≤ ((List.range n).foldl (buildIndexStep msa symfrac)
              { k := 0, profile2CSIdx := p, cs2ProfileIdx := c }).profile2CSIdx i
          ∧ ((List.range n).foldl (buildIndexStep msa symfrac)
              { k := 0, profile2CSIdx := p, cs2ProfileIdx := c }).profile2CSIdx i ≤ n
          ∧ msa.symWFrac (((List.range n).foldl (buildIndexStep msa symfrac)
              { k := 0, profile2CSIdx := p, cs2ProfileIdx := c }).profile2CSIdx i - 1)
              ≥ symfrac
          ∧ matchCount msa symfrac (((List.range n).foldl (buildIndexStep msa symfrac)
              { k := 0, profile2CSIdx := p, cs2ProfileIdx := c }).profile2CSIdx i) = i)
      ∧ (∀ j, 1 ≤ j → j ≤ n →
          ((List.range n).foldl (buildIndexStep msa symfrac)
              { k := 0, profile2CSIdx := p, cs2ProfileIdx := c }).cs2ProfileIdx j
            = matchCount msa symfrac j) := by
  intro n
  induction n with
  | zero =>
    refine ⟨rfl, ?_, ?_⟩
    · intro i h1 h2
      simp [matchCount] at h2
      omega
    · intro j h1 h2
      omega
  | succ n ih =>
    obtain ⟨hk, hp, hc⟩ := ih
    rw [List.range_succ, List.foldl_append]
    simp only [List.foldl_cons, List.foldl_nil]
    generalize (List.range n).foldl (buildIndexStep msa symfrac)
      { k := 0, profile2CSIdx := p, cs2ProfileIdx := c } = s at hk hp hc
    have hsucc := matchCount_succ msa symfrac n
    by_cases hm : msa.symWFrac n ≥ symfrac
    · rw [if_pos hm] at hsucc
      simp only [buildIndexStep, hm, if_true]
      refine ⟨by omega, ?_, ?_⟩
      · intro i h1 h2
        by_cases hi : i = s.k + 1
        · subst hi
          rw [setAt_same]
          refine ⟨by omega, le_refl _, by simpa using hm, by omega⟩
        · rw [setAt_ne _ _ _ _ hi]
          obtain ⟨a1, a2, a3, a4⟩ := hp i h1 (by omega)
          exact ⟨a1, by omega, a3, a4⟩
      · intro j h1 h2
        by_cases hj : j = n + 1
        · subst hj
          rw [setAt_same]
          omega
        · rw [setAt_ne _ _ _ _ hj]
          exact hc j h1 (by omega)
    · rw [if_neg hm] at hsucc
      simp only [buildIndexStep, hm, if_false]
      refine ⟨by omega, ?_, ?_⟩
      · intro i h1 h2
        obtain ⟨a1, a2, a3, a4⟩ := hp i h1 (by omega)
        exact ⟨a1, by omega, a3, a4⟩
      · intro j h1 h2
        by_cases hj : j = n + 1
        · subst hj
          rw [setAt_same]
          omega
        · rw [setAt_ne _ _ _ _ hj]
          exact hc j h1 (by omega)
section
variable {α : Type} [Top α]

/-- The first phase of `build` on valid arguments: it returns, `L` is the CS length, `K` the
number of match columns, `profile2CSIdx[i]` is a match column with `i` match columns up to
it, and `cs2ProfileIdx[j]` is the number of match columns up to `j`. -/
theorem buildIndex_spec (kMaxProfile kMaxCS : Nat) (msa : MSA) (symfrac : ℚ) (name : String)
    (h : BandedHMMP7 α) (hlen : msa.msaLen ≠ 0) (h0 : 0 < symfrac) (h1 : symfrac < 1) :
    ∃ r, buildIndex kMaxProfile kMaxCS msa symfrac name h = some r
      ∧ r.L = msa.csLen ∧ r.K = matchCount msa symfrac msa.csLen
      ∧ (∀ i, 1 ≤ i → i ≤ r.K →
          1 ≤ r.profile2CSIdx i ∧ r.profile2CSIdx i ≤ msa.csLen
          ∧ msa.symWFrac (r.profile2CSIdx i - 1) ≥ symfrac
          ∧ matchCount msa symfrac (r.profile2CSIdx i) = i)
      ∧ (∀ j, 1 ≤ j → j ≤ msa.csLen → r.cs2ProfileIdx j = matchCount msa symfrac j) := by
  obtain ⟨hk, hp, hc⟩ := buildIndex_loop msa symfrac
    (reset_index kMaxProfile kMaxCS h).profile2CSIdx
    (reset_index kMaxProfile kMaxCS h).cs2ProfileIdx msa.csLen
  unfold buildIndex
  rw [if_neg hlen, if_neg (not_not.mpr ⟨h0, h1⟩)]
  refine ⟨_, rfl, rfl, hk, ?_, hc⟩
  intro i hi1 hi2
  exact hp i hi1 (le_of_le_of_eq hi2 hk)

/-- C19: on valid arguments (non-empty MSA, `symfrac` in `(0,1)`) the first phase of `build`
sets `L` to the CS length and `K` to the number of CS columns `j` in `1..L` whose weighted
symbol fraction is at least `symfrac`; `profile2CSIdx` is strictly increasing on `1..K` and
its values there are exactly those columns. -/
theorem build_match_columns (kMaxProfile kMaxCS : Nat) (msa : MSA) (symfrac : ℚ)
    (name : String) (h : BandedHMMP7 α)
    (hlen : msa.msaLen ≠ 0) (h0 : 0 < symfrac) (h1 : symfrac < 1) :
    ∃ r, buildIndex kMaxProfile kMaxCS msa symfrac name h = some r
      ∧ r.L = msa.csLen ∧ r.K = matchCount msa symfrac msa.csLen
      ∧ (∀ k, 1 ≤ k → k < r.K → r.profile2CSIdx k < r.profile2CSIdx (k + 1))
      ∧ (∀ j, (1 ≤ j ∧ j ≤ msa.csLen ∧ msa.symWFrac (j - 1) ≥ symfrac)
          ↔ ∃ k, 1 ≤ k ∧ k ≤ r.K ∧ r.profile2CSIdx k = j) := by
  obtain ⟨r, hr, hL, hK, hp, hc⟩ :=
    buildIndex_spec kMaxProfile kMaxCS msa symfrac name h hlen h0 h1
  refine ⟨r, hr, hL, hK, ?_, ?_⟩
  · intro k hk1 hk2
    obtain ⟨-, -, -, a⟩ := hp k hk1 (by omega)
    obtain ⟨-, -, -, b⟩ := hp (k + 1) (by omega) (by omega)
    by_contra hn
    have := matchCount_mono msa symfrac _ _ (not_lt.mp hn)
    omega
  · intro j
    constructor
    · rintro ⟨hj1, hj2, hm⟩
      have hpos := matchCount_lt msa symfrac (j - 1) j (by omega) hm
      have hle := matchCount_mono msa symfrac j msa.csLen hj2
      obtain ⟨a1, a2, a3, a4⟩ := hp (matchCount msa symfrac j) (by omega) (by omega)
      refine ⟨matchCount msa symfrac j, by omega, by omega, ?_⟩
      rcases Nat.lt_trichotomy (r.profile2CSIdx (matchCount msa symfrac j)) j with hlt | e | hgt
      · have := matchCount_lt msa symfrac _ j hlt hm
        omega
      · exact e
      · have := matchCount_lt msa symfrac j _ hgt a3
        omega
    · rintro ⟨k, hk1, hk2, rfl⟩
      obtain ⟨a1, a2, a3, -⟩ := hp k hk1 hk2
      exact ⟨a1, a2, a3⟩

/-- C20 as amended: on valid arguments, after the first phase of `build`, for every CS
column `j` in `1..L`, `cs2ProfileIdx[j]` is the number of match columns among `1..j`: when
`j` is a match column it is the profile position `k` whose M state owns `j`
(`profile2CSIdx[k] = j`), and when `j` is insert-only it is the profile position of the
last match column before `j` (every position up to it lies left of `j`, every later one
right of `j`), hence `0` only if no match column precedes `j`. -/
theorem build_cs2ProfileIdx (kMaxProfile kMaxCS : Nat) (msa : MSA) (symfrac : ℚ)
    (name : String) (h : BandedHMMP7 α)
    (hlen : msa.msaLen ≠ 0) (h0 : 0 < symfrac) (h1 : symfrac < 1) :
    ∃ r, buildIndex kMaxProfile kMaxCS msa symfrac name h = some r
      ∧ ∀ j, 1 ≤ j → j ≤ r.L →
        r.cs2ProfileIdx j = matchCount msa symfrac j
        ∧ (msa.symWFrac (j - 1) ≥ symfrac →
            1 ≤ r.cs2ProfileIdx j ∧ r.cs2ProfileIdx j ≤ r.K
            ∧ r.profile2CSIdx (r.cs2ProfileIdx j) = j)
        ∧ (msa.symWFrac (j - 1) < symfrac →
            r.cs2ProfileIdx j = matchCount msa symfrac (j - 1)
            ∧ (∀ k, 1 ≤ k → k ≤ r.cs2ProfileIdx j → r.profile2CSIdx k < j)
            ∧ (∀ k, r.cs2ProfileIdx j < k → k ≤ r.K → j < r.profile2CSIdx k)) := by
  obtain ⟨r, hr, hL, hK, hp, hc⟩ :=
    buildIndex_spec kMaxProfile kMaxCS msa symfrac name h hlen h0 h1
  refine ⟨r, hr, ?_⟩
  intro j hj1 hj2
  rw [hL] at hj2
  have hcj := hc j hj1 hj2
  have hle := matchCount_mono msa symfrac j msa.csLen hj2
  refine ⟨hcj, ?_, ?_⟩
  · intro hm
    have hpos := matchCount_lt msa symfrac (j - 1) j (by omega) hm
    obtain ⟨a1, a2, a3, a4⟩ := hp (matchCount msa symfrac j) (by omega) (by omega)
    rw [hcj]
    refine ⟨by omega, by omega, ?_⟩
    rcases Nat.lt_trichotomy (r.profile2CSIdx (matchCount msa symfrac j)) j with hlt | e | hgt
    · have := matchCount_lt msa symfrac _ j hlt hm
      omega
    · exact e
    · have := matchCount_lt msa symfrac j _ hgt a3
      omega
  · intro hm
    have hsucc := matchCount_succ msa symfrac (j - 1)
    rw [if_neg (not_le.mpr hm), show j - 1 + 1 = j by omega] at hsucc
    rw [hcj]
    refine ⟨by omega, ?_, ?_⟩
    · intro k hk1 hk2
      obtain ⟨a1, a2, a3, a4⟩ := hp k hk1 (by omega)
      by_contra hn
      have hne : r.profile2CSIdx k ≠ j := by
        intro e
        rw [e] at a3
        exact absurd a3 (not_le.mpr hm)
      have := matchCount_lt msa symfrac j _ (by omega) a3
      omega
    · intro k hk1 hk2
      obtain ⟨a1, a2, a3, a4⟩ := hp k (by omega) hk2
      by_contra hn
      have := matchCount_mono msa symfrac _ j (not_lt.mp hn)
      omega

end

/-- C20 fails on the code: for two CS columns with weighted symbol fractions `1` and `0` and
`symfrac = 1/2`, column `2` is insert-only, and `build` sets `cs2ProfileIdx[2] = 1`, the
profile position of column `1`, not `0`. -/
theorem build_cs2ProfileIdx_counterexample :
    (buildIndex 100 100 msaTwoCols (1 / 2) "" (BandedHMMP7.empty : BandedHMMP7 ℕ∞)).map
        (fun r => (r.K, r.L, r.cs2ProfileIdx 1, r.cs2ProfileIdx 2)) = some (1, 2, 1, 1)
      ∧ msaTwoCols.symWFrac (2 - 1) < 1 / 2 := by
  have e0 : msaTwoCols.symWFrac 0 ≥ (1 / 2 : ℚ) := by norm_num [msaTwoCols]
  have e1 : ¬ msaTwoCols.symWFrac 1 ≥ (1 / 2 : ℚ) := by norm_num [msaTwoCols]
  have hfold : ∀ s, (List.range 2).foldl (buildIndexStep msaTwoCols (1 / 2)) s
      = buildIndexStep msaTwoCols (1 / 2) (buildIndexStep msaTwoCols (1 / 2) s 0) 1 :=
    fun _ => rfl
  refine ⟨?_, by norm_num [msaTwoCols]⟩
  unfold buildIndex
  rw [if_neg (by decide), if_neg (by norm_num)]
  simp only [Option.map_some', show msaTwoCols.csLen = 2 from rfl, hfold]
  simp only [buildIndexStep, e0, e1, if_true, if_false, setProfileSize, setAt_same]
  rfl

theorem build_match_columns_witness :
    ∃ r, buildIndex 100 100 msaTwoCols (1 / 2) "" (BandedHMMP7.empty : BandedHMMP7 ℕ∞) = some r
      ∧ r.L = msaTwoCols.csLen ∧ r.K = matchCount msaTwoCols (1 / 2) msaTwoCols.csLen
      ∧ (∀ k, 1 ≤ k → k < r.K → r.profile2CSIdx k < r.profile2CSIdx (k + 1))
      ∧ (∀ j, (1 ≤ j ∧ j ≤ msaTwoCols.csLen ∧ msaTwoCols.symWFrac (j - 1) ≥ 1 / 2)
          ↔ ∃ k, 1 ≤ k ∧ k ≤ r.K ∧ r.profile2CSIdx k = j) :=
  build_match_columns 100 100 msaTwoCols (1 / 2) "" BandedHMMP7.empty (by decide)
    (by norm_num) (by norm_num)

theorem build_cs2ProfileIdx_witness :
    ∃ r, buildIndex 100 100 msaTwoCols (1 / 2) "" (BandedHMMP7.empty : BandedHMMP7 ℕ∞) = some r
      ∧ ∀ j, 1 ≤ j → j ≤ r.L →
        r.cs2ProfileIdx j = matchCount msaTwoCols (1 / 2) j
        ∧ (msaTwoCols.symWFrac (j - 1) ≥ 1 / 2 →
            1 ≤ r.cs2ProfileIdx j ∧ r.cs2ProfileIdx j ≤ r.K
            ∧ r.profile2CSIdx (r.cs2ProfileIdx j) = j)
        ∧ (msaTwoCols.symWFrac (j - 1) < 1 / 2 →
            r.cs2ProfileIdx j = matchCount msaTwoCols (1 / 2) (j - 1)
            ∧ (∀ k, 1 ≤ k → k ≤ r.cs2ProfileIdx j → r.profile2CSIdx k < j)
            ∧ (∀ k, r.cs2ProfileIdx j < k → k ≤ r.K → j < r.profile2CSIdx k)) :=
  build_cs2ProfileIdx 100 100 msaTwoCols (1 / 2) "" BandedHMMP7.empty (by decide)
    (by norm_num) (by norm_num)

/-! ### The filled tables -/

section
variable {α : Type} [LinearOrderedAddCommMonoidWithTop α]

theorem nflank_eq (hmm : BandedHMMP7 α) (i : Nat) :
    nflank hmm i = (i - 1) • hmm.T_SP_cost .N .N := by
  unfold nflank
  split
  · rename_i h
    subst h
    simp
  · rfl

/-- C28: the full `calcViterbiScores` on fresh buffers (the HMM being wing-retracted)
returns tables with `DP_M(0,0) = DP_I(0,0) = DP_D(0,0) = inf`,
`DP_M(i,0) = DP_I(i,0) = (i-1)·T_SP_cost(N,N) + T_SP_cost(N,B)` for `i` in `1..L`, the term of
`i = 1` being `T_SP_cost(N,B)` whatever `T_SP_cost(N,N)` is, and for `i` in `1..L`, `j` in
`1..K` the cells satisfy the recurrence: `DP_M` is the match emission plus the minimum over
the entry from `B` and the three diagonal predecessors, `DP_I` the insert emission plus the
minimum over the two predecessors of row `i-1`, and `DP_D` the minimum over the two
predecessors of column `j-1` for `1 < j < K` and `inf` otherwise, so
`DP_D(i,1) = DP_D(i,K) = inf`. -/
theorem calcViterbiScores_tables (hmm : BandedHMMP7 α) (seq : PrimarySeq)
    (hw : hmm.wingRetracted = true) :
    ∃ vs, calcViterbiScores hmm seq (ViterbiScores.fresh seq.length) = some vs
      ∧ vs.DP_M 0 0 = ⊤ ∧ vs.DP_I 0 0 = ⊤ ∧ vs.DP_D 0 0 = ⊤
      ∧ (∀ i, 1 ≤ i → i ≤ seq.length →
          vs.DP_M i 0 = (i - 1) • hmm.T_SP_cost .N .N + hmm.T_SP_cost .N .B
          ∧ vs.DP_I i 0 = (i - 1) • hmm.T_SP_cost .N .N + hmm.T_SP_cost .N .B)
      ∧ (1 ≤ seq.length → vs.DP_M 1 0 = hmm.T_SP_cost .N .B)
      ∧ (∀ i j, 1 ≤ i → i ≤ seq.length → 1 ≤ j → j ≤ hmm.K →
          vs.DP_M i j = hmm.E_M_cost (seq.encodeAt (i - 1)) j +
              min (vs.DP_M i 0 + hmm.entryPr_cost j)
                (min (vs.DP_M (i - 1) (j - 1) + hmm.Tmat_cost (j - 1) .M .M)
                  (min (vs.DP_I (i - 1) (j - 1) + hmm.Tmat_cost (j - 1) .I .M)
                    (vs.DP_D (i - 1) (j - 1) + hmm.Tmat_cost (j - 1) .D .M)))
          ∧ vs.DP_I i j = hmm.E_I_cost (seq.encodeAt (i - 1)) j +
              min (vs.DP_M (i - 1) j + hmm.Tmat_cost j .M .I)
                (vs.DP_I (i - 1) j + hmm.Tmat_cost j .I .I)
          ∧ vs.DP_D i j =
              (if 1 < j ∧ j < hmm.K then
                min (vs.DP_M i (j - 1) + hmm.Tmat_cost (j - 1) .M .D)
                  (vs.DP_D i (j - 1) + hmm.Tmat_cost (j - 1) .D .D)
              else ⊤))
      ∧ (∀ i, vs.DP_D i 1 = ⊤ ∧ vs.DP_D i hmm.K = ⊤) := by
  have hsome : ∃ vs, calcViterbiScores hmm seq (ViterbiScores.fresh seq.length) = some vs := by
    unfold calcViterbiScores
    rw [if_pos ⟨rfl, hw⟩]
    exact ⟨_, rfl⟩
  obtain ⟨vs, hvs⟩ := hsome
  obtain ⟨hL, hrow0, hD, hR, -⟩ := calc_fresh_spec hmm seq vs hvs
  obtain ⟨e, -, -⟩ := calc_eq hmm seq _ _ hvs
  have hF := fullLoops_spec hmm seq seq.length
    (prepareViterbiScores hmm (ViterbiScores.fresh seq.length))
  obtain ⟨-, -, hFMI, -, -⟩ := hF
  have hT := scoreLayer_tables hmm (fullLoops hmm seq seq.length
    (prepareViterbiScores hmm (ViterbiScores.fresh seq.length)))
  have e' : vs = scoreLayer hmm (fullLoops hmm seq seq.length
      (prepareViterbiScores hmm (ViterbiScores.fresh seq.length))) := e
  have hcol0 : ∀ i, 1 ≤ i → i ≤ seq.length →
      vs.DP_M i 0 = (i - 1) • hmm.T_SP_cost .N .N + hmm.T_SP_cost .N .B
      ∧ vs.DP_I i 0 = (i - 1) • hmm.T_SP_cost .N .N + hmm.T_SP_cost .N .B := by
    intro i h1 h2
    have := hFMI i 0 (by omega)
    have hi0 : ¬ i = 0 := by omega
    have hc : (0 : Nat) = 0 ∧ i ≤ (ViterbiScores.fresh seq.length : ViterbiScores α).L :=
      ⟨rfl, h2⟩
    rw [e', hT.2.1, hT.2.2.1, this.1, this.2, prepare_DP_M, prepare_DP_I, if_pos hc,
      if_neg hi0, nflank_eq]
    exact ⟨rfl, if_pos hc⟩
  refine ⟨vs, hvs, (hrow0 0).1, (hrow0 0).2, hD 0 0 (by omega), hcol0, ?_, ?_, ?_⟩
  · intro h1
    rw [(hcol0 1 (le_refl _) h1).1]
    simp
  · intro i j h1 h2 h3 h4
    obtain ⟨rM, rI, rD⟩ := hR i j h1 h2 h3 h4
    refine ⟨?_, ?_, ?_⟩
    · rw [rM]
      rfl
    · rw [rI]
      rfl
    · by_cases hj : 1 < j ∧ j < hmm.K
      · rw [if_pos hj, rD hj]
        rfl
      · rw [if_neg hj]
        exact hD i j hj
  · intro i
    exact ⟨hD i 1 (by omega), hD i hmm.K (by omega)⟩

/-- C29: `calcViterbiScores` (on any buffers of the query's length, the HMM being
wing-retracted) returns tables in which, for every row `i` in `0..L`,
`S(i,j) = DP_M(i,j) + exitPr_cost(j) + T_SP_cost(E,C) + c(i)` for `j` in `0..K` and
`S(i,K+1) = DP_I(i,K) + T_cost[K](I,M) + T_SP_cost(E,C) + c(i)`, where
`c(i) = (L-i)·T_SP_cost(C,C)` for `1 ≤ i ≤ L-1` and `c(i) = 0` for `i = 0` and `i = L`. -/
theorem calcViterbiScores_scoreLayer (hmm : BandedHMMP7 α) (seq : PrimarySeq)
    (vs0 : ViterbiScores α) (hlen : seq.length = vs0.L) (hw : hmm.wingRetracted = true) :
    ∃ vs, calcViterbiScores hmm seq vs0 = some vs ∧ vs.L = vs0.L
      ∧ ∀ i, i ≤ vs.L →
        (∀ j, j ≤ hmm.K →
          vs.S i j = vs.DP_M i j + hmm.exitPr_cost j + hmm.T_SP_cost .E .C
            + (if 1 ≤ i ∧ i ≤ vs.L - 1 then (vs.L - i) • hmm.T_SP_cost .C .C else 0))
        ∧ vs.S i (hmm.K + 1) =
            vs.DP_I i hmm.K + hmm.Tmat_cost hmm.K .I .M + hmm.T_SP_cost .E .C
              + (if 1 ≤ i ∧ i ≤ vs.L - 1 then (vs.L - i) • hmm.T_SP_cost .C .C else 0) := by
  have hF := fullLoops_spec hmm seq vs0.L (prepareViterbiScores hmm vs0)
  have hFL : (fullLoops hmm seq vs0.L (prepareViterbiScores hmm vs0)).L = vs0.L := by
    rw [hF.1, prepare_L]
  have hT := scoreLayer_tables hmm (fullLoops hmm seq vs0.L (prepareViterbiScores hmm vs0))
  refine ⟨scoreLayer hmm (fullLoops hmm seq vs0.L (prepareViterbiScores hmm vs0)), ?_, ?_, ?_⟩
  · unfold calcViterbiScores
    rw [if_pos ⟨hlen, hw⟩]
  · rw [hT.1, hFL]
  · intro i hi
    rw [hT.1, hFL] at hi
    rw [hT.1, hT.2.1, hT.2.2.1, hFL]
    constructor
    · intro j hj
      rw [scoreLayer_S, hFL, if_pos ⟨hi, hj⟩]
    · rw [scoreLayer_S, hFL, if_neg (by omega), if_pos ⟨hi, rfl⟩]

end

theorem calcViterbiScores_tables_witness :
    ∃ vs, calcViterbiScores hmmOneMatch seqA (ViterbiScores.fresh seqA.length) = some vs
      ∧ vs.DP_M 0 0 = ⊤ ∧ vs.DP_I 0 0 = ⊤ ∧ vs.DP_D 0 0 = ⊤
      ∧ (∀ i, 1 ≤ i → i ≤ seqA.length →
          vs.DP_M i 0 = (i - 1) • hmmOneMatch.T_SP_cost .N .N + hmmOneMatch.T_SP_cost .N .B
          ∧ vs.DP_I i 0 = (i - 1) • hmmOneMatch.T_SP_cost .N .N + hmmOneMatch.T_SP_cost .N .B)
      ∧ (1 ≤ seqA.length → vs.DP_M 1 0 = hmmOneMatch.T_SP_cost .N .B)
      ∧ (∀ i j, 1 ≤ i → i ≤ seqA.length → 1 ≤ j → j ≤ hmmOneMatch.K →
          vs.DP_M i j = hmmOneMatch.E_M_cost (seqA.encodeAt (i - 1)) j +
              min (vs.DP_M i 0 + hmmOneMatch.entryPr_cost j)
                (min (vs.DP_M (i - 1) (j - 1) + hmmOneMatch.Tmat_cost (j - 1) .M .M)
                  (min (vs.DP_I (i - 1) (j - 1) + hmmOneMatch.Tmat_cost (j - 1) .I .M)
                    (vs.DP_D (i - 1) (j - 1) + hmmOneMatch.Tmat_cost (j - 1) .D .M)))
          ∧ vs.DP_I i j = hmmOneMatch.E_I_cost (seqA.encodeAt (i - 1)) j +
              min (vs.DP_M (i - 1) j + hmmOneMatch.Tmat_cost j .M .I)
                (vs.DP_I (i - 1) j + hmmOneMatch.Tmat_cost j .I .I)
          ∧ vs.DP_D i j =
              (if 1 < j ∧ j < hmmOneMatch.K then
                min (vs.DP_M i (j - 1) + hmmOneMatch.Tmat_cost (j - 1) .M .D)
                  (vs.DP_D i (j - 1) + hmmOneMatch.Tmat_cost (j - 1) .D .D)
              else ⊤))
      ∧ (∀ i, vs.DP_D i 1 = ⊤ ∧ vs.DP_D i hmmOneMatch.K = ⊤) :=
  calcViterbiScores_tables hmmOneMatch seqA rfl

theorem calcViterbiScores_scoreLayer_witness :
    ∃ vs, calcViterbiScores hmmOneMatch seqA (ViterbiScores.fresh 1) = some vs
      ∧ vs.L = (ViterbiScores.fresh 1 : ViterbiScores ℕ∞).L
      ∧ ∀ i, i ≤ vs.L →
        (∀ j, j ≤ hmmOneMatch.K →
          vs.S i j = vs.DP_M i j + hmmOneMatch.exitPr_cost j + hmmOneMatch.T_SP_cost .E .C
            + (if 1 ≤ i ∧ i ≤ vs.L - 1 then (vs.L - i) • hmmOneMatch.T_SP_cost .C .C else 0))
        ∧ vs.S i (hmmOneMatch.K + 1) =
            vs.DP_I i hmmOneMatch.K + hmmOneMatch.Tmat_cost hmmOneMatch.K .I .M
              + hmmOneMatch.T_SP_cost .E .C
              + (if 1 ≤ i ∧ i ≤ vs.L - 1 then (vs.L - i) • hmmOneMatch.T_SP_cost .C .C
                  else 0) :=
  calcViterbiScores_scoreLayer hmmOneMatch seqA (ViterbiScores.fresh 1) rfl rfl

/-! ### The frame of the banded dynamic programme -/

section
variable {α : Type} [LinearOrderedAddCommMonoidWithTop α]

/-- A cell update writes cell `(i, j)` of the three tables only. -/
theorem dpCell_frame (hmm : BandedHMMP7 α) (seq : PrimarySeq) (b : Bool)
    (vs : ViterbiScores α) (i j a c : Nat) (h : ¬ (a = i ∧ c = j)) :
    (dpCell hmm seq b vs i j).DP_M a c = vs.DP_M a c
      ∧ (dpCell hmm seq b vs i j).DP_I a c = vs.DP_I a c
      ∧ (dpCell hmm seq b vs i j).DP_D a c = vs.DP_D a c := by
  unfold dpCell
  split <;> simp [setCell, h]

/-- A band writes only the cells of its rectangle that pass its filter. -/
theorem bandLoops_frame (hmm : BandedHMMP7 α) (seq : PrimarySeq) (b : Bool)
    (keep : Nat → Nat → Bool) (jlo : Nat) (jhi : Int) (ilo : Nat) (ihi : Int)
    (vs : ViterbiScores α) (a c : Nat)
    (h : ¬ (inRect jlo jhi ilo ihi a c = true ∧ keep a c = true)) :
    (bandLoops hmm seq b keep jlo jhi ilo ihi vs).DP_M a c = vs.DP_M a c
      ∧ (bandLoops hmm seq b keep jlo jhi ilo ihi vs).DP_I a c = vs.DP_I a c
      ∧ (bandLoops hmm seq b keep jlo jhi ilo ihi vs).DP_D a c = vs.DP_D a c := by
  unfold bandLoops
  split
  · rename_i hb
    have hj : jlo ≤ jhi.toNat := by omega
    have hi : ilo ≤ ihi.toNat := by omega
    apply forLoop_induct jlo jhi.toNat _ vs
      (fun _ s => s.DP_M a c = vs.DP_M a c ∧ s.DP_I a c = vs.DP_I a c
        ∧ s.DP_D a c = vs.DP_D a c) (by omega) ⟨rfl, rfl, rfl⟩
    intro j s hj1 hj2 hs
    apply forLoop_induct ilo ihi.toNat _ s
      (fun _ s' => s'.DP_M a c = vs.DP_M a c ∧ s'.DP_I a c = vs.DP_I a c
        ∧ s'.DP_D a c = vs.DP_D a c) (by omega) hs
    intro i s' hi1 hi2 hs'
    by_cases hk : keep i j = true
    · rw [if_pos hk]
      have hne : ¬ (a = i ∧ c = j) := by
        rintro ⟨rfl, rfl⟩
        apply h
        refine ⟨?_, hk⟩
        simp only [inRect, decide_eq_true_eq]
        omega
      obtain ⟨f1, f2, f3⟩ := dpCell_frame hmm seq b s' i j a c hne
      exact ⟨f1.trans hs'.1, f2.trans hs'.2.1, f3.trans hs'.2.2⟩
    · rw [if_neg hk]
      exact hs'
  · exact ⟨rfl, rfl, rfl⟩

theorem pathStep_eq (hmm : BandedHMMP7 α) (seq : PrimarySeq) (vs : ViterbiScores α)
    (prev : Option VPath) (vp : VPath) :
    pathStep hmm seq (vs, prev) vp =
      (bandLoops hmm seq true
        (fun i j =>
          decide (diagnalDist i j vp.from_ vp.start ≤ (vp.nIns : Int)
            ∧ diagnalDist i j vp.from_ vp.start ≥ -(vp.nDel : Int)))
        vp.start vp.end_ vp.from_ vp.to_
        (bandLoops hmm seq true (fun _ _ => true)
          (upStart prev vp).toNat vp.start (upFrom prev vp).toNat vp.from_ vs), some vp) := by
  cases prev <;> rfl

/-- The bands of one known path write only inside its upstream band and its own band. -/
theorem pathStep_frame (hmm : BandedHMMP7 α) (seq : PrimarySeq) (vs : ViterbiScores α)
    (prev : Option VPath) (vp : VPath) (a c : Nat)
    (hu : inUpstream prev vp a c = false) (hs : inSegment vp a c = false) :
    (pathStep hmm seq (vs, prev) vp).1.DP_M a c = vs.DP_M a c
      ∧ (pathStep hmm seq (vs, prev) vp).1.DP_I a c = vs.DP_I a c
      ∧ (pathStep hmm seq (vs, prev) vp).1.DP_D a c = vs.DP_D a c := by
  rw [pathStep_eq]
  obtain ⟨f1, f2, f3⟩ := bandLoops_frame hmm seq true
    (fun i j =>
      decide (diagnalDist i j vp.from_ vp.start ≤ (vp.nIns : Int)
        ∧ diagnalDist i j vp.from_ vp.start ≥ -(vp.nDel : Int)))
    vp.start vp.end_ vp.from_ vp.to_
    (bandLoops hmm seq true (fun _ _ => true)
      (upStart prev vp).toNat vp.start (upFrom prev vp).toNat vp.from_ vs) a c
    (by
      rintro ⟨h1, h2⟩
      unfold inSegment at hs
      beta_reduce at h2
      rw [h1, h2] at hs
      exact absurd hs (by decide))
  obtain ⟨g1, g2, g3⟩ := bandLoops_frame hmm seq true (fun _ _ => true)
    (upStart prev vp).toNat vp.start (upFrom prev vp).toNat vp.from_ vs a c
    (by
      rintro ⟨h1, -⟩
      unfold inUpstream at hu
      rw [h1] at hu
      exact absurd hu (by decide))
  exact ⟨f1.trans g1, f2.trans g2, f3.trans g3⟩

/-- The loop over the known paths writes only inside their bands. -/
theorem pathFold_frame (hmm : BandedHMMP7 α) (seq : PrimarySeq) (a c : Nat) :
    ∀ (vps : List VPath) (prev : Option VPath) (vs : ViterbiScores α),
      inPathBands prev vps a c = false →
      (vps.foldl (pathStep hmm seq) (vs, prev)).1.DP_M a c = vs.DP_M a c
        ∧ (vps.foldl (pathStep hmm seq) (vs, prev)).1.DP_I a c = vs.DP_I a c
        ∧ (vps.foldl (pathStep hmm seq) (vs, prev)).1.DP_D a c = vs.DP_D a c := by
  intro vps
  induction vps with
  | nil =>
    intro prev vs _
    exact ⟨rfl, rfl, rfl⟩
  | cons vp rest ih =>
    intro prev vs h
    simp only [inPathBands, Bool.or_eq_false_iff] at h
    obtain ⟨⟨hu, hs⟩, hr⟩ := h
    obtain ⟨f1, f2, f3⟩ := pathStep_frame hmm seq vs prev vp a c hu hs
    have e : pathStep hmm seq (vs, prev) vp
        = ((pathStep hmm seq (vs, prev) vp).1, some vp) := by
      rw [pathStep_eq]
    rw [List.foldl_cons, e]
    obtain ⟨g1, g2, g3⟩ := ih (some vp) (pathStep hmm seq (vs, prev) vp).1 hr
    exact ⟨g1.trans f1, g2.trans f2, g3.trans f3⟩

/-- C30: for every non-empty list of known paths (on buffers of the query's length, the HMM
being wing-retracted) the banded `calcViterbiScores` returns tables in which every cell
`(i, j)`, `j ≥ 1`, that lies neither in the upstream band or the own band (segment rectangle
with diagonal distance in `[-nDel, +nIns]`) of a known path nor in the downstream band holds
in `DP_M`, `DP_I` and `DP_D` the value it had before the call, hence `inf` on fresh
buffers. -/
theorem banded_frame (hmm : BandedHMMP7 α) (seq : PrimarySeq) (vs0 : ViterbiScores α)
    (vpaths : List VPath) (last : VPath) (hlast : vpaths.getLast? = some last)
    (hlen : seq.length = vs0.L) (hw : hmm.wingRetracted = true) :
    ∃ vs, calcViterbiScoresBanded hmm seq vs0 vpaths = some vs
      ∧ ∀ i j, 1 ≤ j → inPathBands none vpaths i j = false →
          inDownstream hmm.K vs0.L last i j = false →
          vs.DP_M i j = vs0.DP_M i j ∧ vs.DP_I i j = vs0.DP_I i j
            ∧ vs.DP_D i j = vs0.DP_D i j := by
  unfold calcViterbiScoresBanded
  rw [if_pos ⟨hlen, hw⟩]
  simp only [hlast]
  refine ⟨_, rfl, ?_⟩
  intro i j hj hp hd
  have hT := scoreLayer_tables hmm
    (bandLoops hmm seq false (fun _ _ => true) last.end_
      (if truncGap (last.end_ : Int) ((vs0.L : Int) - (last.to_ : Int)) > hmm.K then (hmm.K : Int)
        else truncGap (last.end_ : Int) ((vs0.L : Int) - (last.to_ : Int)))
      last.to_
      (if truncGap (last.to_ : Int) ((vs0.L : Int) - (last.to_ : Int)) > vs0.L then (vs0.L : Int)
        else truncGap (last.to_ : Int) ((vs0.L : Int) - (last.to_ : Int)))
      (vpaths.foldl (pathStep hmm seq) (prepareViterbiScores hmm vs0, none)).1)
  obtain ⟨d1, d2, d3⟩ := bandLoops_frame hmm seq false (fun _ _ => true) last.end_
      (if truncGap (last.end_ : Int) ((vs0.L : Int) - (last.to_ : Int)) > hmm.K then (hmm.K : Int)
        else truncGap (last.end_ : Int) ((vs0.L : Int) - (last.to_ : Int)))
      last.to_
      (if truncGap (last.to_ : Int) ((vs0.L : Int) - (last.to_ : Int)) > vs0.L then (vs0.L : Int)
        else truncGap (last.to_ : Int) ((vs0.L : Int) - (last.to_ : Int)))
      (vpaths.foldl (pathStep hmm seq) (prepareViterbiScores hmm vs0, none)).1 i j
      (by
        rintro ⟨h1, -⟩
        have : inDownstream hmm.K vs0.L last i j = true := h1
        rw [this] at hd
        exact absurd hd (by decide))
  obtain ⟨p1, p2, p3⟩ := pathFold_frame hmm seq i j vpaths none
    (prepareViterbiScores hmm vs0) hp
  have hj0 : ¬ (j = 0 ∧ i ≤ vs0.L) := by omega
  have hij : ¬ (i = 0 ∧ j = 0) := by omega
  have q1 := prepare_DP_M hmm vs0 i j
  have q2 := prepare_DP_I hmm vs0 i j
  have q3 := prepare_DP_D hmm vs0 i j
  rw [if_neg hj0] at q1 q2
  rw [if_neg hij] at q3
  refine ⟨?_, ?_, ?_⟩
  · show (scoreLayer hmm _).DP_M i j = _
    rw [hT.2.1, d1, p1, q1]
  · show (scoreLayer hmm _).DP_I i j = _
    rw [hT.2.2.1, d2, p2, q2]
  · show (scoreLayer hmm _).DP_D i j = _
    rw [hT.2.2.2, d3, p3, q3]

end

theorem banded_frame_witness :
    ∃ vs, calcViterbiScoresBanded hmmOneMatch seqAA (ViterbiScores.fresh 2) [vpathOne] = some vs
      ∧ ∀ i j, 1 ≤ j → inPathBands none [vpathOne] i j = false →
          inDownstream hmmOneMatch.K (ViterbiScores.fresh 2 : ViterbiScores ℕ∞).L vpathOne i j
            = false →
          vs.DP_M i j = (ViterbiScores.fresh 2 : ViterbiScores ℕ∞).DP_M i j
            ∧ vs.DP_I i j = (ViterbiScores.fresh 2 : ViterbiScores ℕ∞).DP_I i j
            ∧ vs.DP_D i j = (ViterbiScores.fresh 2 : ViterbiScores ℕ∞).DP_D i j :=
  banded_frame hmmOneMatch seqAA (ViterbiScores.fresh 2) [vpathOne] vpathOne rfl rfl rfl

/-! ### Argument validation of `build` -/

/-- C23: the first phase of `build` throws `invalid_argument` if and only if the MSA length
is `0` or `symfrac` is not strictly between `0` and `1`; when it throws, the HMM object is
the one it was given, no field written; otherwise it returns the HMM of `buildIndex`. -/
theorem build_validation {α : Type} [Top α] (kMaxProfile kMaxCS : Nat) (msa : MSA)
    (symfrac : ℚ) (name : String) (h : BandedHMMP7 α) :
    ((buildIndexState kMaxProfile kMaxCS msa symfrac name h).2 = true
        ↔ (msa.msaLen = 0 ∨ ¬ (0 < symfrac ∧ symfrac < 1)))
      ∧ ((buildIndexState kMaxProfile kMaxCS msa symfrac name h).2 = true →
          (buildIndexState kMaxProfile kMaxCS msa symfrac name h).1 = h)
      ∧ ((buildIndexState kMaxProfile kMaxCS msa symfrac name h).2 = false →
          buildIndex kMaxProfile kMaxCS msa symfrac name h
            = some (buildIndexState kMaxProfile kMaxCS msa symfrac name h).1) := by
  unfold buildIndexState
  by_cases h1 : msa.msaLen = 0
  · simp [h1]
  · by_cases h2 : (symfrac > 0 ∧ symfrac < 1)
    · have e : ∃ r, buildIndex kMaxProfile kMaxCS msa symfrac name h = some r := by
        unfold buildIndex
        rw [if_neg h1, if_neg (not_not.mpr h2)]
        exact ⟨_, rfl⟩
      obtain ⟨r, hr⟩ := e
      rw [if_neg h1, if_neg (not_not.mpr h2), hr]
      simp only [Bool.false_eq_true, false_iff, not_or, not_not, false_implies, true_and,
        implies_true, and_true]
      exact ⟨h1, h2⟩
    · rw [if_neg h1, if_pos h2]
      simp only [true_iff, true_implies, Bool.true_eq_false, false_implies, and_true]
      exact Or.inr h2

/-! ### Parsing: malformed and unusual inputs -/

set_option maxRecDepth 100000 in
/-- C21 fails on the code: the text `textGap` (`K = 2`, MAP values `1` and `3`, `MAXL  3`)
is parsed successfully, with `L = 3`, and `cs2ProfileIdx` is `1, 0, 2` on the columns `1..3`:
the insert-only column `2` keeps `0`, so `cs2ProfileIdx` decreases from column `1` to
column `2`. -/
theorem parse_cs2ProfileIdx_not_monotone :
    (parseHMM 100 expNegEx negLogEx parseCostEx textGap BandedHMMP7.empty).2 = .good
      ∧ (parseHMM 100 expNegEx negLogEx parseCostEx textGap BandedHMMP7.empty).1.L = 3
      ∧ (parseHMM 100 expNegEx negLogEx parseCostEx textGap BandedHMMP7.empty).1.cs2ProfileIdx 1
          = 1
      ∧ (parseHMM 100 expNegEx negLogEx parseCostEx textGap BandedHMMP7.empty).1.cs2ProfileIdx 2
          = 0
      ∧ (parseHMM 100 expNegEx negLogEx parseCostEx textGap BandedHMMP7.empty).1.cs2ProfileIdx 3
          = 2 := by
  refine ⟨?_, ?_, ?_, ?_, ?_⟩ <;> decide

set_option maxRecDepth 100000 in
/-- C25 fails on the code: on the text `textRNA`, whose header has `ALPH  RNA`, the parser
throws `invalid_argument`; the stream is not put into a failed state. -/
theorem parse_wrong_alphabet_counterexample :
    (parseHMM 100 expNegEx negLogEx parseCostEx textRNA BandedHMMP7.empty).2 = .thrown
      ∧ (parseHMM 100 expNegEx negLogEx parseCostEx textRNA BandedHMMP7.empty).2 ≠ .failbit
      ∧ (parseHMM 100 expNegEx negLogEx parseCostEx textRNA BandedHMMP7.empty).2 ≠ .badbit := by
  refine ⟨?_, ?_, ?_⟩ <;> decide

section
variable {α : Type} [LinearOrderedAddCommMonoidWithTop α]

/-- C25 as amended: when the parser reads a header line `ALPH` whose value is not `DNA`, it
throws `invalid_argument` and stops; the stream is not put into a failed state and the HMM
is left as the lines before made it. -/
theorem parse_wrong_alphabet (kMaxProfile : Nat) (expNeg : α → ℚ) (negLog : ℚ → α)
    (parseCost : String → α) (fuel : Nat) (line : String) (rest : List String)
    (hmm : BandedHMMP7 α) (k : Nat)
    (hhead : ¬ (line.data.head?.map Char.isWhitespace = some true))
    (htag : (popTokStr line.data).1 = "ALPH")
    (hval : (popTokStr (popTokStr line.data).2).1 ≠ "DNA") :
    parseLoop kMaxProfile expNeg negLog parseCost (fuel + 1) (line :: rest) hmm k
      = (hmm, .thrown) := by
  have hne : line ≠ "//" := by
    rintro rfl
    exact absurd htag (by decide)
  rw [parseLoop]
  simp only [hne, if_false, hhead, not_false_eq_true, if_true, htag, hval]
  have h1 : ¬ ("ALPH".take 6 = "HMMER3") := by decide
  have h2 : ¬ ("ALPH" = "NAME") := by decide
  have h3 : ¬ ("ALPH" = "LENG") := by decide
  rw [if_neg h1, if_neg h2, if_neg h3]
  rw [if_pos hval]

/-- C26 as amended: when the first line of the text is a version line of an obsolete format,
parsing ends with `badbit` and the target HMM is equal to its state before the parse
began. -/
theorem parse_obsolete_version (kMaxProfile : Nat) (expNeg : α → ℚ) (negLog : ℚ → α)
    (parseCost : String → α) (line : String) (rest : List String) (hmm : BandedHMMP7 α)
    (hhead : ¬ (line.data.head?.map Char.isWhitespace = some true))
    (htag : (popTokStr line.data).1.take 6 = "HMMER3")
    (hold : (popTokStr line.data).1.length < 8
      ∨ ((popTokStr line.data).1.data.getD 7 'a') < 'f') :
    parseHMM kMaxProfile expNeg negLog parseCost (line :: rest) hmm = (hmm, .badbit) := by
  have hne : line ≠ "//" := by
    rintro rfl
    exact absurd htag (by decide)
  unfold parseHMM
  rw [List.length_cons, parseLoop]
  simp only [hne, if_false, hhead, not_false_eq_true, if_true, htag, hold]

end

theorem parse_wrong_alphabet_witness :
    parseLoop 100 expNegEx negLogEx parseCostEx (0 + 1) ("ALPH  RNA" :: ["//"])
      BandedHMMP7.empty 0 = (BandedHMMP7.empty, .thrown) :=
  parse_wrong_alphabet 100 expNegEx negLogEx parseCostEx 0 "ALPH  RNA" ["//"]
    BandedHMMP7.empty 0 (by decide) (by decide) (by decide)

set_option maxRecDepth 100000 in
/-- C26 fails on the code: the text `textNoEnd` (one `NAME` line, no terminator) ends in
`failbit` with the name of the target changed; the text `textNoMap` (no `MAP` header) ends
in `badbit` at the first match line with the name, `K` and `L` of the target changed; and
the text `textLateOld`, whose obsolete version line comes after a `NAME` line, ends in
`badbit` with the name of the target changed. -/
theorem parse_partial_counterexample :
    (parseHMM 100 expNegEx negLogEx parseCostEx textNoEnd BandedHMMP7.empty).2 = .failbit
      ∧ (parseHMM 100 expNegEx negLogEx parseCostEx textNoEnd BandedHMMP7.empty).1.name = "x"
      ∧ (BandedHMMP7.empty : BandedHMMP7 ℕ∞).name = "unnamed"
      ∧ (parseHMM 100 expNegEx negLogEx parseCostEx textNoMap BandedHMMP7.empty).2 = .badbit
      ∧ (parseHMM 100 expNegEx negLogEx parseCostEx textNoMap BandedHMMP7.empty).1.K = 1
      ∧ (parseHMM 100 expNegEx negLogEx parseCostEx textNoMap BandedHMMP7.empty).1.L = 2
      ∧ (BandedHMMP7.empty : BandedHMMP7 ℕ∞).K = 0
      ∧ (BandedHMMP7.empty : BandedHMMP7 ℕ∞).L = 0
      ∧ (parseHMM 100 expNegEx negLogEx parseCostEx textLateOld BandedHMMP7.empty).2 = .badbit
      ∧ (parseHMM 100 expNegEx negLogEx parseCostEx textLateOld BandedHMMP7.empty).1.name
          = "x" := by
  refine ⟨?_, ?_, ?_, ?_, ?_, ?_, ?_, ?_, ?_, ?_⟩ <;> decide

theorem parse_obsolete_version_witness :
    parseHMM 100 expNegEx negLogEx parseCostEx textOld BandedHMMP7.empty
      = (BandedHMMP7.empty, .badbit) :=
  parse_obsolete_version 100 expNegEx negLogEx parseCostEx "HMMER3/b [3.0]"
    ["NAME  old", "LENG  1", "ALPH  DNA", "//"] BandedHMMP7.empty (by decide) (by decide)
    (by decide)

/-! ### Parsing: what a successful parse has done -/

theorem not_good_of_snd {β : Type} {a b : β} {s : io_state} (hs : s ≠ .good)
    (h : (a, s) = (b, io_state.good)) : False :=
  hs (congrArg Prod.snd h)

theorem ite_eq_elim {β : Type} {c : Prop} [Decidable c] {a b x : β}
    (h : (if c then a else b) = x) : (c ∧ a = x) ∨ (¬ c ∧ b = x) := by
  by_cases hc : c
  · rw [if_pos hc] at h
    exact Or.inl ⟨hc, h⟩
  · rw [if_neg hc] at h
    exact Or.inr ⟨hc, h⟩

section
variable {α : Type} [LinearOrderedAddCommMonoidWithTop α]

set_option maxHeartbeats 2000000 in
/-- A successful parse has read lines, each doing one of the updates of `LineUpd`, up to the
terminator, and then run `extend_index`, `resetProbByCost`, `adjustProfileLocalMode` and
`wingRetract`. -/
theorem parseLoop_reach (kMaxProfile : Nat) (expNeg : α → ℚ) (negLog : ℚ → α)
    (parseCost : String → α) :
    ∀ (fuel : Nat) (lines : List String) (hmm : BandedHMMP7 α) (k : Nat) (r : BandedHMMP7 α),
      parseLoop kMaxProfile expNeg negLog parseCost fuel lines hmm k = (r, .good) →
      ∃ hf kf, Reach negLog parseCost hmm k hf kf
        ∧ wingRetract expNeg negLog (adjustProfileLocalMode negLog
            (resetProbByCost expNeg (extend_index kMaxProfile hf))) = some r := by
  intro fuel
  induction fuel with
  | zero =>
    intro lines hmm k r h
    exact (not_good_of_snd (by decide) h).elim
  | succ n ih =>
    intro lines hmm k r h
    cases lines with
    | nil => exact (not_good_of_snd (by decide) h).elim
    | cons line rest =>
      rw [parseLoop] at h
      by_cases hl : line = "//"
      · rw [if_pos hl] at h
        refine ⟨hmm, k, .refl _ _, ?_⟩
        have h0 : (match wingRetract expNeg negLog (adjustProfileLocalMode negLog
            (resetProbByCost expNeg (extend_index kMaxProfile hmm))) with
          | some hmm => (hmm, io_state.good)
          | none => (adjustProfileLocalMode negLog
              (resetProbByCost expNeg (extend_index kMaxProfile hmm)), io_state.aborted))
            = (r, io_state.good) := h
        cases hw : wingRetract expNeg negLog (adjustProfileLocalMode negLog
            (resetProbByCost expNeg (extend_index kMaxProfile hmm))) with
        | none =>
          rw [hw] at h0
          exact (not_good_of_snd (by decide) h0).elim
        | some r' =>
          rw [hw] at h0
          have e : r' = r := congrArg Prod.fst h0
          rw [e]
      · rw [if_neg hl] at h
        dsimp only at h
        have same : ∀ rest', parseLoop kMaxProfile expNeg negLog parseCost n rest' hmm k
            = (r, .good) → ∃ hf kf, Reach negLog parseCost hmm k hf kf
              ∧ wingRetract expNeg negLog (adjustProfileLocalMode negLog
                  (resetProbByCost expNeg (extend_index kMaxProfile hf))) = some r :=
          fun rest' h => ih rest' hmm k r h
        have one : ∀ rest' h1 k1, LineUpd negLog parseCost hmm k h1 k1 →
            parseLoop kMaxProfile expNeg negLog parseCost n rest' h1 k1 = (r, .good) →
            ∃ hf kf, Reach negLog parseCost hmm k hf kf
              ∧ wingRetract expNeg negLog (adjustProfileLocalMode negLog
                  (resetProbByCost expNeg (extend_index kMaxProfile hf))) = some r := by
          intro rest' h1 k1 hu h
          obtain ⟨hf, kf, hr, hw⟩ := ih rest' h1 k1 r h
          exact ⟨hf, kf, .step hu hr, hw⟩
        rcases ite_eq_elim h with ⟨-, h⟩ | ⟨-, h⟩
        · -- header section
          rcases ite_eq_elim h with ⟨-, h⟩ | ⟨-, h⟩
          · rcases ite_eq_elim h with ⟨-, h⟩ | ⟨-, h⟩
            · exact (not_good_of_snd (by decide) h).elim
            · exact same _ h
          rcases ite_eq_elim h with ⟨-, h⟩ | ⟨-, h⟩
          · exact one _ _ _ (.name _ _ _) h
          rcases ite_eq_elim h with ⟨-, h⟩ | ⟨-, h⟩
          · exact one _ _ _ (.leng _ _ _) h
          rcases ite_eq_elim h with ⟨-, h⟩ | ⟨-, h⟩
          · rcases ite_eq_elim h with ⟨-, h⟩ | ⟨-, h⟩
            · exact (not_good_of_snd (by decide) h).elim
            · exact same _ h
          rcases ite_eq_elim h with ⟨-, h⟩ | ⟨-, h⟩
          · exact one _ _ _ (.maxl _ _ _) h
          rcases ite_eq_elim h with ⟨-, h⟩ | ⟨-, h⟩
          · exact one _ _ _ (.opt _ _ _ _) h
          rcases ite_eq_elim h with ⟨-, h⟩ | ⟨-, h⟩
          · exact same _ h
          -- optional tags
          obtain ⟨hf, kf, hr, hw⟩ := ih _ _ _ _ h
          refine ⟨hf, kf, ?_, hw⟩
          by_cases cN : (popTokStr line.data).1 = "NSEQ"
          · rw [if_pos cN] at hr
            by_cases cE : (popTokStr line.data).1 ≠ ""
            · rw [if_pos cE] at hr
              exact .step (.opt _ _ _ _) (.step (.nseq _ _ _) hr)
            · rw [if_neg cE] at hr
              exact .step (.nseq _ _ _) hr
          · rw [if_neg cN] at hr
            by_cases cE : (popTokStr line.data).1 ≠ ""
            · rw [if_pos cE] at hr
              exact .step (.opt _ _ _ _) hr
            · rw [if_neg cE] at hr
              exact hr
        · -- main body
          rcases ite_eq_elim h with ⟨-, h⟩ | ⟨-, h⟩
          · rcases ite_eq_elim h with ⟨-, h⟩ | ⟨-, h⟩
            · exact (not_good_of_snd (by decide) h).elim
            rcases ite_eq_elim h with ⟨-, h⟩ | ⟨-, h⟩
            · exact (not_good_of_snd (by decide) h).elim
            cases hp : popToks 11 rest with
            | none =>
              rw [hp] at h
              exact (not_good_of_snd (by decide) h).elim
            | some p =>
              obtain ⟨toks, rest'⟩ := p
              rw [hp] at h
              obtain ⟨hf, kf, hr, hw⟩ := ih _ _ _ _ h
              refine ⟨hf, kf, ?_, hw⟩
              by_cases cC : (popTokStr line.data).1 = "COMPO"
              · rw [if_pos cC] at hr
                exact .step (.compo _ _ _ _ _) hr
              · rw [if_neg cC] at hr
                exact .step (.matchLine _ _ _ _ _ _) hr
          · rcases ite_eq_elim h with ⟨-, h⟩ | ⟨-, h⟩
            · exact (not_good_of_snd (by decide) h).elim
            cases hp : popToks 11 rest with
            | none =>
              rw [hp] at h
              exact (not_good_of_snd (by decide) h).elim
            | some p =>
              obtain ⟨toks, rest'⟩ := p
              rw [hp] at h
              exact one _ _ _ (.beginLine _ _ _ _) h

end

/-- A fold keeps a property of the first component that every step keeps. -/
theorem foldl_fst_inv {σ τ β : Type} (f : σ × τ → β → σ × τ) (Q : σ → Prop)
    (hf : ∀ st b, Q st.1 → Q (f st b).1) :
    ∀ (l : List β) (st : σ × τ), Q st.1 → Q (l.foldl f st).1 := by
  intro l
  induction l with
  | nil => exact fun _ h => h
  | cons b l ih => exact fun st h => ih (f st b) (hf st b h)

/-- What `readLocTags` writes besides `locOptTags`: the MAP value of position `k` into the
two index arrays. -/
theorem readLocTags_frame {α : Type} (h : BandedHMMP7 α) (k : Nat) (loc : List Char) :
    (readLocTags h k loc).T_SP = h.T_SP
      ∧ (readLocTags h k loc).wingRetracted = h.wingRetracted
      ∧ (readLocTags h k loc).cs2ProfileIdx
          = setAt h.cs2ProfileIdx (atoi (popTokStr loc).1) k
      ∧ (readLocTags h k loc).profile2CSIdx
          = setAt h.profile2CSIdx k (atoi (popTokStr loc).1)
      ∧ (readLocTags h k loc).K = h.K ∧ (readLocTags h k loc).L = h.L := by
  unfold readLocTags
  exact foldl_fst_inv _
    (fun x : BandedHMMP7 α => x.T_SP = h.T_SP ∧ x.wingRetracted = h.wingRetracted
      ∧ x.cs2ProfileIdx = setAt h.cs2ProfileIdx (atoi (popTokStr loc).1) k
      ∧ x.profile2CSIdx = setAt h.profile2CSIdx k (atoi (popTokStr loc).1)
      ∧ x.K = h.K ∧ x.L = h.L)
    (by
      intro st b hq
      by_cases hc : getOptTag st.1 b ≠ ""
      · rw [if_pos hc]
        exact hq
      · rw [if_neg hc]
        exact hq)
    _ _ ⟨rfl, rfl, rfl, rfl, rfl, rfl⟩

/-- A loop that stores one value at every index of a range. -/
theorem fill_loop (lo hi c : Nat) (cs : Nat → Nat) (v : Nat) :
    forLoop lo hi (fun cs i => setAt cs i c) cs v
      = if lo ≤ v ∧ v ≤ hi then c else cs v := by
  by_cases hle : lo ≤ hi + 1
  · have := forLoop_induct lo hi (fun cs i => setAt cs i c) cs
      (fun k s => s v = if lo ≤ v ∧ v < k then c else cs v) hle
      (by
        beta_reduce
        rw [if_neg (by omega)])
      (by
        intro k s h1 h2 hs
        beta_reduce at hs ⊢
        by_cases hv : v = k
        · subst hv
          rw [setAt_same, if_pos (by omega)]
        · rw [setAt_ne _ _ _ _ hv, hs]
          by_cases hc : lo ≤ v ∧ v < k
          · rw [if_pos hc, if_pos (by omega)]
          · rw [if_neg hc, if_neg (by omega)])
    beta_reduce at this
    rw [this]
    by_cases hc : lo ≤ v ∧ v ≤ hi
    · rw [if_pos hc, if_pos (by omega)]
    · rw [if_neg hc, if_neg (by omega)]
  · rw [forLoop_empty _ _ _ _ (by omega), if_neg (by omega)]

theorem extend_index_apply {α : Type} (kMaxProfile : Nat) (h : BandedHMMP7 α) (v : Nat) :
    (extend_index kMaxProfile h).cs2ProfileIdx v
      = if h.profile2CSIdx h.K + 1 ≤ v ∧ v ≤ min h.L (kMaxProfile - 1) then h.K
        else h.cs2ProfileIdx v := by
  unfold extend_index
  exact fill_loop _ _ _ _ v

section
variable {α : Type} [LinearOrderedAddCommMonoidWithTop α]

/-- What a completed `wingRetract` leaves as it was, and the flag it sets. -/
theorem wingRetract_frame (expNeg : α → ℚ) (negLog : ℚ → α) (h r : BandedHMMP7 α)
    (hw : wingRetract expNeg negLog h = some r) :
    r.wingRetracted = true ∧ r.T_SP = h.T_SP ∧ r.cs2ProfileIdx = h.cs2ProfileIdx
      ∧ r.profile2CSIdx = h.profile2CSIdx ∧ r.K = h.K ∧ r.L = h.L := by
  unfold wingRetract at hw
  by_cases hf : h.wingRetracted = true
  · rw [if_pos hf] at hw
    cases hw
    exact ⟨hf, rfl, rfl, rfl, rfl, rfl⟩
  · rw [if_neg hf] at hw
    obtain ⟨entry, -, hw⟩ := Option.bind_eq_some.mp hw
    obtain ⟨exit, -, hw⟩ := Option.bind_eq_some.mp hw
    cases hw
    exact ⟨rfl, rfl, rfl, rfl, rfl, rfl⟩

/-- Invariant rule for the states that the parser can reach. -/
theorem Reach_induct (negLog : ℚ → α) (parseCost : String → α)
    (P : BandedHMMP7 α → Nat → Prop)
    (hstep : ∀ h k h1 k1, LineUpd negLog parseCost h k h1 k1 → P h k → P h1 k1) :
    ∀ h k h2 k2, Reach negLog parseCost h k h2 k2 → P h k → P h2 k2 := by
  intro h k h2 k2 hr
  induction hr with
  | refl h k => exact id
  | step hu _ ih => exact fun hp => ih (hstep _ _ _ _ hu hp)

set_option maxHeartbeats 2000000 in
/-- A line leaves the flag `wingRetracted`, and `T_SP` unless it zeroes it. -/
theorem LineUpd_T_SP (negLog : ℚ → α) (parseCost : String → α)
    (h : BandedHMMP7 α) (k : Nat) (h1 : BandedHMMP7 α) (k1 : Nat)
    (hu : LineUpd negLog parseCost h k h1 k1) :
    h1.wingRetracted = h.wingRetracted ∧ (h1.T_SP = h.T_SP ∨ h1.T_SP = fun _ _ => 0) := by
  cases hu with
  | same => exact ⟨rfl, Or.inl rfl⟩
  | name => exact ⟨rfl, Or.inl rfl⟩
  | leng => exact ⟨rfl, Or.inr rfl⟩
  | maxl => exact ⟨rfl, Or.inl rfl⟩
  | opt => exact ⟨rfl, Or.inl rfl⟩
  | nseq => exact ⟨rfl, Or.inl rfl⟩
  | compo => exact ⟨rfl, Or.inl rfl⟩
  | matchLine emit loc toksI toksT =>
    have hf := readLocTags_frame
      { h with E_M_cost := setEmission parseCost h.E_M_cost k emit } k loc
    generalize readLocTags { h with E_M_cost := setEmission parseCost h.E_M_cost k emit }
      k loc = x at hf ⊢
    exact ⟨hf.2.1, Or.inl hf.1⟩
  | beginLine => exact ⟨rfl, Or.inl rfl⟩

/-- After a successful parse the HMM is wing-retracted and its `T_SP` is the one it had
before the parse or all zero. -/
theorem parseHMM_good_spec (kMaxProfile : Nat) (expNeg : α → ℚ) (negLog : ℚ → α)
    (parseCost : String → α) (lines : List String) (hmm r : BandedHMMP7 α)
    (h : parseHMM kMaxProfile expNeg negLog parseCost lines hmm = (r, .good)) :
    r.wingRetracted = true ∧ (r.T_SP = hmm.T_SP ∨ r.T_SP = fun _ _ => 0) := by
  obtain ⟨hf, kf, hr, hw⟩ := parseLoop_reach kMaxProfile expNeg negLog parseCost _ _ _ _ _ h
  have hinv := Reach_induct negLog parseCost
    (fun x _ => x.T_SP = hmm.T_SP ∨ x.T_SP = fun _ _ => 0)
    (by
      intro a k a1 k1 hu hp
      rcases (LineUpd_T_SP negLog parseCost a k a1 k1 hu).2 with e | e
      · rw [e]; exact hp
      · exact Or.inr e)
    hmm 0 hf kf hr (Or.inl rfl)
  obtain ⟨w1, w2, -⟩ := wingRetract_frame expNeg negLog _ r hw
  refine ⟨w1, ?_⟩
  rw [w2]
  exact hinv

/-- C27 as amended: every successful parse returns an HMM that is wing-retracted
(`wingRetracted = true`); the parser does not configure a sequence mode: `T_SP` is all zero
(written by `setProfileSize` at the `LENG` line) or the `T_SP` that the target had before the
parse. -/
theorem parse_result_state (kMaxProfile : Nat) (expNeg : α → ℚ) (negLog : ℚ → α)
    (parseCost : String → α) (lines : List String) (hmm r : BandedHMMP7 α)
    (h : parseHMM kMaxProfile expNeg negLog parseCost lines hmm = (r, .good)) :
    r.wingRetracted = true ∧ (r.T_SP = hmm.T_SP ∨ r.T_SP = fun _ _ => 0) :=
  parseHMM_good_spec kMaxProfile expNeg negLog parseCost lines hmm r h

end

set_option maxRecDepth 100000 in
/-- C27 fails on the code: parsing `textMaxl` into a default-constructed HMM succeeds, the
HMM is wing-retracted, and `T_SP(E,C)` is `0`, not `1` as LOCAL mode requires; so are
`T_SP(N,N)`, `T_SP(C,C)` and `T_SP(N,B)`. -/
theorem parse_not_local_mode :
    (parseHMM 100 expNegEx negLogEx parseCostEx textMaxl BandedHMMP7.empty).2 = .good
      ∧ hmmMaxl.wingRetracted = true
      ∧ hmmMaxl.T_SP .E .C = 0 ∧ hmmMaxl.T_SP .N .N = 0 ∧ hmmMaxl.T_SP .C .C = 0
      ∧ hmmMaxl.T_SP .N .B = 0 ∧ hmmMaxl.T_SP .E .C ≠ 1 := by
  have hg : (parseHMM 100 expNegEx negLogEx parseCostEx textMaxl BandedHMMP7.empty).2
      = .good := by decide
  have hp : parseHMM 100 expNegEx negLogEx parseCostEx textMaxl BandedHMMP7.empty
      = (hmmMaxl, .good) := Prod.ext rfl hg
  have hT : hmmMaxl.T_SP = fun _ _ => 0 := by
    rcases (parseHMM_good_spec 100 expNegEx negLogEx parseCostEx textMaxl _ _ hp).2 with e | e
    · rw [e]; rfl
    · exact e
  refine ⟨hg, by decide, ?_, ?_, ?_, ?_, ?_⟩
  · rw [hT]
  · rw [hT]
  · rw [hT]
  · rw [hT]
  · rw [hT]
    norm_num

set_option maxRecDepth 100000 in
theorem parse_result_state_witness :
    hmmMaxl.wingRetracted = true
      ∧ (hmmMaxl.T_SP = (BandedHMMP7.empty : BandedHMMP7 ℕ∞).T_SP
          ∨ hmmMaxl.T_SP = fun _ _ => 0) :=
  parse_result_state 100 expNegEx negLogEx parseCostEx textMaxl BandedHMMP7.empty hmmMaxl
    (Prod.ext rfl (by decide))

section
variable {α : Type} [LinearOrderedAddCommMonoidWithTop α]

set_option maxHeartbeats 2000000 in
/-- What a line does to the index arrays and to the position counter: nothing to the arrays,
or it stores a MAP value `m` of position `k` in both and moves on to position `k + 1`. -/
theorem LineUpd_index (negLog : ℚ → α) (parseCost : String → α)
    (h : BandedHMMP7 α) (k : Nat) (h1 : BandedHMMP7 α) (k1 : Nat)
    (hu : LineUpd negLog parseCost h k h1 k1) :
    (h1.profile2CSIdx = h.profile2CSIdx ∧ h1.cs2ProfileIdx = h.cs2ProfileIdx
        ∧ (k1 = k ∨ k1 = k + 1))
      ∨ ∃ m, h1.profile2CSIdx = setAt h.profile2CSIdx k m
          ∧ h1.cs2ProfileIdx = setAt h.cs2ProfileIdx m k ∧ k1 = k + 1 := by
  cases hu with
  | same => exact Or.inl ⟨rfl, rfl, Or.inl rfl⟩
  | name => exact Or.inl ⟨rfl, rfl, Or.inl rfl⟩
  | leng => exact Or.inl ⟨rfl, rfl, Or.inl rfl⟩
  | maxl => exact Or.inl ⟨rfl, rfl, Or.inl rfl⟩
  | opt => exact Or.inl ⟨rfl, rfl, Or.inl rfl⟩
  | nseq => exact Or.inl ⟨rfl, rfl, Or.inl rfl⟩
  | compo => exact Or.inl ⟨rfl, rfl, Or.inr rfl⟩
  | matchLine emit loc toksI toksT =>
    have hf := readLocTags_frame
      { h with E_M_cost := setEmission parseCost h.E_M_cost k emit } k loc
    generalize readLocTags { h with E_M_cost := setEmission parseCost h.E_M_cost k emit }
      k loc = x at hf ⊢
    exact Or.inr ⟨_, hf.2.2.2.1, hf.2.2.1, rfl⟩
  | beginLine => exact Or.inl ⟨rfl, rfl, Or.inr rfl⟩

/-- The index arrays while positions below `k` have been read: no position from `k` on has
a MAP value, and the CS column of a position that has one is owned by a position with the
same MAP value. -/
theorem LineUpd_index_inv (negLog : ℚ → α) (parseCost : String → α)
    (h : BandedHMMP7 α) (k : Nat) (h1 : BandedHMMP7 α) (k1 : Nat)
    (hu : LineUpd negLog parseCost h k h1 k1)
    (hp : (∀ i, k ≤ i → h.profile2CSIdx i = 0)
      ∧ ∀ i, i < k → h.profile2CSIdx i ≠ 0 →
          ∃ j, i ≤ j ∧ j < k ∧ h.cs2ProfileIdx (h.profile2CSIdx i) = j
            ∧ h.profile2CSIdx j = h.profile2CSIdx i) :
    (∀ i, k1 ≤ i → h1.profile2CSIdx i = 0)
      ∧ ∀ i, i < k1 → h1.profile2CSIdx i ≠ 0 →
          ∃ j, i ≤ j ∧ j < k1 ∧ h1.cs2ProfileIdx (h1.profile2CSIdx i) = j
            ∧ h1.profile2CSIdx j = h1.profile2CSIdx i := by
  obtain ⟨hz, hq⟩ := hp
  rcases LineUpd_index negLog parseCost h k h1 k1 hu with ⟨e1, e2, e3⟩ | ⟨m, e1, e2, e3⟩
  · rw [e1, e2]
    refine ⟨fun i hi => hz i (by omega), ?_⟩
    intro i hi hne
    by_cases hik : i < k
    · obtain ⟨j, a, b, c, d⟩ := hq i hik hne
      exact ⟨j, a, by omega, c, d⟩
    · exact absurd (hz i (by omega)) hne
  · rw [e1, e2, e3]
    refine ⟨fun i hi => ?_, ?_⟩
    · rw [setAt_ne _ _ _ _ (by omega)]
      exact hz i (by omega)
    · intro i hi hne
      by_cases hik : i = k
      · subst hik
        rw [setAt_same] at hne ⊢
        exact ⟨i, le_refl _, by omega, setAt_same _ _ _, setAt_same _ _ _⟩
      · have hlt : i < k := by omega
        rw [setAt_ne _ _ _ _ hik] at hne ⊢
        obtain ⟨j, a, b, c, d⟩ := hq i hlt hne
        by_cases hm : h.profile2CSIdx i = m
        · refine ⟨k, by omega, by omega, ?_, ?_⟩
          · rw [hm, setAt_same]
          · rw [setAt_same, hm]
        · refine ⟨j, a, by omega, ?_, ?_⟩
          · rw [setAt_ne _ _ _ _ hm]
            exact c
          · rw [setAt_ne _ _ _ _ (by omega)]
            exact d

/-- The index arrays after a successful parse into an HMM without MAP values: a position
with a non-zero MAP value not above that of position `K` is found back from its CS column,
up to positions with the same MAP value. -/
theorem parseHMM_index_spec (kMaxProfile : Nat) (expNeg : α → ℚ) (negLog : ℚ → α)
    (parseCost : String → α) (lines : List String) (hmm r : BandedHMMP7 α)
    (h : parseHMM kMaxProfile expNeg negLog parseCost lines hmm = (r, .good))
    (h0 : ∀ i, hmm.profile2CSIdx i = 0) (i : Nat) (hne : r.profile2CSIdx i ≠ 0)
    (hle : r.profile2CSIdx i ≤ r.profile2CSIdx r.K) :
    r.profile2CSIdx (r.cs2ProfileIdx (r.profile2CSIdx i)) = r.profile2CSIdx i := by
  obtain ⟨hf, kf, hr, hw⟩ := parseLoop_reach kMaxProfile expNeg negLog parseCost _ _ _ _ _ h
  have hinv := Reach_induct negLog parseCost
    (fun x k => (∀ i, k ≤ i → x.profile2CSIdx i = 0)
      ∧ ∀ i, i < k → x.profile2CSIdx i ≠ 0 →
          ∃ j, i ≤ j ∧ j < k ∧ x.cs2ProfileIdx (x.profile2CSIdx i) = j
            ∧ x.profile2CSIdx j = x.profile2CSIdx i)
    (LineUpd_index_inv negLog parseCost)
    hmm 0 hf kf hr ⟨fun i _ => h0 i, fun i hi => absurd hi (Nat.not_lt_zero i)⟩
  obtain ⟨-, -, w3, w4, w5, -⟩ := wingRetract_frame expNeg negLog _ r hw
  have e3 : r.cs2ProfileIdx = (extend_index kMaxProfile hf).cs2ProfileIdx := w3
  have e4 : r.profile2CSIdx = hf.profile2CSIdx := w4
  have e5 : r.K = hf.K := w5
  rw [e4, e5] at hle
  rw [e4] at hne
  rw [e3, e4, extend_index_apply, if_neg (by omega)]
  have hik : i < kf := by
    by_contra hc
    exact hne (hinv.1 i (by omega))
  obtain ⟨j, -, -, c, d⟩ := hinv.2 i hik hne
  rw [c]
  exact d

/-- C22 as amended: after the first phase of `build` on valid arguments, and after a
successful parse into an HMM whose `profile2CSIdx` is all zero (a freshly constructed one)
in which every position `1..K` has a non-zero MAP value, the MAP values are distinct and
none is larger than that of position `K`, `cs2ProfileIdx[profile2CSIdx[k]] = k` for every
`k` in `1..K`. -/
theorem index_maps_inverse (kMaxProfile kMaxCS : Nat) (msa : MSA) (symfrac : ℚ)
    (name : String) (h : BandedHMMP7 α)
    (hlen : msa.msaLen ≠ 0) (hs0 : 0 < symfrac) (hs1 : symfrac < 1)
    (expNeg : α → ℚ) (negLog : ℚ → α) (parseCost : String → α) (lines : List String)
    (hmm r : BandedHMMP7 α)
    (hp : parseHMM kMaxProfile expNeg negLog parseCost lines hmm = (r, .good))
    (h0 : ∀ i, hmm.profile2CSIdx i = 0)
    (hpos : ∀ k, 1 ≤ k → k ≤ r.K → r.profile2CSIdx k ≠ 0)
    (hdist : ∀ i j, r.profile2CSIdx i = r.profile2CSIdx j → r.profile2CSIdx i ≠ 0 → i = j)
    (hlast : ∀ k, 1 ≤ k → k ≤ r.K → r.profile2CSIdx k ≤ r.profile2CSIdx r.K) :
    (∃ b, buildIndex kMaxProfile kMaxCS msa symfrac name h = some b
        ∧ ∀ k, 1 ≤ k → k ≤ b.K → b.cs2ProfileIdx (b.profile2CSIdx k) = k)
      ∧ ∀ k, 1 ≤ k → k ≤ r.K → r.cs2ProfileIdx (r.profile2CSIdx k) = k := by
  constructor
  · obtain ⟨b, hb, -, -, hpi, hc⟩ :=
      buildIndex_spec kMaxProfile kMaxCS msa symfrac name h hlen hs0 hs1
    refine ⟨b, hb, ?_⟩
    intro k hk1 hk2
    obtain ⟨a1, a2, -, a4⟩ := hpi k hk1 hk2
    rw [hc _ a1 a2]
    exact a4
  · intro k hk1 hk2
    have e := parseHMM_index_spec kMaxProfile expNeg negLog parseCost lines hmm r hp h0 k
      (hpos k hk1 hk2) (hlast k hk1 hk2)
    have hne : r.profile2CSIdx (r.cs2ProfileIdx (r.profile2CSIdx k)) ≠ 0 := by
      rw [e]
      exact hpos k hk1 hk2
    exact hdist _ _ e hne

end

set_option maxRecDepth 100000 in
/-- C22 fails on the code.  The text `textSwap` (`K = 2`, MAP values `3` and `1`, which are
distinct) is parsed successfully and `cs2ProfileIdx[profile2CSIdx[1]] = 2`: `extend_index`
overwrites the columns above `profile2CSIdx[K]`.  The text `textShort` (`LENG  2`, one match
line) is parsed successfully and `cs2ProfileIdx[profile2CSIdx[1]] = 2`, position `2` having
no MAP value.  The same text parsed into `hmmStale` keeps the stale `profile2CSIdx[2] = 2`
and `cs2ProfileIdx[profile2CSIdx[2]] = 0`. -/
theorem parse_index_not_inverse :
    ((parseHMM 100 expNegEx negLogEx parseCostEx textSwap BandedHMMP7.empty).2 = .good
      ∧ (parseHMM 100 expNegEx negLogEx parseCostEx textSwap BandedHMMP7.empty).1.K = 2
      ∧ (parseHMM 100 expNegEx negLogEx parseCostEx textSwap
          BandedHMMP7.empty).1.profile2CSIdx 1 = 3
      ∧ (parseHMM 100 expNegEx negLogEx parseCostEx textSwap
          BandedHMMP7.empty).1.profile2CSIdx 2 = 1
      ∧ (parseHMM 100 expNegEx negLogEx parseCostEx textSwap
          BandedHMMP7.empty).1.cs2ProfileIdx 3 = 2)
      ∧ ((parseHMM 100 expNegEx negLogEx parseCostEx textShort BandedHMMP7.empty).2 = .good
        ∧ (parseHMM 100 expNegEx negLogEx parseCostEx textShort BandedHMMP7.empty).1.K = 2
        ∧ (parseHMM 100 expNegEx negLogEx parseCostEx textShort
            BandedHMMP7.empty).1.profile2CSIdx 1 = 1
        ∧ (parseHMM 100 expNegEx negLogEx parseCostEx textShort
            BandedHMMP7.empty).1.profile2CSIdx 2 = 0
        ∧ (parseHMM 100 expNegEx negLogEx parseCostEx textShort
            BandedHMMP7.empty).1.cs2ProfileIdx 1 = 2)
      ∧ ((parseHMM 100 expNegEx negLogEx parseCostEx textShort hmmStale).2 = .good
        ∧ (parseHMM 100 expNegEx negLogEx parseCostEx textShort hmmStale).1.K = 2
        ∧ (parseHMM 100 expNegEx negLogEx parseCostEx textShort hmmStale).1.profile2CSIdx 1 = 1
        ∧ (parseHMM 100 expNegEx negLogEx parseCostEx textShort hmmStale).1.profile2CSIdx 2 = 2
        ∧ (parseHMM 100 expNegEx negLogEx parseCostEx textShort hmmStale).1.cs2ProfileIdx 2
            = 0) := by
  refine ⟨⟨?_, ?_, ?_, ?_, ?_⟩, ⟨?_, ?_, ?_, ?_, ?_⟩, ⟨?_, ?_, ?_, ?_, ?_⟩⟩ <;> decide

set_option maxRecDepth 100000 in
theorem index_maps_inverse_witness :
    (∃ b, buildIndex 100 100 msaTwoCols (1 / 2) "" (BandedHMMP7.empty : BandedHMMP7 ℕ∞)
          = some b
        ∧ ∀ k, 1 ≤ k → k ≤ b.K → b.cs2ProfileIdx (b.profile2CSIdx k) = k)
      ∧ ∀ k, 1 ≤ k → k ≤ hmmGap.K → hmmGap.cs2ProfileIdx (hmmGap.profile2CSIdx k) = k := by
  have hK : hmmGap.K = 2 := by decide
  have e : ∀ i, hmmGap.profile2CSIdx i = if i = 2 then 3 else if i = 1 then 1 else 0 :=
    fun i => rfl
  refine index_maps_inverse 100 100 msaTwoCols (1 / 2) "" BandedHMMP7.empty (by decide)
    (by norm_num) (by norm_num) expNegEx negLogEx parseCostEx textGap BandedHMMP7.empty
    hmmGap (Prod.ext rfl (by decide)) (fun _ => rfl) ?_ ?_ ?_
  · intro k hk1 hk2
    rw [e]
    split_ifs <;> omega
  · intro i j hij hne
    rw [e] at hij hne
    rw [e] at hij
    split_ifs at hij hne <;> omega
  · intro k hk1 hk2
    rw [hK, e, e]
    split_ifs <;> omega

/-! ### Parsing: a text without the terminator -/

theorem ite_fun_eq_elim {γ β : Type} {c : Prop} [Decidable c] {a b x : γ → β}
    (h : (fun p => if c then a p else b p) = x) : (c ∧ a = x) ∨ (¬ c ∧ b = x) := by
  by_cases hc : c
  · refine Or.inl ⟨hc, ?_⟩
    rw [← h]
    funext p
    rw [if_pos hc]
  · refine Or.inr ⟨hc, ?_⟩
    rw [← h]
    funext p
    rw [if_neg hc]

theorem popTok_append (x : List String) :
    ∀ (ls : List String) (t : String) (r : List String),
      popTok ls = some (t, r) → popTok (ls ++ x) = some (t, r ++ x) := by
  intro ls
  induction ls with
  | nil =>
    intro t r h
    exact absurd h (by simp [popTok])
  | cons l ls ih =>
    intro t r h
    rw [popTok] at h
    rw [List.cons_append, popTok]
    by_cases hc : (popTokStr l.data).1 = ""
    · rw [if_pos hc] at h ⊢
      exact ih t r h
    · rw [if_neg hc] at h ⊢
      cases h
      rfl

theorem popToks_append (x : List String) :
    ∀ (n : Nat) (ls ts r : List String),
      popToks n ls = some (ts, r) → popToks n (ls ++ x) = some (ts, r ++ x) := by
  intro n
  induction n with
  | zero =>
    intro ls ts r h
    rw [popToks] at h ⊢
    cases h
    rfl
  | succ n ih =>
    intro ls ts r h
    rw [popToks] at h ⊢
    obtain ⟨a, ha, h⟩ := Option.bind_eq_some.mp h
    obtain ⟨b, hb, h⟩ := Option.bind_eq_some.mp h
    cases h
    rw [popTok_append x ls a.1 a.2 ha, Option.some_bind, ih _ _ _ hb, Option.some_bind]

/-- What `in >> token` leaves of a line is not the terminator line. -/
theorem popTokStr_snd_ne (l : List Char) : String.mk (popTokStr l).2 ≠ "//" := by
  intro h
  have e : (popTokStr l).2 = ['/', '/'] := congrArg String.data h
  have hd := List.head?_dropWhile_not (fun c : Char => !c.isWhitespace)
    (l.dropWhile Char.isWhitespace)
  unfold popTokStr at e
  dsimp only at e
  rw [e] at hd
  have hd1 : (!('/' : Char).isWhitespace) = false := hd
  exact absurd hd1 (by decide)

theorem popTok_not_mem :
    ∀ (ls : List String) (t : String) (r : List String),
      "//" ∉ ls → popTok ls = some (t, r) → "//" ∉ r := by
  intro ls
  induction ls with
  | nil =>
    intro t r _ h
    exact absurd h (by simp [popTok])
  | cons l ls ih =>
    intro t r hn h
    rw [popTok] at h
    have hn1 : "//" ∉ ls := fun hm => hn (List.mem_cons_of_mem _ hm)
    by_cases hc : (popTokStr l.data).1 = ""
    · rw [if_pos hc] at h
      exact ih t r hn1 h
    · rw [if_neg hc] at h
      cases h
      intro hm
      rcases List.mem_cons.mp hm with e | e
      · exact popTokStr_snd_ne l.data e.symm
      · exact hn1 e

theorem popToks_not_mem :
    ∀ (n : Nat) (ls ts r : List String),
      "//" ∉ ls → popToks n ls = some (ts, r) → "//" ∉ r := by
  intro n
  induction n with
  | zero =>
    intro ls ts r hn h
    rw [popToks] at h
    cases h
    exact hn
  | succ n ih =>
    intro ls ts r hn h
    rw [popToks] at h
    obtain ⟨a, ha, h⟩ := Option.bind_eq_some.mp h
    obtain ⟨b, hb, h⟩ := Option.bind_eq_some.mp h
    cases h
    exact ih _ _ _ (popTok_not_mem ls a.1 a.2 hn ha) hb

section
variable {α : Type} [LinearOrderedAddCommMonoidWithTop α]

set_option maxHeartbeats 2000000 in
/-- One line other than the terminator: the parser stops in a state that is not `good`, or
goes on with the next line, or skips the next line, or reads the next eleven tokens of the
stream, whatever the rest of the text is. -/
theorem parseLoop_step (kMaxProfile : Nat) (expNeg : α → ℚ) (negLog : ℚ → α)
    (parseCost : String → α) (line : String) (hmm : BandedHMMP7 α) (k : Nat)
    (hl : line ≠ "//") :
    (∃ r s, s ≠ io_state.good ∧ ∀ n rest,
        parseLoop kMaxProfile expNeg negLog parseCost (n + 1) (line :: rest) hmm k = (r, s))
      ∨ (∃ h1 k1, ∀ n rest,
          parseLoop kMaxProfile expNeg negLog parseCost (n + 1) (line :: rest) hmm k
            = parseLoop kMaxProfile expNeg negLog parseCost n rest h1 k1)
      ∨ (∀ n rest,
          parseLoop kMaxProfile expNeg negLog parseCost (n + 1) (line :: rest) hmm k
            = parseLoop kMaxProfile expNeg negLog parseCost n rest.tail hmm k)
      ∨ ∃ h1,
          (∀ n rest, popToks 11 rest = none →
            parseLoop kMaxProfile expNeg negLog parseCost (n + 1) (line :: rest) hmm k
              = (h1, .failbit))
          ∧ ∀ n rest toks rest', popToks 11 rest = some (toks, rest') →
            parseLoop kMaxProfile expNeg negLog parseCost (n + 1) (line :: rest) hmm k
              = parseLoop kMaxProfile expNeg negLog parseCost n rest'
                  (setTransitions parseCost
                    { h1 with E_I_cost := setEmission parseCost h1.E_I_cost k (toks.take 4) }
                    k (toks.drop 4)) (k + 1) := by
  have h := funext (fun p : Nat × List String =>
    (parseLoop.eq_3 kMaxProfile expNeg negLog parseCost hmm k p.1 line p.2).symm)
  generalize hF : (fun p : Nat × List String =>
    parseLoop kMaxProfile expNeg negLog parseCost p.1.succ (line :: p.2) hmm k) = F at h
  have stop : ∀ (r : BandedHMMP7 α) (s : io_state), s ≠ io_state.good →
      (fun _ : Nat × List String => (r, s)) = F →
      ∃ r s, s ≠ io_state.good ∧ ∀ n rest,
        parseLoop kMaxProfile expNeg negLog parseCost (n + 1) (line :: rest) hmm k
          = (r, s) := by
    intro r s hs e
    refine ⟨r, s, hs, fun n rest => ?_⟩
    rw [← hF] at e
    exact (congrFun e (n, rest)).symm
  have next : ∀ (h1 : BandedHMMP7 α) (k1 : Nat),
      (fun p : Nat × List String =>
        parseLoop kMaxProfile expNeg negLog parseCost p.1 p.2 h1 k1) = F →
      ∃ h1 k1, ∀ n rest,
        parseLoop kMaxProfile expNeg negLog parseCost (n + 1) (line :: rest) hmm k
          = parseLoop kMaxProfile expNeg negLog parseCost n rest h1 k1 := by
    intro h1 k1 e
    refine ⟨h1, k1, fun n rest => ?_⟩
    rw [← hF] at e
    exact (congrFun e (n, rest)).symm
  have toks : ∀ (h1 : BandedHMMP7 α),
      (fun p : Nat × List String =>
        match popToks 11 p.2 with
        | none => (h1, io_state.failbit)
        | some (toks, rest) =>
          parseLoop kMaxProfile expNeg negLog parseCost p.1 rest
            (setTransitions parseCost
              { h1 with E_I_cost := setEmission parseCost h1.E_I_cost k (toks.take 4) }
              k (toks.drop 4)) (k + 1)) = F →
      ∃ h1,
        (∀ n rest, popToks 11 rest = none →
          parseLoop kMaxProfile expNeg negLog parseCost (n + 1) (line :: rest) hmm k
            = (h1, .failbit))
        ∧ ∀ n rest toks rest', popToks 11 rest = some (toks, rest') →
          parseLoop kMaxProfile expNeg negLog parseCost (n + 1) (line :: rest) hmm k
            = parseLoop kMaxProfile expNeg negLog parseCost n rest'
                (setTransitions parseCost
                  { h1 with E_I_cost := setEmission parseCost h1.E_I_cost k (toks.take 4) }
                  k (toks.drop 4)) (k + 1) := by
    intro h1 e
    rw [← hF] at e
    refine ⟨h1, fun n rest hp => ?_, fun n rest toks rest' hp => ?_⟩
    · have e1 := congrFun e (n, rest)
      dsimp only at e1
      rw [hp] at e1
      exact e1.symm
    · have e1 := congrFun e (n, rest)
      dsimp only at e1
      rw [hp] at e1
      exact e1.symm
  rcases ite_fun_eq_elim h with ⟨c, -⟩ | ⟨-, h⟩
  · exact absurd c hl
  dsimp only at h
  rcases ite_fun_eq_elim h with ⟨-, h⟩ | ⟨-, h⟩
  · -- header section
    rcases ite_fun_eq_elim h with ⟨-, h⟩ | ⟨-, h⟩
    · rcases ite_fun_eq_elim h with ⟨-, h⟩ | ⟨-, h⟩
      · exact Or.inl (stop _ _ (by decide) h)
      · exact Or.inr (Or.inl (next _ _ h))
    rcases ite_fun_eq_elim h with ⟨-, h⟩ | ⟨-, h⟩
    · exact Or.inr (Or.inl (next _ _ h))
    rcases ite_fun_eq_elim h with ⟨-, h⟩ | ⟨-, h⟩
    · exact Or.inr (Or.inl (next _ _ h))
    rcases ite_fun_eq_elim h with ⟨-, h⟩ | ⟨-, h⟩
    · rcases ite_fun_eq_elim h with ⟨-, h⟩ | ⟨-, h⟩
      · exact Or.inl (stop _ _ (by decide) h)
      · exact Or.inr (Or.inl (next _ _ h))
    rcases ite_fun_eq_elim h with ⟨-, h⟩ | ⟨-, h⟩
    · exact Or.inr (Or.inl (next _ _ h))
    rcases ite_fun_eq_elim h with ⟨-, h⟩ | ⟨-, h⟩
    · exact Or.inr (Or.inl (next _ _ h))
    rcases ite_fun_eq_elim h with ⟨-, h⟩ | ⟨-, h⟩
    · refine Or.inr (Or.inr (Or.inl fun n rest => ?_))
      rw [← hF] at h
      exact (congrFun h (n, rest)).symm
    exact Or.inr (Or.inl (next _ _ h))
  · -- main body
    rcases ite_fun_eq_elim h with ⟨-, h⟩ | ⟨-, h⟩
    · rcases ite_fun_eq_elim h with ⟨-, h⟩ | ⟨-, h⟩
      · exact Or.inl (stop _ _ (by decide) h)
      rcases ite_fun_eq_elim h with ⟨-, h⟩ | ⟨-, h⟩
      · exact Or.inl (stop _ _ (by decide) h)
      exact Or.inr (Or.inr (Or.inr (toks _ h)))
    · rcases ite_fun_eq_elim h with ⟨-, h⟩ | ⟨-, h⟩
      · exact Or.inl (stop _ _ (by decide) h)
      exact Or.inr (Or.inr (Or.inr (toks _ h)))

theorem parseLoop_nil (kMaxProfile : Nat) (expNeg : α → ℚ) (negLog : ℚ → α)
    (parseCost : String → α) (n : Nat) (hmm : BandedHMMP7 α) (k : Nat) :
    parseLoop kMaxProfile expNeg negLog parseCost n [] hmm k = (hmm, .failbit) := by
  cases n <;> rfl

/-- A text without a terminator line that is parsed successfully once the terminator is
added leaves the stream with `failbit`, whatever the bound on the lines read. -/
theorem parseLoop_no_terminator (kMaxProfile : Nat) (expNeg : α → ℚ) (negLog : ℚ → α)
    (parseCost : String → α) :
    ∀ (f1 f2 : Nat) (ls : List String) (hmm : BandedHMMP7 α) (k : Nat) (r : BandedHMMP7 α),
      "//" ∉ ls →
      parseLoop kMaxProfile expNeg negLog parseCost f1 (ls ++ ["//"]) hmm k = (r, .good) →
      (parseLoop kMaxProfile expNeg negLog parseCost f2 ls hmm k).2 = .failbit := by
  intro f1
  induction f1 with
  | zero =>
    intro f2 ls hmm k r _ h
    exact (not_good_of_snd (by decide) h).elim
  | succ n ih =>
    intro f2 ls hmm k r hn h
    cases ls with
    | nil => rw [parseLoop_nil]
    | cons line rest =>
      cases f2 with
      | zero => rfl
      | succ m =>
        have hl : line ≠ "//" := fun e => hn (e ▸ List.mem_cons_self _ _)
        have hn1 : "//" ∉ rest := fun hm => hn (List.mem_cons_of_mem _ hm)
        rw [List.cons_append] at h
        rcases parseLoop_step kMaxProfile expNeg negLog parseCost line hmm k hl with
          ⟨r1, s, hs, e⟩ | ⟨h1, k1, e⟩ | e | ⟨h1, e1, e2⟩
        · rw [e] at h
          exact (not_good_of_snd hs h).elim
        · rw [e] at h ⊢
          exact ih m rest h1 k1 r hn1 h
        · rw [e] at h ⊢
          cases rest with
          | nil =>
            rw [List.nil_append, List.tail_cons, parseLoop_nil] at h
            exact (not_good_of_snd (by decide) h).elim
          | cons y ys =>
            rw [List.cons_append, List.tail_cons] at h
            rw [List.tail_cons]
            exact ih m ys hmm k r (fun hm => hn1 (List.mem_cons_of_mem _ hm)) h
        · cases hp : popToks 11 rest with
          | none => rw [e1 m rest hp]
          | some p =>
            obtain ⟨toks, rest'⟩ := p
            rw [e2 n (rest ++ ["//"]) toks (rest' ++ ["//"])
              (popToks_append ["//"] 11 rest toks rest' hp)] at h
            rw [e2 m rest toks rest' hp]
            exact ih m rest' _ _ r (popToks_not_mem 11 rest toks rest' hn1 hp) h

/-- C24: a text that contains no line equal to `//` and that is parsed successfully once a
line `//` is added at its end (it is otherwise well-formed) is not parsed successfully: the
parser reads it to its end and leaves the stream with `failbit`. -/
theorem parse_missing_terminator (kMaxProfile : Nat) (expNeg : α → ℚ) (negLog : ℚ → α)
    (parseCost : String → α) (lines : List String) (hmm : BandedHMMP7 α)
    (hno : "//" ∉ lines)
    (hwf : (parseHMM kMaxProfile expNeg negLog parseCost (lines ++ ["//"]) hmm).2 = .good) :
    (parseHMM kMaxProfile expNeg negLog parseCost lines hmm).2 = .failbit :=
  parseLoop_no_terminator kMaxProfile expNeg negLog parseCost _ _ lines hmm 0 _ hno
    (Prod.ext rfl hwf)

end

set_option maxRecDepth 100000 in
theorem parse_missing_terminator_witness :
    (parseHMM 100 expNegEx negLogEx parseCostEx textMaxl.dropLast BandedHMMP7.empty).2
      = .failbit :=
  parse_missing_terminator 100 expNegEx negLogEx parseCostEx textMaxl.dropLast
    BandedHMMP7.empty (by decide) (by decide)

/-! ### Traceback on arbitrary tables -/

section
variable {α : Type} [LinearOrderedAddCommMonoidWithTop α]

/-- Whatever the tables hold, the states `W` that the traceback loop pushes start with the
state it was entered with, never have an insert next to a delete, are at most `i + j`, and
their `M`/`D` (`M`/`I`) states account for the profile positions (query positions) between
the cell the loop was entered at and the cell it stops at. -/
theorem traceLoop_pushed (hmm : BandedHMMP7 α) (vs : ViterbiScores α) :
    ∀ (fuel : Nat) (s : Char) (i j : Nat) (tr : List Char) (r : Nat × Nat × List Char),
      (s = 'M' ∨ s = 'I' ∨ s = 'D' ∨ s = 'B') →
      traceLoop hmm vs fuel s i j tr = some r →
      ∃ W, r.2.2 = tr ++ W ∧ List.Chain' okAdjacent W ∧ (∀ x ∈ W.head?, x = s)
        ∧ W.length ≤ i + j ∧ countMD W + r.2.1 = j ∧ countMI W + r.1 = i := by
  intro fuel
  induction fuel with
  | zero =>
    intro s i j tr r _ h
    simp [traceLoop] at h
  | succ n ih =>
    intro s i j tr r hs h
    have hcons : ∀ (s' : Char) (i' j' : Nat),
        (s' = 'M' ∨ s' = 'I' ∨ s' = 'D' ∨ s' = 'B') → okAdjacent s s' →
        i' + j' + 1 ≤ i + j →
        j' + (if s = 'M' ∨ s = 'D' then 1 else 0) = j →
        i' + (if s = 'M' ∨ s = 'I' then 1 else 0) = i →
        traceLoop hmm vs n s' i' j' (tr ++ [s]) = some r →
        ∃ W, r.2.2 = tr ++ W ∧ List.Chain' okAdjacent W ∧ (∀ x ∈ W.head?, x = s)
          ∧ W.length ≤ i + j ∧ countMD W + r.2.1 = j ∧ countMI W + r.1 = i := by
      intro s' i' j' hs' hok hlt hj hi hr
      obtain ⟨W, e, hch, hhd, hlen, hmd, hmi⟩ := ih s' i' j' (tr ++ [s]) r hs' hr
      refine ⟨s :: W, by rw [e]; simp, ?_, by simp, ?_, ?_, ?_⟩
      · rw [List.chain'_cons']
        refine ⟨?_, hch⟩
        intro y hy
        rw [hhd y hy]
        exact hok
      · rw [List.length_cons]
        omega
      · rw [countMD_cons]
        omega
      · rw [countMI_cons]
        omega
    by_cases hi : i ≥ 1
    · rcases hs with rfl | rfl | rfl | rfl
      · simp only [traceLoop, hi, if_true] at h
        by_cases hj : j = 0
        · rw [if_pos hj] at h
          exact absurd h (by simp)
        · rw [if_neg hj] at h
          refine hcons _ (i - 1) (j - 1) ?_ ⟨fun c => absurd c.1 (by decide),
            fun c => absurd c.1 (by decide)⟩ (by omega) ?_ ?_ h
          · split
            · exact whichMin4_label _ _ _ _
            · rcases whichMin2_label (vs.DP_M i 0 + hmm.entryPr_cost j)
                (vs.DP_I (i - 1) (j - 1) + hmm.Tmat_cost (j - 1) .I .M) 'B' 'I' with e | e <;>
                simp [e]
          · rw [if_pos (Or.inl rfl)]
            omega
          · rw [if_pos (Or.inl rfl)]
            omega
      · simp only [traceLoop, hi, if_true] at h
        rw [if_neg (show ¬ ('I' : Char) = 'M' by decide)] at h
        have hlab : ∀ c : Char, (c = 'M' ∨ c = 'I') ∨ (c = 'B' ∨ c = 'I') →
            (c = 'M' ∨ c = 'I' ∨ c = 'D' ∨ c = 'B') ∧ okAdjacent 'I' c := by
          intro c hc
          rcases hc with (rfl | rfl) | (rfl | rfl)
          · exact ⟨Or.inl rfl, fun c => absurd c.2 (by decide), fun c => absurd c.1 (by decide)⟩
          · exact ⟨Or.inr (Or.inl rfl), fun c => absurd c.2 (by decide),
              fun c => absurd c.1 (by decide)⟩
          · exact ⟨Or.inr (Or.inr (Or.inr rfl)), fun c => absurd c.2 (by decide),
              fun c => absurd c.1 (by decide)⟩
          · exact ⟨Or.inr (Or.inl rfl), fun c => absurd c.2 (by decide),
              fun c => absurd c.1 (by decide)⟩
        have hl := hlab (if j > 0 then
            whichMin2 (vs.DP_M (i - 1) j + hmm.Tmat_cost j .M .I)
              (vs.DP_I (i - 1) j + hmm.Tmat_cost j .I .I) 'M' 'I'
          else
            whichMin2 (vs.DP_M i 0 + hmm.Tmat_cost 0 .M .I)
              (vs.DP_I (i - 1) j + hmm.Tmat_cost j .I .I) 'B' 'I') (by
          split
          · exact Or.inl (whichMin2_label _ _ _ _)
          · exact Or.inr (whichMin2_label _ _ _ _))
        refine hcons _ (i - 1) j hl.1 hl.2 (by omega) ?_ ?_ h
        · rw [if_neg (by decide)]
          omega
        · rw [if_pos (Or.inr rfl)]
          omega
      · simp only [traceLoop, hi, if_true] at h
        rw [if_neg (show ¬ ('D' : Char) = 'M' by decide),
          if_neg (show ¬ ('D' : Char) = 'I' by decide)] at h
        by_cases hj : j = 0
        · rw [if_pos hj] at h
          exact absurd h (by simp)
        · rw [if_neg hj] at h
          have hl : (whichMin2 (vs.DP_M i (j - 1) + hmm.Tmat_cost (j - 1) .M .D)
                (vs.DP_D i (j - 1) + hmm.Tmat_cost (j - 1) .D .D) 'M' 'D' = 'M'
              ∨ whichMin2 (vs.DP_M i (j - 1) + hmm.Tmat_cost (j - 1) .M .D)
                (vs.DP_D i (j - 1) + hmm.Tmat_cost (j - 1) .D .D) 'M' 'D' = 'D') :=
            whichMin2_label _ _ _ _
          refine hcons _ i (j - 1) ?_ ?_ (by omega) ?_ ?_ h
          · rcases hl with e | e <;> simp [e]
          · rcases hl with e | e <;> rw [e] <;>
              exact ⟨fun c => absurd c.1 (by decide), fun c => absurd c.2 (by decide)⟩
          · rw [if_pos (Or.inr rfl)]
            omega
          · rw [if_neg (by decide)]
            omega
      · simp only [traceLoop, hi, if_true] at h
        rw [if_neg (show ¬ ('B' : Char) = 'M' by decide),
          if_neg (show ¬ ('B' : Char) = 'I' by decide),
          if_neg (show ¬ ('B' : Char) = 'D' by decide)] at h
        cases h
        refine ⟨['B'], rfl, List.chain'_singleton _, by simp, ?_, ?_, ?_⟩
        · rw [List.length_singleton]
          omega
        · show countMD ['B'] + j = j
          rw [show countMD ['B'] = 0 from by decide, Nat.zero_add]
        · show countMI ['B'] + i = i
          rw [show countMI ['B'] = 0 from by decide, Nat.zero_add]
    · simp only [traceLoop, hi, if_false] at h
      cases h
      refine ⟨[], by simp, List.chain'_nil, by simp, by simp, ?_, ?_⟩
      · show countMD [] + j = j
        simp [countMD]
      · show countMI [] + i = i
        simp [countMI]

end

theorem countMD_reverse (Z : List Char) : countMD Z.reverse = countMD Z := by
  unfold countMD
  rw [← List.countP_eq_length_filter, ← List.countP_eq_length_filter]
  exact (List.reverse_perm Z).countP_eq _

theorem countMI_reverse (Z : List Char) : countMI Z.reverse = countMI Z := by
  unfold countMI
  rw [← List.countP_eq_length_filter, ← List.countP_eq_length_filter]
  exact (List.reverse_perm Z).countP_eq _

theorem countMD_append_B (Z : List Char) (b : Bool) :
    countMD (Z ++ (if b then ['B'] else [])) = countMD Z := by
  unfold countMD
  rw [List.filter_append, List.length_append]
  cases b <;> simp

theorem countMI_append_B (Z : List Char) (b : Bool) :
    countMI (Z ++ (if b then ['B'] else [])) = countMI Z := by
  unfold countMI
  rw [List.filter_append, List.length_append]
  cases b <;> simp

theorem okAdjacent_symm (x y : Char) (h : okAdjacent x y) : okAdjacent y x :=
  ⟨fun c => h.2 ⟨c.2, c.1⟩, fun c => h.1 ⟨c.2, c.1⟩⟩

section
variable {α : Type} [LinearOrderedAddCommMonoidWithTop α]

/-- Whatever the tables hold, as long as their minimum is finite, a trace returned by
`buildViterbiTrace` on an empty trace is `B`, the states `Y`, `E`; no insert is next to a
delete; the `M`/`D` states of `Y` are the profile positions `alnStart..alnEnd`, its `M`/`I`
states the query positions `alnFrom..alnTo`; and `Y` has at most `minRow + min(minCol, K)`
states. -/
theorem buildViterbiTrace_general (hmm : BandedHMMP7 α) (vs : ViterbiScores α)
    (vt0 vt : ViterbiAlignTrace α)
    (hfin : (minCoeff vs.S (vs.L + 1) (hmm.K + 2)).1 ≠ ⊤) (hempty : vt0.alnTrace = [])
    (h : buildViterbiTrace hmm vs vt0 = some vt) :
    ∃ Y, vt.alnTrace = 'B' :: (Y ++ ['E']) ∧ (∀ c ∈ Y, c = 'M' ∨ c = 'I' ∨ c = 'D')
      ∧ List.Chain' okAdjacent vt.alnTrace
      ∧ countMD Y + vt.alnStart = vt.alnEnd + 1
      ∧ countMI Y + vt.alnFrom = vt.alnTo + 1
      ∧ Y.length ≤ (minCoeff vs.S (vs.L + 1) (hmm.K + 2)).2.1
          + min (minCoeff vs.S (vs.L + 1) (hmm.K + 2)).2.2 hmm.K := by
  unfold buildViterbiTrace at h
  simp only [hfin, if_false, hempty, List.nil_append] at h
  obtain ⟨r, hr, hvt⟩ := Option.bind_eq_some.mp h
  have hs0 : ((if (minCoeff vs.S (vs.L + 1) (hmm.K + 2)).2.2 ≤ hmm.K then 'M' else 'I') = 'M'
      ∨ (if (minCoeff vs.S (vs.L + 1) (hmm.K + 2)).2.2 ≤ hmm.K then 'M' else 'I') = 'I'
      ∨ (if (minCoeff vs.S (vs.L + 1) (hmm.K + 2)).2.2 ≤ hmm.K then 'M' else 'I') = 'D'
      ∨ (if (minCoeff vs.S (vs.L + 1) (hmm.K + 2)).2.2 ≤ hmm.K then 'M' else 'I') = 'B') := by
    split
    · exact Or.inl rfl
    · exact Or.inr (Or.inl rfl)
  obtain ⟨Z, b, e, hZ⟩ := traceLoop_shape hmm vs _ _ _ _ _ r hs0 hr
  obtain ⟨W, e2, hch, -, hlen, hmd, hmi⟩ := traceLoop_pushed hmm vs _ _ _ _ _ r hs0 hr
  have eW : W = Z ++ (if b then ['B'] else []) := by
    rw [e, List.append_assoc] at e2
    exact (List.append_cancel_left e2).symm
  simp only [Option.some.injEq] at hvt
  subst hvt
  have hY : ∀ c ∈ Z.reverse, c = 'M' ∨ c = 'I' ∨ c = 'D' := by
    intro c hc
    exact hZ c (List.mem_reverse.mp hc)
  have hj0 : (if (minCoeff vs.S (vs.L + 1) (hmm.K + 2)).2.2 ≤ hmm.K
      then (minCoeff vs.S (vs.L + 1) (hmm.K + 2)).2.2 else hmm.K)
        = min (minCoeff vs.S (vs.L + 1) (hmm.K + 2)).2.2 hmm.K := by
    split
    · rw [min_eq_left (by assumption)]
    · rw [min_eq_right (by omega)]
  rw [eW, countMD_append_B] at hmd
  rw [eW, countMI_append_B] at hmi
  refine ⟨Z.reverse, ?_, hY, ?_, ?_, ?_, ?_⟩
  · simp only [e]
    exact closeTrace Z b hZ
  · simp only
    rw [List.chain'_reverse]
    apply List.Chain'.imp (R := okAdjacent)
    · intro x y hxy
      exact okAdjacent_symm x y hxy
    · have hE : List.Chain' okAdjacent r.2.2 := by
        rw [e2]
        show List.Chain' okAdjacent ('E' :: W)
        rw [List.chain'_cons']
        exact ⟨fun y _ => ⟨fun c => absurd c.1 (by decide), fun c => absurd c.1 (by decide)⟩,
          hch⟩
      split
      · rw [List.chain'_append]
        refine ⟨hE, List.chain'_singleton _, ?_⟩
        intro x _ y hy
        simp only [List.head?_cons, Option.mem_def, Option.some.injEq] at hy
        subst hy
        exact ⟨fun c => absurd c.2 (by decide), fun c => absurd c.2 (by decide)⟩
      · exact hE
  · simp only
    rw [countMD_reverse]
    omega
  · simp only
    rw [countMI_reverse]
    omega
  · rw [List.length_reverse]
    have hl : Z.length ≤ W.length := by
      rw [eW, List.length_append]
      omega
    omega

end

section
variable {α : Type}

/-- Over states `M`, `I`, `D` the reconstruction loop moves the query cursor by the number of
`M` and `I` states, and it leaves the insert buffer empty when the last state is an `M` or a
`D` (or when there is no state and the buffer was empty). -/
theorem alignLoop_cursor (hmm : BandedHMMP7 α) (seq : PrimarySeq) (vt : ViterbiAlignTrace α)
    (seqN seqC : List Char) (csStart csEnd : Nat) :
    ∀ (X : List Char) (idx : Nat) (inRun : Bool) (c c' : AlignCursor),
      (∀ x ∈ X, x = 'M' ∨ x = 'I' ∨ x = 'D') →
      alignLoop hmm seq vt seqN seqC csStart csEnd X idx inRun c = some c' →
      c'.j = c.j + countMI X
        ∧ (((X = [] ∧ c.insert = []) ∨ X.getLast? = some 'M' ∨ X.getLast? = some 'D') →
            c'.insert = []) := by
  intro X
  induction X with
  | nil =>
    intro idx inRun c c' _ h
    simp only [alignLoop, Option.some.injEq] at h
    subst h
    refine ⟨by simp [countMI], ?_⟩
    rintro (⟨-, h⟩ | h | h)
    · exact h
    · exact absurd h (by simp)
    · exact absurd h (by simp)
  | cons x X ih =>
    intro idx inRun c c' hX h
    have hX' : ∀ y ∈ X, y = 'M' ∨ y = 'I' ∨ y = 'D' :=
      fun y hy => hX y (List.mem_cons_of_mem _ hy)
    have hlast : ∀ (c1 : AlignCursor), (X = [] → c1.insert = []) →
        (((x :: X) = [] ∧ c.insert = []) ∨ (x :: X).getLast? = some 'M'
          ∨ (x :: X).getLast? = some 'D') →
        ((X = [] ∧ c1.insert = []) ∨ X.getLast? = some 'M' ∨ X.getLast? = some 'D') := by
      intro c1 h1 hp
      cases X with
      | nil => exact Or.inl ⟨rfl, h1 rfl⟩
      | cons y Y =>
        rw [List.getLast?_cons_cons] at hp
        rcases hp with ⟨hp, -⟩ | hp
        · exact absurd hp (by simp)
        · exact Or.inr hp
    rcases hX x (List.mem_cons_self _ _) with rfl | rfl | rfl
    · rw [alignLoop, if_neg (by decide), if_pos rfl] at h
      dsimp only at h
      by_cases hj : c.j = 0
      · rw [if_pos hj] at h
        exact absurd h (by simp)
      · rw [if_neg hj] at h
        obtain ⟨a1, a2⟩ := ih _ _ _ _ hX' h
        refine ⟨?_, fun hp => a2 (hlast _ (fun _ => rfl) hp)⟩
        rw [a1, countMI_cons, if_pos (Or.inl rfl)]
        simp only
        omega
    · rw [alignLoop, if_neg (by decide), if_neg (by decide), if_pos rfl] at h
      by_cases hj : c.j = 0
      · rw [if_pos hj] at h
        exact absurd h (by simp)
      · rw [if_neg hj] at h
        obtain ⟨a1, a2⟩ := ih _ _ _ _ hX' h
        refine ⟨?_, fun hp => a2 ?_⟩
        · rw [a1, countMI_cons, if_pos (Or.inr rfl)]
          simp only
          omega
        · cases X with
          | nil =>
            rcases hp with ⟨hp, -⟩ | hp | hp
            · exact absurd hp (by simp)
            · exact absurd hp (by simp)
            · exact absurd hp (by simp)
          | cons y Y =>
            rw [List.getLast?_cons_cons] at hp
            rcases hp with ⟨hp, -⟩ | hp
            · exact absurd hp (by simp)
            · exact Or.inr hp
    · rw [alignLoop, if_neg (by decide), if_neg (by decide), if_neg (by decide),
        if_pos rfl] at h
      by_cases hins : c.insert ≠ []
      · rw [if_pos hins] at h
        exact absurd h (by simp)
      · rw [if_neg hins] at h
        dsimp only at h
        obtain ⟨a1, a2⟩ := ih _ _ _ _ hX' h
        refine ⟨?_, fun hp => a2 (hlast _ (fun _ => not_not.mp hins) hp)⟩
        rw [a1, countMI_cons,
          if_neg (show ¬ (('D' : Char) = 'M' ∨ ('D' : Char) = 'I') by decide)]
        simp only
        omega

/-- The reconstruction loop over `B` and states `Y1` among `M`, `I`, `D`: the query cursor
is then `alnFrom` plus the number of `M` and `I` states, and the insert buffer is empty when
`Y1` does not end with an `I`. -/
theorem alignLoop_after_B (hmm : BandedHMMP7 α) (seq : PrimarySeq) (vt : ViterbiAlignTrace α)
    (seqN seqC : List Char) (csStart csEnd : Nat) (Y1 : List Char) (c : AlignCursor)
    (hY : ∀ x ∈ Y1, x = 'M' ∨ x = 'I' ∨ x = 'D')
    (h : alignLoop hmm seq vt seqN seqC csStart csEnd ('B' :: Y1) 0 false
      { align := [], i := 0, j := 0, k := 0, insert := [] } = some c) :
    c.j = vt.alnFrom + countMI Y1 ∧ (Y1.getLast? ≠ some 'I' → c.insert = []) := by
  rw [alignLoop, if_pos rfl] at h
  by_cases h0 : csStart = 0
  · rw [if_pos h0] at h
    exact absurd h (by simp)
  · rw [if_neg h0] at h
    obtain ⟨a1, a2⟩ := alignLoop_cursor hmm seq vt seqN seqC csStart csEnd Y1 _ _ _ _ hY h
    refine ⟨a1, fun hl => a2 ?_⟩
    cases hg : Y1.getLast? with
    | none =>
      exact Or.inl ⟨List.getLast?_eq_none_iff.mp hg, rfl⟩
    | some y =>
      have hm := hY y (List.mem_of_getLast?_eq_some hg)
      rcases hm with rfl | rfl | rfl
      · exact Or.inr (Or.inl rfl)
      · exact absurd hg hl
      · exact Or.inr (Or.inr rfl)

end

/-! ### Traceback: what the trace holds -/

set_option maxRecDepth 100000 in
/-- C31 fails on the code: for the one-position profile `hmmOneMatch` and the query `AA`
the tables of the full `calcViterbiScores` have the minimum score `2` at `S(2,1)`, and
`DP_M(2,1) = 2` was produced by the candidate `DP_M(1,0) + Tmat_cost[0](M,M) = 2`.  At
`j = 1` the traceback compares only the candidates `B` (`DP_M(2,0) + entryPr_cost(1) = 3`)
and `I` (`inf`), neither of which attains the cell's value; it returns the trace `BME` with
`alnFrom = alnTo = 2`, whose cost summed along the path is `3`, not `minScore = 2`. -/
theorem traceback_misses_producing_min :
    calcViterbiScores hmmOneMatch seqAA (ViterbiScores.fresh 2) = some vsOneMatchAA
      ∧ (buildViterbiTrace hmmOneMatch vsOneMatchAA vtraceFresh).map
          (fun vt => (vt.minScore, vt.alnTrace, vt.alnFrom, vt.alnTo, vt.alnStart, vt.alnEnd))
        = some (2, ['B', 'M', 'E'], 2, 2, 1, 1)
      ∧ vsOneMatchAA.DP_M 2 1 = 2
      ∧ hmmOneMatch.E_M_cost (seqAA.encodeAt 1) 1 = 0
      ∧ vsOneMatchAA.DP_M 1 0 + hmmOneMatch.Tmat_cost 0 .M .M = 2
      ∧ vsOneMatchAA.DP_M 2 0 + hmmOneMatch.entryPr_cost 1 = 3
      ∧ vsOneMatchAA.DP_I 1 0 + hmmOneMatch.Tmat_cost 0 .I .M = ⊤
      ∧ StatePath.cost hmmOneMatch seqAA 2 ⟨2, 1, []⟩ = 3 := by
  refine ⟨rfl, ?_, ?_, ?_, ?_, ?_, ?_, ?_⟩ <;> decide

theorem countMI_trace (Y : List Char) : countMI ('B' :: (Y ++ ['E'])) = countMI Y := by
  rw [countMI_cons, if_neg (show ¬ (('B' : Char) = 'M' ∨ ('B' : Char) = 'I') by decide)]
  unfold countMI
  rw [List.filter_append, List.length_append]
  simp

theorem countMD_trace (Y : List Char) : countMD ('B' :: (Y ++ ['E'])) = countMD Y := by
  rw [countMD_cons, if_neg (show ¬ (('B' : Char) = 'M' ∨ ('B' : Char) = 'D') by decide)]
  unfold countMD
  rw [List.filter_append, List.length_append]
  simp

section
variable {α : Type} [LinearOrderedAddCommMonoidWithTop α]

/-- The outcome of the traceback loop does not depend on the bound on its iterations once
the bound exceeds `i + j`. -/
theorem traceLoop_fuel (hmm : BandedHMMP7 α) (vs : ViterbiScores α) :
    ∀ (f1 f2 : Nat) (s : Char) (i j : Nat) (tr : List Char),
      i + j + 1 ≤ f1 → i + j + 1 ≤ f2 →
      traceLoop hmm vs f1 s i j tr = traceLoop hmm vs f2 s i j tr := by
  intro f1
  induction f1 with
  | zero => intro f2 s i j tr h; omega
  | succ n ih =>
    intro f2 s i j tr h1 h2
    cases f2 with
    | zero => omega
    | succ m =>
      rw [traceLoop, traceLoop]
      by_cases hi : i ≥ 1
      · rw [if_pos hi, if_pos hi]
        dsimp only
        by_cases hM : s = 'M'
        · rw [if_pos hM, if_pos hM]
          by_cases hj : j = 0
          · rw [if_pos hj, if_pos hj]
          · rw [if_neg hj, if_neg hj]
            exact ih m _ _ _ _ (by omega) (by omega)
        · rw [if_neg hM, if_neg hM]
          by_cases hI : s = 'I'
          · rw [if_pos hI, if_pos hI]
            exact ih m _ _ _ _ (by omega) (by omega)
          · rw [if_neg hI, if_neg hI]
            by_cases hD : s = 'D'
            · rw [if_pos hD, if_pos hD]
              by_cases hj : j = 0
              · rw [if_pos hj, if_pos hj]
              · rw [if_neg hj, if_neg hj]
                exact ih m _ _ _ _ (by omega) (by omega)
            · rw [if_neg hD, if_neg hD]
      · rw [if_neg hi, if_neg hi]

/-- One iteration of the traceback loop: it fails on a read outside the tables, or leaves the
loop at the cell it is at, or goes on from a cell with a smaller `i + j`. -/
theorem traceLoop_step (hmm : BandedHMMP7 α) (vs : ViterbiScores α)
    (fuel : Nat) (s : Char) (i j : Nat) (tr : List Char) :
    traceLoop hmm vs (fuel + 1) s i j tr = none
      ∨ (∃ tr', traceLoop hmm vs (fuel + 1) s i j tr = some (i, j, tr'))
      ∨ ∃ s' i' j', i' + j' < i + j
          ∧ traceLoop hmm vs (fuel + 1) s i j tr
              = traceLoop hmm vs fuel s' i' j' (tr ++ [s]) := by
  rw [traceLoop]
  by_cases hi : i ≥ 1
  · rw [if_pos hi]
    dsimp only
    by_cases hM : s = 'M'
    · rw [if_pos hM]
      by_cases hj : j = 0
      · rw [if_pos hj]
        exact Or.inl rfl
      · rw [if_neg hj]
        exact Or.inr (Or.inr ⟨_, i - 1, j - 1, by omega, rfl⟩)
    · rw [if_neg hM]
      by_cases hI : s = 'I'
      · rw [if_pos hI]
        exact Or.inr (Or.inr ⟨_, i - 1, j, by omega, rfl⟩)
      · rw [if_neg hI]
        by_cases hD : s = 'D'
        · rw [if_pos hD]
          by_cases hj : j = 0
          · rw [if_pos hj]
            exact Or.inl rfl
          · rw [if_neg hj]
            exact Or.inr (Or.inr ⟨_, i, j - 1, by omega, rfl⟩)
        · rw [if_neg hD]
          exact Or.inr (Or.inl ⟨_, rfl⟩)
  · rw [if_neg hi]
    exact Or.inr (Or.inl ⟨_, rfl⟩)

/-- C32: whatever the score tables hold, as long as their minimum is finite, in a trace
returned by `buildViterbiTrace` (on an empty trace) the number of `M` and `I` characters is
`alnTo - alnFrom + 1` and the number of `M` and `D` characters is `alnEnd - alnStart + 1`;
the trace is `B`, `Y`, `E`, and the query cursor `j` with which `buildGlobalAlign` arrives at
the state `E` is `alnTo + 1`, as its assertion demands. -/
theorem trace_consumption_counts (hmm : BandedHMMP7 α) (vs : ViterbiScores α)
    (vt0 vt : ViterbiAlignTrace α)
    (hfin : (minCoeff vs.S (vs.L + 1) (hmm.K + 2)).1 ≠ ⊤) (hempty : vt0.alnTrace = [])
    (h : buildViterbiTrace hmm vs vt0 = some vt) :
    (countMI vt.alnTrace : Int) = (vt.alnTo : Int) - (vt.alnFrom : Int) + 1
      ∧ (countMD vt.alnTrace : Int) = (vt.alnEnd : Int) - (vt.alnStart : Int) + 1
      ∧ ∃ Y, vt.alnTrace = 'B' :: (Y ++ ['E'])
        ∧ ∀ (seq : PrimarySeq) (seqN seqC : List Char) (csStart csEnd : Nat)
            (c : AlignCursor),
            alignLoop hmm seq vt seqN seqC csStart csEnd ('B' :: Y) 0 false
              { align := [], i := 0, j := 0, k := 0, insert := [] } = some c →
            c.j = vt.alnTo + 1 := by
  obtain ⟨Y, e, hY, -, hmd, hmi, -⟩ := buildViterbiTrace_general hmm vs vt0 vt hfin hempty h
  refine ⟨?_, ?_, Y, e, ?_⟩
  · rw [e, countMI_trace]
    omega
  · rw [e, countMD_trace]
    omega
  · intro seq seqN seqC csStart csEnd c hc
    rw [(alignLoop_after_B hmm seq vt seqN seqC csStart csEnd Y c hY hc).1]
    omega

/-- C33: whatever the score tables hold, as long as their minimum is finite, a trace returned
by `buildViterbiTrace` (on an empty trace) has neither `ID` nor `DI` as adjacent characters;
the trace is `B`, `Y`, `E`, and whenever `buildGlobalAlign` arrives at a `D` state of `Y` the
insert buffer is empty, as its assertion demands. -/
theorem trace_no_insert_next_to_delete (hmm : BandedHMMP7 α) (vs : ViterbiScores α)
    (vt0 vt : ViterbiAlignTrace α)
    (hfin : (minCoeff vs.S (vs.L + 1) (hmm.K + 2)).1 ≠ ⊤) (hempty : vt0.alnTrace = [])
    (h : buildViterbiTrace hmm vs vt0 = some vt) :
    (∀ pre post, vt.alnTrace ≠ pre ++ 'I' :: 'D' :: post)
      ∧ (∀ pre post, vt.alnTrace ≠ pre ++ 'D' :: 'I' :: post)
      ∧ ∃ Y, vt.alnTrace = 'B' :: (Y ++ ['E'])
        ∧ ∀ (seq : PrimarySeq) (seqN seqC : List Char) (csStart csEnd : Nat)
            (Y1 Y2 : List Char) (c : AlignCursor), Y = Y1 ++ 'D' :: Y2 →
            alignLoop hmm seq vt seqN seqC csStart csEnd ('B' :: Y1) 0 false
              { align := [], i := 0, j := 0, k := 0, insert := [] } = some c →
            c.insert = [] := by
  obtain ⟨Y, e, hY, hch, -, -, -⟩ := buildViterbiTrace_general hmm vs vt0 vt hfin hempty h
  have hID : ∀ pre post, vt.alnTrace ≠ pre ++ 'I' :: 'D' :: post := by
    intro pre post hc
    have hp : List.Chain' okAdjacent ['I', 'D'] :=
      hch.infix ⟨pre, post, by rw [hc]; simp⟩
    exact (List.chain'_pair.mp hp).1 ⟨rfl, rfl⟩
  have hDI : ∀ pre post, vt.alnTrace ≠ pre ++ 'D' :: 'I' :: post := by
    intro pre post hc
    have hp : List.Chain' okAdjacent ['D', 'I'] :=
      hch.infix ⟨pre, post, by rw [hc]; simp⟩
    exact (List.chain'_pair.mp hp).2 ⟨rfl, rfl⟩
  refine ⟨hID, hDI, Y, e, ?_⟩
  intro seq seqN seqC csStart csEnd Y1 Y2 c hsplit hc
  have hY1 : ∀ x ∈ Y1, x = 'M' ∨ x = 'I' ∨ x = 'D' := by
    intro x hx
    exact hY x (by rw [hsplit]; exact List.mem_append_left _ hx)
  refine (alignLoop_after_B hmm seq vt seqN seqC csStart csEnd Y1 c hY1 hc).2 ?_
  intro hl
  obtain ⟨ys, hys⟩ := List.getLast?_eq_some_iff.mp hl
  refine hID ('B' :: ys) (Y2 ++ ['E']) ?_
  rw [e, hsplit, hys]
  simp

/-- C38: whatever the score tables hold, an iteration of the loop of `buildViterbiTrace`
that does not leave the loop lowers `i + j`; the outcome of the loop is the same for every
bound on its iterations above `i + j`, so the loop ends; the loop pushes one state in each
iteration and at most `i + j` states in all; and when the minimum, at `(minRow, minCol)`,
is finite, a trace returned (on an empty trace) has at most `minRow + min(minCol, K) + 2`
characters. -/
theorem traceback_terminates (hmm : BandedHMMP7 α) (vs : ViterbiScores α)
    (vt0 vt : ViterbiAlignTrace α)
    (hfin : (minCoeff vs.S (vs.L + 1) (hmm.K + 2)).1 ≠ ⊤) (hempty : vt0.alnTrace = [])
    (h : buildViterbiTrace hmm vs vt0 = some vt) :
    (∀ (fuel : Nat) (s : Char) (i j : Nat) (tr : List Char),
        traceLoop hmm vs (fuel + 1) s i j tr = none
          ∨ (∃ tr', traceLoop hmm vs (fuel + 1) s i j tr = some (i, j, tr'))
          ∨ ∃ s' i' j', i' + j' < i + j
              ∧ traceLoop hmm vs (fuel + 1) s i j tr
                  = traceLoop hmm vs fuel s' i' j' (tr ++ [s]))
      ∧ (∀ (fuel : Nat) (s : Char) (i j : Nat) (tr : List Char), i + j + 1 ≤ fuel →
          traceLoop hmm vs fuel s i j tr = traceLoop hmm vs (i + j + 1) s i j tr)
      ∧ (∀ (fuel : Nat) (s : Char) (i j : Nat) (tr : List Char) (r : Nat × Nat × List Char),
          (s = 'M' ∨ s = 'I' ∨ s = 'D' ∨ s = 'B') →
          traceLoop hmm vs fuel s i j tr = some r → r.2.2.length ≤ tr.length + (i + j))
      ∧ vt.alnTrace.length ≤ (minCoeff vs.S (vs.L + 1) (hmm.K + 2)).2.1
          + min (minCoeff vs.S (vs.L + 1) (hmm.K + 2)).2.2 hmm.K + 2 := by
  refine ⟨traceLoop_step hmm vs, ?_, ?_, ?_⟩
  · intro fuel s i j tr hf
    exact traceLoop_fuel hmm vs fuel (i + j + 1) s i j tr hf (le_refl _)
  · intro fuel s i j tr r hs hr
    obtain ⟨W, e, -, -, hlen, -⟩ := traceLoop_pushed hmm vs fuel s i j tr r hs hr
    rw [e, List.length_append]
    omega
  · obtain ⟨Y, e, -, -, -, -, hlen⟩ := buildViterbiTrace_general hmm vs vt0 vt hfin hempty h
    rw [e]
    simp only [List.length_cons, List.length_append, List.length_singleton, List.length_nil]
    omega

end

theorem trace_consumption_counts_witness :
    ∃ vt, buildViterbiTrace hmmOneMatch vsOneMatchA vtraceFresh = some vt
      ∧ (countMI vt.alnTrace : Int) = (vt.alnTo : Int) - (vt.alnFrom : Int) + 1
      ∧ (countMD vt.alnTrace : Int) = (vt.alnEnd : Int) - (vt.alnStart : Int) + 1
      ∧ ∃ Y, vt.alnTrace = 'B' :: (Y ++ ['E'])
        ∧ ∀ (seq : PrimarySeq) (seqN seqC : List Char) (csStart csEnd : Nat)
            (c : AlignCursor),
            alignLoop hmmOneMatch seq vt seqN seqC csStart csEnd ('B' :: Y) 0 false
              { align := [], i := 0, j := 0, k := 0, insert := [] } = some c →
            c.j = vt.alnTo + 1 := by
  obtain ⟨vt, -, hvt, -⟩ := buildViterbiTrace_spec hmmOneMatch seqA vsOneMatchA vtraceFresh
    rfl (by decide) (by decide) rfl rfl
  exact ⟨vt, hvt, trace_consumption_counts hmmOneMatch vsOneMatchA vtraceFresh vt
    (by decide) rfl hvt⟩

theorem trace_no_insert_next_to_delete_witness :
    ∃ vt, buildViterbiTrace hmmOneMatch vsOneMatchA vtraceFresh = some vt
      ∧ (∀ pre post, vt.alnTrace ≠ pre ++ 'I' :: 'D' :: post)
      ∧ (∀ pre post, vt.alnTrace ≠ pre ++ 'D' :: 'I' :: post)
      ∧ ∃ Y, vt.alnTrace = 'B' :: (Y ++ ['E'])
        ∧ ∀ (seq : PrimarySeq) (seqN seqC : List Char) (csStart csEnd : Nat)
            (Y1 Y2 : List Char) (c : AlignCursor), Y = Y1 ++ 'D' :: Y2 →
            alignLoop hmmOneMatch seq vt seqN seqC csStart csEnd ('B' :: Y1) 0 false
              { align := [], i := 0, j := 0, k := 0, insert := [] } = some c →
            c.insert = [] := by
  obtain ⟨vt, -, hvt, -⟩ := buildViterbiTrace_spec hmmOneMatch seqA vsOneMatchA vtraceFresh
    rfl (by decide) (by decide) rfl rfl
  exact ⟨vt, hvt, trace_no_insert_next_to_delete hmmOneMatch vsOneMatchA vtraceFresh vt
    (by decide) rfl hvt⟩

theorem traceback_terminates_witness :
    ∃ vt, buildViterbiTrace hmmOneMatch vsOneMatchA vtraceFresh = some vt
      ∧ vt.alnTrace.length ≤ (minCoeff vsOneMatchA.S (vsOneMatchA.L + 1) (hmmOneMatch.K + 2)).2.1
          + min (minCoeff vsOneMatchA.S (vsOneMatchA.L + 1) (hmmOneMatch.K + 2)).2.2
              hmmOneMatch.K + 2 := by
  obtain ⟨vt, -, hvt, -⟩ := buildViterbiTrace_spec hmmOneMatch seqA vsOneMatchA vtraceFresh
    rfl (by decide) (by decide) rfl rfl
  exact ⟨vt, hvt, (traceback_terminates hmmOneMatch vsOneMatchA vtraceFresh vt
    (by decide) rfl hvt).2.2.2⟩

/-! ### The banded dynamic programme: no path, and the ends of the query -/

theorem tdiv_five_lt_one (n : Int) (h : n < 5) : Int.tdiv n 5 < 1 := by
  by_cases h0 : 0 ≤ n
  · rw [Int.tdiv_eq_ediv h0 (by decide)]
    omega
  · have h1 : 0 ≤ Int.tdiv (-n) 5 := Int.tdiv_nonneg (by omega) (by decide)
    rw [Int.neg_tdiv] at h1
    omega

/-- With a first path that starts at query position `from ≥ 1`, the upstream band starts at
query position `1`. -/
theorem upFrom_first (vp : VPath) (h : 1 ≤ vp.from_) : upFrom none vp = 1 := by
  have hq : upQLen none vp = (vp.from_ : Int) - 1 := by
    unfold upQLen
    dsimp only
    rw [if_neg (by omega)]
  have ht : truncGap (vp.from_ : Int) (-((vp.from_ : Int) - 1))
      = Int.tdiv (6 - (vp.from_ : Int)) 5 := by
    unfold truncGap
    congr 1
    ring
  unfold upFrom
  dsimp only
  rw [hq, ht]
  by_cases h1 : vp.from_ = 1
  · rw [h1]
    decide
  · rw [if_pos (tdiv_five_lt_one _ (by omega))]

/-- With a last path that ends at query position `to ≤ L`, the downstream band ends at query
position `L`. -/
theorem downTo_last (L : Nat) (vp : VPath) (h : vp.to_ ≤ L) : downTo L vp = L := by
  unfold downTo truncGap
  dsimp only
  rw [Int.tdiv_eq_ediv (by omega) (by decide)]
  split
  · rfl
  · omega

section
variable {α : Type} [LinearOrderedAddCommMonoidWithTop α]

/-- C36: the banded `calcViterbiScores` with an empty list of known paths (its two
assertions holding) returns the tables it was given: `DP_M`, `DP_I`, `DP_D` and `S` are
unchanged, neither column `0` nor the score layer being written. -/
theorem banded_no_paths (hmm : BandedHMMP7 α) (seq : PrimarySeq) (vs : ViterbiScores α)
    (hlen : seq.length = vs.L) (hw : hmm.wingRetracted = true) :
    calcViterbiScoresBanded hmm seq vs [] = some vs := by
  unfold calcViterbiScoresBanded
  rw [if_pos ⟨hlen, hw⟩]
  rfl

/-- C37: in the banded `calcViterbiScores` on a non-empty list of known paths whose first
path has `from ≥ 1` and whose last path has `to ≤ L`, the bound `up_from` of the first
upstream band is `1` and the bound `down_to` of the downstream band is `L`, whatever the
truncation gives: the loops of the first upstream band run over the query rows
`1..first.from` and those of the downstream band over the rows `last.to..L`. -/
theorem bands_cover_ends (hmm : BandedHMMP7 α) (seq : PrimarySeq) (vs : ViterbiScores α)
    (first : VPath) (rest : List VPath) (last : VPath)
    (hlast : (first :: rest).getLast? = some last)
    (hlen : seq.length = vs.L) (hw : hmm.wingRetracted = true)
    (hfrom : 1 ≤ first.from_) (hto : last.to_ ≤ vs.L) :
    upFrom none first = 1 ∧ downTo vs.L last = vs.L
      ∧ (∀ vs1 : ViterbiScores α, pathStep hmm seq (vs1, none) first =
          (bandLoops hmm seq true
            (fun i j =>
              decide (diagnalDist i j first.from_ first.start ≤ (first.nIns : Int)
                ∧ diagnalDist i j first.from_ first.start ≥ -(first.nDel : Int)))
            first.start first.end_ first.from_ first.to_
            (bandLoops hmm seq true (fun _ _ => true)
              (upStart none first).toNat first.start 1 first.from_ vs1), some first))
      ∧ calcViterbiScoresBanded hmm seq vs (first :: rest) =
          some (scoreLayer hmm
            (bandLoops hmm seq false (fun _ _ => true) last.end_ (downEnd hmm.K vs.L last)
              last.to_ (vs.L : Int)
              ((first :: rest).foldl (pathStep hmm seq)
                (prepareViterbiScores hmm vs, none)).1)) := by
  have hu := upFrom_first first hfrom
  have hd := downTo_last vs.L last hto
  refine ⟨hu, hd, ?_, ?_⟩
  · intro vs1
    rw [pathStep_eq, hu]
    rfl
  · unfold calcViterbiScoresBanded
    rw [if_pos ⟨hlen, hw⟩]
    simp only [hlast]
    have e : (if truncGap (last.to_ : Int) ((vs.L : Int) - (last.to_ : Int)) > vs.L
        then (vs.L : Int)
        else truncGap (last.to_ : Int) ((vs.L : Int) - (last.to_ : Int))) = vs.L := hd
    rw [e]
    rfl

end

theorem banded_no_paths_witness :
    calcViterbiScoresBanded hmmOneMatch seqA (ViterbiScores.fresh 1) []
      = some (ViterbiScores.fresh 1) :=
  banded_no_paths hmmOneMatch seqA (ViterbiScores.fresh 1) rfl rfl

theorem bands_cover_ends_witness :
    upFrom none vpathOne = 1 ∧ downTo (ViterbiScores.fresh 2 : ViterbiScores ℕ∞).L vpathOne = 2 :=
  ⟨(bands_cover_ends hmmOneMatch seqAA (ViterbiScores.fresh 2) vpathOne [] vpathOne rfl rfl rfl
      (by decide) (by decide)).1,
    (bands_cover_ends hmmOneMatch seqAA (ViterbiScores.fresh 2) vpathOne [] vpathOne rfl rfl rfl
      (by decide) (by decide)).2.1⟩

/-! ### FASTA output -/

/-- The loop of `writeFastaSeq` from position `i` with `r = n - i` characters left: it ends,
never writes past the end, and writes the rest of the sequence in lines of `kMaxFastaLine`
characters, the last one possibly shorter. -/
theorem writeFastaLoop_spec (k : Nat) (seq : List Char) (hk : 0 < k)
    (hn : seq.length + k ≤ 2 ^ 64) :
    ∀ (fuel i r : Nat) (out : List (List Char)),
      (i < seq.length → r = seq.length - i) → seq.length - i < fuel →
      ∃ lines, writeFastaLoop k seq fuel i r out = some (out ++ lines)
        ∧ lines.flatten = seq.drop i
        ∧ lines.length = (seq.length - i + k - 1) / k
        ∧ (∀ l ∈ lines, l.length ≤ k)
        ∧ (∀ l ∈ lines.dropLast, l.length = k) := by
  intro fuel
  induction fuel with
  | zero => intro i r out _ h; omega
  | succ f ih =>
    intro i r out hr hf
    rw [writeFastaLoop]
    by_cases hi : i < seq.length
    · rw [if_pos hi]
      have hr' := hr hi
      subst hr'
      dsimp only
      by_cases hge : seq.length - i ≥ k
      · -- a full line
        rw [if_pos hge, if_neg (by omega)]
        have e1 : (i + k) % 2 ^ 64 = i + k := Nat.mod_eq_of_lt (by omega)
        have e2 : (seq.length - i + 2 ^ 64 - k) % 2 ^ 64 = seq.length - (i + k) := by
          have : seq.length - i + 2 ^ 64 - k = seq.length - (i + k) + 2 ^ 64 := by omega
          rw [this, Nat.add_mod_right]
          exact Nat.mod_eq_of_lt (by omega)
        rw [e1, e2]
        obtain ⟨lines, h1, h2, h3, h4, h5⟩ := ih (i + k) (seq.length - (i + k))
          (out ++ [(seq.drop i).take k]) (fun _ => rfl) (by omega)
        have hlen : ((seq.drop i).take k).length = k := by
          rw [List.length_take, List.length_drop]
          omega
        refine ⟨(seq.drop i).take k :: lines, ?_, ?_, ?_, ?_, ?_⟩
        · rw [h1, List.append_assoc]
          rfl
        · rw [List.flatten_cons, h2, ← List.drop_drop, List.take_append_drop]
        · rw [List.length_cons, h3]
          have : seq.length - i + k - 1 = (seq.length - (i + k) + k - 1) + k := by omega
          rw [this, Nat.add_div_right _ hk]
        · intro l hl
          rcases List.mem_cons.mp hl with rfl | hl
          · omega
          · exact h4 l hl
        · intro l hl
          cases lines with
          | nil => simp at hl
          | cons a as =>
            rw [List.dropLast_cons₂] at hl
            rcases List.mem_cons.mp hl with rfl | hl
            · exact hlen
            · exact h5 l hl
      · -- the last line
        rw [if_neg hge, if_neg (by omega)]
        have e1 : (i + k) % 2 ^ 64 = i + k := Nat.mod_eq_of_lt (by omega)
        rw [e1]
        obtain ⟨lines, h1, h2, h3, h4, h5⟩ := ih (i + k)
          ((seq.length - i + 2 ^ 64 - k) % 2 ^ 64)
          (out ++ [(seq.drop i).take (seq.length - i)])
          (fun hc => absurd hc (by omega)) (by omega)
        have hz : lines = [] := by
          apply List.eq_nil_of_length_eq_zero
          rw [h3]
          exact Nat.div_eq_of_lt (by omega)
        subst hz
        refine ⟨[(seq.drop i).take (seq.length - i)], ?_, ?_, ?_, ?_, ?_⟩
        · rw [h1, List.append_nil]
        · rw [List.flatten_cons, List.flatten_nil, List.append_nil]
          exact List.take_of_length_le (by rw [List.length_drop])
        · rw [List.length_singleton]
          exact (Nat.div_eq_of_lt_le (by omega) (by omega)).symm
        · intro l hl
          rw [List.mem_singleton] at hl
          subst hl
          rw [List.length_take, List.length_drop]
          omega
        · intro l hl
          simp at hl
    · rw [if_neg hi]
      refine ⟨[], by rw [List.append_nil], ?_, ?_, by simp, by simp⟩
      · rw [List.flatten_nil, List.drop_eq_nil_of_le (by omega)]
      · rw [List.length_nil]
        exact (Nat.div_eq_of_lt (by omega)).symm

/-- C40: for a sequence of length `n` (with `0 < kMaxFastaLine` and `n + kMaxFastaLine`
within `size_t`), `writeFastaSeq` ends without writing past the end of the sequence, and
after the header line it writes `ceil(n / kMaxFastaLine)` lines, each of at most
`kMaxFastaLine` characters and all but the last of exactly `kMaxFastaLine`, whose
concatenation is the sequence. -/
theorem writeFastaSeq_lines (kMaxFastaLine : Nat) (seq : PrimarySeq)
    (hk : 0 < kMaxFastaLine) (hn : seq.length + kMaxFastaLine ≤ 2 ^ 64) :
    ∃ lines, writeFastaSeq kMaxFastaLine seq = some lines
      ∧ lines.length = (seq.length + kMaxFastaLine - 1) / kMaxFastaLine
      ∧ (∀ l ∈ lines, l.length ≤ kMaxFastaLine)
      ∧ (∀ l ∈ lines.dropLast, l.length = kMaxFastaLine)
      ∧ lines.flatten = seq.seq := by
  obtain ⟨lines, h1, h2, h3, h4, h5⟩ := writeFastaLoop_spec kMaxFastaLine seq.seq hk hn
    (seq.length + 1) 0 seq.length [] (fun _ => rfl) (by unfold PrimarySeq.length; omega)
  exact ⟨lines, h1, h3, h4, h5, h2⟩

theorem writeFastaSeq_lines_witness :
    ∃ lines, writeFastaSeq 1 seqAA = some lines
      ∧ lines.length = (seqAA.length + 1 - 1) / 1
      ∧ (∀ l ∈ lines, l.length ≤ 1)
      ∧ (∀ l ∈ lines.dropLast, l.length = 1)
      ∧ lines.flatten = seqAA.seq :=
  writeFastaSeq_lines 1 seqAA (by decide) (by decide)

/-! ### Uniform subsetting of an OTU table -/

/-- The inner loop of `subsetUniform` over the OTUs of a sample, from index position `k`: the
new counts are pointwise at most the old ones and sum to the number of set flags among the
positions `k .. k + total` of the sampling index. -/
theorem subsetSample_loop (idx : List Bool) :
    ∀ (col : List Nat) (acc : List Nat) (k : Nat),
      ∃ counts, (col.foldl (fun (st : List Nat × Nat) N =>
          (st.1 ++ [((idx.drop st.2).take N).count true], st.2 + N)) (acc, k)).1
            = acc ++ counts
        ∧ List.Forall₂ (fun new old => new ≤ old) counts col
        ∧ counts.sum = ((idx.drop k).take col.sum).count true := by
  intro col
  induction col with
  | nil =>
    intro acc k
    exact ⟨[], by simp, List.Forall₂.nil, by simp⟩
  | cons N rest ih =>
    intro acc k
    obtain ⟨counts, h1, h2, h3⟩ := ih (acc ++ [((idx.drop k).take N).count true]) (k + N)
    refine ⟨((idx.drop k).take N).count true :: counts, ?_, ?_, ?_⟩
    · rw [List.foldl_cons, h1, List.append_assoc]
      rfl
    · refine List.Forall₂.cons ?_ h2
      exact le_trans (List.count_le_length _ _) (by rw [List.length_take]; omega)
    · have hd : (idx.drop k).drop N = idx.drop (k + N) := by
        rw [List.drop_drop]
      rw [List.sum_cons, h3, List.sum_cons, List.take_add, List.count_append, hd]

/-- One sample of `subsetUniform`, for any outcome of the shuffle: a sample with more than
`min` reads gets exactly `min`, no count growing; another sample is left as it is. -/
theorem subsetSample_spec (min : Nat) (shuffle : List Bool → List Bool) (col : List Nat)
    (hperm : ∀ l, (shuffle l).Perm l) :
    (min < numSampleReads col →
        numSampleReads (subsetSample min shuffle col) = min
          ∧ List.Forall₂ (fun new old => new ≤ old) (subsetSample min shuffle col) col)
      ∧ (numSampleReads col ≤ min → subsetSample min shuffle col = col) := by
  constructor
  · intro hlt
    unfold subsetSample
    dsimp only
    rw [if_neg (by omega)]
    obtain ⟨counts, h1, h2, h3⟩ := subsetSample_loop
      (shuffle (List.replicate min true
        ++ List.replicate (numSampleReads col - min) false)) col [] 0
    rw [h1, List.nil_append]
    refine ⟨?_, h2⟩
    have hp := hperm (List.replicate min true
      ++ List.replicate (numSampleReads col - min) false)
    have hl : (shuffle (List.replicate min true
        ++ List.replicate (numSampleReads col - min) false)).length = col.sum := by
      rw [hp.length_eq, List.length_append, List.length_replicate, List.length_replicate]
      unfold numSampleReads at hlt
      unfold numSampleReads
      omega
    unfold numSampleReads
    have hf : List.count true (List.replicate (numSampleReads col - min) false) = 0 := by
      rw [List.count_eq_zero]
      intro hm
      exact absurd (List.eq_of_mem_replicate hm) (by decide)
    rw [h3, List.drop_zero, List.take_of_length_le (le_of_eq hl), hp.count_eq,
      List.count_append, List.count_replicate_self, hf, Nat.add_zero]
  · intro hle
    unfold subsetSample
    dsimp only
    rw [if_pos hle]

/-- C39: for a table with non-negative integer counts and any outcome of the random
shuffles (any permutation of the sampling index), `subsetUniform(min)` keeps the number of
samples; a sample whose total read count exceeds `min` ends with a total of exactly `min`
and with every OTU count at most its previous value, and a sample whose total is at most
`min` is unchanged. -/
theorem subsetUniform_spec (min : Nat) (shuffle : Nat → List Bool → List Bool)
    (otuMetric : List (List Nat)) (hperm : ∀ j l, (shuffle j l).Perm l) :
    (subsetUniform min shuffle otuMetric).length = otuMetric.length
      ∧ ∀ (j : Nat) (col : List Nat), otuMetric[j]? = some col →
          ∃ col', (subsetUniform min shuffle otuMetric)[j]? = some col'
            ∧ (min < numSampleReads col →
                numSampleReads col' = min ∧ List.Forall₂ (fun new old => new ≤ old) col' col)
            ∧ (numSampleReads col ≤ min → col' = col) := by
  constructor
  · unfold subsetUniform
    rw [List.length_map, List.length_range]
  · intro j col hj
    have hlt : j < otuMetric.length := (List.getElem?_eq_some_iff.mp hj).1
    have hd : otuMetric.getD j [] = col := by
      rw [List.getD_eq_getElem?_getD, hj]
      rfl
    refine ⟨subsetSample min (shuffle j) col, ?_, subsetSample_spec min (shuffle j) col
      (hperm j)⟩
    unfold subsetUniform
    rw [List.getElem?_map, List.getElem?_range hlt, Option.map_some', hd]

theorem subsetUniform_spec_witness :
    (subsetUniform 2 (fun _ l => l.reverse) otuTwoSamples).length = otuTwoSamples.length
      ∧ ∀ (j : Nat) (col : List Nat), otuTwoSamples[j]? = some col →
          ∃ col', (subsetUniform 2 (fun _ l => l.reverse) otuTwoSamples)[j]? = some col'
            ∧ (2 < numSampleReads col →
                numSampleReads col' = 2 ∧ List.Forall₂ (fun new old => new ≤ old) col' col)
            ∧ (numSampleReads col ≤ 2 → col' = col) :=
  subsetUniform_spec 2 (fun _ l => l.reverse) otuTwoSamples (fun _ l => List.reverse_perm l)

/-! ### The counting pass of `build` -/

/-- C34 fails on the code: for the alignment `msaOneSeq` (one sequence of weight `1`, two
match columns, both in state `M`) the state next to column `1` is `M`, yet the counting pass
adds the weight to `T[1](M, I)` and nothing to `T[1](M, M)` when the uninitialised `smN`
holds `I`, and adds nothing at all when it holds `P`. -/
theorem build_counts_uninitialised_state :
    dmsAllMatch hmmTwoReset.cs2ProfileIdx 1 (msaOneSeq.encodeAt 0 0) = some .M
      ∧ nextNonP dmsAllMatch msaOneSeq hmmTwoReset.cs2ProfileIdx hmmTwoReset.L 1 1 = 2
      ∧ dmsAllMatch hmmTwoReset.cs2ProfileIdx 2 (msaOneSeq.encodeAt 0 1) = some .M
      ∧ (trainCounts dmsAllMatch (fun _ _ => some .I) msaOneSeq hmmTwoReset).Tmat 1 .M .M = 0
      ∧ (trainCounts dmsAllMatch (fun _ _ => some .I) msaOneSeq hmmTwoReset).Tmat 1 .M .I = 1
      ∧ (trainCounts dmsAllMatch (fun _ _ => none) msaOneSeq hmmTwoReset).Tmat 1 .M .M = 0 := by
  refine ⟨by decide, by decide, by decide, ?_, ?_, ?_⟩
  · simp [trainCounts, forLoop, trainCell, hmmTwoReset, reset_params, hmmConst, msaOneSeq,
      dmsAllMatch, nextNonP, addTrans, List.range']
  · simp [trainCounts, forLoop, trainCell, hmmTwoReset, reset_params, hmmConst, msaOneSeq,
      dmsAllMatch, nextNonP, addTrans, List.range']
  · simp [trainCounts, forLoop, trainCell, hmmTwoReset, reset_params, hmmConst, msaOneSeq,
      dmsAllMatch, nextNonP, addTrans, List.range']

section
variable {α : Type}

/-- The update of the transition counts at the end of the body of the counting pass leaves
the emission counts, the index and `L`. -/
theorem trainTail_frame (h1 : BandedHMMP7 α) (c : Prop) [Decidable c] (g : Option p7_state)
    (sm : p7_state) (k : Nat) (w : ℚ) :
    (if c then h1
      else
        match g with
        | none => h1
        | some t =>
          if (sm = .I ∧ t = .D) ∨ (sm = .D ∧ t = .I) then h1
          else { h1 with Tmat := addTrans h1.Tmat k sm t w }).cs2ProfileIdx = h1.cs2ProfileIdx
      ∧ (if c then h1
      else
        match g with
        | none => h1
        | some t =>
          if (sm = .I ∧ t = .D) ∨ (sm = .D ∧ t = .I) then h1
          else { h1 with Tmat := addTrans h1.Tmat k sm t w }).L = h1.L
      ∧ (if c then h1
      else
        match g with
        | none => h1
        | some t =>
          if (sm = .I ∧ t = .D) ∨ (sm = .D ∧ t = .I) then h1
          else { h1 with Tmat := addTrans h1.Tmat k sm t w }).E_M = h1.E_M
      ∧ (if c then h1
      else
        match g with
        | none => h1
        | some t =>
          if (sm = .I ∧ t = .D) ∨ (sm = .D ∧ t = .I) then h1
          else { h1 with Tmat := addTrans h1.Tmat k sm t w }).E_I = h1.E_I := by
  by_cases hc : c
  · rw [if_pos hc]
    exact ⟨rfl, rfl, rfl, rfl⟩
  · rw [if_neg hc]
    cases g with
    | none => exact ⟨rfl, rfl, rfl, rfl⟩
    | some t =>
      dsimp only
      by_cases hf : (sm = .I ∧ t = .D) ∨ (sm = .D ∧ t = .I)
      · rw [if_pos hf]
        exact ⟨rfl, rfl, rfl, rfl⟩
      · rw [if_neg hf]
        exact ⟨rfl, rfl, rfl, rfl⟩

/-- Two updates `E(b0, 0) += w; E(b0, c) += w` read at `(b, k)`. -/
theorem addCount_twice (E : Fin 4 → Nat → ℚ) (b0 : Int) (c : Nat) (w : ℚ) (b : Fin 4)
    (k : Nat) :
    addCount (addCount E b0 0 w) b0 c w b k
      = E b k + (if b0 = (b.val : Int) then
          (if k = 0 then w else 0) + (if c = k then w else 0) else 0) := by
  unfold addCount
  by_cases hb : (b.val : Int) = b0
  · have hb' : b0 = (b.val : Int) := hb.symm
    by_cases hk0 : k = 0
    · by_cases hkc : k = c
      · rw [if_pos ⟨hb, hkc⟩, if_pos ⟨hb, hk0⟩, if_pos hb', if_pos hk0, if_pos hkc.symm]
        ring
      · rw [if_neg (fun h => hkc h.2), if_pos ⟨hb, hk0⟩, if_pos hb', if_pos hk0,
          if_neg (fun h => hkc h.symm)]
        ring
    · by_cases hkc : k = c
      · rw [if_pos ⟨hb, hkc⟩, if_neg (fun h => hk0 h.2), if_pos hb', if_neg hk0,
          if_pos hkc.symm]
        ring
      · rw [if_neg (fun h => hkc h.2), if_neg (fun h => hk0 h.2), if_pos hb', if_neg hk0,
          if_neg (fun h => hkc h.symm)]
        ring
  · have hb' : ¬ b0 = (b.val : Int) := fun e => hb e.symm
    rw [if_neg (fun h => hb h.1), if_neg (fun h => hb h.1), if_neg hb', add_zero]

/-- One update `E(b0, c) += w` read at `(b, k)`. -/
theorem addCount_once (E : Fin 4 → Nat → ℚ) (b0 : Int) (c : Nat) (w : ℚ) (b : Fin 4)
    (k : Nat) :
    addCount E b0 c w b k
      = E b k + (if b0 = (b.val : Int) ∧ c = k then w else 0) := by
  unfold addCount
  by_cases hc : (b.val : Int) = b0 ∧ k = c
  · rw [if_pos hc, if_pos ⟨hc.1.symm, hc.2.symm⟩]
  · rw [if_neg hc, if_neg (fun h => hc ⟨h.1.symm, h.2.symm⟩), add_zero]

/-- The body of the counting pass leaves the index and `L`, and adds `countM` to `E_M` and
`hitI` to `E_I`, whatever the uninitialised `smN` holds. -/
theorem trainCell_counts (dms : (Nat → Nat) → Nat → Int → Option p7_state)
    (g : Option p7_state) (msa : WeightedMSA) (h : BandedHMMP7 α) (j i : Nat) :
    (trainCell dms g msa h j i).cs2ProfileIdx = h.cs2ProfileIdx
      ∧ (trainCell dms g msa h j i).L = h.L
      ∧ (∀ b k, (trainCell dms g msa h j i).E_M b k
          = h.E_M b k + countM dms msa h.cs2ProfileIdx b k j i)
      ∧ (∀ b k, (trainCell dms g msa h j i).E_I b k
          = h.E_I b k + hitI dms msa h.cs2ProfileIdx b k j i) := by
  unfold trainCell
  dsimp only
  cases hd : dms h.cs2ProfileIdx j (msa.encodeAt (i - 1) (j - 1)) with
  | none =>
    refine ⟨rfl, rfl, ?_, ?_⟩
    · intro b k
      unfold countM
      rw [hd, if_neg (fun c => absurd c.1 (by simp)), add_zero]
    · intro b k
      unfold hitI
      rw [hd, if_neg (fun c => absurd c.1 (by simp)), add_zero]
  | some sm =>
    dsimp only
    cases sm with
    | M =>
      obtain ⟨t1, t2, t3, t4⟩ := trainTail_frame
        ({ h with
            E_M := addCount
                (addCount h.E_M (msa.encodeAt (i - 1) (j - 1)) 0 (msa.seqWeight (i - 1)))
                (msa.encodeAt (i - 1) (j - 1)) (h.cs2ProfileIdx j)
                (msa.seqWeight (i - 1)) } : BandedHMMP7 α)
        (¬ (nextNonP dms msa h.cs2ProfileIdx h.L i j ≤ h.L ∧ g ≠ none)) g .M
        (h.cs2ProfileIdx j) (msa.seqWeight (i - 1))
      refine ⟨t1, t2, ?_, ?_⟩
      · intro b k
        rw [t3]
        dsimp only
        rw [addCount_twice]
        unfold countM
        rw [hd]
        simp only [true_and]
      · intro b k
        rw [t4]
        unfold hitI
        rw [hd, if_neg (fun c => absurd c.1 (by simp)), add_zero]
    | I =>
      obtain ⟨t1, t2, t3, t4⟩ := trainTail_frame
        ({ h with
            E_I := addCount h.E_I (msa.encodeAt (i - 1) (j - 1)) (h.cs2ProfileIdx j)
                (msa.seqWeight (i - 1)) } : BandedHMMP7 α)
        (¬ (nextNonP dms msa h.cs2ProfileIdx h.L i j ≤ h.L ∧ g ≠ none)) g .I
        (h.cs2ProfileIdx j) (msa.seqWeight (i - 1))
      refine ⟨t1, t2, ?_, ?_⟩
      · intro b k
        rw [t3]
        unfold countM
        rw [hd, if_neg (fun c => absurd c.1 (by simp)), add_zero]
      · intro b k
        rw [t4]
        dsimp only
        rw [addCount_once]
        unfold hitI
        rw [hd]
        simp only [true_and]
    | D =>
      obtain ⟨t1, t2, t3, t4⟩ := trainTail_frame h
        (¬ (nextNonP dms msa h.cs2ProfileIdx h.L i j ≤ h.L ∧ g ≠ none)) g .D
        (h.cs2ProfileIdx j) (msa.seqWeight (i - 1))
      refine ⟨t1, t2, ?_, ?_⟩
      · intro b k
        rw [t3]
        unfold countM
        rw [hd, if_neg (fun c => absurd c.1 (by simp)), add_zero]
      · intro b k
        rw [t4]
        unfold hitI
        rw [hd, if_neg (fun c => absurd c.1 (by simp)), add_zero]

/-- The loop over the sequences for one column `j`: the counts grow by the contributions of
the sequences `1..N`. -/
theorem trainRow_counts (dms : (Nat → Nat) → Nat → Int → Option p7_state)
    (g : Nat → Option p7_state) (msa : WeightedMSA) (h : BandedHMMP7 α) (j : Nat) :
    (forLoop 1 msa.numSeq (fun h i => trainCell dms (g i) msa h j i) h).cs2ProfileIdx
        = h.cs2ProfileIdx
      ∧ (forLoop 1 msa.numSeq (fun h i => trainCell dms (g i) msa h j i) h).L = h.L
      ∧ (∀ b k, (forLoop 1 msa.numSeq (fun h i => trainCell dms (g i) msa h j i) h).E_M b k
          = h.E_M b k
            + ∑ i ∈ Finset.Ico 1 (msa.numSeq + 1), countM dms msa h.cs2ProfileIdx b k j i)
      ∧ (∀ b k, (forLoop 1 msa.numSeq (fun h i => trainCell dms (g i) msa h j i) h).E_I b k
          = h.E_I b k
            + ∑ i ∈ Finset.Ico 1 (msa.numSeq + 1), hitI dms msa h.cs2ProfileIdx b k j i) := by
  refine forLoop_induct 1 msa.numSeq (fun h i => trainCell dms (g i) msa h j i) h
    (fun n s => s.cs2ProfileIdx = h.cs2ProfileIdx ∧ s.L = h.L
      ∧ (∀ b k, s.E_M b k = h.E_M b k
          + ∑ i ∈ Finset.Ico 1 n, countM dms msa h.cs2ProfileIdx b k j i)
      ∧ (∀ b k, s.E_I b k = h.E_I b k
          + ∑ i ∈ Finset.Ico 1 n, hitI dms msa h.cs2ProfileIdx b k j i))
    (by omega) ?_ ?_
  · refine ⟨rfl, rfl, ?_, ?_⟩
    · intro b k
      rw [Finset.Ico_self, Finset.sum_empty, add_zero]
    · intro b k
      rw [Finset.Ico_self, Finset.sum_empty, add_zero]
  · intro n s hn1 _ hP
    obtain ⟨p1, p2, p3, p4⟩ := hP
    obtain ⟨c1, c2, c3, c4⟩ := trainCell_counts dms (g n) msa s j n
    refine ⟨c1.trans p1, c2.trans p2, ?_, ?_⟩
    · intro b k
      show (trainCell dms (g n) msa s j n).E_M b k = _
      rw [c3, p3, p1, Finset.sum_Ico_succ_top hn1, add_assoc]
    · intro b k
      show (trainCell dms (g n) msa s j n).E_I b k = _
      rw [c4, p4, p1, Finset.sum_Ico_succ_top hn1, add_assoc]

/-- The counting pass: the counts grow by the contributions of all columns and sequences. -/
theorem trainCounts_counts (dms : (Nat → Nat) → Nat → Int → Option p7_state)
    (g : Nat → Nat → Option p7_state) (msa : WeightedMSA) (h : BandedHMMP7 α) :
    (∀ b k, (trainCounts dms g msa h).E_M b k
        = h.E_M b k + ∑ j ∈ Finset.Ico 1 (h.L + 1), ∑ i ∈ Finset.Ico 1 (msa.numSeq + 1),
            countM dms msa h.cs2ProfileIdx b k j i)
      ∧ (∀ b k, (trainCounts dms g msa h).E_I b k
        = h.E_I b k + ∑ j ∈ Finset.Ico 1 (h.L + 1), ∑ i ∈ Finset.Ico 1 (msa.numSeq + 1),
            hitI dms msa h.cs2ProfileIdx b k j i) := by
  have key := forLoop_induct 1 h.L (fun h j =>
      forLoop 1 msa.numSeq (fun h i => trainCell dms (g j i) msa h j i) h) h
    (fun n s => s.cs2ProfileIdx = h.cs2ProfileIdx ∧ s.L = h.L
      ∧ (∀ b k, s.E_M b k = h.E_M b k
          + ∑ j ∈ Finset.Ico 1 n, ∑ i ∈ Finset.Ico 1 (msa.numSeq + 1),
              countM dms msa h.cs2ProfileIdx b k j i)
      ∧ (∀ b k, s.E_I b k = h.E_I b k
          + ∑ j ∈ Finset.Ico 1 n, ∑ i ∈ Finset.Ico 1 (msa.numSeq + 1),
              hitI dms msa h.cs2ProfileIdx b k j i))
    (by omega)
    (by
      refine ⟨rfl, rfl, ?_, ?_⟩
      · intro b k
        rw [Finset.Ico_self, Finset.sum_empty, add_zero]
      · intro b k
        rw [Finset.Ico_self, Finset.sum_empty, add_zero])
    (by
      intro n s hn1 _ hP
      obtain ⟨p1, p2, p3, p4⟩ := hP
      obtain ⟨c1, c2, c3, c4⟩ := trainRow_counts dms (g n) msa s n
      refine ⟨c1.trans p1, c2.trans p2, ?_, ?_⟩
      · intro b k
        show (forLoop 1 msa.numSeq (fun h i => trainCell dms (g n i) msa h n i) s).E_M b k = _
        rw [c3, p3, p1, Finset.sum_Ico_succ_top hn1, add_assoc]
      · intro b k
        show (forLoop 1 msa.numSeq (fun h i => trainCell dms (g n i) msa h n i) s).E_I b k = _
        rw [c4, p4, p1, Finset.sum_Ico_succ_top hn1, add_assoc])
  exact ⟨key.2.2.1, key.2.2.2⟩

theorem countM_eq_hitM (dms : (Nat → Nat) → Nat → Int → Option p7_state) (msa : WeightedMSA)
    (c2p : Nat → Nat) (b : Fin 4) (k j i : Nat) (hk : 1 ≤ k) :
    countM dms msa c2p b k j i = hitM dms msa c2p b k j i := by
  unfold countM hitM
  have hk0 : ¬ k = 0 := by omega
  by_cases hA : dms c2p j (msa.encodeAt (i - 1) (j - 1)) = some .M
      ∧ msa.encodeAt (i - 1) (j - 1) = (b.val : Int)
  · rw [if_pos hA, if_neg hk0, zero_add]
    by_cases hc : c2p j = k
    · rw [if_pos hc, if_pos ⟨hA.1, hA.2, hc⟩]
    · rw [if_neg hc, if_neg (fun c => hc c.2.2)]
  · rw [if_neg hA, if_neg (fun c => hA ⟨c.1, c.2.1⟩)]

theorem countM_zero (dms : (Nat → Nat) → Nat → Int → Option p7_state) (msa : WeightedMSA)
    (c2p : Nat → Nat) (b : Fin 4) (K j i : Nat)
    (hM : dms c2p j (msa.encodeAt (i - 1) (j - 1)) = some .M → 1 ≤ c2p j ∧ c2p j ≤ K) :
    countM dms msa c2p b 0 j i = ∑ k ∈ Finset.Icc 1 K, countM dms msa c2p b k j i := by
  unfold countM
  by_cases hA : dms c2p j (msa.encodeAt (i - 1) (j - 1)) = some .M
      ∧ msa.encodeAt (i - 1) (j - 1) = (b.val : Int)
  · obtain ⟨m1, m2⟩ := hM hA.1
    simp only [if_pos hA]
    rw [if_true, if_neg (by omega), add_zero]
    have e : ∀ k ∈ Finset.Icc 1 K,
        ((if k = 0 then msa.seqWeight (i - 1) else 0)
          + (if c2p j = k then msa.seqWeight (i - 1) else 0))
        = (if c2p j = k then msa.seqWeight (i - 1) else 0) := by
      intro k hk
      rw [if_neg (by have := (Finset.mem_Icc.mp hk).1; omega), zero_add]
    rw [Finset.sum_congr rfl e, Finset.sum_ite_eq, if_pos (Finset.mem_Icc.mpr ⟨m1, m2⟩)]
  · simp only [if_neg hA]
    rw [Finset.sum_const_zero]

/-- C35: after the counting pass of `build`, started from counts reset to `0`, `E_M(b,k)` for
`k ≥ 1` is the total weight of the sequences with base `b` in state `M` at profile position
`k`, `E_I(b,k)` is the total weight of the `I` hits, and
`E_M(b,0) = E_M(b,1) + ... + E_M(b,K)` for every base `b`, whatever the uninitialised `smN`
holds; `determineMatchingState` is assumed to give the state `M` only at columns of a
profile position in `1..K`. -/
theorem build_emission_counts {β : Type} [Top β]
    (dms : (Nat → Nat) → Nat → Int → Option p7_state)
    (smN : Nat → Nat → Option p7_state) (msa : WeightedMSA) (h : BandedHMMP7 β)
    (hM : ∀ j b, 1 ≤ j → j ≤ h.L → dms h.cs2ProfileIdx j b = some .M →
      1 ≤ h.cs2ProfileIdx j ∧ h.cs2ProfileIdx j ≤ h.K) :
    (∀ b k, 1 ≤ k → (trainCounts dms smN msa (reset_params h)).E_M b k
        = ∑ j ∈ Finset.Icc 1 h.L, ∑ i ∈ Finset.Icc 1 msa.numSeq,
            hitM dms msa h.cs2ProfileIdx b k j i)
      ∧ (∀ b k, (trainCounts dms smN msa (reset_params h)).E_I b k
        = ∑ j ∈ Finset.Icc 1 h.L, ∑ i ∈ Finset.Icc 1 msa.numSeq,
            hitI dms msa h.cs2ProfileIdx b k j i)
      ∧ (∀ b, (trainCounts dms smN msa (reset_params h)).E_M b 0
        = ∑ k ∈ Finset.Icc 1 h.K, (trainCounts dms smN msa (reset_params h)).E_M b k) := by
  obtain ⟨hEM, hEI⟩ := trainCounts_counts dms smN msa (reset_params h)
  have eM : ∀ b k, (trainCounts dms smN msa (reset_params h)).E_M b k
      = ∑ j ∈ Finset.Icc 1 h.L, ∑ i ∈ Finset.Icc 1 msa.numSeq,
          countM dms msa h.cs2ProfileIdx b k j i := by
    intro b k
    rw [hEM b k, ← Nat.Ico_succ_right, ← Nat.Ico_succ_right]
    show (0 : ℚ) + _ = _
    rw [zero_add]
    rfl
  refine ⟨?_, ?_, ?_⟩
  · intro b k hk
    rw [eM]
    refine Finset.sum_congr rfl fun j _ => Finset.sum_congr rfl fun i _ => ?_
    exact countM_eq_hitM dms msa h.cs2ProfileIdx b k j i hk
  · intro b k
    rw [hEI b k, ← Nat.Ico_succ_right, ← Nat.Ico_succ_right]
    show (0 : ℚ) + _ = _
    rw [zero_add]
    rfl
  · intro b
    rw [eM b 0, Finset.sum_congr rfl (fun k _ => eM b k)]
    have hswap : (∑ k ∈ Finset.Icc 1 h.K, ∑ j ∈ Finset.Icc 1 h.L,
          ∑ i ∈ Finset.Icc 1 msa.numSeq, countM dms msa h.cs2ProfileIdx b k j i)
        = ∑ j ∈ Finset.Icc 1 h.L, ∑ i ∈ Finset.Icc 1 msa.numSeq,
            ∑ k ∈ Finset.Icc 1 h.K, countM dms msa h.cs2ProfileIdx b k j i := by
      rw [Finset.sum_comm]
      exact Finset.sum_congr rfl fun j _ => Finset.sum_comm
    rw [hswap]
    refine Finset.sum_congr rfl fun j hj => Finset.sum_congr rfl fun i _ => ?_
    exact countM_zero dms msa h.cs2ProfileIdx b h.K j i
      (hM j _ (Finset.mem_Icc.mp hj).1 (Finset.mem_Icc.mp hj).2)

end

theorem build_emission_counts_witness :
    (∀ b k, 1 ≤ k → (trainCounts dmsAllMatch (fun _ _ => some .I) msaOneSeq
          (reset_params hmmTwoReset)).E_M b k
        = ∑ j ∈ Finset.Icc 1 hmmTwoReset.L, ∑ i ∈ Finset.Icc 1 msaOneSeq.numSeq,
            hitM dmsAllMatch msaOneSeq hmmTwoReset.cs2ProfileIdx b k j i)
      ∧ (∀ b k, (trainCounts dmsAllMatch (fun _ _ => some .I) msaOneSeq
          (reset_params hmmTwoReset)).E_I b k
        = ∑ j ∈ Finset.Icc 1 hmmTwoReset.L, ∑ i ∈ Finset.Icc 1 msaOneSeq.numSeq,
            hitI dmsAllMatch msaOneSeq hmmTwoReset.cs2ProfileIdx b k j i)
      ∧ (∀ b, (trainCounts dmsAllMatch (fun _ _ => some .I) msaOneSeq
          (reset_params hmmTwoReset)).E_M b 0
        = ∑ k ∈ Finset.Icc 1 hmmTwoReset.K,
            (trainCounts dmsAllMatch (fun _ _ => some .I) msaOneSeq
              (reset_params hmmTwoReset)).E_M b k) :=
  build_emission_counts dmsAllMatch (fun _ _ => some .I) msaOneSeq hmmTwoReset (by
    intro j b h1 h2 _
    have h3 : j ≤ 2 := h2
    show 1 ≤ j ∧ j ≤ 2
    omega)

/-! ### Traceback on tables filled on fresh buffers -/

section
variable {α : Type} [LinearOrderedAddCommMonoidWithTop α]

/-- The four-way `whichMin` returns `I` or `D` only for a candidate that is strictly smaller
than an earlier one, hence finite. -/
theorem whichMin4_strict (a b c d : α) :
    (whichMin4 a b c d = 'I' → c < ⊤) ∧ (whichMin4 a b c d = 'D' → d < ⊤) := by
  unfold whichMin4
  by_cases h1 : a ≤ b ∧ a ≤ c ∧ a ≤ d
  · rw [if_pos h1]
    exact ⟨fun e => absurd e (by decide), fun e => absurd e (by decide)⟩
  · rw [if_neg h1]
    by_cases h2 : b ≤ c ∧ b ≤ d
    · rw [if_pos h2]
      exact ⟨fun e => absurd e (by decide), fun e => absurd e (by decide)⟩
    · rw [if_neg h2]
      by_cases h3 : c ≤ d
      · rw [if_pos h3]
        refine ⟨fun _ => ?_, fun e => absurd e (by decide)⟩
        have hcb : c < b := by
          by_contra hn
          push_neg at hn
          exact h2 ⟨hn, le_trans hn h3⟩
        exact lt_of_lt_of_le hcb le_top
      · rw [if_neg h3]
        refine ⟨fun e => absurd e (by decide), fun _ => ?_⟩
        push_neg at h3
        exact lt_of_lt_of_le h3 le_top

/-- One more state pushed: the invariant on entry to the next iteration, given what is known
about the next state `s'` at `(i', j')`. -/
theorem SafeInv_push (hmm : BandedHMMP7 α) (vs : ViterbiScores α) (alnEnd alnTo : Nat)
    (s s' : Char) (i j i' j' : Nat) (Y : List Char)
    (inv : SafeInv hmm vs alnEnd alnTo s i j Y)
    (hs : s = 'M' ∨ s = 'I' ∨ s = 'D')
    (hj : j' + (if s = 'M' ∨ s = 'D' then 1 else 0) = j)
    (hi : i' + (if s = 'M' ∨ s = 'I' then 1 else 0) = i)
    (hD : s = 'D' → s' ≠ 'I')
    (hs' : s' = 'M' ∨ s' = 'I' ∨ s' = 'D' ∨ s' = 'B')
    (hC : (i' = 0 ∨ s' = 'B' ∨ (s' = 'I' ∧ j' = 0)) → StartsAtM (s :: Y) j')
    (hF : 1 ≤ i' →
        (s' = 'M' → 1 ≤ j')
          ∧ (s' = 'I' → 1 ≤ j' → vs.DP_I i' j' < ⊤)
          ∧ (s' = 'D' → vs.DP_D i' j' < ⊤)) :
    SafeInv hmm vs alnEnd alnTo s' i' j' (s :: Y) := by
  obtain ⟨h1, h2, h3, h4, h5, h6, h7, h8, h9, h10⟩ := inv
  refine ⟨?_, ?_, ?_, ?_, ?_, hs', hC, hF, by omega, by omega⟩
  · intro c hc
    rcases List.mem_cons.mp hc with rfl | hc
    · exact hs
    · exact h1 c hc
  · rw [NoID_cons]
    exact ⟨h3, h2⟩
  · intro hh
    simp only [List.head?_cons, Option.some.injEq] at hh
    exact hD hh
  · rw [countMD_cons]
    omega
  · rw [countMI_cons]
    omega

/-- On tables whose cells of `TopCells` are `inf` the traceback loop returns, and the states
it pushed have the shape that the reconstruction relies on. -/
theorem traceLoop_safe (hmm : BandedHMMP7 α) (vs : ViterbiScores α)
    (alnEnd alnTo : Nat) (hT : TopCells hmm vs) :
    ∀ (fuel : Nat) (s : Char) (i j : Nat) (Y : List Char),
      SafeInv hmm vs alnEnd alnTo s i j Y → i + j + 1 ≤ fuel →
      ∃ i' j' Y', ∃ b : Bool,
        traceLoop hmm vs fuel s i j ('E' :: Y.reverse)
          = some (i', j', 'E' :: (Y'.reverse ++ (if b then ['B'] else [])))
        ∧ (∀ c ∈ Y', c = 'M' ∨ c = 'I' ∨ c = 'D') ∧ NoID Y'
        ∧ countMD Y' + j' = alnEnd ∧ countMI Y' + i' = alnTo
        ∧ StartsAtM Y' j' ∧ j' ≤ hmm.K ∧ i' ≤ vs.L := by
  intro fuel
  induction fuel with
  | zero => intro s i j Y _ h; omega
  | succ n ih =>
    intro s i j Y inv hfuel
    have inv' := inv
    obtain ⟨h1, h2, h3, h4, h5, h6, h7, h8, h9, h10⟩ := inv'
    have eTrace : ∀ t : Char, ('E' :: Y.reverse) ++ [t] = 'E' :: (t :: Y).reverse := by
      intro t; simp
    by_cases hi : i ≥ 1
    · rcases h6 with rfl | rfl | rfl | rfl
      · -- s = 'M'
        have hj1 := (h8 hi).1 rfl
        simp only [traceLoop, hi, if_true]
        rw [if_neg (by omega), eTrace]
        apply ih _ (i - 1) (j - 1) ('M' :: Y) _ (by omega)
        apply SafeInv_push hmm vs alnEnd alnTo 'M' _ i j (i - 1) (j - 1) Y inv (Or.inl rfl)
        · simp; omega
        · simp; omega
        · intro h; exact absurd h (by decide)
        · by_cases hj2 : j > 1
          · rw [if_pos hj2]
            rcases whichMin4_spec (vs.DP_M i 0 + hmm.entryPr_cost j)
              (vs.DP_M (i - 1) (j - 1) + hmm.Tmat_cost (j - 1) .M .M)
              (vs.DP_I (i - 1) (j - 1) + hmm.Tmat_cost (j - 1) .I .M)
              (vs.DP_D (i - 1) (j - 1) + hmm.Tmat_cost (j - 1) .D .M) with h | h | h | h <;>
              simp [h.1]
          · rw [if_neg hj2]
            rcases whichMin2_spec (vs.DP_M i 0 + hmm.entryPr_cost j)
              (vs.DP_I (i - 1) (j - 1) + hmm.Tmat_cost (j - 1) .I .M) 'B' 'I' with h | h <;>
              simp [h.1]
        · intro _; exact StartsAtM_cons_M _ _
        · intro hi'
          by_cases hj2 : j > 1
          · rw [if_pos hj2]
            have hst := whichMin4_strict (vs.DP_M i 0 + hmm.entryPr_cost j)
              (vs.DP_M (i - 1) (j - 1) + hmm.Tmat_cost (j - 1) .M .M)
              (vs.DP_I (i - 1) (j - 1) + hmm.Tmat_cost (j - 1) .I .M)
              (vs.DP_D (i - 1) (j - 1) + hmm.Tmat_cost (j - 1) .D .M)
            exact ⟨fun _ => by omega,
              fun e _ => lt_top_of_add_lt_top_left (hst.1 e),
              fun e => lt_top_of_add_lt_top_left (hst.2 e)⟩
          · rw [if_neg hj2]
            have hj0 : ¬ (1 ≤ j - 1) := by omega
            rcases whichMin2_spec (vs.DP_M i 0 + hmm.entryPr_cost j)
              (vs.DP_I (i - 1) (j - 1) + hmm.Tmat_cost (j - 1) .I .M) 'B' 'I' with h | h
            · rw [h.1]
              exact ⟨fun e => absurd e (by decide), fun e => absurd e (by decide),
                fun e => absurd e (by decide)⟩
            · rw [h.1]
              exact ⟨fun e => absurd e (by decide), fun _ hh => absurd hh hj0,
                fun e => absurd e (by decide)⟩
      · -- s = 'I'
        have hY : Y.head? = some 'D' → False := fun hh => h3 hh rfl
        simp only [traceLoop, hi, if_true, Char.reduceEq, if_false]
        rw [eTrace]
        by_cases hj0 : j > 0
        · have hfin := (h8 hi).2.1 rfl hj0
          have hi2 : 2 ≤ i := by
            by_contra hn
            have hi1 : i = 1 := by omega
            subst hi1
            rw [hT.2.1 j hj0] at hfin
            exact absurd hfin (lt_irrefl _)
          rw [if_pos hj0]
          apply ih _ (i - 1) j ('I' :: Y) _ (by omega)
          apply SafeInv_push hmm vs alnEnd alnTo 'I' _ i j (i - 1) j Y inv (Or.inr (Or.inl rfl))
          · simp
          · simp; omega
          · intro h; exact absurd h (by decide)
          · rcases whichMin2_spec (vs.DP_M (i - 1) j + hmm.Tmat_cost j .M .I)
              (vs.DP_I (i - 1) j + hmm.Tmat_cost j .I .I) 'M' 'I' with h | h <;> simp [h.1]
          · intro hc
            exfalso
            rcases whichMin2_spec (vs.DP_M (i - 1) j + hmm.Tmat_cost j .M .I)
              (vs.DP_I (i - 1) j + hmm.Tmat_cost j .I .I) 'M' 'I' with h | h
            · rw [h.1] at hc
              rcases hc with hc | hc | hc
              · omega
              · exact absurd hc (by decide)
              · exact absurd hc.1 (by decide)
            · rw [h.1] at hc
              rcases hc with hc | hc | hc
              · omega
              · exact absurd hc (by decide)
              · omega
          · intro _
            rcases whichMin2_spec (vs.DP_M (i - 1) j + hmm.Tmat_cost j .M .I)
              (vs.DP_I (i - 1) j + hmm.Tmat_cost j .I .I) 'M' 'I' with h | h
            · rw [h.1]
              exact ⟨fun _ => hj0, fun e => absurd e (by decide),
                fun e => absurd e (by decide)⟩
            · rw [h.1]
              exact ⟨fun e => absurd e (by decide),
                fun _ _ => lt_top_of_add_lt_top_left (lt_of_lt_of_le h.2.2 le_top),
                fun e => absurd e (by decide)⟩
        · rw [if_neg hj0]
          have hj : j = 0 := by omega
          subst hj
          apply ih _ (i - 1) 0 ('I' :: Y) _ (by omega)
          apply SafeInv_push hmm vs alnEnd alnTo 'I' _ i 0 (i - 1) 0 Y inv (Or.inr (Or.inl rfl))
          · simp
          · simp; omega
          · intro h; exact absurd h (by decide)
          · rcases whichMin2_spec (vs.DP_M i 0 + hmm.Tmat_cost 0 .M .I)
              (vs.DP_I (i - 1) 0 + hmm.Tmat_cost 0 .I .I) 'B' 'I' with h | h <;> simp [h.1]
          · intro _
            exact StartsAtM_cons_I Y 0 (h7 (Or.inr (Or.inr ⟨rfl, rfl⟩)))
          · intro _
            rcases whichMin2_spec (vs.DP_M i 0 + hmm.Tmat_cost 0 .M .I)
              (vs.DP_I (i - 1) 0 + hmm.Tmat_cost 0 .I .I) 'B' 'I' with h | h
            · rw [h.1]
              exact ⟨fun e => absurd e (by decide), fun e => absurd e (by decide),
                fun e => absurd e (by decide)⟩
            · rw [h.1]
              exact ⟨fun e => absurd e (by decide), fun _ hh => absurd hh (by omega),
                fun e => absurd e (by decide)⟩
      · -- s = 'D'
        have hfin := (h8 hi).2.2 rfl
        have hjK : 1 < j ∧ j < hmm.K := by
          by_contra hn
          rw [hT.2.2 i j hn] at hfin
          exact absurd hfin (lt_irrefl _)
        simp only [traceLoop, hi, if_true, Char.reduceEq, if_false]
        rw [if_neg (by omega), eTrace]
        apply ih _ i (j - 1) ('D' :: Y) _ (by omega)
        apply SafeInv_push hmm vs alnEnd alnTo 'D' _ i j i (j - 1) Y inv (Or.inr (Or.inr rfl))
        · simp; omega
        · simp
        · intro _
          rcases whichMin2_spec (vs.DP_M i (j - 1) + hmm.Tmat_cost (j - 1) .M .D)
            (vs.DP_D i (j - 1) + hmm.Tmat_cost (j - 1) .D .D) 'M' 'D' with h | h <;>
            (rw [h.1]; decide)
        · rcases whichMin2_spec (vs.DP_M i (j - 1) + hmm.Tmat_cost (j - 1) .M .D)
            (vs.DP_D i (j - 1) + hmm.Tmat_cost (j - 1) .D .D) 'M' 'D' with h | h <;> simp [h.1]
        · intro hc
          exfalso
          rcases whichMin2_spec (vs.DP_M i (j - 1) + hmm.Tmat_cost (j - 1) .M .D)
            (vs.DP_D i (j - 1) + hmm.Tmat_cost (j - 1) .D .D) 'M' 'D' with h | h
          · rw [h.1] at hc
            rcases hc with hc | hc | hc
            · omega
            · exact absurd hc (by decide)
            · exact absurd hc.1 (by decide)
          · rw [h.1] at hc
            rcases hc with hc | hc | hc
            · omega
            · exact absurd hc (by decide)
            · exact absurd hc.1 (by decide)
        · intro _
          rcases whichMin2_spec (vs.DP_M i (j - 1) + hmm.Tmat_cost (j - 1) .M .D)
            (vs.DP_D i (j - 1) + hmm.Tmat_cost (j - 1) .D .D) 'M' 'D' with h | h
          · rw [h.1]
            exact ⟨fun _ => by omega, fun e => absurd e (by decide),
              fun e => absurd e (by decide)⟩
          · rw [h.1]
            exact ⟨fun e => absurd e (by decide), fun e => absurd e (by decide),
              fun _ => lt_top_of_add_lt_top_left (lt_of_lt_of_le h.2.2 le_top)⟩
      · -- s = 'B'
        simp only [traceLoop, hi, if_true, Char.reduceEq, if_false]
        refine ⟨i, j, Y, true, ?_, h1, h2, h4, h5, h7 (Or.inr (Or.inl rfl)), h9, h10⟩
        simp
    · simp only [traceLoop, hi, if_false]
      refine ⟨i, j, Y, false, ?_, h1, h2, h4, h5, h7 (Or.inl (by omega)), h9, h10⟩
      simp

/-- `buildViterbiTrace` on tables with the facts of `TablesSafe` and a finite minimum: it
returns, and the trace is `B`, then the states `Y`, then `E`, with the shape and the counts
that `buildGlobalAlign` relies on. -/
theorem buildViterbiTrace_safe (hmm : BandedHMMP7 α) (vs : ViterbiScores α)
    (vt0 : ViterbiAlignTrace α) (hT : TablesSafe hmm vs)
    (hfin : (minCoeff vs.S (vs.L + 1) (hmm.K + 2)).1 ≠ ⊤)
    (hK : 1 ≤ hmm.K) (hempty : vt0.alnTrace = []) :
    ∃ vt Y, buildViterbiTrace hmm vs vt0 = some vt
      ∧ vt.alnTrace = 'B' :: (Y ++ ['E'])
      ∧ (∀ c ∈ Y, c = 'M' ∨ c = 'I' ∨ c = 'D') ∧ NoID Y
      ∧ countMD Y + vt.alnStart = vt.alnEnd + 1
      ∧ countMI Y + vt.alnFrom = vt.alnTo + 1
      ∧ StartsAtM Y (vt.alnStart - 1)
      ∧ 1 ≤ vt.alnStart ∧ 1 ≤ vt.alnFrom ∧ vt.alnEnd ≤ hmm.K ∧ vt.alnTo ≤ vs.L
      ∧ vt.minScore = (minCoeff vs.S (vs.L + 1) (hmm.K + 2)).1 := by
  obtain ⟨hTop, hS, hSI⟩ := hT
  obtain ⟨hval, hr, hc⟩ := minCoeff_pos vs.S (vs.L + 1) (hmm.K + 2)
  generalize hmc : minCoeff vs.S (vs.L + 1) (hmm.K + 2) = mc at *
  obtain ⟨v, r, c⟩ := mc
  simp only at hval hr hc hfin
  simp only [Nat.add_sub_cancel] at hr
  have hc' : c ≤ hmm.K + 1 := by omega
  subst hval
  have hlt : vs.S r c < ⊤ := lt_top_iff_ne_top.mpr hfin
  have hstart : SafeInv hmm vs (if c ≤ hmm.K then c else hmm.K) r
      (if c ≤ hmm.K then 'M' else 'I') r (if c ≤ hmm.K then c else hmm.K) [] := by
    by_cases hcK : c ≤ hmm.K
    · obtain ⟨hr1, hc1⟩ := hS r c hr hcK hlt
      simp only [hcK, if_true]
      refine ⟨by simp, trivial, by simp, by simp [countMD], by simp [countMI], Or.inl rfl,
        ?_, ?_, hcK, hr⟩
      · rintro (h | h | h)
        · omega
        · exact absurd h (by decide)
        · exact absurd h.1 (by decide)
      · intro _
        exact ⟨fun _ => hc1, fun e => absurd e (by decide), fun e => absurd e (by decide)⟩
    · have hcK1 : c = hmm.K + 1 := by omega
      subst hcK1
      have h3 := hSI r hr hlt
      have hr1 : 1 ≤ r := by
        by_contra hn
        have : r = 0 := by omega
        subst this
        rw [(hTop.1 hmm.K).2] at h3
        exact absurd h3 (lt_irrefl _)
      simp only [hcK, if_false]
      refine ⟨by simp, trivial, by simp, by simp [countMD], by simp [countMI],
        Or.inr (Or.inl rfl), ?_, ?_, le_refl _, hr⟩
      · rintro (h | h | h)
        · omega
        · exact absurd h (by decide)
        · omega
      · intro _
        exact ⟨fun e => absurd e (by decide), fun _ _ => h3, fun e => absurd e (by decide)⟩
  obtain ⟨i', j', Y', b, hres, hY1, hY2, hY3, hY4, hY5, hY6, hY7⟩ :=
    traceLoop_safe hmm vs _ _ hTop
      (r + (if c ≤ hmm.K then c else hmm.K) + 1) _ _ _ [] hstart (le_refl _)
  have hlast : (if ('E' :: (Y'.reverse ++ (if b then ['B'] else []))).getLast? ≠ some 'B'
      then 'E' :: (Y'.reverse ++ (if b then ['B'] else [])) ++ ['B']
      else 'E' :: (Y'.reverse ++ (if b then ['B'] else []))).reverse = 'B' :: (Y' ++ ['E']) := by
    cases b with
    | true =>
      have : ('E' :: (Y'.reverse ++ (if true = true then ['B'] else []))).getLast? = some 'B' := by
        rw [if_pos rfl]
        exact List.getLast?_concat ('E' :: Y'.reverse)
      rw [if_neg (by rw [this]; simp)]
      simp
    | false =>
      have : ('E' :: (Y'.reverse ++ (if false = true then ['B'] else []))).getLast? ≠ some 'B' := by
        intro hh
        have hm := List.mem_of_getLast?_eq_some hh
        simp only [Bool.false_eq_true, if_false, List.append_nil, List.mem_cons,
          List.mem_reverse] at hm
        rcases hm with hm | hm
        · exact absurd hm (by decide)
        · rcases hY1 _ hm with h | h | h <;> exact absurd h (by decide)
      rw [if_pos this]
      simp
  refine ⟨{ minScore := vs.S r c, alnStart := j' + 1,
            alnEnd := if c ≤ hmm.K then c else hmm.K, alnFrom := i' + 1, alnTo := r,
            alnTrace := 'B' :: (Y' ++ ['E']) }, Y', ?_, rfl, hY1, hY2, ?_, ?_, ?_, ?_, ?_, ?_,
    hr, rfl⟩
  · unfold buildViterbiTrace
    simp only [hmc, hfin, if_false, hempty, List.nil_append]
    have hres' : traceLoop hmm vs ((r + if c ≤ hmm.K then c else hmm.K) + 1)
        (if c ≤ hmm.K then 'M' else 'I') r (if c ≤ hmm.K then c else hmm.K) ['E']
        = some (i', j', 'E' :: (Y'.reverse ++ if b = true then ['B'] else [])) := hres
    rw [hres']
    simp only [Option.some_bind, hlast]
  · simp only; omega
  · simp only; omega
  · simpa using hY5
  · simp only; omega
  · simp only; omega
  · simp only
    split <;> omega

end

/-! ### The cells that stay `inf` on fresh buffers -/

section
variable {α : Type} [LinearOrderedAddCommMonoidWithTop α]

/-- A cell update in a row `i ≥ 1` keeps the cells of `TopCells` at `inf`: row `0` is not
written, `DP_I(1, j)` is computed from row `0`, and `DP_D` is written in the columns
`1 < j < K` only. -/
theorem dpCell_TopCells (hmm : BandedHMMP7 α) (seq : PrimarySeq) (b : Bool)
    (vs : ViterbiScores α) (i j : Nat) (hi : 1 ≤ i) (h : TopCells hmm vs) :
    TopCells hmm (dpCell hmm seq b vs i j) := by
  obtain ⟨h0, h1, hD⟩ := h
  rw [TopCells, dpCell_DP_M, dpCell_DP_I _ _ _ _ _ _ hi, dpCell_DP_D]
  refine ⟨?_, ?_, ?_⟩
  · intro c
    rw [setCell_ne _ _ _ _ _ _ (by omega), setCell_ne _ _ _ _ _ _ (by omega)]
    exact h0 c
  · intro c hc
    by_cases e : 1 = i ∧ c = j
    · obtain ⟨rfl, rfl⟩ := e
      rw [setCell_same]
      simp only [cellI, Nat.sub_self, (h0 c).1, (h0 c).2, top_add, min_self, add_top]
    · rw [setCell_ne _ _ _ _ _ _ e]
      exact h1 c hc
  · intro a c hc
    split
    · rename_i hj
      rw [setCell_ne _ _ _ _ _ _ (by omega)]
      exact hD a c hc
    · exact hD a c hc

/-- A band whose rows start at `ilo ≥ 1` keeps the cells of `TopCells` at `inf` and does not
touch `L` and `S`. -/
theorem bandLoops_TopCells (hmm : BandedHMMP7 α) (seq : PrimarySeq) (b : Bool)
    (keep : Nat → Nat → Bool) (jlo : Nat) (jhi : Int) (ilo : Nat) (ihi : Int)
    (vs : ViterbiScores α) (hilo : 1 ≤ ilo) (h : TopCells hmm vs) :
    TopCells hmm (bandLoops hmm seq b keep jlo jhi ilo ihi vs)
      ∧ (bandLoops hmm seq b keep jlo jhi ilo ihi vs).L = vs.L
      ∧ (bandLoops hmm seq b keep jlo jhi ilo ihi vs).S = vs.S := by
  unfold bandLoops
  split
  · rename_i hb
    apply forLoop_induct jlo jhi.toNat _ vs
      (fun _ s => TopCells hmm s ∧ s.L = vs.L ∧ s.S = vs.S) (by omega) ⟨h, rfl, rfl⟩
    intro j s _ _ hs
    apply forLoop_induct ilo ihi.toNat _ s
      (fun _ s' => TopCells hmm s' ∧ s'.L = vs.L ∧ s'.S = vs.S) (by omega) hs
    intro i s' hi1 _ hs'
    by_cases hk : keep i j = true
    · rw [if_pos hk]
      exact ⟨dpCell_TopCells hmm seq b s' i j (by omega) hs'.1,
        (dpCell_L hmm seq b s' i j).trans hs'.2.1, (dpCell_S hmm seq b s' i j).trans hs'.2.2⟩
    · rw [if_neg hk]
      exact hs'
  · exact ⟨h, rfl, rfl⟩

theorem upFrom_pos (prev : Option VPath) (vp : VPath) : 1 ≤ (upFrom prev vp).toNat := by
  unfold upFrom
  simp only
  split <;> omega

/-- The bands of one known path with `from ≥ 1` keep the cells of `TopCells` at `inf`. -/
theorem pathStep_TopCells (hmm : BandedHMMP7 α) (seq : PrimarySeq) (vs : ViterbiScores α)
    (prev : Option VPath) (vp : VPath) (hfrom : 1 ≤ vp.from_) (h : TopCells hmm vs) :
    TopCells hmm (pathStep hmm seq (vs, prev) vp).1
      ∧ (pathStep hmm seq (vs, prev) vp).1.L = vs.L
      ∧ (pathStep hmm seq (vs, prev) vp).1.S = vs.S := by
  rw [pathStep_eq]
  obtain ⟨a1, a2, a3⟩ := bandLoops_TopCells hmm seq true (fun _ _ => true)
    (upStart prev vp).toNat vp.start (upFrom prev vp).toNat vp.from_ vs (upFrom_pos prev vp) h
  obtain ⟨b1, b2, b3⟩ := bandLoops_TopCells hmm seq true
    (fun i j =>
      decide (diagnalDist i j vp.from_ vp.start ≤ (vp.nIns : Int)
        ∧ diagnalDist i j vp.from_ vp.start ≥ -(vp.nDel : Int)))
    vp.start vp.end_ vp.from_ vp.to_ _ hfrom a1
  exact ⟨b1, b2.trans a2, b3.trans a3⟩

/-- The loop over known paths with `from ≥ 1` keeps the cells of `TopCells` at `inf`. -/
theorem pathFold_TopCells (hmm : BandedHMMP7 α) (seq : PrimarySeq) :
    ∀ (vps : List VPath) (prev : Option VPath) (vs : ViterbiScores α),
      (∀ vp ∈ vps, 1 ≤ vp.from_) → TopCells hmm vs →
      TopCells hmm (vps.foldl (pathStep hmm seq) (vs, prev)).1
        ∧ (vps.foldl (pathStep hmm seq) (vs, prev)).1.L = vs.L
        ∧ (vps.foldl (pathStep hmm seq) (vs, prev)).1.S = vs.S := by
  intro vps
  induction vps with
  | nil =>
    intro prev vs _ h
    exact ⟨h, rfl, rfl⟩
  | cons vp rest ih =>
    intro prev vs hv h
    obtain ⟨f1, f2, f3⟩ := pathStep_TopCells hmm seq vs prev vp
      (hv vp (List.mem_cons_self _ _)) h
    have e : pathStep hmm seq (vs, prev) vp
        = ((pathStep hmm seq (vs, prev) vp).1, some vp) := by
      rw [pathStep_eq]
    rw [List.foldl_cons, e]
    obtain ⟨g1, g2, g3⟩ := ih (some vp) (pathStep hmm seq (vs, prev) vp).1
      (fun v hv' => hv v (List.mem_cons_of_mem _ hv')) f1
    exact ⟨g1, g2.trans f2, g3.trans f3⟩

/-- The cells of `TopCells` are `inf` after `prepareViterbiScores` on fresh buffers. -/
theorem prepare_TopCells (hmm : BandedHMMP7 α) (L : Nat) :
    TopCells hmm (prepareViterbiScores hmm (ViterbiScores.fresh L)) := by
  refine ⟨?_, ?_, ?_⟩
  · intro j
    rw [prepare_DP_M, prepare_DP_I]
    constructor <;> (split <;> rfl)
  · intro j hj
    rw [prepare_DP_I, if_neg (by omega)]
    rfl
  · intro i j _
    rw [prepare_DP_D]
    split <;> rfl

/-- The full loops keep the cells of `TopCells` at `inf`. -/
theorem fullLoops_TopCells (hmm : BandedHMMP7 α) (seq : PrimarySeq) (L : Nat)
    (vs : ViterbiScores α) (h : TopCells hmm vs) :
    TopCells hmm (fullLoops hmm seq L vs) ∧ (fullLoops hmm seq L vs).L = vs.L := by
  unfold fullLoops
  apply forLoop_induct 1 hmm.K _ vs
    (fun _ s => TopCells hmm s ∧ s.L = vs.L) (by omega) ⟨h, rfl⟩
  intro j s _ _ hs
  apply forLoop_induct 1 L _ s
    (fun _ s' => TopCells hmm s' ∧ s'.L = vs.L) (by omega) hs
  intro i s' hi1 _ hs'
  exact ⟨dpCell_TopCells hmm seq true s' i j hi1 hs'.1,
    (dpCell_L hmm seq true s' i j).trans hs'.2⟩

/-- The score layer built on tables whose cells of `TopCells` are `inf`, when `B→E` is
impossible: the tables have the facts of `TablesSafe`. -/
theorem scoreLayer_TablesSafe (hmm : BandedHMMP7 α) (vs : ViterbiScores α)
    (hexit : hmm.exitPr_cost 0 = ⊤) (h : TopCells hmm vs) :
    TablesSafe hmm (scoreLayer hmm vs) := by
  refine ⟨h, ?_, ?_⟩
  · intro i j hi hj hf
    have hi' : i ≤ vs.L := hi
    rw [scoreLayer_S, if_pos ⟨hi', hj⟩] at hf
    have h1 := lt_top_of_add_lt_top_left hf
    have h2 := lt_top_of_add_lt_top_left h1
    have h3 := lt_top_of_add_lt_top_left h2
    have h4 := lt_top_of_add_lt_top_right h2
    constructor
    · by_contra hn
      have : i = 0 := by omega
      subst this
      rw [(h.1 j).1] at h3
      exact absurd h3 (lt_irrefl _)
    · by_contra hn
      have : j = 0 := by omega
      subst this
      rw [hexit] at h4
      exact absurd h4 (lt_irrefl _)
  · intro i hi hf
    have hi' : i ≤ vs.L := hi
    rw [scoreLayer_S, if_neg (by omega), if_pos ⟨hi', rfl⟩] at hf
    have h1 := lt_top_of_add_lt_top_left hf
    have h2 := lt_top_of_add_lt_top_left h1
    exact lt_top_of_add_lt_top_left h2

/-- Tables filled on fresh buffers, by the full programme or by the banded one over known
paths inside the grid, have the facts of `TablesSafe` and the length of the query. -/
theorem FilledFresh_safe (hmm : BandedHMMP7 α) (seq : PrimarySeq) (vs : ViterbiScores α)
    (hexit : hmm.exitPr_cost 0 = ⊤) (h : FilledFresh hmm seq vs) :
    TablesSafe hmm vs ∧ vs.L = seq.length := by
  rcases h with h | ⟨vpaths, hv, h⟩
  · obtain ⟨rfl, -, -⟩ := calc_eq hmm seq _ _ h
    obtain ⟨t1, t2⟩ := fullLoops_TopCells hmm seq (ViterbiScores.fresh seq.length : ViterbiScores α).L
      _ (prepare_TopCells hmm seq.length)
    refine ⟨scoreLayer_TablesSafe hmm _ hexit t1, ?_⟩
    show (fullLoops hmm seq _ _).L = seq.length
    rw [t2, prepare_L]
    rfl
  · unfold calcViterbiScoresBanded at h
    split at h
    · cases hlast : vpaths.getLast? with
      | none =>
        rw [hlast] at h
        simp only [Option.some.injEq] at h
        subst h
        refine ⟨⟨⟨fun _ => ⟨rfl, rfl⟩, fun _ _ => rfl, fun _ _ _ => rfl⟩, ?_, ?_⟩, rfl⟩
        · intro i j _ _ hf
          exact absurd hf (lt_irrefl _)
        · intro i _ hf
          exact absurd hf (lt_irrefl _)
      | some last =>
        rw [hlast] at h
        simp only [Option.some.injEq] at h
        subst h
        have hmem : last ∈ vpaths := List.mem_of_getLast?_eq_some hlast
        obtain ⟨p1, p2, -⟩ := pathFold_TopCells hmm seq vpaths none
          (prepareViterbiScores hmm (ViterbiScores.fresh seq.length))
          (fun vp hvp => (hv vp hvp).2.2.2.1) (prepare_TopCells hmm seq.length)
        obtain ⟨d1, d2, -⟩ := bandLoops_TopCells hmm seq false (fun _ _ => true) last.end_
          (if truncGap (last.end_ : Int)
              (((ViterbiScores.fresh seq.length : ViterbiScores α).L : Int) - (last.to_ : Int))
              > hmm.K then (hmm.K : Int)
            else truncGap (last.end_ : Int)
              (((ViterbiScores.fresh seq.length : ViterbiScores α).L : Int) - (last.to_ : Int)))
          last.to_
          (if truncGap (last.to_ : Int)
              (((ViterbiScores.fresh seq.length : ViterbiScores α).L : Int) - (last.to_ : Int))
              > (ViterbiScores.fresh seq.length : ViterbiScores α).L
            then ((ViterbiScores.fresh seq.length : ViterbiScores α).L : Int)
            else truncGap (last.to_ : Int)
              (((ViterbiScores.fresh seq.length : ViterbiScores α).L : Int) - (last.to_ : Int)))
          (vpaths.foldl (pathStep hmm seq)
            (prepareViterbiScores hmm (ViterbiScores.fresh seq.length), none)).1
          (by have := (hv last hmem).2.2.2; omega) p1
        refine ⟨scoreLayer_TablesSafe hmm _ hexit d1, ?_⟩
        show (bandLoops hmm seq false _ _ _ _ _ _).L = seq.length
        rw [d2, p2, prepare_L]
        rfl
    · exact absurd h (by simp)

end

/-! ### Alignment length -/

section
variable {α : Type} [LinearOrderedAddCommMonoidWithTop α]

/-- On tables filled on fresh buffers with a finite minimum score `buildViterbiTrace` returns
a trace and `buildGlobalAlign` on it returns an alignment whose string has length `L`. -/
theorem buildGlobalAlign_filled (hmm : BandedHMMP7 α) (seq : PrimarySeq)
    (vs : ViterbiScores α) (vt0 : ViterbiAlignTrace α)
    (hvs : FilledFresh hmm seq vs)
    (hfin : (minCoeff vs.S (vs.L + 1) (hmm.K + 2)).1 ≠ ⊤)
    (hK : 1 ≤ hmm.K) (hexit : hmm.exitPr_cost 0 = ⊤) (hempty : vt0.alnTrace = [])
    (hmono : ∀ k, 1 ≤ k → k < hmm.K → hmm.profile2CSIdx k < hmm.profile2CSIdx (k + 1))
    (hp1 : 1 ≤ hmm.profile2CSIdx 1) (hpK : hmm.profile2CSIdx hmm.K ≤ hmm.L) :
    ∃ vt aln, buildViterbiTrace hmm vs vt0 = some vt
      ∧ buildGlobalAlign hmm seq vs vt = some aln
      ∧ aln.align.length = hmm.L := by
  obtain ⟨hT, hL⟩ := FilledFresh_safe hmm seq vs hexit hvs
  obtain ⟨vt, Y, hvt, htr, hch, hno, hMD, hMI, hst, hS1, hF1, hEK, hTL, -⟩ :=
    buildViterbiTrace_safe hmm vs vt0 hT hfin hK hempty
  have hcond : ¬ (seq.length ≠ vs.L ∨ seq.length < vt.alnTo) := by
    push_neg
    exact ⟨hL.symm, by omega⟩
  obtain ⟨c', hc', hlen⟩ := alignLoop_full hmm seq vt
    (if vt.alnFrom = 0 then seq.seq else substr seq.seq 0 (vt.alnFrom - 1))
    (if vt.alnTo ≤ hmm.L then substr seq.seq vt.alnTo (hmm.L - vt.alnTo)
      else seq.seq.drop vt.alnTo)
    Y hmono hp1 hpK hch hno hMD hMI hst hS1 hF1 hEK
  refine ⟨vt,
    { K := hmm.K, L := hmm.L, seqStart := vt.alnFrom, seqEnd := vt.alnTo,
      hmmStart := vt.alnStart, hmmEnd := vt.alnEnd,
      csStart := hmm.profile2CSIdx vt.alnStart, csEnd := hmm.profile2CSIdx vt.alnEnd,
      cost := vt.minScore, align := c'.align }, hvt, ?_, hlen⟩
  unfold buildGlobalAlign
  rw [if_neg hcond]
  simp only [htr, hc', Option.some_bind]
  rw [if_neg (by simpa using hlen)]

/-- C2 as amended: for the tables `vs` filled on fresh buffers by `calcViterbiScores`, full
or banded over known paths inside the grid, with a finite minimum score, on an HMM (`K ≥ 1`,
`B→E` impossible, i.e. `exitPr_cost(0) = inf`) whose `profile2CSIdx` is 1-based, strictly
increasing on `1..K` and has `profile2CSIdx[K] ≤ L`, `buildViterbiTrace` (from an empty
trace) returns a trace and `buildGlobalAlign` on it returns an alignment, every assertion
passing, whose string `aln.align` has length exactly `L`, the CS length. -/
theorem buildGlobalAlign_length (hmm : BandedHMMP7 α) (seq : PrimarySeq)
    (vs : ViterbiScores α) (vt0 : ViterbiAlignTrace α)
    (hvs : FilledFresh hmm seq vs)
    (hfin : (minCoeff vs.S (vs.L + 1) (hmm.K + 2)).1 ≠ ⊤)
    (hK : 1 ≤ hmm.K) (hexit : hmm.exitPr_cost 0 = ⊤) (hempty : vt0.alnTrace = [])
    (hmono : ∀ k, 1 ≤ k → k < hmm.K → hmm.profile2CSIdx k < hmm.profile2CSIdx (k + 1))
    (hp1 : 1 ≤ hmm.profile2CSIdx 1) (hpK : hmm.profile2CSIdx hmm.K ≤ hmm.L) :
    ∃ vt aln, buildViterbiTrace hmm vs vt0 = some vt
      ∧ buildGlobalAlign hmm seq vs vt = some aln
      ∧ aln.align.length = hmm.L :=
  buildGlobalAlign_filled hmm seq vs vt0 hvs hfin hK hexit hempty hmono hp1 hpK

end

set_option maxRecDepth 100000 in
/-- C2 fails on tables that were not filled on fresh buffers.  The HMM `hmmGapped` has
`K = 2`, `profile2CSIdx = 1, 3` (strictly increasing) and `profile2CSIdx[K] = 3 ≤ L = 3`.
On the tables `vsByHand`, whose minimum `S(2,2) = 0` is finite, the traceback goes from
`M` at `(2,2)` to `I` at `(1,1)` and leaves the loop at row `0`: the trace is `BIME` with
`alnStart = 2`.  `buildGlobalAlign` pads `2` columns for `B`, buffers the insert `a`, and at
the `M` state (`k = 2`, second state after `B`) fills the CS column between positions `1`
and `2` with it; the string is `..aA`, of length `4`, and the final assertion fails.  The
same happens on the tables that the full `calcViterbiScores` fills on the used buffers
`vsUsed`, in which `DP_I(0,1) = 0` is left from an earlier use: `prepareViterbiScores`
writes column `0` only, and the loops start at row `1`, so `DP_I(1,1) = 0` is computed from
the stale cell. -/
theorem buildGlobalAlign_length_counterexample :
    hmmGapped.profile2CSIdx 1 < hmmGapped.profile2CSIdx 2
      ∧ hmmGapped.profile2CSIdx hmmGapped.K ≤ hmmGapped.L
      ∧ (minCoeff vsByHand.S (vsByHand.L + 1) (hmmGapped.K + 2)).1 = 0
      ∧ (buildViterbiTrace hmmGapped vsByHand vtraceFresh).map
          (fun vt => (vt.alnTrace, vt.alnStart, vt.alnEnd, vt.alnFrom, vt.alnTo))
        = some (['B', 'I', 'M', 'E'], 2, 2, 1, 2)
      ∧ (buildViterbiTrace hmmGapped vsByHand vtraceFresh).bind
          (fun vt => (alignLoop hmmGapped seqAA vt
            (substr seqAA.seq 0 (vt.alnFrom - 1))
            (substr seqAA.seq vt.alnTo (hmmGapped.L - vt.alnTo))
            (hmmGapped.profile2CSIdx vt.alnStart) (hmmGapped.profile2CSIdx vt.alnEnd)
            vt.alnTrace 0 false { align := [], i := 0, j := 0, k := 0, insert := [] }).map
              fun c => c.align)
        = some ['.', '.', 'a', 'A']
      ∧ (buildViterbiTrace hmmGapped vsByHand vtraceFresh).bind
          (buildGlobalAlign hmmGapped seqAA vsByHand) = none
      ∧ calcViterbiScores hmmGapped seqAA vsUsed = some vsGappedUsed
      ∧ (minCoeff vsGappedUsed.S (vsGappedUsed.L + 1) (hmmGapped.K + 2)).1 = 0
      ∧ (buildViterbiTrace hmmGapped vsGappedUsed vtraceFresh).map
          (fun vt => (vt.alnTrace, vt.alnStart, vt.alnEnd, vt.alnFrom, vt.alnTo))
        = some (['B', 'I', 'M', 'E'], 2, 2, 1, 2)
      ∧ (buildViterbiTrace hmmGapped vsGappedUsed vtraceFresh).bind
          (buildGlobalAlign hmmGapped seqAA vsGappedUsed) = none := by
  refine ⟨by decide, by decide, by decide, by decide, by decide, ?_, rfl, by decide,
    by decide, ?_⟩
  · rw [← Option.not_isSome_iff_eq_none]
    decide
  · rw [← Option.not_isSome_iff_eq_none]
    decide

set_option maxRecDepth 100000 in
theorem buildGlobalAlign_length_witness :
    calcViterbiScoresBanded hmmGapped seqAA (ViterbiScores.fresh seqAA.length) [vpathDiag]
        = some vsGappedBand
      ∧ ∃ vt aln, buildViterbiTrace hmmGapped vsGappedBand vtraceFresh = some vt
        ∧ buildGlobalAlign hmmGapped seqAA vsGappedBand vt = some aln
        ∧ aln.align.length = hmmGapped.L :=
  ⟨rfl, buildGlobalAlign_length hmmGapped seqAA vsGappedBand vtraceFresh
    (Or.inr ⟨[vpathDiag], by
      intro vp hvp
      rw [List.mem_singleton] at hvp
      subst hvp
      refine ⟨?_, ?_, ?_, ?_, ?_, ?_⟩ <;> decide, rfl⟩)
    (by decide) (by decide) rfl rfl
    (by
      intro k h1 h2
      have hk : k = 1 := by
        have : hmmGapped.K = 2 := rfl
        omega
      subst hk
      decide)
    (by decide) (by decide)⟩

/-! ### Column anchoring in the returned alignment -/

section
variable {α : Type} [LinearOrderedAddCommMonoidWithTop α]

/-- Whatever the tables hold, as long as their minimum is finite, the coordinates written by
`buildViterbiTrace` have `alnStart ≥ 1`, `alnFrom ≥ 1` and `alnEnd ≤ K`. -/
theorem buildViterbiTrace_bounds (hmm : BandedHMMP7 α) (vs : ViterbiScores α)
    (vt0 vt : ViterbiAlignTrace α)
    (hfin : (minCoeff vs.S (vs.L + 1) (hmm.K + 2)).1 ≠ ⊤)
    (h : buildViterbiTrace hmm vs vt0 = some vt) :
    1 ≤ vt.alnStart ∧ 1 ≤ vt.alnFrom ∧ vt.alnEnd ≤ hmm.K := by
  unfold buildViterbiTrace at h
  simp only [hfin, if_false] at h
  obtain ⟨r, -, hvt⟩ := Option.bind_eq_some.mp h
  simp only [Option.some.injEq] at hvt
  subst hvt
  refine ⟨Nat.le_add_left _ _, Nat.le_add_left _ _, ?_⟩
  simp only
  split
  · assumption
  · exact le_refl _

/-- C15: whatever the score tables hold, as long as their minimum is finite, for every trace
`B`, `Y`, `E` that `buildViterbiTrace` returns (on an empty trace) and the alignment that
`buildGlobalAlign` returns for it: for every `M` state of `Y`, preceded in `Y` by the states
`Y1`, hence at profile position `k = alnStart + countMD Y1` and consuming query residue
number `alnFrom + countMI Y1`, the character of `aln.align` at index `profile2CSIdx[k] - 1`
is that residue, and for every `D` state it is `GAP_SYM`.  And for the tables filled on
fresh buffers by `calcViterbiScores`, full or banded over known paths inside the grid, on an
HMM with `K ≥ 1`, `B→E` impossible and `profile2CSIdx` 1-based, strictly increasing on
`1..K` with `profile2CSIdx[K] ≤ L`, both functions do return. -/
theorem buildGlobalAlign_anchor (hmm : BandedHMMP7 α) (seq : PrimarySeq)
    (vs : ViterbiScores α) (vt0 : ViterbiAlignTrace α)
    (hfin : (minCoeff vs.S (vs.L + 1) (hmm.K + 2)).1 ≠ ⊤) (hempty : vt0.alnTrace = []) :
    (∀ vt aln, buildViterbiTrace hmm vs vt0 = some vt →
        buildGlobalAlign hmm seq vs vt = some aln →
        ∃ Y, vt.alnTrace = 'B' :: (Y ++ ['E'])
          ∧ ∀ Y1 Y2,
            (Y = Y1 ++ 'M' :: Y2 →
              aln.align[hmm.profile2CSIdx (vt.alnStart + countMD Y1) - 1]?
                = some (seq.charAt (vt.alnFrom + countMI Y1 - 1)))
            ∧ (Y = Y1 ++ 'D' :: Y2 →
              aln.align[hmm.profile2CSIdx (vt.alnStart + countMD Y1) - 1]? = some GAP_SYM))
      ∧ (FilledFresh hmm seq vs → 1 ≤ hmm.K → hmm.exitPr_cost 0 = ⊤ →
          (∀ k, 1 ≤ k → k < hmm.K → hmm.profile2CSIdx k < hmm.profile2CSIdx (k + 1)) →
          1 ≤ hmm.profile2CSIdx 1 → hmm.profile2CSIdx hmm.K ≤ hmm.L →
          ∃ vt aln, buildViterbiTrace hmm vs vt0 = some vt
            ∧ buildGlobalAlign hmm seq vs vt = some aln) := by
  constructor
  · intro vt aln hvt haln
    obtain ⟨Y, e, hY, -, hmd, -, -⟩ :=
      buildViterbiTrace_general hmm vs vt0 vt hfin hempty hvt
    obtain ⟨hS1, hF1, -⟩ := buildViterbiTrace_bounds hmm vs vt0 vt hfin hvt
    unfold buildGlobalAlign at haln
    by_cases hcond : seq.length ≠ vs.L ∨ seq.length < vt.alnTo
    · rw [if_pos hcond] at haln
      exact absurd haln (by simp)
    · rw [if_neg hcond] at haln
      obtain ⟨c, hc, hrest⟩ := Option.bind_eq_some.mp haln
      by_cases hlen : c.align.length ≠ hmm.L
      · rw [if_pos hlen] at hrest
        exact absurd hrest (by simp)
      · rw [if_neg hlen, Option.some.injEq] at hrest
        subst hrest
        rw [e] at hc
        exact ⟨Y, e, alignLoop_trace_anchor hmm seq vt _ _ Y hY hmd hS1 hF1 c hc
          (not_not.mp hlen)⟩
  · intro hvs hK hexit hmono hp1 hpK
    obtain ⟨vt, aln, hvt, haln, -⟩ :=
      buildGlobalAlign_filled hmm seq vs vt0 hvs hfin hK hexit hempty hmono hp1 hpK
    exact ⟨vt, aln, hvt, haln⟩

end

set_option maxRecDepth 100000 in
theorem buildGlobalAlign_anchor_witness :
    ∃ vt aln, buildViterbiTrace hmmSkip vsSkipAC vtraceFresh = some vt
      ∧ buildGlobalAlign hmmSkip seqAC vsSkipAC vt = some aln
      ∧ vt.alnTrace = ['B', 'M', 'D', 'M', 'E']
      ∧ aln.align[hmmSkip.profile2CSIdx (vt.alnStart + countMD []) - 1]?
          = some (seqAC.charAt (vt.alnFrom + countMI [] - 1))
      ∧ aln.align[hmmSkip.profile2CSIdx (vt.alnStart + countMD ['M']) - 1]? = some GAP_SYM
      ∧ aln.align[hmmSkip.profile2CSIdx (vt.alnStart + countMD ['M', 'D']) - 1]?
          = some (seqAC.charAt (vt.alnFrom + countMI ['M', 'D'] - 1)) := by
  have h := buildGlobalAlign_anchor hmmSkip seqAC vsSkipAC vtraceFresh (by decide) rfl
  obtain ⟨vt, aln, hvt, haln⟩ := h.2 (Or.inl rfl) (by decide) rfl
    (fun k _ _ => Nat.lt_succ_self k) (by decide) (by decide)
  obtain ⟨Y, hY, hanch⟩ := h.1 vt aln hvt haln
  have htr : vt.alnTrace = ['B', 'M', 'D', 'M', 'E'] := by
    have ht : (buildViterbiTrace hmmSkip vsSkipAC vtraceFresh).map (fun vt => vt.alnTrace)
        = some ['B', 'M', 'D', 'M', 'E'] := by decide
    rw [hvt] at ht
    simpa using ht
  have hYe : Y = ['M', 'D', 'M'] := by
    rw [hY] at htr
    simp only [List.cons.injEq, true_and] at htr
    have h3 : (Y ++ ['E']).length = 4 := by rw [htr]; rfl
    rw [List.length_append, List.length_singleton] at h3
    match Y, h3, htr with
    | [a, b, c], _, htr =>
      simp only [List.cons_append, List.nil_append, List.cons.injEq, and_true] at htr
      obtain ⟨rfl, rfl, rfl⟩ := htr
      rfl
  exact ⟨vt, aln, hvt, haln, htr, (hanch [] ['D', 'M']).1 (by rw [hYe]; rfl),
    (hanch ['M'] ['M']).2 (by rw [hYe]; rfl), (hanch ['M', 'D'] []).1 (by rw [hYe]; rfl)⟩

end HmmUFOtu
